import Mathlib

namespace OmpiColl

/-- Status code of a successful call (`MPI_SUCCESS`, `OMPI_SUCCESS`). -/
def MPI_SUCCESS : Int := 0

/-- Status code returned when a scratch allocation fails. -/
def OMPI_ERR_OUT_OF_RESOURCE : Int := -2

/-- The value a C `int` holds when the exact result of a computation is `x`: two's
complement wrap-around to 32 bits, the representative of `x` modulo `2 ^ 32 = 4294967296`
in `[-2 ^ 31, 2 ^ 31)`. Wrap-around is arithmetic modulo `2 ^ 32`, so wrapping every `+`,
`-`, `*` of an expression gives the same value as wrapping its exact result. -/
def int32 (x : Int) : Int :=
  let r : Nat := (x % 4294967296).toNat
  if r < 2147483648 then (r : Int) else (r : Int) - 4294967296

/-- Rounds a number down to the nearest multiple: `num /= factor; return num * factor`. -/
def ompi_rounddown (num factor : Nat) : Nat := (num / factor) * factor

/-- An indexed datatype with two runs, as built by `ompi_datatype_create_indexed(2, blocklens, displs, ..)`. -/
structure Indexed where
  blocklens0 : Nat
  blocklens1 : Nat
  displs0 : Nat
  displs1 : Nat
deriving DecidableEq, Repr

/-- The arrays `int blocklens[2], displs[2]` handed to `ompi_datatype_create_indexed`. -/
structure IndexedArgs where
  blocklens0 : Int
  blocklens1 : Int
  displs0 : Int
  displs1 : Int
deriving DecidableEq, Repr

/-- The `blocklens`/`displs` computation of the doubling variant for a subtree root (source
lines 200-204 and 210-214), in `int` arithmetic:
`blocklens[0] = rcount * root; blocklens[1] = (comm_size >= root + mask) ?
rcount * (comm_size - root - mask) : 0; displs[0] = 0;
displs[1] = comm_size * rcount - blocklens[1]`. -/
def rd_blocklens_displs (comm_size rcount tree_root mask : Nat) : IndexedArgs :=
  let b0 := int32 ((rcount : Int) * (tree_root : Int))
  let b1 := if comm_size ≥ tree_root + mask
    then int32 ((rcount : Int) * ((comm_size : Int) - (tree_root : Int) - (mask : Int))) else 0
  { blocklens0 := b0, blocklens1 := b1, displs0 := 0
    displs1 := int32 (int32 ((comm_size : Int) * (rcount : Int)) - b1) }

/-- Modelled from the spec: `ompi_datatype_create_indexed(2, blocklens, displs, dtype, ..)`
(the datatype engine is not among the sources) describes run `i` of `blocklens[i]` elements
at element offset `displs[i]`; a length that is not positive describes no element, and a
negative displacement (which arises only when a product has wrapped) is placed at 0. -/
def ompi_datatype_create_indexed (a : IndexedArgs) : Indexed :=
  { blocklens0 := a.blocklens0.toNat, blocklens1 := a.blocklens1.toNat
    displs0 := a.displs0.toNat, displs1 := a.displs1.toNat }

/-- The datatype the doubling variant creates for a subtree root. -/
def rd_indexed (comm_size rcount tree_root mask : Nat) : Indexed :=
  ompi_datatype_create_indexed (rd_blocklens_displs comm_size rcount tree_root mask)

/-- Membership of an element index in one of the two runs of an indexed datatype. -/
def Indexed.covers (t : Indexed) (e : Nat) : Bool :=
  (decide (t.displs1 ≤ e) && decide (e < t.displs1 + t.blocklens1)) ||
  (decide (t.displs0 ≤ e) && decide (e < t.displs0 + t.blocklens0))

/-- Number of base elements described by an indexed datatype. -/
def Indexed.size (t : Indexed) : Nat := t.blocklens0 + t.blocklens1

variable {α : Type}

/-- The message a send of one element of type `t` from `buf` puts on the wire: run 0 then run 1. -/
def pack (t : Indexed) (buf : Nat → α) : List α :=
  (List.range t.blocklens0).map (fun i => buf (t.displs0 + i)) ++
  (List.range t.blocklens1).map (fun i => buf (t.displs1 + i))

/-- The buffer after a receive of `msg` with one element of type `t`: the message fills run 0
then run 1 (a later write wins), positions the message does not reach keep their content. -/
def unpack (t : Indexed) (msg : List α) (buf : Nat → α) : Nat → α := fun e =>
  if t.displs1 ≤ e ∧ e < t.displs1 + t.blocklens1 then
    msg.getD (t.blocklens0 + (e - t.displs1)) (buf e)
  else if t.displs0 ≤ e ∧ e < t.displs0 + t.blocklens0 then
    msg.getD (e - t.displs0) (buf e)
  else buf e

/-- Modelled from the spec: the operator engine (`ompi/op/op.h` is not among the sources);
`reduce_apply(op, in_buf, inout_buf, count, dtype)` applies `inout ← in ⊕ inout` element-wise.
Both buffers are addressed at the same element offset `off`. -/
def ompi_op_reduce (op : α → α → α) (source target : Nat → α) (off count : Nat) : Nat → α :=
  fun e => if off ≤ e ∧ e < off + count then op (source e) (target e) else target e

/-- Modelled from the spec: the datatype engine's typed copy `copy(dtype, count, dst, src)`
for a contiguous base type: `count` elements from `src + soff` to `dst + doff`. -/
def ompi_datatype_copy_content_same_ddt (count : Nat) (dst : Nat → α) (doff : Nat)
    (src : Nat → α) (soff : Nat) : Nat → α :=
  fun e => if doff ≤ e ∧ e < doff + count then src (soff + (e - doff)) else dst e

/-- Modelled from the spec: the typed copy of one element of an indexed type: the elements
of both runs are copied from `src` to `dst` at the same displacements. -/
def ompi_datatype_copy_indexed (t : Indexed) (dst src : Nat → α) : Nat → α :=
  fun e => if t.covers e then src e else dst e

/-- The two scratch buffers of one rank and the `is_block_received` flag of the current step. -/
structure RDState (α : Type) where
  tmpbuf : Nat → α
  tmprecv : Nat → α
  is_block_received : Bool

/-- The reduction at the end of a doubling step (source lines 269-285) on one rank;
`t` holds the `blocklens`/`displs` last computed, those of the receive type. -/
def rd_reduce (op : α → α → α) (is_commutative : Bool) (cur_tree_root remote_tree_root : Nat)
    (t : Indexed) (s : RDState α) : RDState α :=
  if s.is_block_received then
    if is_commutative || decide (remote_tree_root < cur_tree_root) then
      let b1 := ompi_op_reduce op s.tmprecv s.tmpbuf 0 t.blocklens0
      let b2 := ompi_op_reduce op s.tmprecv b1 t.displs1 t.blocklens1
      { s with tmpbuf := b2 }
    else
      let r1 := ompi_op_reduce op s.tmpbuf s.tmprecv 0 t.blocklens0
      let r2 := ompi_op_reduce op s.tmpbuf r1 t.displs1 t.blocklens1
      { s with tmprecv := r2, tmpbuf := ompi_datatype_copy_indexed t s.tmpbuf r2 }
  else s

/-- The send type of rank `rank` at step `mask`. -/
def rd_sendtype (comm_size rcount rank mask : Nat) : Indexed :=
  rd_indexed comm_size rcount (ompi_rounddown rank mask) mask

/-- The receive type of rank `rank` at step `mask`. -/
def rd_recvtype (comm_size rcount rank mask : Nat) : Indexed :=
  rd_indexed comm_size rcount (ompi_rounddown (rank ^^^ mask) mask) mask

/-- The guard of the forwarding search: `remote_tree_root + mask > comm_size`. -/
def rd_in_search (comm_size rank mask : Nat) : Bool :=
  decide (ompi_rounddown (rank ^^^ mask) mask + mask > comm_size)

/-- The `nprocs_alldata` of a rank at step `mask` (it may be negative). -/
def rd_nprocs_alldata (comm_size rank mask : Nat) : Int :=
  (comm_size : Int) - (ompi_rounddown rank mask : Int) - (mask : Int)

/-- The send condition of the forwarding search at halving mask `h` (source line 251). -/
def rd_send_cond (comm_size rank mask h : Nat) : Bool :=
  let remote := rank ^^^ h
  let tree_root := ompi_rounddown rank (h <<< 1)
  let nprocs_alldata := rd_nprocs_alldata comm_size rank mask
  decide (remote > rank) && decide ((rank : Int) < (tree_root : Int) + nprocs_alldata)
    && decide ((remote : Int) ≥ (tree_root : Int) + nprocs_alldata)

/-- The receive condition of the forwarding search at halving mask `h` (source line 258),
reached only when the send condition is false. -/
def rd_recv_cond (comm_size rank mask h : Nat) : Bool :=
  let remote := rank ^^^ h
  let tree_root := ompi_rounddown rank (h <<< 1)
  let nprocs_alldata := rd_nprocs_alldata comm_size rank mask
  !(rd_send_cond comm_size rank mask h) &&
  (decide (remote < rank) && decide ((remote : Int) < (tree_root : Int) + nprocs_alldata)
    && decide ((rank : Int) ≥ (tree_root : Int) + nprocs_alldata))

/-- Rank `rank` sends a forwarded message at halving mask `h` of step `mask`. -/
def rd_fwd_sends (comm_size rank mask h : Nat) : Bool :=
  rd_in_search comm_size rank mask && rd_send_cond comm_size rank mask h

/-- Rank `rank` receives a forwarded message at halving mask `h` of step `mask`. -/
def rd_fwd_recvs (comm_size rank mask h : Nat) : Bool :=
  rd_in_search comm_size rank mask && rd_recv_cond comm_size rank mask h

/-- The pairwise exchange of step `mask` on all ranks: a rank whose partner is in the group
receives, through its receive type, what the partner sends from `tmpbuf` through its send type. -/
def rd_sendrecv_all (p m mask : Nat) (G : Nat → RDState α) : Nat → RDState α := fun r =>
  let remote := r ^^^ mask
  if remote < p then
    { tmpbuf := (G r).tmpbuf
      tmprecv := unpack (rd_recvtype p m r mask)
        (pack (rd_sendtype p m remote mask) (G remote).tmpbuf) (G r).tmprecv
      is_block_received := true }
  else { G r with is_block_received := false }

/-- Every forwarded send of halving mask `h` meets a receive of the same size on the
destination, and every forwarded receive meets a send on the source. -/
def rd_fwd_matched (p m mask h : Nat) : Prop :=
  ∀ r, r < p →
    (rd_fwd_sends p r mask h = true →
      (r ^^^ h) < p ∧ rd_fwd_recvs p (r ^^^ h) mask h = true ∧
      (rd_recvtype p m r mask).size = (rd_recvtype p m (r ^^^ h) mask).size) ∧
    (rd_fwd_recvs p r mask h = true →
      (r ^^^ h) < p ∧ rd_fwd_sends p (r ^^^ h) mask h = true)

instance (p m mask h : Nat) : Decidable (rd_fwd_matched p m mask h) := by
  unfold rd_fwd_matched; infer_instance

/-- One iteration of the forwarding search on all ranks; `none` when a send or a receive
has no counterpart (the collective would hang). -/
def rd_forward_all (p m mask h : Nat) (G : Nat → RDState α) : Option (Nat → RDState α) :=
  if rd_fwd_matched p m mask h then
    some (fun r =>
      if rd_fwd_recvs p r mask h then
        { tmpbuf := (G r).tmpbuf
          tmprecv := unpack (rd_recvtype p m r mask)
            (pack (rd_recvtype p m (r ^^^ h) mask) (G (r ^^^ h)).tmprecv) (G r).tmprecv
          is_block_received := true }
      else G r)
  else none

/-- The loop `for (rhalving_mask = mask >> 1; rhalving_mask > 0; rhalving_mask >>= 1)`. -/
def rd_forward_loop (p m mask : Nat) : Nat → Nat → (Nat → RDState α) → Option (Nat → RDState α)
  | 0, h, G => if h > 0 then none else some G
  | fuel + 1, h, G =>
    if h > 0 then
      (rd_forward_all p m mask h G).bind (rd_forward_loop p m mask fuel (h >>> 1))
    else some G

/-- One step of the doubling loop on all ranks. -/
def rd_step_all (op : α → α → α) (is_commutative : Bool) (p m mask : Nat)
    (G : Nat → RDState α) : Option (Nat → RDState α) :=
  (rd_forward_loop p m mask mask (mask >>> 1) (rd_sendrecv_all p m mask G)).map
    (fun G2 r => rd_reduce op is_commutative (ompi_rounddown r mask)
      (ompi_rounddown (r ^^^ mask) mask) (rd_recvtype p m r mask) (G2 r))

/-- The loop `for (mask = 1; mask < comm_size; mask <<= 1)` on all ranks. -/
def rd_loop (op : α → α → α) (is_commutative : Bool) (p m : Nat) :
    Nat → Nat → (Nat → RDState α) → Option (Nat → RDState α)
  | 0, mask, G => if mask < p then none else some G
  | fuel + 1, mask, G =>
    if mask < p then
      (rd_step_all op is_commutative p m mask G).bind
        (rd_loop op is_commutative p m fuel (mask <<< 1))
    else some G

/-- The input vector of a rank: `sbuf`, or `rbuf` under `MPI_IN_PLACE` (`sbuf = none`). -/
def input_of (sbuf : Option (Nat → α)) (rbuf : Nat → α) : Nat → α :=
  match sbuf with
  | some s => s
  | none => rbuf

/-- Left fold `f a ⊕ f (a+1) ⊕ ... ⊕ f (a+n)` in ascending order. -/
def rangeRed (op : α → α → α) (f : Nat → α) (a : Nat) : Nat → α
  | 0 => f a
  | n + 1 => op (rangeRed op f a n) (f (a + n + 1))

/-- The canonical result: element `k` of block `i` reduced over ranks `0..p-1` in ascending order. -/
def canonical (op : α → α → α) (x : Nat → Nat → α) (p m i k : Nat) : α :=
  rangeRed op (fun j => x j (i * m + k)) 0 (p - 1)


/-- Reduction of element `e` over the ranks `a, .., b - 1` in ascending order. -/
def segRed (op : α → α → α) (x : Nat → Nat → α) (e a b : Nat) : α :=
  rangeRed op (fun j => x j e) a (b - a - 1)

/-- Invariant of the doubling loop at the head of step `mask`: outside the blocks of its own
subtree, and on its own block, a rank holds the reduction over its subtree. -/
def RDInv (op : α → α → α) (x : Nat → Nat → α) (p m mask : Nat) (G : Nat → RDState α) : Prop :=
  ∀ r, r < p → ∀ e, e / m < p →
    (e / m < ompi_rounddown r mask ∨ ompi_rounddown r mask + mask ≤ e / m ∨ e / m = r) →
    (G r).tmpbuf e =
      segRed op x e (ompi_rounddown r mask) (min (ompi_rounddown r mask + mask) p)

/-- Rank `r` holds in `tmprecv`, on the runs of its receive type, the reduction over the
sibling subtree, and its `is_block_received` flag is set. -/
def RDHasData (op : α → α → α) (x : Nat → Nat → α) (p m mask : Nat) (G : Nat → RDState α)
    (r : Nat) : Prop :=
  (G r).is_block_received = true ∧
  ∀ e, (rd_recvtype p m r mask).covers e = true →
    (G r).tmprecv e = segRed op x e (ompi_rounddown (r ^^^ mask) mask)
      (min (ompi_rounddown (r ^^^ mask) mask + mask) p)

/-- Invariant of the forwarding search of step `mask` when the aligned groups of `B` ranks
have been served: `G0` is the state at the head of the step. -/
def RDFwdInv (op : α → α → α) (x : Nat → Nat → α) (p m mask B : Nat)
    (G0 G : Nat → RDState α) : Prop :=
  ∀ r, r < p →
    (G r).tmpbuf = (G0 r).tmpbuf ∧
    (ompi_rounddown (r ^^^ mask) mask < p →
      (ompi_rounddown (r ^^^ mask) mask < ompi_rounddown r mask ∨
        (r : Int) - (ompi_rounddown r B : Int) < rd_nprocs_alldata p r mask) →
      RDHasData op x p m mask G r) ∧
    (p ≤ ompi_rounddown (r ^^^ mask) mask → (G r).is_block_received = false)

/-- Returns the sum of the weights of the indices `a .. b`, an index up to `r` weighing 2 and
one above `r` weighing 1 (source lines 313-320), in `int` arithmetic. -/
def ompi_range_sum (a b r : Int) : Int :=
  if r < a then int32 (b - a + 1)
  else if r > b then int32 (2 * (b - a + 1))
  else int32 (2 * (r - a + 1) + b - r)

/-- The exact value of the expression `ompi_range_sum` returns, before it is stored in an
`int`: a proof device, the function itself is `ompi_range_sum`. -/
def range_sum_value (a b r : Int) : Int :=
  if r < a then b - a + 1
  else if r > b then 2 * (b - a + 1)
  else 2 * (r - a + 1) + b - r

/-- Modelled from the spec: `opal_next_poweroftwo` (`opal/util/bit_ops.h` is not among the
sources). The spec gives the value the halving variant derives from it, `next_pow2_leq(p)`,
the largest `2^k ≤ p`, obtained by one right shift: so the function returns the smallest
power of two strictly greater than its argument. -/
def opal_next_poweroftwo (value : Nat) : Nat :=
  if value = 0 then 1 else 2 ^ (Nat.log2 value + 1)

/-- The `nprocs_pof2` of the halving variant: `opal_next_poweroftwo(comm_size) >> 1`. -/
def rh_nprocs_pof2 (comm_size : Nat) : Nat := opal_next_poweroftwo comm_size >>> 1

/-- The `nprocs_rem` of the halving variant: `comm_size - nprocs_pof2`. -/
def rh_nprocs_rem (comm_size : Nat) : Int := (comm_size : Int) - (rh_nprocs_pof2 comm_size : Int)

/-- The virtual rank assigned in step 1 (`-1` for a folded even rank). -/
def rh_vrank (comm_size rank : Nat) : Int :=
  if (rank : Int) < 2 * rh_nprocs_rem comm_size then
    if rank % 2 = 0 then -1 else ((rank / 2 : Nat) : Int)
  else (rank : Int) - rh_nprocs_rem comm_size

/-- The window of one rank in step 2: `send_index`, `recv_index`, `last_index`. -/
structure RHWindow where
  send_index : Int
  recv_index : Int
  last_index : Int
deriving DecidableEq, Repr

/-- What one iteration of step 2 computes before it communicates. -/
structure RHPlan where
  peer : Int
  send_index : Int
  recv_index : Int
  send_count : Int
  recv_count : Int
  rdispl : Int
  sdispl : Int
deriving DecidableEq, Repr

/-- The computations of one iteration of the halving loop (source lines 435-459); the counts
and displacements are products of `int` values, computed in `int`. -/
def rh_plan (comm_size rcount : Nat) (vrank : Int) (mask : Nat) (w : RHWindow) : RHPlan :=
  let nprocs_rem := rh_nprocs_rem comm_size
  let vpeer : Int := ((vrank.toNat ^^^ mask : Nat) : Int)
  let peer : Int := if vpeer < nprocs_rem then vpeer * 2 + 1 else vpeer + nprocs_rem
  if vrank < vpeer then
    let send_index := w.recv_index + mask
    let recv_index := w.recv_index
    { peer := peer, send_index := send_index, recv_index := recv_index
      send_count := int32 (rcount * ompi_range_sum send_index (w.last_index - 1) (nprocs_rem - 1))
      recv_count := int32 (rcount * ompi_range_sum recv_index (send_index - 1) (nprocs_rem - 1))
      rdispl := int32 (rcount * (if recv_index ≤ nprocs_rem - 1 then 2 * recv_index
                          else nprocs_rem + recv_index))
      sdispl := int32 (rcount * (if send_index ≤ nprocs_rem - 1 then 2 * send_index
                          else nprocs_rem + send_index)) }
  else
    let send_index := w.send_index
    let recv_index := w.send_index + mask
    { peer := peer, send_index := send_index, recv_index := recv_index
      send_count := int32 (rcount * ompi_range_sum send_index (recv_index - 1) (nprocs_rem - 1))
      recv_count := int32 (rcount * ompi_range_sum recv_index (w.last_index - 1) (nprocs_rem - 1))
      rdispl := int32 (rcount * (if recv_index ≤ nprocs_rem - 1 then 2 * recv_index
                          else nprocs_rem + recv_index))
      sdispl := int32 (rcount * (if send_index ≤ nprocs_rem - 1 then 2 * send_index
                          else nprocs_rem + send_index)) }

/-- The window at the end of an iteration: `send_index = recv_index; last_index = recv_index + mask`. -/
def rh_next_window (mask : Nat) (pl : RHPlan) : RHWindow :=
  { send_index := pl.recv_index, recv_index := pl.recv_index,
    last_index := pl.recv_index + mask }

/-- The state of one rank of the halving variant. -/
structure RHState (α : Type) where
  tmpbuf : Nat → α
  tmprecv : Nat → α
  rbuf : Nat → α
  vrank : Int
  window : RHWindow

/-- A contiguous receive of `count` elements at element offset `roff` of `dst`, the message
being the `count` elements at offset `soff` of the sender's buffer `src`. -/
def recv_contig (dst : Nat → α) (roff count : Nat) (src : Nat → α) (soff : Nat) : Nat → α :=
  fun e => if roff ≤ e ∧ e < roff + count then src (soff + (e - roff)) else dst e

/-- The plan of rank `r` in the iteration `mask` of step 2. -/
def rh_plan_of (p m mask : Nat) (G : Nat → RHState α) (r : Nat) : RHPlan :=
  rh_plan p m (G r).vrank mask (G r).window

/-- In iteration `mask` every receive posted by a participating rank meets a send of the same
length from its peer, and every send meets a receive of the same length on its peer. -/
def rh_matched (p m mask : Nat) (G : Nat → RHState α) : Prop :=
  ∀ r, r < p → (G r).vrank ≠ -1 →
    let pl := rh_plan_of p m mask G r
    (0 < pl.recv_count ∨ 0 < pl.send_count) →
      0 ≤ pl.peer ∧ pl.peer.toNat < p ∧ (G pl.peer.toNat).vrank ≠ -1 ∧
      (rh_plan_of p m mask G pl.peer.toNat).peer = (r : Int) ∧
      (rh_plan_of p m mask G pl.peer.toNat).send_count = pl.recv_count ∧
      (rh_plan_of p m mask G pl.peer.toNat).recv_count = pl.send_count

instance (p m mask : Nat) (G : Nat → RHState α) : Decidable (rh_matched p m mask G) := by
  unfold rh_matched; infer_instance

/-- One iteration of step 2 on all ranks; `none` when a message has no counterpart. -/
def rh_step_all (op : α → α → α) (p m mask : Nat) (G : Nat → RHState α) :
    Option (Nat → RHState α) :=
  if rh_matched p m mask G then
    some (fun r =>
      if (G r).vrank ≠ -1 then
        let pl := rh_plan_of p m mask G r
        let plp := rh_plan_of p m mask G pl.peer.toNat
        let tmprecv :=
          if 0 < pl.recv_count then
            recv_contig (G r).tmprecv pl.rdispl.toNat pl.recv_count.toNat
              (G pl.peer.toNat).tmpbuf plp.sdispl.toNat
          else (G r).tmprecv
        let tmpbuf :=
          if 0 < pl.recv_count then
            ompi_op_reduce op tmprecv (G r).tmpbuf pl.rdispl.toNat pl.recv_count.toNat
          else (G r).tmpbuf
        { G r with tmprecv := tmprecv, tmpbuf := tmpbuf, window := rh_next_window mask pl }
      else G r)
  else none

/-- Modelled from the spec: the group's `reduce` collective with root 0 (a function pointer
of the communicator, not among the sources), by its order-preserving contract: the root's
receive buffer gets, on `count` elements, the reduction of the send buffers in ascending
rank order. -/
def coll_reduce_root (op : α → α → α) (p count : Nat) (sbufs : Nat → Nat → α)
    (recv_buf : Nat → α) : Nat → α :=
  fun e => if e < count then rangeRed op (fun j => sbufs j e) 0 (p - 1) else recv_buf e


/-- The number of folded pairs, `nprocs_rem`, as a natural number. -/
def rh_remN (p : Nat) : Nat := p - rh_nprocs_pof2 p

/-- The physical rank of a virtual rank: `vpeer < nprocs_rem ? vpeer * 2 + 1 : vpeer + nprocs_rem`. -/
def rh_phys (p v : Nat) : Nat := if v < rh_remN p then 2 * v + 1 else v + rh_remN p

/-- The first physical block of the virtual block `j`: `j ≤ nprocs_rem - 1 ? 2 * j : nprocs_rem + j`. -/
def rh_W (p j : Nat) : Nat := if j < rh_remN p then 2 * j else rh_remN p + j

/-- The virtual block that holds element `e`. -/
def rh_vblock (p m e : Nat) : Nat :=
  if e / m < 2 * rh_remN p then e / m / 2 else e / m - rh_remN p

/-- The vector a virtual rank holds after step 1, at element `e`. -/
def rh_folded (op : α → α → α) (x : Nat → Nat → α) (p v e : Nat) : α :=
  if v < rh_remN p then op (x (2 * v) e) (x (2 * v + 1) e) else x (v + rh_remN p) e

/-- Left fold of `f a, f (a + d), .., f (a + n * d)`. -/
def strideRed (op : α → α → α) (f : Nat → α) (a d n : Nat) : α :=
  rangeRed op (fun j => f (a + j * d)) 0 n

/-- The partial result of a virtual rank when the window has `2 ^ k` virtual blocks: the
reduction over the virtual ranks congruent to it modulo `2 ^ k`. -/
def rh_window_red (op : α → α → α) (x : Nat → Nat → α) (p k v e : Nat) : α :=
  strideRed op (fun u => rh_folded op x p u e) (v % 2 ^ k) (2 ^ k)
    (rh_nprocs_pof2 p / 2 ^ k - 1)

/-- Invariant of the halving loop when the window has `2 ^ k` virtual blocks. -/
def RHInv (op : α → α → α) (x : Nat → Nat → α) (p m k : Nat) (G : Nat → RHState α) : Prop :=
  ∀ r, r < p →
    (G r).vrank = rh_vrank p r ∧
    ∀ v : Nat, rh_vrank p r = (v : Int) →
      (G r).window = ⟨(ompi_rounddown v (2 ^ k) : Nat), (ompi_rounddown v (2 ^ k) : Nat),
        ((ompi_rounddown v (2 ^ k) + 2 ^ k : Nat) : Int)⟩ ∧
      ∀ e, e < p * m → rh_vblock p m e / 2 ^ k = v / 2 ^ k →
        (G r).tmpbuf e = rh_window_red op x p k v e

/-- The calls one rank makes to its collaborators (allocator, datatype engine, transport,
operator engine, group collectives). -/
inductive Call (α : Type) where
  | malloc (slot : Nat)
  | free (slot : Nat)
  | copy_content (count : Nat)
  | create_indexed (handle : Nat) (t : Indexed)
  | commit (handle : Nat)
  | destroy (handle : Nat) (in_cleanup : Bool)
  | sendrecv (peer : Nat) (msg : List α)
  | send (dest : Nat) (msg : List α)
  | recv (src : Nat)
  | irecv (src : Nat)
  | wait
  | op_reduce (count : Nat)
  | coll_reduce (msg : List α) (recv_buf_null : Bool)
  | coll_scatter (send_buf_null : Bool)

/-- A call of the allocator or a release of a datatype handle: it moves no data between
ranks and applies no operator. -/
def Call.is_quiet : Call α → Bool
  | .malloc _ => true
  | .free _ => true
  | .destroy _ _ => true
  | _ => false

/-- One call of the trace of a rank with the status it reported (`0` for a call that
returns nothing; a failed allocation counts as `OMPI_ERR_OUT_OF_RESOURCE`). -/
structure Ev (α : Type) where
  call : Call α
  status : Int

/-- What the collaborators answer: the status of the `n`-th call of the rank and the data
the `n`-th call delivers when it receives (an allocation fails iff its status is not 0). -/
structure Env (α : Type) where
  status : Nat → Int
  payload : Nat → List α

/-- The control part of the state of one rank: the calls made so far, the `err` variable,
and which of the pointers `tmpbuf_raw`, `tmprecv_raw`, `dtypesend`, `dtyperecv` are not null. -/
structure Ctl (α : Type) where
  trace : List (Ev α)
  err : Int
  tmpbuf_raw : Bool
  tmprecv_raw : Bool
  dtypesend : Bool
  dtyperecv : Bool

/-- The state of one rank running one of the variants. -/
structure Local (α : Type) where
  ctl : Ctl α
  tmpbuf : Nat → α
  tmprecv : Nat → α
  rbuf : Nat → α
  is_block_received : Bool
  window : RHWindow

/-- What a call of a variant on one rank leaves: the status, the receive buffer, the calls made. -/
structure Result (α : Type) where
  status : Int
  rbuf : Nat → α
  trace : List (Ev α)

/-- A call whose status is assigned to `err` (and then tested). -/
def Ctl.checked (env : Env α) (c : Call α) (k : Ctl α) : Ctl α :=
  { k with trace := k.trace ++ [⟨c, env.status k.trace.length⟩]
           err := env.status k.trace.length }

/-- A call that returns nothing, or whose status is ignored: `err` is left alone. -/
def Ctl.unchecked (c : Call α) (st : Int) (k : Ctl α) : Ctl α :=
  { k with trace := k.trace ++ [⟨c, st⟩] }

/-- Sequencing under `if (MPI_SUCCESS != err) { goto cleanup_and_return; }`. -/
def Local.andThen (s : Local α) (f : Local α → Local α) : Local α :=
  if s.ctl.err = 0 then f s else s

/-- The `count` elements of `buf` from element offset `off`, as a message. -/
def slice (buf : Nat → α) (off count : Nat) : List α :=
  (List.range count).map (fun i => buf (off + i))

/-- The buffer after a contiguous receive of `msg` into `count` elements at offset `off`. -/
def write_msg (buf : Nat → α) (off count : Nat) (msg : List α) : Nat → α :=
  fun e => if off ≤ e ∧ e < off + count then msg.getD (e - off) (buf e) else buf e

/-- The `totalcount = comm_size * rcount` of the doubling and halving variants, a product of
two `int` values; as a count of elements, a value that is not positive addresses none. -/
def totalcount (comm_size rcount : Nat) : Nat :=
  (int32 ((comm_size : Int) * (rcount : Int))).toNat

/-- The two allocations `tmpbuf_raw = malloc(span); tmprecv_raw = malloc(span);` and the test
that follows them. -/
def alloc_scratch (env : Env α) (s : Local α) : Local α :=
  let n := s.ctl.trace.length
  let ok0 := decide (env.status n = 0)
  let ok1 := decide (env.status (n + 1) = 0)
  { s with ctl :=
    { s.ctl with
      trace := s.ctl.trace ++
        [⟨.malloc 0, if ok0 then 0 else OMPI_ERR_OUT_OF_RESOURCE⟩,
         ⟨.malloc 1, if ok1 then 0 else OMPI_ERR_OUT_OF_RESOURCE⟩]
      tmpbuf_raw := ok0
      tmprecv_raw := ok1
      err := if ok0 && ok1 then s.ctl.err else OMPI_ERR_OUT_OF_RESOURCE } }

/-- The copy of the input vector (`sbuf`, or `rbuf` under `MPI_IN_PLACE`) into `tmpbuf`. -/
def copy_in (env : Env α) (totalcount : Nat) (sbuf : Option (Nat → α)) (s : Local α) :
    Local α :=
  let k := s.ctl.checked env (.copy_content totalcount)
  if k.err = 0 then
    { s with ctl := k
             tmpbuf := ompi_datatype_copy_content_same_ddt totalcount s.tmpbuf 0
               (input_of sbuf s.rbuf) 0 }
  else { s with ctl := k }

/-- The copy of `count` elements of `tmpbuf` at offset `off` to `rbuf`. -/
def copy_out (env : Env α) (count off : Nat) (s : Local α) : Local α :=
  let k := s.ctl.checked env (.copy_content count)
  if k.err = 0 then
    { s with ctl := k
             rbuf := ompi_datatype_copy_content_same_ddt count s.rbuf 0 s.tmpbuf off }
  else { s with ctl := k }

/-- The calls `ompi_datatype_create_indexed` and `ompi_datatype_commit` on `dtypesend`
(`handle = 0`) or `dtyperecv` (`handle = 1`): a successful creation sets the pointer. -/
def rd_create (env : Env α) (handle : Nat) (t : Indexed) (s : Local α) : Local α :=
  let k := s.ctl.checked env (.create_indexed handle t)
  { s with ctl :=
    if k.err = 0 then
      (if handle = 0 then { k with dtypesend := true } else { k with dtyperecv := true })
    else k }

/-- The call `ompi_datatype_commit`. -/
def rd_commit (env : Env α) (handle : Nat) (s : Local α) : Local α :=
  { s with ctl := s.ctl.checked env (.commit handle) }

/-- The call `ompi_datatype_destroy` inside the loop: a successful call releases the handle
and nulls the pointer. -/
def rd_destroy (env : Env α) (handle : Nat) (s : Local α) : Local α :=
  let k := s.ctl.checked env (.destroy handle false)
  { s with ctl :=
    if k.err = 0 then
      (if handle = 0 then { k with dtypesend := false } else { k with dtyperecv := false })
    else k }

/-- The pairwise exchange `ompi_coll_base_sendrecv` with `remote`, when it is in the group. -/
def rd_sendrecv (env : Env α) (p m rank mask : Nat) (s : Local α) : Local α :=
  let remote := rank ^^^ mask
  if remote < p then
    let k := s.ctl.checked env
      (.sendrecv remote (pack (rd_sendtype p m rank mask) s.tmpbuf))
    if k.err = 0 then
      { s with ctl := k
               tmprecv := unpack (rd_recvtype p m rank mask) (env.payload s.ctl.trace.length)
                 s.tmprecv
               is_block_received := true }
    else { s with ctl := k }
  else s

/-- The body of the forwarding search for halving mask `h`. -/
def rd_fwd_iter (env : Env α) (p m rank mask h : Nat) (s : Local α) : Local α :=
  if rd_send_cond p rank mask h then
    let msg := pack (rd_recvtype p m rank mask) s.tmprecv
    { s with ctl := s.ctl.checked env (.send (rank ^^^ h) msg) }
  else if rd_recv_cond p rank mask h then
    let k := s.ctl.checked env (.recv (rank ^^^ h))
    if k.err = 0 then
      { s with ctl := k
               tmprecv := unpack (rd_recvtype p m rank mask) (env.payload s.ctl.trace.length)
                 s.tmprecv
               is_block_received := true }
    else { s with ctl := k }
  else s

/-- The loop of the forwarding search on one rank. -/
def rd_fwd_loop (env : Env α) (p m rank mask : Nat) : Nat → Nat → Local α → Local α
  | 0, _, s => s
  | fuel + 1, h, s =>
    if h > 0 then
      (rd_fwd_iter env p m rank mask h s).andThen (rd_fwd_loop env p m rank mask fuel (h >>> 1))
    else s

/-- The forwarding search, entered when `remote_tree_root + mask > comm_size`. -/
def rd_search (env : Env α) (p m rank mask : Nat) (s : Local α) : Local α :=
  if rd_in_search p rank mask then rd_fwd_loop env p m rank mask mask (mask >>> 1) s else s

/-- The reduction at the end of a step on one rank, with its calls (source lines 269-285). -/
def rd_reduce_step (env : Env α) (op : α → α → α) (is_commutative : Bool) (p m rank mask : Nat)
    (s : Local α) : Local α :=
  let t := rd_recvtype p m rank mask
  let cur_tree_root := ompi_rounddown rank mask
  let remote_tree_root := ompi_rounddown (rank ^^^ mask) mask
  if s.is_block_received then
    let d := rd_reduce op is_commutative cur_tree_root remote_tree_root t
      ⟨s.tmpbuf, s.tmprecv, true⟩
    let k := (s.ctl.unchecked (.op_reduce t.blocklens0) 0).unchecked (.op_reduce t.blocklens1) 0
    if is_commutative || decide (remote_tree_root < cur_tree_root) then
      { s with ctl := k, tmpbuf := d.tmpbuf }
    else
      let k2 := k.checked env (.copy_content 1)
      if k2.err = 0 then { s with ctl := k2, tmprecv := d.tmprecv, tmpbuf := d.tmpbuf }
      else { s with ctl := k2, tmprecv := d.tmprecv }
  else s

/-- One iteration of the doubling loop on one rank (source lines 183-290). -/
def rd_iter (env : Env α) (op : α → α → α) (is_commutative : Bool) (p m rank mask : Nat)
    (s : Local α) : Local α :=
  ((((((((rd_create env 0 (rd_sendtype p m rank mask) s).andThen
    (rd_commit env 0)).andThen
    (rd_create env 1 (rd_recvtype p m rank mask))).andThen
    (rd_commit env 1)).andThen
    (fun s => rd_sendrecv env p m rank mask { s with is_block_received := false })).andThen
    (rd_search env p m rank mask)).andThen
    (rd_reduce_step env op is_commutative p m rank mask)).andThen
    (rd_destroy env 0)).andThen
    (rd_destroy env 1)

/-- The loop `for (mask = 1; mask < comm_size; mask <<= 1)` on one rank. -/
def rd_rank_loop (env : Env α) (op : α → α → α) (is_commutative : Bool) (p m rank : Nat) :
    Nat → Nat → Local α → Local α
  | 0, _, s => s
  | fuel + 1, mask, s =>
    if mask < p then
      (rd_iter env op is_commutative p m rank mask s).andThen
        (rd_rank_loop env op is_commutative p m rank fuel (mask <<< 1))
    else s

/-- A call of `ompi_datatype_destroy` in the cleanup block: the status is ignored. -/
def cleanup_destroy (env : Env α) (handle : Nat) (k : Ctl α) : Ctl α :=
  let st := env.status k.trace.length
  let k1 := k.unchecked (.destroy handle true) st
  if st = 0 then
    (if handle = 0 then { k1 with dtypesend := false } else { k1 with dtyperecv := false })
  else k1

/-- The block `cleanup_and_return` of the doubling variant (source lines 296-305). -/
def rd_cleanup (env : Env α) (k : Ctl α) : Ctl α :=
  let k1 := if k.dtypesend then cleanup_destroy env 0 k else k
  let k2 := if k1.dtyperecv then cleanup_destroy env 1 k1 else k1
  let k3 := if k2.tmpbuf_raw then { (k2.unchecked (.free 0) 0) with tmpbuf_raw := false } else k2
  if k3.tmprecv_raw then { (k3.unchecked (.free 1) 0) with tmprecv_raw := false } else k3

/-- The state of a rank on entry: nothing called, `err = MPI_SUCCESS`, all pointers null;
`scratch0`, `scratch1` are the contents of the memory the two allocations return. -/
def Local.init (rbuf scratch0 scratch1 : Nat → α) : Local α :=
  { ctl := ⟨[], MPI_SUCCESS, false, false, false, false⟩
    tmpbuf := scratch0, tmprecv := scratch1, rbuf := rbuf
    is_block_received := false, window := ⟨0, 0, 0⟩ }

/-- The body of the doubling variant on one rank, up to the label `cleanup_and_return`. -/
def rd_body (env : Env α) (op : α → α → α) (is_commutative : Bool)
    (sbuf : Option (Nat → α)) (rbuf : Nat → α) (rcount comm_size rank : Nat)
    (scratch0 scratch1 : Nat → α) : Local α :=
  (((alloc_scratch env (Local.init rbuf scratch0 scratch1)).andThen
    (copy_in env (totalcount comm_size rcount) sbuf)).andThen
    (rd_rank_loop env op is_commutative comm_size rcount rank comm_size 1)).andThen
    (copy_out env rcount (rank * rcount))

/-- The function `ompi_coll_base_reduce_scatter_block_intra_recursivedoubling` on one rank
(source lines 137-306); `sbuf = none` stands for `MPI_IN_PLACE`. -/
def ompi_coll_base_reduce_scatter_block_intra_recursivedoubling (env : Env α)
    (op : α → α → α) (is_commutative : Bool) (sbuf : Option (Nat → α)) (rbuf : Nat → α)
    (rcount comm_size rank : Nat) (scratch0 scratch1 : Nat → α) : Result α :=
  if rcount = 0 then ⟨MPI_SUCCESS, rbuf, []⟩
  else if comm_size < 2 then ⟨MPI_SUCCESS, rbuf, []⟩
  else
    let s := rd_body env op is_commutative sbuf rbuf rcount comm_size rank scratch0 scratch1
    let k := rd_cleanup env s.ctl
    ⟨k.err, s.rbuf, k.trace⟩

/-- The function `ompi_coll_base_reduce_scatter_block_basic` on one rank (source lines
55-111): the group's `reduce` and `scatter` answer through the environment; `count` is the
`int` product `rcount * size`. -/
def ompi_coll_base_reduce_scatter_block_basic (env : Env α)
    (sbuf : Option (Nat → α)) (rbuf : Nat → α) (rcount size rank : Nat) : Result α :=
  let count := int32 ((rcount : Int) * (size : Int))
  if count = 0 then ⟨MPI_SUCCESS, rbuf, []⟩
  else
    let src := input_of sbuf rbuf
    let k0 : Ctl α := ⟨[], MPI_SUCCESS, false, false, false, false⟩
    -- the allocation on rank 0
    let k1 : Ctl α :=
      if rank = 0 then
        if env.status 0 = 0 then
          { k0 with trace := [⟨.malloc 0, 0⟩], tmpbuf_raw := true }
        else
          { k0 with trace := [⟨.malloc 0, OMPI_ERR_OUT_OF_RESOURCE⟩]
                    err := OMPI_ERR_OUT_OF_RESOURCE }
      else k0
    if k1.err = 0 then
      -- reduction
      let k2 := k1.checked env (.coll_reduce (slice src 0 count.toNat) (!k1.tmpbuf_raw))
      -- scatter
      let k3 := if k2.err = 0 then k2.checked env (.coll_scatter (!k1.tmpbuf_raw)) else k2
      let rbuf' :=
        if k2.err = 0 ∧ k3.err = 0 then write_msg rbuf 0 rcount (env.payload k2.trace.length)
        else rbuf
      let k4 := if k3.tmpbuf_raw then { (k3.unchecked (.free 0) 0) with tmpbuf_raw := false } else k3
      ⟨k4.err, rbuf', k4.trace⟩
    else ⟨k1.err, rbuf, k1.trace⟩

/-- Step 1 of the halving variant on one rank (source lines 398-421). -/
def rh_fold (env : Env α) (op : α → α → α) (p m rank : Nat) (s : Local α) : Local α :=
  if (rank : Int) < 2 * rh_nprocs_rem p then
    if rank % 2 = 0 then
      { s with ctl := s.ctl.checked env (.send (rank + 1) (slice s.tmpbuf 0 (totalcount p m))) }
    else
      let k := s.ctl.checked env (.recv (rank - 1))
      if k.err = 0 then
        let tmprecv := write_msg s.tmprecv 0 (totalcount p m) (env.payload s.ctl.trace.length)
        { s with ctl := k.unchecked (.op_reduce (totalcount p m)) 0
                 tmprecv := tmprecv
                 tmpbuf := ompi_op_reduce op tmprecv s.tmpbuf 0 (totalcount p m) }
      else { s with ctl := k }
  else s

/-- The `irecv` of an iteration of the halving loop, posted when `recv_count > 0`. -/
def rh_irecv (env : Env α) (pl : RHPlan) (s : Local α) : Local α :=
  if 0 < pl.recv_count then { s with ctl := s.ctl.checked env (.irecv pl.peer.toNat) } else s

/-- The `send` of an iteration of the halving loop, made when `send_count > 0`. -/
def rh_send (env : Env α) (pl : RHPlan) (s : Local α) : Local α :=
  if 0 < pl.send_count then
    let msg := slice s.tmpbuf pl.sdispl.toNat pl.send_count.toNat
    { s with ctl := s.ctl.checked env (.send pl.peer.toNat msg) }
  else s

/-- The `wait` and the reduction of an iteration of the halving loop, when `recv_count > 0`. -/
def rh_wait_reduce (env : Env α) (op : α → α → α) (pl : RHPlan) (s : Local α) : Local α :=
  if 0 < pl.recv_count then
    let k := s.ctl.checked env .wait
    if k.err = 0 then
      let tmprecv := write_msg s.tmprecv pl.rdispl.toNat pl.recv_count.toNat
        (env.payload s.ctl.trace.length)
      { s with ctl := k.unchecked (.op_reduce pl.recv_count.toNat) 0
               tmprecv := tmprecv
               tmpbuf := ompi_op_reduce op tmprecv s.tmpbuf pl.rdispl.toNat pl.recv_count.toNat }
    else { s with ctl := k }
  else s

/-- One iteration of the halving loop on one rank (source lines 435-482). -/
def rh_iter (env : Env α) (op : α → α → α) (p m : Nat) (vrank : Int) (mask : Nat)
    (s : Local α) : Local α :=
  let pl := rh_plan p m vrank mask s.window
  (((rh_irecv env pl s).andThen (rh_send env pl)).andThen (rh_wait_reduce env op pl)).andThen
    (fun s => { s with window := rh_next_window mask pl })

/-- The loop `for (mask = nprocs_pof2 >> 1; mask > 0; mask >>= 1)` on one rank. -/
def rh_rank_loop (env : Env α) (op : α → α → α) (p m : Nat) (vrank : Int) :
    Nat → Nat → Local α → Local α
  | 0, _, s => s
  | fuel + 1, mask, s =>
    if mask > 0 then
      (rh_iter env op p m vrank mask s).andThen (rh_rank_loop env op p m vrank fuel (mask >>> 1))
    else s

/-- Step 2 of the halving variant on one rank, for a participating rank. -/
def rh_halving (env : Env α) (op : α → α → α) (p m rank : Nat) (s : Local α) : Local α :=
  if rh_vrank p rank ≠ -1 then
    (rh_rank_loop env op p m (rh_vrank p rank) (rh_nprocs_pof2 p) (rh_nprocs_pof2 p >>> 1)
      { s with window := ⟨0, 0, rh_nprocs_pof2 p⟩ }).andThen
      (copy_out env m (rank * m))
  else s

/-- Step 3 of the halving variant on one rank (source lines 489-505). -/
def rh_unfold (env : Env α) (p m rank : Nat) (s : Local α) : Local α :=
  if (rank : Int) < 2 * rh_nprocs_rem p then
    if rank % 2 = 0 then
      let k := s.ctl.checked env (.recv (rank + 1))
      if k.err = 0 then
        { s with ctl := k, rbuf := write_msg s.rbuf 0 m (env.payload s.ctl.trace.length) }
      else { s with ctl := k }
    else
      { s with ctl := s.ctl.checked env (.send (rank - 1) (slice s.tmpbuf ((rank - 1) * m) m)) }
  else s

/-- The block `cleanup_and_return` of the halving variant (source lines 507-512). -/
def rh_cleanup (k : Ctl α) : Ctl α :=
  let k3 := if k.tmpbuf_raw then { (k.unchecked (.free 0) 0) with tmpbuf_raw := false } else k
  if k3.tmprecv_raw then { (k3.unchecked (.free 1) 0) with tmprecv_raw := false } else k3

/-- The body of the halving variant on one rank, up to the label `cleanup_and_return`. -/
def rh_body (env : Env α) (op : α → α → α)
    (sbuf : Option (Nat → α)) (rbuf : Nat → α) (rcount comm_size rank : Nat)
    (scratch0 scratch1 : Nat → α) : Local α :=
  ((((alloc_scratch env (Local.init rbuf scratch0 scratch1)).andThen
    (copy_in env (totalcount comm_size rcount) sbuf)).andThen
    (rh_fold env op comm_size rcount rank)).andThen
    (rh_halving env op comm_size rcount rank)).andThen
    (rh_unfold env comm_size rcount rank)

/-- The function `ompi_coll_base_reduce_scatter_block_intra_recursivehalving` on one rank
(source lines 335-513); `sbuf = none` stands for `MPI_IN_PLACE`. -/
def ompi_coll_base_reduce_scatter_block_intra_recursivehalving (env : Env α)
    (op : α → α → α) (is_commutative : Bool) (sbuf : Option (Nat → α)) (rbuf : Nat → α)
    (rcount comm_size rank : Nat) (scratch0 scratch1 : Nat → α) : Result α :=
  if rcount = 0 ∨ comm_size < 2 then ⟨MPI_SUCCESS, rbuf, []⟩
  else if !is_commutative then
    ompi_coll_base_reduce_scatter_block_basic env sbuf rbuf rcount comm_size rank
  else
    let s := rh_body env op sbuf rbuf rcount comm_size rank scratch0 scratch1
    let k := rh_cleanup s.ctl
    ⟨k.err, s.rbuf, k.trace⟩

/-- The first-error property of a call: either no call of the trace reported a failure and
`err` is `MPI_SUCCESS`, or `err` is the status of the first call that reported one and every
later call is a quiet one. -/
def FirstError (trace : List (Ev α)) (err : Int) : Prop :=
  (err = 0 ∧ ∀ e ∈ trace, e.status = 0) ∨
  (∃ pre ev post, trace = pre ++ ev :: post ∧ (∀ e ∈ pre, e.status = 0) ∧ ev.status ≠ 0 ∧
    err = ev.status ∧ ∀ e ∈ post, e.call.is_quiet = true)

/-- A successful allocation of the scratch buffer `slot`. -/
def Ev.is_alloc (slot : Nat) (e : Ev α) : Bool :=
  match e.call with
  | .malloc s => decide (s = slot) && decide (e.status = 0)
  | _ => false

/-- A release of the scratch buffer `slot`. -/
def Ev.is_free (slot : Nat) (e : Ev α) : Bool :=
  match e.call with
  | .free s => decide (s = slot)
  | _ => false

/-- A successful creation of the indexed datatype `handle`. -/
def Ev.is_create (handle : Nat) (e : Ev α) : Bool :=
  match e.call with
  | .create_indexed h _ => decide (h = handle) && decide (e.status = 0)
  | _ => false

/-- A successful destruction of the indexed datatype `handle`. -/
def Ev.is_destroy (handle : Nat) (e : Ev α) : Bool :=
  match e.call with
  | .destroy h _ => decide (h = handle) && decide (e.status = 0)
  | _ => false

/-- A destroy call of the cleanup block that reported a failure. -/
def Ev.is_failed_cleanup_destroy (e : Ev α) : Bool :=
  match e.call with
  | .destroy _ true => decide (e.status ≠ 0)
  | _ => false

/-- Number of successful allocations of a scratch buffer in a trace. -/
def allocated (slot : Nat) (tr : List (Ev α)) : Nat := tr.countP (Ev.is_alloc slot)

/-- Number of releases of a scratch buffer in a trace. -/
def freed (slot : Nat) (tr : List (Ev α)) : Nat := tr.countP (Ev.is_free slot)

/-- Number of indexed datatypes created through a handle variable in a trace. -/
def created (handle : Nat) (tr : List (Ev α)) : Nat := tr.countP (Ev.is_create handle)

/-- Number of indexed datatypes destroyed through a handle variable in a trace. -/
def destroyed (handle : Nat) (tr : List (Ev α)) : Nat := tr.countP (Ev.is_destroy handle)

/-- A call that neither allocates nor releases a scratch buffer or a datatype handle. -/
def Call.is_neutral : Call α → Bool
  | .malloc _ => false
  | .free _ => false
  | .create_indexed _ _ => false
  | .destroy _ _ => false
  | _ => true

/-- The resources a pointer variable holds are those the trace accounts for. -/
def Ctl.balanced (k : Ctl α) : Prop :=
  allocated 0 k.trace = freed 0 k.trace + k.tmpbuf_raw.toNat ∧
  allocated 1 k.trace = freed 1 k.trace + k.tmprecv_raw.toNat ∧
  allocated 0 k.trace ≤ 1 ∧ allocated 1 k.trace ≤ 1 ∧
  created 0 k.trace = destroyed 0 k.trace + k.dtypesend.toNat ∧
  created 1 k.trace = destroyed 1 k.trace + k.dtyperecv.toNat

/-- Invariant of the control state of a rank: first-error property, balanced resources, and
while no error occurred the datatype pointers are as the program point says. -/
def RInv (ds dr : Bool) (k : Ctl α) : Prop :=
  FirstError k.trace k.err ∧ k.balanced ∧ (k.err = 0 → k.dtypesend = ds ∧ k.dtyperecv = dr)

/-- A buffer of zeros. -/
def zero_buf : Nat → Int := fun _ => 0

/-- The input `[1, 2, 3, 4, 5]` of the single-rank scenario. -/
def scenario_single_sbuf : Nat → Int := fun e => (e : Int) + 1

/-- An environment in which every call succeeds and every receive delivers `[7]`. -/
def env_ok : Env Int := ⟨fun _ => 0, fun _ => [7]⟩

/-- An environment in which the call number `n` fails with status `-1` and all others succeed. -/
def env_fail_at (n : Nat) : Env Int := ⟨fun k => if k = n then -1 else 0, fun _ => [7]⟩

/-- An environment in which the calls whose numbers are in `l` fail with status `-1` and all
others succeed. -/
def env_fail_in (l : List Nat) : Env Int := ⟨fun k => if k ∈ l then -1 else 0, fun _ => [7]⟩

/-- A non-commutative associative operator: the left projection. -/
def op_left : Int → Int → Int := fun a _ => a

/-- The calls of the halving variant proper: point-to-point traffic, operator applications,
typed copies. -/
def Call.is_halving_call : Call α → Bool
  | .send _ _ => true
  | .recv _ => true
  | .irecv _ => true
  | .wait => true
  | .sendrecv _ _ => true
  | .op_reduce _ => true
  | .copy_content _ => true
  | _ => false

/-- The environment of a rank for which every call succeeds and a receive delivers `msg`. -/
def env_deliver (msg : List α) : Env α := ⟨fun _ => 0, fun _ => msg⟩

/-- The data of a rank of the doubling variant: scratch buffers and `is_block_received`. -/
def Local.toRD (s : Local α) : RDState α := ⟨s.tmpbuf, s.tmprecv, s.is_block_received⟩

/-- The data of rank `r` of the halving variant, with its virtual rank. -/
def Local.toRH (p r : Nat) (s : Local α) : RHState α :=
  ⟨s.tmpbuf, s.tmprecv, s.rbuf, rh_vrank p r, s.window⟩

/-- All ranks create and commit the two datatypes of step `mask`. -/
def rd_run_open (p m mask : Nat) (G : Nat → Local α) : Nat → Local α := fun r =>
  ((((G r).andThen (rd_create (env_deliver []) 0 (rd_sendtype p m r mask))).andThen
    (rd_commit (env_deliver []) 0)).andThen
    (rd_create (env_deliver []) 1 (rd_recvtype p m r mask))).andThen
    (rd_commit (env_deliver []) 1)

/-- All ranks make the pairwise exchange of step `mask`: a rank receives what its partner
sends in the same exchange. -/
def rd_run_sendrecv (p m mask : Nat) (G : Nat → Local α) : Nat → Local α := fun r =>
  (G r).andThen (fun s =>
    rd_sendrecv (env_deliver (pack (rd_sendtype p m (r ^^^ mask) mask) (G (r ^^^ mask)).tmpbuf))
      p m r mask { s with is_block_received := false })

/-- All ranks make iteration `h` of the forwarding search: a receiving rank gets what the
rank at distance `h` sends; `none` when a send or a receive has no counterpart. -/
def rd_run_forward (p m mask h : Nat) (G : Nat → Local α) : Option (Nat → Local α) :=
  if rd_fwd_matched p m mask h then
    some (fun r => (G r).andThen (fun s =>
      if rd_in_search p r mask then
        rd_fwd_iter (env_deliver (pack (rd_recvtype p m (r ^^^ h) mask) (G (r ^^^ h)).tmprecv))
          p m r mask h s
      else s))
  else none

/-- The forwarding search on all ranks. -/
def rd_run_forward_loop (p m mask : Nat) :
    Nat → Nat → (Nat → Local α) → Option (Nat → Local α)
  | 0, h, G => if h > 0 then none else some G
  | fuel + 1, h, G =>
    if h > 0 then
      (rd_run_forward p m mask h G).bind (rd_run_forward_loop p m mask fuel (h >>> 1))
    else some G

/-- All ranks reduce and destroy the two datatypes of step `mask`. -/
def rd_run_close (op : α → α → α) (is_commutative : Bool) (p m mask : Nat)
    (G : Nat → Local α) : Nat → Local α := fun r =>
  (((G r).andThen (rd_reduce_step (env_deliver []) op is_commutative p m r mask)).andThen
    (rd_destroy (env_deliver []) 0)).andThen
    (rd_destroy (env_deliver []) 1)

/-- One step of the doubling loop on all ranks, made of the calls of each rank. -/
def rd_run_step (op : α → α → α) (is_commutative : Bool) (p m mask : Nat)
    (G : Nat → Local α) : Option (Nat → Local α) :=
  (rd_run_forward_loop p m mask mask (mask >>> 1)
    (rd_run_sendrecv p m mask (rd_run_open p m mask G))).map
    (rd_run_close op is_commutative p m mask)

/-- The doubling loop on all ranks. -/
def rd_run_loop (op : α → α → α) (is_commutative : Bool) (p m : Nat) :
    Nat → Nat → (Nat → Local α) → Option (Nat → Local α)
  | 0, mask, G => if mask < p then none else some G
  | fuel + 1, mask, G =>
    if mask < p then
      (rd_run_step op is_commutative p m mask G).bind
        (rd_run_loop op is_commutative p m fuel (mask <<< 1))
    else some G

/-- All ranks of a group of size `p` run the recursive doubling variant with block size `m`,
each making the calls of `ompi_coll_base_reduce_scatter_block_intra_recursivedoubling` in
its order; every call succeeds and every receive delivers the message of the matching send.
`none` stands for a run that does not complete (an unmatched message). -/
def rd_run (op : α → α → α) (is_commutative : Bool) (p m : Nat)
    (sbuf : Nat → Option (Nat → α)) (rbuf scratch0 scratch1 : Nat → Nat → α) :
    Option (Nat → Result α) :=
  if m = 0 then some (fun r => ⟨MPI_SUCCESS, rbuf r, []⟩)
  else if p < 2 then some (fun r => ⟨MPI_SUCCESS, rbuf r, []⟩)
  else
    let G0 : Nat → Local α := fun r =>
      (alloc_scratch (env_deliver []) (Local.init (rbuf r) (scratch0 r) (scratch1 r))).andThen
        (copy_in (env_deliver []) (totalcount p m) (sbuf r))
    (rd_run_loop op is_commutative p m p 1 G0).map (fun G r =>
      let s := (G r).andThen (copy_out (env_deliver []) m (r * m))
      let k := rd_cleanup (env_deliver []) s.ctl
      ⟨k.err, s.rbuf, k.trace⟩)

/-- All ranks make step 1 of the halving variant: an odd rank among the first
`2 * nprocs_rem` receives the vector its left neighbour sends. -/
def rh_run_fold (op : α → α → α) (p m : Nat) (G : Nat → Local α) : Nat → Local α := fun r =>
  (G r).andThen (rh_fold (env_deliver (slice (G (r - 1)).tmpbuf 0 (totalcount p m))) op p m r)

/-- The participating ranks enter step 2 with the window of all virtual blocks. -/
def rh_run_enter (p : Nat) (G : Nat → Local α) : Nat → Local α := fun r =>
  (G r).andThen (fun s =>
    if rh_vrank p r ≠ -1 then { s with window := ⟨0, 0, rh_nprocs_pof2 p⟩ } else s)

/-- The message the peer of rank `r` sends it in iteration `mask` of step 2. -/
def rh_run_msg (p m mask : Nat) (G : Nat → Local α) (r : Nat) : List α :=
  let peer := (rh_plan p m (rh_vrank p r) mask (G r).window).peer.toNat
  let plp := rh_plan p m (rh_vrank p peer) mask (G peer).window
  slice (G peer).tmpbuf plp.sdispl.toNat plp.send_count.toNat

/-- One iteration of step 2 on all ranks; `none` when a message has no counterpart. -/
def rh_run_step (op : α → α → α) (p m mask : Nat) (G : Nat → Local α) :
    Option (Nat → Local α) :=
  if rh_matched p m mask (fun r => (G r).toRH p r) then
    some (fun r => (G r).andThen (fun s =>
      if rh_vrank p r ≠ -1 then
        rh_iter (env_deliver (rh_run_msg p m mask G r)) op p m (rh_vrank p r) mask s
      else s))
  else none

/-- The halving loop on all ranks. -/
def rh_run_loop (op : α → α → α) (p m : Nat) :
    Nat → Nat → (Nat → Local α) → Option (Nat → Local α)
  | 0, mask, G => if mask > 0 then none else some G
  | fuel + 1, mask, G =>
    if mask > 0 then (rh_run_step op p m mask G).bind (rh_run_loop op p m fuel (mask >>> 1))
    else some G

/-- The participating ranks copy their block to `rbuf`, then all ranks make step 3: a folded
even rank receives the block its right neighbour sends. -/
def rh_run_leave (p m : Nat) (G : Nat → Local α) : Nat → Local α := fun r =>
  let G1 : Nat → Local α := fun r =>
    (G r).andThen (fun s =>
      if rh_vrank p r ≠ -1 then copy_out (env_deliver []) m (r * m) s else s)
  (G1 r).andThen
    (rh_unfold (env_deliver (slice (G1 (r + 1)).tmpbuf ((r + 1 - 1) * m) m)) p m r)

/-- Modelled from the spec: the group's `scatter` collective with root 0 (a function pointer
of the communicator, not among the sources), by its contract: rank `i` receives the `i`-th
run of `rcount` elements of the root's buffer. -/
def coll_scatter_from_root (rcount : Nat) (root_buf : Nat → α) (i : Nat) : List α :=
  slice root_buf (i * rcount) rcount

/-- All ranks of a group run the basic variant, each making the calls of
`ompi_coll_base_reduce_scatter_block_basic`; every call succeeds, `reduce` leaves its result
in the scratch buffer of rank 0 and `scatter` delivers to each rank its block of it. -/
def basic_run (op : α → α → α) (p m : Nat)
    (sbuf : Nat → Option (Nat → α)) (rbuf scratch0 : Nat → Nat → α) : Nat → Result α :=
  fun r =>
    let reduced := coll_reduce_root op p (int32 ((m : Int) * (p : Int))).toNat (fun j => input_of (sbuf j) (rbuf j))
      (scratch0 0)
    ompi_coll_base_reduce_scatter_block_basic (env_deliver (coll_scatter_from_root m reduced r))
      (sbuf r) (rbuf r) m p r

/-- All ranks of a group of size `p` run the recursive halving variant with block size `m`,
each making the calls of `ompi_coll_base_reduce_scatter_block_intra_recursivehalving` in
its order; every call succeeds and every receive delivers the message of the matching send.
`none` stands for a run that does not complete (an unmatched message). -/
def rh_run (op : α → α → α) (is_commutative : Bool) (p m : Nat)
    (sbuf : Nat → Option (Nat → α)) (rbuf scratch0 scratch1 : Nat → Nat → α) :
    Option (Nat → Result α) :=
  if m = 0 ∨ p < 2 then some (fun r => ⟨MPI_SUCCESS, rbuf r, []⟩)
  else if !is_commutative then some (basic_run op p m sbuf rbuf scratch0)
  else
    let G0 : Nat → Local α := fun r =>
      (alloc_scratch (env_deliver []) (Local.init (rbuf r) (scratch0 r) (scratch1 r))).andThen
        (copy_in (env_deliver []) (totalcount p m) (sbuf r))
    let G1 := rh_run_enter p (rh_run_fold op p m G0)
    (rh_run_loop op p m (rh_nprocs_pof2 p) (rh_nprocs_pof2 p >>> 1) G1).map (fun G2 r =>
      let s := rh_run_leave p m G2 r
      let k := rh_cleanup s.ctl
      ⟨k.err, s.rbuf, k.trace⟩)

/-- The test of the `else if` of the forwarding search (source lines 258-259), taken alone:
`(remote < rank) && (remote < tree_root + nprocs_alldata) && (rank >= tree_root + nprocs_alldata)`. -/
def rd_recv_test (comm_size rank mask h : Nat) : Bool :=
  let remote := rank ^^^ h
  let tree_root := ompi_rounddown rank (h <<< 1)
  let nprocs_alldata := rd_nprocs_alldata comm_size rank mask
  decide (remote < rank) && decide ((remote : Int) < (tree_root : Int) + nprocs_alldata)
    && decide ((rank : Int) ≥ (tree_root : Int) + nprocs_alldata)

/-- The displacement of a virtual index in the halving variant (source lines 455-458):
`rcount * ((index <= nprocs_rem - 1) ? 2 * index : nprocs_rem + index)`, an `int` product. -/
def rh_displ (comm_size rcount : Nat) (index : Int) : Int :=
  int32 ((rcount : Int) * (if index ≤ rh_nprocs_rem comm_size - 1 then 2 * index
    else rh_nprocs_rem comm_size + index))

/-- Two environments answer alike to the calls at the positions `lo ≤ i < hi`. -/
def env_agree (lo hi : Nat) (a b : Env α) : Prop :=
  ∀ i, lo ≤ i → i < hi → a.status i = b.status i ∧ a.payload i = b.payload i

/-- A step of a rank only adds calls to the trace and reads the environment only at the
positions of the calls it adds. -/
def StepLocal (F : Env α → Local α → Local α) : Prop :=
  ∀ env s, s.ctl.trace.length ≤ (F env s).ctl.trace.length ∧
    ∀ env', env_agree s.ctl.trace.length (F env s).ctl.trace.length env env' →
      F env' s = F env s

/-- Some environment in which every call succeeds takes the step `F` from `s` to `s'`. -/
def Reaches (F : Env α → Local α → Local α) (s s' : Local α) : Prop :=
  ∃ env : Env α, (∀ n, env.status n = 0) ∧ F env s = s'

/-- A step made only when no error is pending (`goto cleanup_and_return` otherwise). -/
def guarded (F : Env α → Local α → Local α) : Env α → Local α → Local α :=
  fun env s => s.andThen (F env)

/-- The step `F` reads the environment locally and some environment in which every call
succeeds takes it from `s` to `s'`. -/
def Tracks (F : Env α → Local α → Local α) (s s' : Local α) : Prop :=
  StepLocal F ∧ Reaches F s s'

/-! ## Theorems -/
/-- The wrap-around in closed form. -/
theorem int32_eq (x : Int) : int32 x = (x + 2 ^ 31) % 2 ^ 32 - 2 ^ 31 := by
  unfold int32
  simp only
  split_ifs <;> omega

theorem int32_zero : int32 0 = 0 := by decide

/-- A value inside the range of `int` is left alone by the wrap-around. -/
theorem int32_eq_self {x : Int} (h0 : -2 ^ 31 ≤ x) (h1 : x < 2 ^ 31) : int32 x = x := by
  rw [int32_eq]
  omega

/-- A natural number below `2 ^ 31` is left alone by the wrap-around. -/
theorem int32_natCast {n : Nat} (h : n < 2 ^ 31) : int32 (n : Int) = (n : Int) := by
  apply int32_eq_self <;> omega

/-- The wrap-around only looks at its argument modulo `2 ^ 32`. -/
theorem int32_congr {x y : Int} (h : x % 2 ^ 32 = y % 2 ^ 32) : int32 x = int32 y := by
  rw [int32_eq, int32_eq]
  omega

/-- Wrapping an operand of a difference first does not change the wrapped difference. -/
theorem int32_sub_int32 (x y : Int) : int32 (int32 x - y) = int32 (x - y) := by
  rw [int32_eq, int32_eq, int32_eq]
  omega

/-- When the product `comm_size * rcount` fits in an `int`, `totalcount` is that product. -/
theorem totalcount_eq {p m : Nat} (hfit : p * m < 2 ^ 31) : totalcount p m = p * m := by
  unfold totalcount
  have h : ((p : Int) * (m : Int)) = ((p * m : Nat) : Int) := by push_cast; ring
  rw [h, int32_natCast hfit, Int.toNat_ofNat]

/-- When `comm_size * rcount` and `rcount * root` fit in an `int`, no product of the pattern
wraps: run 0 has `rcount * root` elements at offset 0 and run 1 has
`rcount * (comm_size - root - mask)` elements (none when `comm_size < root + mask`) and ends
at `comm_size * rcount`. -/
theorem rd_indexed_eq_of_fit {p m root mask : Nat} (hfit : p * m < 2 ^ 31)
    (h0 : m * root < 2 ^ 31) :
    rd_indexed p m root mask =
      { blocklens0 := m * root
        blocklens1 := if p ≥ root + mask then m * (p - root - mask) else 0
        displs0 := 0
        displs1 := p * m - (if p ≥ root + mask then m * (p - root - mask) else 0) } := by
  have e0 : int32 ((m : Int) * (root : Int)) = ((m * root : Nat) : Int) := by
    rw [← Int.natCast_mul]; exact int32_natCast h0
  have et : int32 ((p : Int) * (m : Int)) = ((p * m : Nat) : Int) := by
    rw [← Int.natCast_mul]; exact int32_natCast hfit
  unfold rd_indexed ompi_datatype_create_indexed rd_blocklens_displs
  simp only [e0, et, Int.toNat_ofNat]
  by_cases hc : p ≥ root + mask
  · have h1 : m * (p - root - mask) ≤ p * m := by
      rw [Nat.mul_comm p m]; exact Nat.mul_le_mul_left m (by omega)
    have e1 : (m : Int) * ((p : Int) - (root : Int) - (mask : Int)) =
        ((m * (p - root - mask) : Nat) : Int) := by
      have : ((p - root - mask : Nat) : Int) = (p : Int) - (root : Int) - (mask : Int) := by
        omega
      rw [Int.natCast_mul, this]
    have e2 : int32 (((p * m : Nat) : Int) - ((m * (p - root - mask) : Nat) : Int)) =
        ((p * m - m * (p - root - mask) : Nat) : Int) := by
      have : ((p * m : Nat) : Int) - ((m * (p - root - mask) : Nat) : Int) =
          ((p * m - m * (p - root - mask) : Nat) : Int) := by omega
      rw [this]; exact int32_natCast (by omega)
    simp only [if_pos hc, e1, int32_natCast (Nat.lt_of_le_of_lt h1 hfit), e2, Int.toNat_ofNat]
    rfl
  · simp only [if_neg hc, Int.sub_zero, int32_natCast hfit, Int.toNat_ofNat, Nat.sub_zero]
    rfl

/-- The same for a subtree root in the group. -/
theorem rd_indexed_eq {p m root mask : Nat} (hfit : p * m < 2 ^ 31) (hroot : root ≤ p) :
    rd_indexed p m root mask =
      { blocklens0 := m * root
        blocklens1 := if p ≥ root + mask then m * (p - root - mask) else 0
        displs0 := 0
        displs1 := p * m - (if p ≥ root + mask then m * (p - root - mask) else 0) } := by
  have h0 : m * root ≤ p * m := by rw [Nat.mul_comm p m]; exact Nat.mul_le_mul_left m hroot
  exact rd_indexed_eq_of_fit hfit (by omega)

theorem xor_two_pow (s : Nat) : ∀ r : Nat,
    ((r / 2 ^ s) % 2 = 0 ∧ r ^^^ 2 ^ s = r + 2 ^ s) ∨
    ((r / 2 ^ s) % 2 = 1 ∧ (r ^^^ 2 ^ s) + 2 ^ s = r) := by
  induction s with
  | zero =>
    intro r
    have h1 : (r ^^^ 1) / 2 = r / 2 := by
      rw [Nat.xor_div_two]; simp
    have h2 : (r ^^^ 1) % 2 = (r + 1) % 2 := Nat.xor_mod_two_eq
    simp only [pow_zero, Nat.div_one]
    omega
  | succ s ih =>
    intro r
    have h1 : (r ^^^ 2 ^ (s + 1)) / 2 = r / 2 ^^^ 2 ^ s := by
      rw [Nat.xor_div_two, pow_succ, Nat.mul_div_cancel _ (by norm_num : 0 < 2)]
    have h2 : (r ^^^ 2 ^ (s + 1)) % 2 = r % 2 := by
      rw [Nat.xor_mod_two_eq, pow_succ]; omega
    have h3 : r / 2 ^ (s + 1) = r / 2 / 2 ^ s := by
      rw [pow_succ, Nat.mul_comm, Nat.div_div_eq_div_mul]
    have h4 : (2 : Nat) ^ (s + 1) = 2 * 2 ^ s := by rw [pow_succ, Nat.mul_comm]
    rw [h3, h4]
    rcases ih (r / 2) with ⟨ha, hb⟩ | ⟨ha, hb⟩
    · left; refine ⟨ha, ?_⟩; rw [h4] at h1 h2; omega
    · right; refine ⟨ha, ?_⟩; rw [h4] at h1 h2; omega

theorem xor_div_two_pow (s : Nat) : ∀ a b : Nat,
    (a ^^^ b) / 2 ^ s = a / 2 ^ s ^^^ b / 2 ^ s := by
  induction s with
  | zero => intro a b; simp
  | succ s ih =>
    intro a b
    have h : ∀ x : Nat, x / 2 ^ (s + 1) = x / 2 / 2 ^ s := by
      intro x; rw [pow_succ, Nat.mul_comm, Nat.div_div_eq_div_mul]
    rw [h, h a, h b, Nat.xor_div_two, ih]

theorem div_xor_low {t s : Nat} (hts : t < s) (r : Nat) :
    (r ^^^ 2 ^ t) / 2 ^ s = r / 2 ^ s := by
  rw [xor_div_two_pow, Nat.div_eq_of_lt (Nat.pow_lt_pow_right (by norm_num) hts)]
  simp

/-- Facts on the subtree of width `2 ^ s` around rank `r` and on its partner. -/
theorem subtree_facts (s r : Nat) :
    ompi_rounddown r (2 ^ s) ≤ r ∧ r < ompi_rounddown r (2 ^ s) + 2 ^ s ∧
    ((r ^^^ 2 ^ s = r + 2 ^ s ∧
        ompi_rounddown (r ^^^ 2 ^ s) (2 ^ s) = ompi_rounddown r (2 ^ s) + 2 ^ s ∧
        ompi_rounddown r (2 ^ (s + 1)) = ompi_rounddown r (2 ^ s)) ∨
     ((r ^^^ 2 ^ s) + 2 ^ s = r ∧
        ompi_rounddown (r ^^^ 2 ^ s) (2 ^ s) + 2 ^ s = ompi_rounddown r (2 ^ s) ∧
        ompi_rounddown r (2 ^ (s + 1)) + 2 ^ s = ompi_rounddown r (2 ^ s))) := by
  have hM : 0 < 2 ^ s := Nat.pow_pos (by norm_num)
  have hdm := Nat.div_add_mod r (2 ^ s)
  have hlt := Nat.mod_lt r hM
  have hq := Nat.div_add_mod (r / 2 ^ s) 2
  have h2 : r / 2 ^ (s + 1) = r / 2 ^ s / 2 := by
    rw [pow_succ, Nat.div_div_eq_div_mul]
  have e1 : 2 ^ s * (r / 2 ^ s) = r / 2 ^ s * 2 ^ s := Nat.mul_comm _ _
  unfold ompi_rounddown
  refine ⟨by omega, by omega, ?_⟩
  rcases xor_two_pow s r with ⟨ha, hb⟩ | ⟨ha, hb⟩
  · left
    refine ⟨hb, ?_, ?_⟩
    · rw [hb, Nat.add_div_right _ hM, Nat.succ_mul]
    · rw [h2, pow_succ]
      have : r / 2 ^ s = 2 * (r / 2 ^ s / 2) := by omega
      conv_rhs => rw [this]
      ring
  · right
    have hge : 1 ≤ r / 2 ^ s := by omega
    have hMr : 2 ^ s ≤ r := by
      calc 2 ^ s = 1 * 2 ^ s := (Nat.one_mul _).symm
        _ ≤ r / 2 ^ s * 2 ^ s := Nat.mul_le_mul_right _ hge
        _ ≤ r := by omega
    have hx : r ^^^ 2 ^ s = r - 2 ^ s := by omega
    have hd : r / 2 ^ s = (r - 2 ^ s) / 2 ^ s + 1 := Nat.div_eq_sub_div hM hMr
    refine ⟨hb, ?_, ?_⟩
    · rw [hx]
      conv_rhs => rw [hd]
      rw [Nat.succ_mul]
    · rw [h2, pow_succ]
      have : r / 2 ^ s = 2 * (r / 2 ^ s / 2) + 1 := by omega
      conv_rhs => rw [this]
      ring

theorem pack_getD_run0 (t : Indexed) (src : Nat → α) (i : Nat) (d : α)
    (h : i < t.blocklens0) : (pack t src).getD i d = src (t.displs0 + i) := by
  unfold pack
  rw [List.getD_eq_getElem?_getD, List.getElem?_append_left (by simpa using h)]
  simp [List.getElem?_range h]

theorem pack_getD_run1 (t : Indexed) (src : Nat → α) (i : Nat) (d : α)
    (h : i < t.blocklens1) : (pack t src).getD (t.blocklens0 + i) d = src (t.displs1 + i) := by
  unfold pack
  rw [List.getD_eq_getElem?_getD, List.getElem?_append_right (by simp)]
  simp [List.getElem?_range h]

theorem unpack_pack (t : Indexed) (src dst : Nat → α) (e : Nat) :
    unpack t (pack t src) dst e = if t.covers e then src e else dst e := by
  unfold unpack Indexed.covers
  by_cases h1 : t.displs1 ≤ e ∧ e < t.displs1 + t.blocklens1
  · rw [if_pos h1, pack_getD_run1 _ _ _ _ (by omega)]
    have : t.displs1 + (e - t.displs1) = e := by omega
    simp [h1, this]
  · rw [if_neg h1]
    by_cases h0 : t.displs0 ≤ e ∧ e < t.displs0 + t.blocklens0
    · rw [if_pos h0, pack_getD_run0 _ _ _ _ (by omega)]
      have : t.displs0 + (e - t.displs0) = e := by omega
      simp [h0, this]
    · rw [if_neg h0]
      have : ((decide (t.displs1 ≤ e) && decide (e < t.displs1 + t.blocklens1)) ||
          (decide (t.displs0 ≤ e) && decide (e < t.displs0 + t.blocklens0))) = false := by
        simp only [Bool.or_eq_false_iff, Bool.and_eq_false_iff, decide_eq_false_iff_not]
        constructor
        · by_contra hc; push_neg at hc; exact h1 ⟨hc.1, hc.2⟩
        · by_contra hc; push_neg at hc; exact h0 ⟨hc.1, hc.2⟩
      simp [this]

/-- The two runs of the pattern of a subtree root inside the group, read on block indices,
when `comm_size * rcount` fits in an `int`. -/
theorem covers_rd_indexed {p m root mask : Nat} (hfit : p * m < 2 ^ 31) (hm : 0 < m)
    (hroot : root ≤ p) (e : Nat) :
    (rd_indexed p m root mask).covers e = true ↔
      e / m < p ∧ (e / m < root ∨ root + mask ≤ e / m) := by
  have hdiv : ∀ k : Nat, e / m < k ↔ e < m * k := fun k => by
    rw [Nat.div_lt_iff_lt_mul hm, Nat.mul_comm]
  have hle : ∀ k : Nat, k ≤ e / m ↔ m * k ≤ e := fun k => by
    rw [Nat.le_div_iff_mul_le hm, Nat.mul_comm]
  have hpm : p * m = m * p := Nat.mul_comm _ _
  have hrp : m * root ≤ m * p := Nat.mul_le_mul_left _ hroot
  rw [rd_indexed_eq hfit hroot]
  unfold Indexed.covers
  simp only [Bool.or_eq_true, Bool.and_eq_true, decide_eq_true_eq, Nat.zero_le, true_and,
    Nat.zero_add]
  rw [hdiv, hdiv, hle]
  by_cases hc : p ≥ root + mask
  · simp only [if_pos hc]
    have h1 : m * (p - root - mask) = m * p - m * (root + mask) := by
      rw [Nat.sub_sub, Nat.mul_sub]
    have h2 : m * (root + mask) ≤ m * p := Nat.mul_le_mul_left _ hc
    rw [h1, hpm]
    omega
  · simp only [if_neg hc]
    have h2 : m * p < m * (root + mask) := Nat.mul_lt_mul_of_pos_left (by omega) hm
    rw [hpm]
    omega

/-- The pattern of a subtree root inside the group has disjoint, ordered runs. -/
theorem rd_indexed_ordered (p m root mask : Nat) (hfit : p * m < 2 ^ 31) (hroot : root ≤ p) :
    (rd_indexed p m root mask).displs0 = 0 ∧
    (rd_indexed p m root mask).blocklens0 ≤ (rd_indexed p m root mask).displs1 := by
  have hpm : p * m = m * p := Nat.mul_comm _ _
  have hrp : m * root ≤ m * p := Nat.mul_le_mul_left _ hroot
  rw [rd_indexed_eq hfit hroot]
  refine ⟨rfl, ?_⟩
  simp only
  by_cases hc : p ≥ root + mask
  · simp only [if_pos hc]
    have h1 : m * (p - root - mask) = m * p - m * (root + mask) := by
      rw [Nat.sub_sub, Nat.mul_sub]
    have h2 : m * (root + mask) ≤ m * p := Nat.mul_le_mul_left _ hc
    have h3 : m * (root + mask) = m * root + m * mask := Nat.mul_add _ _ _
    rw [h1, hpm]; omega
  · simp only [if_neg hc]
    rw [hpm]; omega

/-- The content of `tmpbuf` after the reduction of a step. -/
theorem rd_reduce_tmpbuf (op : α → α → α) (c : Bool) (cur rem : Nat) (t : Indexed)
    (s : RDState α) (h0 : t.displs0 = 0) (hord : t.blocklens0 ≤ t.displs1) (e : Nat) :
    (rd_reduce op c cur rem t s).tmpbuf e =
      if s.is_block_received = true ∧ t.covers e = true then
        (if c = true ∨ rem < cur then op (s.tmprecv e) (s.tmpbuf e)
         else op (s.tmpbuf e) (s.tmprecv e))
      else s.tmpbuf e := by
  unfold rd_reduce
  by_cases hr : s.is_block_received = true
  · simp only [hr, if_true, true_and]
    by_cases hc : c = true ∨ rem < cur
    · have hc' : (c || decide (rem < cur)) = true := by
        simpa [Bool.or_eq_true] using hc
      simp only [hc', if_true, hc]
      unfold ompi_op_reduce Indexed.covers
      simp only [Bool.or_eq_true, Bool.and_eq_true, decide_eq_true_eq, h0, Nat.zero_le,
        true_and, Nat.zero_add]
      by_cases h1 : t.displs1 ≤ e ∧ e < t.displs1 + t.blocklens1
      · have : ¬ e < t.blocklens0 := by omega
        simp [h1, this]
      · by_cases h2 : e < t.blocklens0
        · simp [h1, h2]
        · simp [h1, h2]
    · have hc' : (c || decide (rem < cur)) = false := by
        simpa [Bool.or_eq_true] using hc
      simp only [hc', hc, if_false, Bool.false_eq_true]
      unfold ompi_datatype_copy_indexed
      by_cases hcov : t.covers e = true
      · simp only [if_pos hcov]
        unfold ompi_op_reduce
        unfold Indexed.covers at hcov
        simp only [Bool.or_eq_true, Bool.and_eq_true, decide_eq_true_eq, h0, Nat.zero_le,
          true_and, Nat.zero_add] at hcov
        by_cases h1 : t.displs1 ≤ e ∧ e < t.displs1 + t.blocklens1
        · have : ¬ e < t.blocklens0 := by omega
          simp [h1, this]
        · have h2 : e < t.blocklens0 := by
            rcases hcov with h | h
            · exact absurd h h1
            · exact h
          simp [h1, h2]
      · simp [hcov]
  · simp [hr]

theorem rd_reduce_received (op : α → α → α) (c : Bool) (cur rem : Nat) (t : Indexed)
    (s : RDState α) (h : s.is_block_received = false) :
    rd_reduce op c cur rem t s = s := by
  unfold rd_reduce; simp [h]

theorem rangeRed_append (op : α → α → α) (hassoc : ∀ a b c, op (op a b) c = op a (op b c))
    (f : Nat → α) (a n k : Nat) :
    op (rangeRed op f a n) (rangeRed op f (a + n + 1) k) = rangeRed op f a (n + 1 + k) := by
  induction k with
  | zero => rfl
  | succ k ih =>
    show op (rangeRed op f a n) (op (rangeRed op f (a + n + 1) k) (f (a + n + 1 + k + 1))) =
      op (rangeRed op f a (n + 1 + k)) (f (a + (n + 1 + k) + 1))
    rw [← hassoc, ih]
    have : a + n + 1 + k + 1 = a + (n + 1 + k) + 1 := by omega
    rw [this]

theorem segRed_append (op : α → α → α) (hassoc : ∀ a b c, op (op a b) c = op a (op b c))
    (x : Nat → Nat → α) (e a b c : Nat) (hab : a < b) (hbc : b < c) :
    op (segRed op x e a b) (segRed op x e b c) = segRed op x e a c := by
  unfold segRed
  have h := rangeRed_append op hassoc (fun j => x j e) a (b - a - 1) (c - b - 1)
  have e1 : a + (b - a - 1) + 1 = b := by omega
  have e2 : b - a - 1 + 1 + (c - b - 1) = c - a - 1 := by omega
  rw [e1, e2] at h
  exact h

theorem rd_sendrecv_inv (op : α → α → α) (x : Nat → Nat → α) (p m s : Nat) (hm : 0 < m) (hfit : p * m < 2 ^ 31)
    (G : Nat → RDState α) (hinv : RDInv op x p m (2 ^ s) G) :
    RDFwdInv op x p m (2 ^ s) (2 ^ s) G (rd_sendrecv_all p m (2 ^ s) G) := by
  intro r hr
  obtain ⟨h1, h2, h3⟩ := subtree_facts s r
  obtain ⟨k1, k2, -⟩ := subtree_facts s (r ^^^ 2 ^ s)
  have hM : 0 < 2 ^ s := Nat.pow_pos (by norm_num)
  refine ⟨?_, ?_, ?_⟩
  · unfold rd_sendrecv_all
    by_cases hp : r ^^^ 2 ^ s < p
    · simp [hp]
    · simp [hp]
  · intro hrr hcase
    have hp : r ^^^ 2 ^ s < p := by
      unfold rd_nprocs_alldata at hcase
      rcases h3 with ⟨a1, a2, a3⟩ | ⟨a1, a2, a3⟩
      · omega
      · omega
    unfold RDHasData rd_sendrecv_all
    simp only [hp, if_true]
    refine ⟨trivial, ?_⟩
    intro e he
    have hty : rd_sendtype p m (r ^^^ 2 ^ s) (2 ^ s) = rd_recvtype p m r (2 ^ s) := rfl
    rw [hty, unpack_pack, if_pos he]
    unfold rd_recvtype at he
    rw [covers_rd_indexed hfit hm (Nat.le_of_lt hrr)] at he
    exact hinv (r ^^^ 2 ^ s) hp e he.1 (by omega)
  · intro hrr
    have hp : ¬ r ^^^ 2 ^ s < p := by omega
    unfold rd_sendrecv_all
    simp [hp]

/-- A rank and its partner of the forwarding search (distance `2 ^ t`, `t < s`) lie in the
same subtrees of width `2 ^ s` and `2 ^ (t + 1)` and have the same sibling subtree. -/
theorem fwd_partner_facts {t s : Nat} (hts : t < s) (r : Nat) :
    ompi_rounddown (r ^^^ 2 ^ t) (2 ^ s) = ompi_rounddown r (2 ^ s) ∧
    ompi_rounddown ((r ^^^ 2 ^ t) ^^^ 2 ^ s) (2 ^ s) = ompi_rounddown (r ^^^ 2 ^ s) (2 ^ s) ∧
    ompi_rounddown (r ^^^ 2 ^ t) (2 ^ (t + 1)) = ompi_rounddown r (2 ^ (t + 1)) ∧
    (r ^^^ 2 ^ t) ^^^ 2 ^ t = r := by
  unfold ompi_rounddown
  refine ⟨?_, ?_, ?_, ?_⟩
  · rw [div_xor_low hts]
  · have : (r ^^^ 2 ^ t) ^^^ 2 ^ s = (r ^^^ 2 ^ s) ^^^ 2 ^ t := by
      rw [Nat.xor_assoc, Nat.xor_comm (2 ^ t), ← Nat.xor_assoc]
    rw [this, div_xor_low hts]
  · rw [div_xor_low (Nat.lt_succ_self t)]
  · rw [Nat.xor_assoc, Nat.xor_self, Nat.xor_zero]

theorem rd_fwd_partner_eq {t s : Nat} (hts : t < s) (p m r : Nat) :
    rd_recvtype p m (r ^^^ 2 ^ t) (2 ^ s) = rd_recvtype p m r (2 ^ s) ∧
    rd_in_search p (r ^^^ 2 ^ t) (2 ^ s) = rd_in_search p r (2 ^ s) ∧
    rd_nprocs_alldata p (r ^^^ 2 ^ t) (2 ^ s) = rd_nprocs_alldata p r (2 ^ s) := by
  obtain ⟨f1, f2, -, -⟩ := fwd_partner_facts hts r
  unfold rd_recvtype rd_in_search rd_nprocs_alldata
  rw [f1, f2]
  exact ⟨rfl, rfl, rfl⟩

theorem shl_two_pow (t : Nat) : (2 : Nat) ^ t <<< 1 = 2 ^ (t + 1) := by
  rw [Nat.shiftLeft_eq]; simp [pow_succ]

theorem shr_two_pow (t : Nat) : (2 : Nat) ^ (t + 1) >>> 1 = 2 ^ t := by
  rw [Nat.shiftRight_eq_div_pow, pow_succ]; simp

/-- The send condition of the search, spelled out. -/
theorem rd_send_cond_iff (p r s t : Nat) :
    rd_send_cond p r (2 ^ s) (2 ^ t) = true ↔
      (r ^^^ 2 ^ t > r ∧
       (r : Int) < (ompi_rounddown r (2 ^ (t + 1)) : Int) + rd_nprocs_alldata p r (2 ^ s) ∧
       ((r ^^^ 2 ^ t : Nat) : Int) ≥
         (ompi_rounddown r (2 ^ (t + 1)) : Int) + rd_nprocs_alldata p r (2 ^ s)) := by
  unfold rd_send_cond
  simp only [shl_two_pow, Bool.and_eq_true, decide_eq_true_eq, and_assoc]

/-- The receive condition of the search, spelled out. -/
theorem rd_recv_cond_iff (p r s t : Nat) :
    rd_recv_cond p r (2 ^ s) (2 ^ t) = true ↔
      (rd_send_cond p r (2 ^ s) (2 ^ t) = false ∧ r ^^^ 2 ^ t < r ∧
       ((r ^^^ 2 ^ t : Nat) : Int) <
         (ompi_rounddown r (2 ^ (t + 1)) : Int) + rd_nprocs_alldata p r (2 ^ s) ∧
       (r : Int) ≥ (ompi_rounddown r (2 ^ (t + 1)) : Int) + rd_nprocs_alldata p r (2 ^ s)) := by
  unfold rd_recv_cond
  simp only [shl_two_pow, Bool.and_eq_true, decide_eq_true_eq, and_assoc, Bool.not_eq_true']

/-- All forwarded messages of one iteration of the search are matched. -/
theorem rd_fwd_matched_holds {t s : Nat} (hts : t < s) (p m : Nat) :
    rd_fwd_matched p m (2 ^ s) (2 ^ t) := by
  intro r hr
  obtain ⟨f1, f2, f3, f4⟩ := fwd_partner_facts hts r
  obtain ⟨g1, g2, g3⟩ := rd_fwd_partner_eq hts p m r
  obtain ⟨a1, a2, a3⟩ := subtree_facts (t + 1) r
  obtain ⟨b1, b2, b3⟩ := subtree_facts s (r ^^^ 2 ^ t)
  have hn : rd_nprocs_alldata p r (2 ^ s) =
      (p : Int) - (ompi_rounddown r (2 ^ s) : Int) - ((2 ^ s : Nat) : Int) := rfl
  constructor
  · intro hs
    unfold rd_fwd_sends at hs
    rw [Bool.and_eq_true] at hs
    obtain ⟨hsearch, hsend⟩ := hs
    have hsend' := (rd_send_cond_iff p r s t).1 hsend
    refine ⟨?_, ?_, ?_⟩
    · rw [f1] at b2; omega
    · unfold rd_fwd_recvs
      rw [Bool.and_eq_true, g2]
      refine ⟨hsearch, ?_⟩
      rw [rd_recv_cond_iff, f3, f4, g3]
      refine ⟨?_, hsend'.1, hsend'.2.1, hsend'.2.2⟩
      rw [Bool.eq_false_iff]
      intro hc
      have := (rd_send_cond_iff p (r ^^^ 2 ^ t) s t).1 hc
      rw [f4] at this
      omega
    · rw [g1]
  · intro hs
    unfold rd_fwd_recvs at hs
    rw [Bool.and_eq_true] at hs
    obtain ⟨hsearch, hrecv⟩ := hs
    have hrecv' := (rd_recv_cond_iff p r s t).1 hrecv
    refine ⟨by omega, ?_⟩
    unfold rd_fwd_sends
    rw [Bool.and_eq_true, g2]
    refine ⟨hsearch, ?_⟩
    rw [rd_send_cond_iff, f3, f4, g3]
    exact ⟨hrecv'.2.1, hrecv'.2.2.1, hrecv'.2.2.2⟩

/-- One iteration of the forwarding search keeps the search invariant. -/
theorem rd_forward_all_inv (op : α → α → α) (x : Nat → Nat → α) (p m : Nat) {t s : Nat}
    (hts : t < s) (G0 G : Nat → RDState α)
    (hinv : RDFwdInv op x p m (2 ^ s) (2 ^ (t + 1)) G0 G) :
    ∃ G', rd_forward_all p m (2 ^ s) (2 ^ t) G = some G' ∧
      RDFwdInv op x p m (2 ^ s) (2 ^ t) G0 G' := by
  unfold rd_forward_all
  rw [if_pos (rd_fwd_matched_holds hts p m)]
  obtain ⟨G', hG'⟩ : ∃ G' : Nat → RDState α, G' = fun r =>
      if rd_fwd_recvs p r (2 ^ s) (2 ^ t) = true then
        { tmpbuf := (G r).tmpbuf
          tmprecv := unpack (rd_recvtype p m r (2 ^ s))
            (pack (rd_recvtype p m (r ^^^ 2 ^ t) (2 ^ s)) (G (r ^^^ 2 ^ t)).tmprecv) (G r).tmprecv
          is_block_received := true }
      else G r := ⟨_, rfl⟩
  refine ⟨G', by rw [hG'], ?_⟩
  intro r hr
  have hGr : G' r = if rd_fwd_recvs p r (2 ^ s) (2 ^ t) = true then
        { tmpbuf := (G r).tmpbuf
          tmprecv := unpack (rd_recvtype p m r (2 ^ s))
            (pack (rd_recvtype p m (r ^^^ 2 ^ t) (2 ^ s)) (G (r ^^^ 2 ^ t)).tmprecv) (G r).tmprecv
          is_block_received := true }
      else G r := by rw [hG']
  obtain ⟨f1, f2, f3, f4⟩ := fwd_partner_facts hts r
  obtain ⟨g1, g2, g3⟩ := rd_fwd_partner_eq hts p m r
  obtain ⟨a1, a2, a3⟩ := subtree_facts (t + 1) r
  obtain ⟨c1, c2, c3⟩ := subtree_facts t r
  obtain ⟨b1, b2, b3⟩ := subtree_facts s r
  obtain ⟨d1, d2, -⟩ := subtree_facts (t + 1) (r ^^^ 2 ^ t)
  have hB : 2 ^ (t + 1) ≤ 2 ^ s := Nat.pow_le_pow_right (by norm_num) hts
  have ht : 0 < 2 ^ t := Nat.pow_pos (by norm_num)
  have hn : rd_nprocs_alldata p r (2 ^ s) =
      (p : Int) - (ompi_rounddown r (2 ^ s) : Int) - ((2 ^ s : Nat) : Int) := rfl
  obtain ⟨i1, i2, i3⟩ := hinv r hr
  by_cases hrecv : rd_fwd_recvs p r (2 ^ s) (2 ^ t) = true
  · -- the rank receives a forwarded message
    have hrecv0 := hrecv
    unfold rd_fwd_recvs at hrecv
    rw [Bool.and_eq_true] at hrecv
    obtain ⟨hsearch, hrc⟩ := hrecv
    have hrc' := (rd_recv_cond_iff p r s t).1 hrc
    have hrp : r ^^^ 2 ^ t < p := by omega
    obtain ⟨j1, j2, j3⟩ := hinv (r ^^^ 2 ^ t) hrp
    rw [if_pos hrecv0] at hGr
    unfold RDHasData
    rw [hGr]
    refine ⟨i1, ?_, ?_⟩
    · intro hrr _
      have hd : RDHasData op x p m (2 ^ s) G (r ^^^ 2 ^ t) := by
        apply j2
        · rw [f2]; exact hrr
        · right; rw [f3, g3]; omega
      refine ⟨rfl, ?_⟩
      intro e he
      dsimp only
      rw [g1, unpack_pack, if_pos he]
      have := hd.2 e (by rw [g1]; exact he)
      rw [f2] at this
      exact this
    · intro hrr
      exfalso
      rw [f3] at d1
      rcases b3 with ⟨e1, e2, e3⟩ | ⟨e1, e2, e3⟩ <;> omega
  · rw [if_neg hrecv] at hGr
    unfold RDHasData
    rw [hGr]
    refine ⟨i1, ?_, i3⟩
    intro hrr hcase
    apply i2 hrr
    rcases hcase with hcase | hcase
    · left; exact hcase
    · by_cases hlt : (r : Int) - (ompi_rounddown r (2 ^ (t + 1)) : Int) <
          rd_nprocs_alldata p r (2 ^ s)
      · right; exact hlt
      · by_cases hlow : ompi_rounddown (r ^^^ 2 ^ s) (2 ^ s) < ompi_rounddown r (2 ^ s)
        · left; exact hlow
        · exfalso
          apply hrecv
          unfold rd_fwd_recvs
          rw [Bool.and_eq_true]
          rcases c3 with ⟨e1, e2, e3⟩ | ⟨e1, e2, e3⟩
          · exfalso; omega
          · constructor
            · unfold rd_in_search
              rw [decide_eq_true_eq]
              rcases b3 with ⟨k1, k2, k3⟩ | ⟨k1, k2, k3⟩ <;> omega
            · rw [rd_recv_cond_iff]
              refine ⟨?_, by omega, by omega, by omega⟩
              rw [Bool.eq_false_iff]
              intro hc
              have := (rd_send_cond_iff p r s t).1 hc
              omega

/-- The forwarding search runs to its end and serves every rank of a subtree whose sibling
is not empty. -/
theorem rd_forward_loop_inv (op : α → α → α) (x : Nat → Nat → α) (p m s : Nat)
    (G0 : Nat → RDState α) : ∀ (t fuel : Nat) (G : Nat → RDState α), t ≤ s → t ≤ fuel →
    RDFwdInv op x p m (2 ^ s) (2 ^ t) G0 G →
    ∃ G', rd_forward_loop p m (2 ^ s) fuel (2 ^ t >>> 1) G = some G' ∧
      RDFwdInv op x p m (2 ^ s) 1 G0 G' := by
  intro t
  induction t with
  | zero =>
    intro fuel G _ _ hinv
    have h0 : (2 : Nat) ^ 0 >>> 1 = 0 := by decide
    rw [h0]
    refine ⟨G, ?_, by simpa using hinv⟩
    cases fuel <;> simp [rd_forward_loop]
  | succ t ih =>
    intro fuel G hts hfuel hinv
    obtain ⟨f, rfl⟩ : ∃ f, fuel = f + 1 := ⟨fuel - 1, by omega⟩
    have ht : 0 < 2 ^ t := Nat.pow_pos (by norm_num)
    obtain ⟨G1, e1, inv1⟩ := rd_forward_all_inv op x p m (by omega : t < s) G0 G hinv
    obtain ⟨G2, e2, inv2⟩ := ih f G1 (by omega) (by omega) inv1
    refine ⟨G2, ?_, inv2⟩
    rw [shr_two_pow]
    unfold rd_forward_loop
    rw [if_pos ht, e1]
    exact e2

/-- One step of the doubling loop succeeds and carries the loop invariant from `2 ^ s` to
`2 ^ (s + 1)`. -/
theorem rd_step_all_inv (op : α → α → α) (c : Bool)
    (hassoc : ∀ a b c, op (op a b) c = op a (op b c))
    (hcomm : c = true → ∀ a b, op a b = op b a)
    (x : Nat → Nat → α) (p m s : Nat) (hm : 0 < m) (hfit : p * m < 2 ^ 31)
    (G : Nat → RDState α) (hinv : RDInv op x p m (2 ^ s) G) :
    ∃ G', rd_step_all op c p m (2 ^ s) G = some G' ∧ RDInv op x p m (2 ^ (s + 1)) G' := by
  have h1 := rd_sendrecv_inv op x p m s hm hfit G hinv
  obtain ⟨G2, e2, inv2⟩ := rd_forward_loop_inv op x p m s G s (2 ^ s)
    (rd_sendrecv_all p m (2 ^ s) G) (Nat.le_refl _) (Nat.le_of_lt (Nat.lt_two_pow s)) h1
  unfold rd_step_all
  rw [e2]
  refine ⟨_, rfl, ?_⟩
  intro r hr e he hblk
  obtain ⟨b1, b2, b3⟩ := subtree_facts s r
  have hM : 0 < 2 ^ s := Nat.pow_pos (by norm_num)
  have hM2 : 2 ^ (s + 1) = 2 * 2 ^ s := by rw [pow_succ, Nat.mul_comm]
  obtain ⟨i1, i2, i3⟩ := inv2 r hr
  have hr1 : ompi_rounddown r 1 = r := by unfold ompi_rounddown; simp
  have hn : rd_nprocs_alldata p r (2 ^ s) =
      (p : Int) - (ompi_rounddown r (2 ^ s) : Int) - ((2 ^ s : Nat) : Int) := rfl
  show (rd_reduce op c (ompi_rounddown r (2 ^ s)) (ompi_rounddown (r ^^^ 2 ^ s) (2 ^ s))
    (rd_recvtype p m r (2 ^ s)) (G2 r)).tmpbuf e = _
  by_cases hrr : ompi_rounddown (r ^^^ 2 ^ s) (2 ^ s) < p
  · have hd : RDHasData op x p m (2 ^ s) G2 r := by
      apply i2 hrr
      rw [hr1]
      rcases b3 with ⟨k1, k2, k3⟩ | ⟨k1, k2, k3⟩
      · right; omega
      · left; omega
    have o12 : (rd_recvtype p m r (2 ^ s)).displs0 = 0 ∧
        (rd_recvtype p m r (2 ^ s)).blocklens0 ≤ (rd_recvtype p m r (2 ^ s)).displs1 :=
      rd_indexed_ordered p m _ (2 ^ s) hfit (Nat.le_of_lt hrr)
    obtain ⟨o1, o2⟩ := o12
    have hcov : (rd_recvtype p m r (2 ^ s)).covers e = true := by
      unfold rd_recvtype
      rw [covers_rd_indexed hfit hm (Nat.le_of_lt hrr)]
      refine ⟨he, ?_⟩
      rcases b3 with ⟨k1, k2, k3⟩ | ⟨k1, k2, k3⟩ <;> omega
    rw [rd_reduce_tmpbuf op c _ _ _ _ o1 o2, if_pos ⟨hd.1, hcov⟩, hd.2 e hcov, i1]
    have hbuf := hinv r hr e he (by rcases b3 with ⟨k1, k2, k3⟩ | ⟨k1, k2, k3⟩ <;> omega)
    rw [hbuf]
    rcases b3 with ⟨k1, k2, k3⟩ | ⟨k1, k2, k3⟩
    · -- the sibling subtree is the upper one
      have hnot : ¬ ompi_rounddown (r ^^^ 2 ^ s) (2 ^ s) < ompi_rounddown r (2 ^ s) := by omega
      have e1 : min (ompi_rounddown r (2 ^ s) + 2 ^ s) p =
          ompi_rounddown (r ^^^ 2 ^ s) (2 ^ s) := by omega
      have e2 : min (ompi_rounddown r (2 ^ (s + 1)) + 2 ^ (s + 1)) p =
          min (ompi_rounddown (r ^^^ 2 ^ s) (2 ^ s) + 2 ^ s) p := by omega
      rw [e1, e2, k3]
      have hcat := segRed_append op hassoc x e (ompi_rounddown r (2 ^ s))
        (ompi_rounddown (r ^^^ 2 ^ s) (2 ^ s))
        (min (ompi_rounddown (r ^^^ 2 ^ s) (2 ^ s) + 2 ^ s) p) (by omega) (by omega)
      by_cases hc : c = true
      · rw [if_pos (Or.inl hc), hcomm hc]; exact hcat
      · rw [if_neg (by simp [hc, hnot])]; exact hcat
    · -- the sibling subtree is the lower one
      have hlow : ompi_rounddown (r ^^^ 2 ^ s) (2 ^ s) < ompi_rounddown r (2 ^ s) := by omega
      have e1 : min (ompi_rounddown (r ^^^ 2 ^ s) (2 ^ s) + 2 ^ s) p =
          ompi_rounddown r (2 ^ s) := by omega
      have e2 : min (ompi_rounddown r (2 ^ (s + 1)) + 2 ^ (s + 1)) p =
          min (ompi_rounddown r (2 ^ s) + 2 ^ s) p := by omega
      have e3 : ompi_rounddown r (2 ^ (s + 1)) = ompi_rounddown (r ^^^ 2 ^ s) (2 ^ s) := by
        omega
      rw [if_pos (Or.inr hlow), e1, e2, e3]
      exact segRed_append op hassoc x e _ _ _ hlow (by omega)
  · have hnr : (G2 r).is_block_received = false := i3 (by omega)
    rw [rd_reduce_received _ _ _ _ _ _ hnr, i1]
    rcases b3 with ⟨k1, k2, k3⟩ | ⟨k1, k2, k3⟩
    · have hbuf := hinv r hr e he (by omega)
      have e2 : min (ompi_rounddown r (2 ^ (s + 1)) + 2 ^ (s + 1)) p =
          min (ompi_rounddown r (2 ^ s) + 2 ^ s) p := by omega
      rw [hbuf, e2, k3]
    · exfalso; omega

/-- The doubling loop runs to its end within its fuel and leaves the invariant at a mask
that is not below the group size. -/
theorem rd_loop_inv (op : α → α → α) (c : Bool)
    (hassoc : ∀ a b c, op (op a b) c = op a (op b c))
    (hcomm : c = true → ∀ a b, op a b = op b a)
    (x : Nat → Nat → α) (p m : Nat) (hm : 0 < m) (hfit : p * m < 2 ^ 31) :
    ∀ (fuel s : Nat) (G : Nat → RDState α), p ≤ 2 ^ (s + fuel) → RDInv op x p m (2 ^ s) G →
    ∃ G' s', rd_loop op c p m fuel (2 ^ s) G = some G' ∧ p ≤ 2 ^ s' ∧
      RDInv op x p m (2 ^ s') G' := by
  intro fuel
  induction fuel with
  | zero =>
    intro s G hp hinv
    refine ⟨G, s, ?_, by simpa using hp, hinv⟩
    unfold rd_loop
    rw [if_neg (by simpa using hp)]
  | succ f ih =>
    intro s G hp hinv
    by_cases hlt : 2 ^ s < p
    · obtain ⟨G1, e1, inv1⟩ := rd_step_all_inv op c hassoc hcomm x p m s hm hfit G hinv
      obtain ⟨G2, s2, e2, hp2, inv2⟩ := ih (s + 1) G1
        (by rw [show s + 1 + f = s + (f + 1) by omega]; exact hp) inv1
      refine ⟨G2, s2, ?_, hp2, inv2⟩
      unfold rd_loop
      rw [if_pos hlt, e1, shl_two_pow]
      exact e2
    · refine ⟨G, s, ?_, by omega, hinv⟩
      unfold rd_loop
      rw [if_neg hlt]

/-- At the head of the first step the loop invariant holds: each rank holds its own input. -/
theorem rd_init_inv (op : α → α → α) (x : Nat → Nat → α) (p m : Nat) (hm : 0 < m)
    (G : Nat → RDState α) (junk : Nat → Nat → α)
    (hG : ∀ r, (G r).tmpbuf = ompi_datatype_copy_content_same_ddt (p * m) (junk r) 0 (x r) 0) :
    RDInv op x p m (2 ^ 0) G := by
  intro r hr e he _
  have he' : e < p * m := (Nat.div_lt_iff_lt_mul hm).1 he
  have hr1 : ompi_rounddown r (2 ^ 0) = r := by unfold ompi_rounddown; simp
  rw [hr1]
  have hmin : min (r + 2 ^ 0) p = r + 1 := by simp; omega
  rw [hmin, hG r]
  unfold segRed
  simp [ompi_datatype_copy_content_same_ddt, he', rangeRed]

/-- When the mask has reached the group size, the own block of every rank holds the
canonical result. -/
theorem rd_final_block (op : α → α → α) (x : Nat → Nat → α) (p m s : Nat) (hm : 0 < m)
    (G : Nat → RDState α) (hps : p ≤ 2 ^ s) (inv : RDInv op x p m (2 ^ s) G)
    (i k : Nat) (hi : i < p) (hk : k < m) :
    (G i).tmpbuf (i * m + k) = canonical op x p m i k := by
  have hroot : ompi_rounddown i (2 ^ s) = 0 := by
    unfold ompi_rounddown
    rw [Nat.div_eq_of_lt (by omega), Nat.zero_mul]
  have hblk : (i * m + k) / m = i := by
    rw [Nat.mul_comm, Nat.mul_add_div hm, Nat.div_eq_of_lt hk, Nat.add_zero]
  have h := inv i hi (i * m + k) (by rw [hblk]; exact hi) (Or.inr (Or.inr hblk))
  rw [hroot] at h
  have hmin : min (0 + 2 ^ s) p = p := by omega
  rw [hmin] at h
  rw [h]
  rfl

theorem rh_pof2_facts (p : Nat) (hp : 1 ≤ p) :
    rh_nprocs_pof2 p = 2 ^ Nat.log2 p ∧ rh_nprocs_pof2 p ≤ p ∧ p < 2 * rh_nprocs_pof2 p := by
  have h0 : p ≠ 0 := by omega
  have e : rh_nprocs_pof2 p = 2 ^ Nat.log2 p := by
    unfold rh_nprocs_pof2 opal_next_poweroftwo
    rw [if_neg h0, shr_two_pow]
  have h1 := Nat.log2_self_le h0
  have h2 := @Nat.lt_log2_self p
  rw [pow_succ] at h2
  rw [e]
  exact ⟨rfl, h1, by omega⟩

theorem rh_rem_eq (p : Nat) (hp : 1 ≤ p) : rh_nprocs_rem p = (rh_remN p : Int) := by
  obtain ⟨-, h, -⟩ := rh_pof2_facts p hp
  unfold rh_nprocs_rem rh_remN
  omega

/-- The virtual rank of a physical rank: `-1`, or a virtual rank below `nprocs_pof2` whose
physical rank it is. -/
theorem rh_vrank_cases (p r : Nat) (hp : 1 ≤ p) (hr : r < p) :
    (rh_vrank p r = -1 ∧ r % 2 = 0 ∧ r < 2 * rh_remN p) ∨
    (∃ v : Nat, rh_vrank p r = (v : Int) ∧ v < rh_nprocs_pof2 p ∧ rh_phys p v = r) := by
  obtain ⟨-, h1, h2⟩ := rh_pof2_facts p hp
  have hrem := rh_rem_eq p hp
  have hR : rh_remN p = p - rh_nprocs_pof2 p := rfl
  unfold rh_vrank rh_phys
  rw [hrem]
  by_cases hlt : (r : Int) < 2 * (rh_remN p : Int)
  · rw [if_pos hlt]
    by_cases hev : r % 2 = 0
    · rw [if_pos hev]; left; exact ⟨rfl, hev, by omega⟩
    · rw [if_neg hev]; right
      refine ⟨r / 2, rfl, by omega, ?_⟩
      rw [if_pos (by omega)]; omega
  · rw [if_neg hlt]; right
    refine ⟨r - rh_remN p, by omega, by omega, ?_⟩
    rw [if_neg (by omega)]; omega

/-- The physical rank of a virtual rank is a participating rank of the group with that
virtual rank. -/
theorem rh_vrank_phys (p v : Nat) (hp : 1 ≤ p) (hv : v < rh_nprocs_pof2 p) :
    rh_phys p v < p ∧ rh_vrank p (rh_phys p v) = (v : Int) := by
  obtain ⟨-, h1, h2⟩ := rh_pof2_facts p hp
  have hrem := rh_rem_eq p hp
  have hR : rh_remN p = p - rh_nprocs_pof2 p := rfl
  unfold rh_vrank rh_phys
  rw [hrem]
  by_cases hlt : v < rh_remN p
  · rw [if_pos hlt]
    refine ⟨by omega, ?_⟩
    rw [if_pos (by omega), if_neg (by omega)]
    congr 1; omega
  · rw [if_neg hlt]
    refine ⟨by omega, ?_⟩
    rw [if_neg (by omega)]; omega

theorem rh_W_lt (p : Nat) {a b : Nat} (h : a < b) : rh_W p a < rh_W p b := by
  unfold rh_W; split_ifs <;> omega

theorem rh_W_mono (p : Nat) {a b : Nat} (h : a ≤ b) : rh_W p a ≤ rh_W p b := by
  rcases Nat.eq_or_lt_of_le h with h | h
  · rw [h]
  · exact Nat.le_of_lt (rh_W_lt p h)

theorem rh_W_pof2 (p : Nat) (hp : 1 ≤ p) : rh_W p (rh_nprocs_pof2 p) = p := by
  obtain ⟨-, h1, h2⟩ := rh_pof2_facts p hp
  unfold rh_W rh_remN
  split_ifs <;> omega

/-- The window of a step lies within the virtual indices `0 .. p'`. -/
theorem window_le_pof2 (v i k : Nat) (hv : v < 2 ^ k) (hi : i + 1 ≤ k) :
    ompi_rounddown v (2 ^ (i + 1)) + 2 ^ (i + 1) ≤ 2 ^ k := by
  obtain ⟨c, rfl⟩ : ∃ c, k = (i + 1) + c := ⟨k - (i + 1), by omega⟩
  rw [pow_add] at hv
  have hM : 0 < 2 ^ (i + 1) := Nat.pow_pos (by norm_num)
  have hq : v / 2 ^ (i + 1) < 2 ^ c := Nat.div_lt_of_lt_mul hv
  unfold ompi_rounddown
  calc v / 2 ^ (i + 1) * 2 ^ (i + 1) + 2 ^ (i + 1)
      = (v / 2 ^ (i + 1) + 1) * 2 ^ (i + 1) := by rw [Nat.succ_mul]
    _ ≤ 2 ^ c * 2 ^ (i + 1) := Nat.mul_le_mul_right _ hq
    _ = 2 ^ (i + 1) * 2 ^ c := Nat.mul_comm _ _
    _ = 2 ^ (i + 1 + c) := (pow_add 2 (i + 1) c).symm

/-- The first block of a virtual index up to `p'` is a block of the group, or its end. -/
theorem rh_W_le (p : Nat) (hp : 1 ≤ p) {b : Nat} (hb : b ≤ rh_nprocs_pof2 p) : rh_W p b ≤ p := by
  have h := rh_W_mono p hb
  rw [rh_W_pof2 p hp] at h
  exact h

/-- The value of `ompi_range_sum` on a range of virtual indices: the wrapped difference of
block displacements. -/
theorem ompi_range_sum_eq (p : Nat) (hp : 1 ≤ p) (a b : Nat) (hab : a ≤ b) :
    ompi_range_sum (a : Int) ((b : Int) - 1) (rh_nprocs_rem p - 1) =
      int32 ((rh_W p b : Int) - (rh_W p a : Int)) := by
  rw [rh_rem_eq p hp]
  unfold ompi_range_sum rh_W
  split_ifs <;> (apply congrArg int32; omega)

/-- The closed form of `ompi_range_sum` as a difference of block displacements, for a range
of virtual indices up to `p'` in a group of less than `2 ^ 31` ranks. -/
theorem ompi_range_sum_exact (p : Nat) (hp : 1 ≤ p) (hp31 : p < 2 ^ 31) (a b : Nat)
    (hab : a ≤ b) (hb : b ≤ rh_nprocs_pof2 p) :
    ompi_range_sum (a : Int) ((b : Int) - 1) (rh_nprocs_rem p - 1) =
      (rh_W p b : Int) - (rh_W p a : Int) := by
  rw [ompi_range_sum_eq p hp a b hab]
  have h1 := rh_W_le p hp hb
  have h2 := rh_W_mono p hab
  apply int32_eq_self <;> omega

/-- The displacement computed in the halving loop is that of the virtual block. -/
theorem rh_displ_eq (p : Nat) (hp : 1 ≤ p) (m j : Nat) :
    (m : Int) * (if (j : Int) ≤ rh_nprocs_rem p - 1 then 2 * (j : Int)
      else rh_nprocs_rem p + (j : Int)) = ((m * rh_W p j : Nat) : Int) := by
  rw [rh_rem_eq p hp]
  unfold rh_W
  split_ifs <;> first | omega | (push_cast; ring)

/-- An element lies at or after the start of virtual block `j` iff its virtual block is at
least `j`. -/
theorem rh_W_le_iff (p m : Nat) (hm : 0 < m) (j e : Nat) :
    m * rh_W p j ≤ e ↔ j ≤ rh_vblock p m e := by
  have hle : ∀ k : Nat, k ≤ e / m ↔ m * k ≤ e := fun k => by
    rw [Nat.le_div_iff_mul_le hm, Nat.mul_comm]
  rw [← hle]
  unfold rh_W rh_vblock
  split_ifs <;> omega

theorem rh_phys_cast (p v : Nat) (hp : 1 ≤ p) :
    (if (v : Int) < rh_nprocs_rem p then (v : Int) * 2 + 1 else (v : Int) + rh_nprocs_rem p) =
      ((rh_phys p v : Nat) : Int) := by
  rw [rh_rem_eq p hp]
  unfold rh_phys
  split_ifs <;> omega

theorem xor_lt_pof2 (p v i : Nat) (hp : 1 ≤ p) (hv : v < rh_nprocs_pof2 p)
    (hi : i < Nat.log2 p) : v ^^^ 2 ^ i < rh_nprocs_pof2 p := by
  obtain ⟨hP, -, -⟩ := rh_pof2_facts p hp
  rw [hP] at hv ⊢
  exact Nat.xor_lt_two_pow hv (Nat.pow_lt_pow_right (by norm_num) hi)

/-- An aligned group of `2 ^ i` virtual indices below `2 ^ k` ends at `2 ^ k` at most. -/
theorem block_le_pof2 (v i k : Nat) (hv : v < 2 ^ k) (hi : i ≤ k) :
    ompi_rounddown v (2 ^ i) + 2 ^ i ≤ 2 ^ k := by
  obtain ⟨c, rfl⟩ : ∃ c, k = i + c := ⟨k - i, by omega⟩
  rw [pow_add] at hv
  have hM : 0 < 2 ^ i := Nat.pow_pos (by norm_num)
  have hq : v / 2 ^ i < 2 ^ c := Nat.div_lt_of_lt_mul hv
  unfold ompi_rounddown
  calc v / 2 ^ i * 2 ^ i + 2 ^ i
      = (v / 2 ^ i + 1) * 2 ^ i := by rw [Nat.succ_mul]
    _ ≤ 2 ^ c * 2 ^ i := Nat.mul_le_mul_right _ hq
    _ = 2 ^ i * 2 ^ c := Nat.mul_comm _ _
    _ = 2 ^ (i + c) := (pow_add 2 i c).symm

/-- A count of the halving loop that spans blocks of the group does not wrap. -/
theorem int32_count (p m a b : Nat) (hfit : p * m < 2 ^ 31) (hm : 0 < m) (hab : a ≤ b)
    (hb : b ≤ p) :
    int32 ((m : Int) * int32 ((b : Int) - (a : Int))) = (m : Int) * ((b : Int) - (a : Int)) := by
  have hp31 : p ≤ p * m := Nat.le_mul_of_pos_right p hm
  have h1 : int32 ((b : Int) - (a : Int)) = (b : Int) - (a : Int) := by
    apply int32_eq_self <;> omega
  have h2 : m * (b - a) ≤ p * m := by
    rw [Nat.mul_comm p m]; exact Nat.mul_le_mul_left m (by omega)
  have h3 : (m : Int) * ((b : Int) - (a : Int)) = ((m * (b - a) : Nat) : Int) := by
    rw [Int.natCast_mul, Int.natCast_sub hab]
  rw [h1, h3]
  exact int32_natCast (by omega)

/-- A displacement of the halving loop at a block of the group does not wrap. -/
theorem int32_displ (p m a : Nat) (hfit : p * m < 2 ^ 31) (ha : a ≤ p) :
    int32 ((m * a : Nat) : Int) = ((m * a : Nat) : Int) := by
  have h2 : m * a ≤ p * m := by
    rw [Nat.mul_comm p m]; exact Nat.mul_le_mul_left m ha
  exact int32_natCast (by omega)

/-- The plan of one iteration of the halving loop for a virtual rank whose window is the
aligned group of `2 ^ (i + 1)` virtual blocks around it; the counts and displacements are
the wrapped `int` products. -/
theorem rh_plan_fields_wrap (p m i v : Nat) (hp : 1 ≤ p) :
    rh_plan p m (v : Int) (2 ^ i)
      ⟨(ompi_rounddown v (2 ^ (i + 1)) : Nat), (ompi_rounddown v (2 ^ (i + 1)) : Nat),
        ((ompi_rounddown v (2 ^ (i + 1)) + 2 ^ (i + 1) : Nat) : Int)⟩ =
    { peer := ((rh_phys p (v ^^^ 2 ^ i) : Nat) : Int)
      send_index := ((ompi_rounddown (v ^^^ 2 ^ i) (2 ^ i) : Nat) : Int)
      recv_index := ((ompi_rounddown v (2 ^ i) : Nat) : Int)
      send_count := int32 ((m : Int) *
        int32 ((rh_W p (ompi_rounddown (v ^^^ 2 ^ i) (2 ^ i) + 2 ^ i) : Int) -
          (rh_W p (ompi_rounddown (v ^^^ 2 ^ i) (2 ^ i)) : Int)))
      recv_count := int32 ((m : Int) *
        int32 ((rh_W p (ompi_rounddown v (2 ^ i) + 2 ^ i) : Int) -
          (rh_W p (ompi_rounddown v (2 ^ i)) : Int)))
      rdispl := int32 ((m * rh_W p (ompi_rounddown v (2 ^ i)) : Nat) : Int)
      sdispl := int32 ((m * rh_W p (ompi_rounddown (v ^^^ 2 ^ i) (2 ^ i)) : Nat) : Int) } := by
  obtain ⟨b1, b2, b3⟩ := subtree_facts i v
  have hM : 0 < 2 ^ i := Nat.pow_pos (by norm_num)
  have hM2 : 2 ^ (i + 1) = 2 ^ i + 2 ^ i := by rw [pow_succ]; omega
  have hto : ((v : Int).toNat ^^^ 2 ^ i) = v ^^^ 2 ^ i := by simp
  unfold rh_plan
  simp only [hto, rh_phys_cast p _ hp, rh_displ_eq p hp]
  rcases b3 with ⟨k1, k2, k3⟩ | ⟨k1, k2, k3⟩
  · have hlt : (v : Int) < ((v ^^^ 2 ^ i : Nat) : Int) := by omega
    rw [if_pos hlt]
    have e1 : ((ompi_rounddown v (2 ^ (i + 1)) : Nat) : Int) + ((2 ^ i : Nat) : Int) =
        ((ompi_rounddown (v ^^^ 2 ^ i) (2 ^ i) : Nat) : Int) := by omega
    have e2 : ompi_rounddown v (2 ^ (i + 1)) + 2 ^ (i + 1) =
        ompi_rounddown (v ^^^ 2 ^ i) (2 ^ i) + 2 ^ i := by omega
    rw [e1, e2, k3, ompi_range_sum_eq p hp _ _ (by omega),
      ompi_range_sum_eq p hp _ _ (by omega), k2, rh_displ_eq p hp]
  · have hlt : ¬ (v : Int) < ((v ^^^ 2 ^ i : Nat) : Int) := by omega
    rw [if_neg hlt]
    have e1 : ((ompi_rounddown v (2 ^ (i + 1)) : Nat) : Int) + ((2 ^ i : Nat) : Int) =
        ((ompi_rounddown v (2 ^ i) : Nat) : Int) := by omega
    have e2 : ompi_rounddown v (2 ^ (i + 1)) + 2 ^ (i + 1) =
        ompi_rounddown v (2 ^ i) + 2 ^ i := by omega
    have e3 : ompi_rounddown v (2 ^ (i + 1)) = ompi_rounddown (v ^^^ 2 ^ i) (2 ^ i) := by omega
    have e4 : ompi_rounddown v (2 ^ i) = ompi_rounddown (v ^^^ 2 ^ i) (2 ^ i) + 2 ^ i := by omega
    rw [e1, e2, e3, ompi_range_sum_eq p hp _ _ (by omega),
      ompi_range_sum_eq p hp _ _ (by omega), e4, rh_displ_eq p hp]

/-- The plan of one iteration of the halving loop for a virtual rank whose window is the
aligned group of `2 ^ (i + 1)` virtual blocks around it, when `comm_size * rcount` fits in
an `int`: no product wraps. -/
theorem rh_plan_fields (p m i v : Nat) (hp : 1 ≤ p) (hm : 0 < m) (hfit : p * m < 2 ^ 31)
    (hv : v < rh_nprocs_pof2 p) (hi : i < Nat.log2 p) :
    rh_plan p m (v : Int) (2 ^ i)
      ⟨(ompi_rounddown v (2 ^ (i + 1)) : Nat), (ompi_rounddown v (2 ^ (i + 1)) : Nat),
        ((ompi_rounddown v (2 ^ (i + 1)) + 2 ^ (i + 1) : Nat) : Int)⟩ =
    { peer := ((rh_phys p (v ^^^ 2 ^ i) : Nat) : Int)
      send_index := ((ompi_rounddown (v ^^^ 2 ^ i) (2 ^ i) : Nat) : Int)
      recv_index := ((ompi_rounddown v (2 ^ i) : Nat) : Int)
      send_count := (m : Int) * ((rh_W p (ompi_rounddown (v ^^^ 2 ^ i) (2 ^ i) + 2 ^ i) : Int) -
        (rh_W p (ompi_rounddown (v ^^^ 2 ^ i) (2 ^ i)) : Int))
      recv_count := (m : Int) * ((rh_W p (ompi_rounddown v (2 ^ i) + 2 ^ i) : Int) -
        (rh_W p (ompi_rounddown v (2 ^ i)) : Int))
      rdispl := ((m * rh_W p (ompi_rounddown v (2 ^ i)) : Nat) : Int)
      sdispl := ((m * rh_W p (ompi_rounddown (v ^^^ 2 ^ i) (2 ^ i)) : Nat) : Int) } := by
  obtain ⟨hP, -, -⟩ := rh_pof2_facts p hp
  have hx := xor_lt_pof2 p v i hp hv hi
  have w1 : ompi_rounddown v (2 ^ i) + 2 ^ i ≤ rh_nprocs_pof2 p := by
    rw [hP] at hv ⊢
    exact block_le_pof2 v i _ hv (Nat.le_of_lt hi)
  have w2 : ompi_rounddown (v ^^^ 2 ^ i) (2 ^ i) + 2 ^ i ≤ rh_nprocs_pof2 p := by
    rw [hP] at hx ⊢
    exact block_le_pof2 _ i _ hx (Nat.le_of_lt hi)
  rw [rh_plan_fields_wrap p m i v hp,
    int32_count p m _ _ hfit hm (rh_W_mono p (Nat.le_add_right _ _)) (rh_W_le p hp w2),
    int32_count p m _ _ hfit hm (rh_W_mono p (Nat.le_add_right _ _)) (rh_W_le p hp w1),
    int32_displ p m _ hfit (rh_W_le p hp (Nat.le_trans (Nat.le_add_right _ _) w1)),
    int32_displ p m _ hfit (rh_W_le p hp (Nat.le_trans (Nat.le_add_right _ _) w2))]

theorem strideRed_zero (op : α → α → α) (f : Nat → α) (a d : Nat) :
    strideRed op f a d 0 = f a := by
  simp [strideRed, rangeRed]

theorem strideRed_succ (op : α → α → α) (f : Nat → α) (a d n : Nat) :
    strideRed op f a d (n + 1) = op (strideRed op f a d n) (f (a + (n + 1) * d)) := by
  simp [strideRed, rangeRed]

/-- Two interleaved strided reductions merge into the reduction of half the stride, for an
associative and commutative operator. -/
theorem strideRed_merge (op : α → α → α) (hassoc : ∀ a b c, op (op a b) c = op a (op b c))
    (hcomm : ∀ a b, op a b = op b a) (f : Nat → α) (a d n : Nat) :
    op (strideRed op f a (2 * d) n) (strideRed op f (a + d) (2 * d) n) =
      strideRed op f a d (2 * n + 1) := by
  induction n with
  | zero =>
    rw [strideRed_zero, strideRed_zero, show 2 * 0 + 1 = 0 + 1 from rfl, strideRed_succ,
      strideRed_zero]
    simp
  | succ n ih =>
    rw [strideRed_succ, strideRed_succ, show 2 * (n + 1) + 1 = (2 * n + 1) + 1 + 1 by omega,
      strideRed_succ, strideRed_succ, ← ih]
    have e1 : a + (n + 1) * (2 * d) = a + (2 * n + 1 + 1) * d := by ring
    have e2 : a + d + (n + 1) * (2 * d) = a + (2 * n + 1 + 1 + 1) * d := by ring
    rw [e1, e2]
    generalize strideRed op f a (2 * d) n = A
    generalize strideRed op f (a + d) (2 * d) n = B
    generalize f (a + (2 * n + 1 + 1) * d) = C
    generalize f (a + (2 * n + 1 + 1 + 1) * d) = D
    rw [hassoc A C, ← hassoc C B D, hcomm C B, hassoc B C D, ← hassoc A B, ← hassoc]

/-- Reducing the folded vectors of the virtual ranks in ascending order is reducing the
input vectors of the physical ranks in ascending order. -/
theorem rangeRed_folded (op : α → α → α) (hassoc : ∀ a b c, op (op a b) c = op a (op b c))
    (g : Nat → α) (R : Nat) (n : Nat) :
    rangeRed op (fun u => if u < R then op (g (2 * u)) (g (2 * u + 1)) else g (u + R)) 0 n =
      rangeRed op g 0 (if n < R then 2 * n + 1 else n + R) := by
  induction n with
  | zero =>
    by_cases h : 0 < R
    · simp [rangeRed, h]
    · have : R = 0 := by omega
      subst this
      simp [rangeRed]
  | succ n ih =>
    show op (rangeRed op _ 0 n) _ = _
    rw [ih]
    simp only [Nat.zero_add]
    by_cases h1 : n + 1 < R
    · have h0 : n < R := by omega
      rw [if_pos h1, if_pos h0, if_pos h1, ← hassoc]
      have : 2 * (n + 1) + 1 = (2 * n + 1) + 1 + 1 := by omega
      rw [this]
      simp only [rangeRed, Nat.zero_add]
      have e1 : 2 * (n + 1) = 2 * n + 1 + 1 := by omega
      rw [e1]
    · rw [if_neg h1, if_neg h1]
      by_cases h0 : n < R
      · rw [if_pos h0]
        have hR : R = n + 1 := by omega
        subst hR
        have : n + 1 + (n + 1) = (2 * n + 1) + 1 := by omega
        rw [this]
        simp only [rangeRed, Nat.zero_add]
      · rw [if_neg h0]
        have : n + 1 + R = (n + R) + 1 := by omega
        rw [this]
        simp only [rangeRed, Nat.zero_add]


theorem rounddown_block_iff {M : Nat} (hM : 0 < M) (v y : Nat) :
    (ompi_rounddown v M ≤ y ∧ y < ompi_rounddown v M + M) ↔ y / M = v / M := by
  unfold ompi_rounddown
  constructor
  · rintro ⟨h1, h2⟩
    apply Nat.div_eq_of_lt_le h1
    rw [Nat.succ_mul]; exact h2
  · intro h
    rw [← h]
    have h1 := Nat.div_add_mod y M
    have h2 := Nat.mod_lt y hM
    have h3 : M * (y / M) = y / M * M := Nat.mul_comm _ _
    omega

theorem mod_add_rounddown (v M : Nat) : v % M + ompi_rounddown v M = v := by
  unfold ompi_rounddown
  have h1 := Nat.div_add_mod v M
  have h3 : M * (v / M) = v / M * M := Nat.mul_comm _ _
  omega

/-- The partial results of a virtual rank and of its partner at distance `2 ^ i` merge into
the partial result of the next window size. -/
theorem rh_window_red_merge (op : α → α → α) (hassoc : ∀ a b c, op (op a b) c = op a (op b c))
    (hcomm : ∀ a b, op a b = op b a) (x : Nat → Nat → α) (p i v e : Nat) (hp : 1 ≤ p)
    (hi : i < Nat.log2 p) :
    op (rh_window_red op x p (i + 1) (v ^^^ 2 ^ i) e) (rh_window_red op x p (i + 1) v e) =
      rh_window_red op x p i v e := by
  obtain ⟨hP, -, -⟩ := rh_pof2_facts p hp
  obtain ⟨b1, b2, b3⟩ := subtree_facts i v
  obtain ⟨c1, c2, c3⟩ := subtree_facts i (v ^^^ 2 ^ i)
  have m1 := mod_add_rounddown v (2 ^ i)
  have m2 := mod_add_rounddown v (2 ^ (i + 1))
  have m3 := mod_add_rounddown (v ^^^ 2 ^ i) (2 ^ (i + 1))
  have hxx : (v ^^^ 2 ^ i) ^^^ 2 ^ i = v := by
    rw [Nat.xor_assoc, Nat.xor_self, Nat.xor_zero]
  rw [hxx] at c3
  have hM : 0 < 2 ^ i := Nat.pow_pos (by norm_num)
  have hpow : (2 : Nat) ^ (i + 1) = 2 * 2 ^ i := by rw [pow_succ, Nat.mul_comm]
  have hd1 : rh_nprocs_pof2 p / 2 ^ (i + 1) = 2 ^ (Nat.log2 p - (i + 1)) := by
    rw [hP, Nat.pow_div (by omega) (by norm_num)]
  have hd0 : rh_nprocs_pof2 p / 2 ^ i = 2 * 2 ^ (Nat.log2 p - (i + 1)) := by
    rw [hP, Nat.pow_div (by omega) (by norm_num), ← pow_succ']
    congr 1; omega
  have hq : 0 < 2 ^ (Nat.log2 p - (i + 1)) := Nat.pow_pos (by norm_num)
  unfold rh_window_red
  rw [hd1, hd0, hpow]
  have hn : 2 * 2 ^ (Nat.log2 p - (i + 1)) - 1 = 2 * (2 ^ (Nat.log2 p - (i + 1)) - 1) + 1 := by
    omega
  rw [hn, ← strideRed_merge op hassoc hcomm]
  rw [hpow] at m2 m3 c3 b3
  rcases b3 with ⟨k1, k2, k3⟩ | ⟨k1, k2, k3⟩
  · have e1 : v % (2 * 2 ^ i) = v % 2 ^ i := by omega
    have e2 : (v ^^^ 2 ^ i) % (2 * 2 ^ i) = v % 2 ^ i + 2 ^ i := by
      rcases c3 with ⟨l1, l2, l3⟩ | ⟨l1, l2, l3⟩ <;> omega
    rw [e1, e2, hcomm]
  · have e1 : v % (2 * 2 ^ i) = v % 2 ^ i + 2 ^ i := by omega
    have e2 : (v ^^^ 2 ^ i) % (2 * 2 ^ i) = v % 2 ^ i := by
      rcases c3 with ⟨l1, l2, l3⟩ | ⟨l1, l2, l3⟩ <;> omega
    rw [e1, e2]

/-- The plan of a participating rank under the loop invariant. -/
theorem rh_plan_of_inv (op : α → α → α) (x : Nat → Nat → α) (p m i : Nat) (hp : 1 ≤ p)
    (hm : 0 < m) (hfit : p * m < 2 ^ 31) (hi : i < Nat.log2 p)
    (G : Nat → RHState α) (hinv : RHInv op x p m (i + 1) G) (r v : Nat) (hr : r < p)
    (hv : rh_vrank p r = (v : Int)) :
    rh_plan_of p m (2 ^ i) G r =
    { peer := ((rh_phys p (v ^^^ 2 ^ i) : Nat) : Int)
      send_index := ((ompi_rounddown (v ^^^ 2 ^ i) (2 ^ i) : Nat) : Int)
      recv_index := ((ompi_rounddown v (2 ^ i) : Nat) : Int)
      send_count := (m : Int) * ((rh_W p (ompi_rounddown (v ^^^ 2 ^ i) (2 ^ i) + 2 ^ i) : Int) -
        (rh_W p (ompi_rounddown (v ^^^ 2 ^ i) (2 ^ i)) : Int))
      recv_count := (m : Int) * ((rh_W p (ompi_rounddown v (2 ^ i) + 2 ^ i) : Int) -
        (rh_W p (ompi_rounddown v (2 ^ i)) : Int))
      rdispl := ((m * rh_W p (ompi_rounddown v (2 ^ i)) : Nat) : Int)
      sdispl := ((m * rh_W p (ompi_rounddown (v ^^^ 2 ^ i) (2 ^ i)) : Nat) : Int) } := by
  obtain ⟨h1, h2⟩ := hinv r hr
  obtain ⟨h3, -⟩ := h2 v hv
  unfold rh_plan_of
  rw [h1, hv, h3]
  have hvP : v < rh_nprocs_pof2 p := by
    rcases rh_vrank_cases p r hp hr with ⟨hneg, -, -⟩ | ⟨v', hv', hvP, -⟩
    · rw [hneg] at hv; omega
    · rw [hv'] at hv
      have hvv : v' = v := by omega
      rw [← hvv]; exact hvP
  exact rh_plan_fields p m i v hp hm hfit hvP hi

theorem rh_count_cast (p m a M : Nat) (hM : 0 < M) :
    (m : Int) * ((rh_W p (a + M) : Int) - (rh_W p a : Int)) =
      ((m * rh_W p (a + M) - m * rh_W p a : Nat) : Int) ∧
    m * rh_W p a ≤ m * rh_W p (a + M) ∧
    (0 < m → 0 < (m : Int) * ((rh_W p (a + M) : Int) - (rh_W p a : Int))) := by
  have h := rh_W_lt p (show a < a + M by omega)
  have h2 : m * rh_W p a ≤ m * rh_W p (a + M) := Nat.mul_le_mul_left _ (Nat.le_of_lt h)
  refine ⟨?_, h2, ?_⟩
  · rw [Nat.cast_sub h2]; push_cast; ring
  · intro hm
    apply Int.mul_pos (by omega) (by omega)

/-- Every message of one iteration of the halving loop is matched. -/
theorem rh_matched_holds (op : α → α → α) (x : Nat → Nat → α) (p m i : Nat) (hp : 1 ≤ p)
    (hm : 0 < m) (hfit : p * m < 2 ^ 31)
    (hi : i < Nat.log2 p) (G : Nat → RHState α) (hinv : RHInv op x p m (i + 1) G) :
    rh_matched p m (2 ^ i) G := by
  intro r hr hpart
  obtain ⟨h1, -⟩ := hinv r hr
  rw [h1] at hpart
  rcases rh_vrank_cases p r hp hr with ⟨hneg, -, -⟩ | ⟨v, hv, hvP, hphys⟩
  · exact absurd hneg hpart
  · have hpl := rh_plan_of_inv op x p m i hp hm hfit hi G hinv r v hr hv
    have hvp := xor_lt_pof2 p v i hp hvP hi
    obtain ⟨q1, q2⟩ := rh_vrank_phys p (v ^^^ 2 ^ i) hp hvp
    have hplp := rh_plan_of_inv op x p m i hp hm hfit hi G hinv _ _ q1 q2
    have hxx : (v ^^^ 2 ^ i) ^^^ 2 ^ i = v := by
      rw [Nat.xor_assoc, Nat.xor_self, Nat.xor_zero]
    rw [hxx] at hplp
    intro pl _
    have hpeer : pl.peer = ((rh_phys p (v ^^^ 2 ^ i) : Nat) : Int) := by
      show (rh_plan_of p m (2 ^ i) G r).peer = _
      rw [hpl]
    have hto : pl.peer.toNat = rh_phys p (v ^^^ 2 ^ i) := by rw [hpeer]; simp
    rw [hto]
    refine ⟨by rw [hpeer]; omega, q1, ?_, ?_, ?_, ?_⟩
    · rw [(hinv _ q1).1, q2]; omega
    · rw [hplp, hphys]
    · show _ = (rh_plan_of p m (2 ^ i) G r).recv_count
      rw [hplp, hpl]
    · show _ = (rh_plan_of p m (2 ^ i) G r).send_count
      rw [hplp, hpl]

/-- One iteration of the halving loop succeeds and carries the invariant from windows of
`2 ^ (i + 1)` virtual blocks to windows of `2 ^ i`. -/
theorem rh_step_all_inv (op : α → α → α) (hassoc : ∀ a b c, op (op a b) c = op a (op b c))
    (hcomm : ∀ a b, op a b = op b a) (x : Nat → Nat → α) (p m i : Nat) (hp : 1 ≤ p)
    (hm : 0 < m) (hfit : p * m < 2 ^ 31) (hi : i < Nat.log2 p) (G : Nat → RHState α)
    (hinv : RHInv op x p m (i + 1) G) :
    ∃ G', rh_step_all op p m (2 ^ i) G = some G' ∧ RHInv op x p m i G' := by
  unfold rh_step_all
  rw [if_pos (rh_matched_holds op x p m i hp hm hfit hi G hinv)]
  refine ⟨_, rfl, ?_⟩
  intro r hr
  obtain ⟨h1, h2⟩ := hinv r hr
  have hM : 0 < 2 ^ i := Nat.pow_pos (by norm_num)
  rcases rh_vrank_cases p r hp hr with ⟨hneg, -, -⟩ | ⟨v, hv, hvP, hphys⟩
  · have hnp : ¬ (G r).vrank ≠ -1 := by rw [h1, hneg]; simp
    beta_reduce
    rw [if_neg hnp]
    refine ⟨h1, ?_⟩
    intro v hv
    rw [hneg] at hv
    omega
  · have hpart : (G r).vrank ≠ -1 := by rw [h1, hv]; omega
    beta_reduce
    rw [if_pos hpart]
    refine ⟨h1, ?_⟩
    intro v' hv'
    have hvv : v' = v := by rw [hv] at hv'; omega
    subst hvv
    obtain ⟨hw, hdata⟩ := h2 v' hv
    have hpl := rh_plan_of_inv op x p m i hp hm hfit hi G hinv r v' hr hv
    have hvp := xor_lt_pof2 p v' i hp hvP hi
    obtain ⟨q1, q2⟩ := rh_vrank_phys p (v' ^^^ 2 ^ i) hp hvp
    have hplp := rh_plan_of_inv op x p m i hp hm hfit hi G hinv _ _ q1 q2
    have hxx : (v' ^^^ 2 ^ i) ^^^ 2 ^ i = v' := by
      rw [Nat.xor_assoc, Nat.xor_self, Nat.xor_zero]
    rw [hxx] at hplp
    obtain ⟨c1, c2, c3⟩ := rh_count_cast p m (ompi_rounddown v' (2 ^ i)) (2 ^ i) hM
    rw [hpl]
    simp only [Int.toNat_ofNat, hplp]
    constructor
    · unfold rh_next_window
      simp only [Nat.cast_add]
    · intro e he hblk
      rw [if_pos (c3 hm), if_pos (c3 hm), c1]
      simp only [Int.toNat_ofNat]
      have hin : m * rh_W p (ompi_rounddown v' (2 ^ i)) ≤ e ∧
          e < m * rh_W p (ompi_rounddown v' (2 ^ i)) +
            (m * rh_W p (ompi_rounddown v' (2 ^ i) + 2 ^ i) -
              m * rh_W p (ompi_rounddown v' (2 ^ i))) := by
        have hb := (rounddown_block_iff hM v' (rh_vblock p m e)).2 hblk
        have k1 := (rh_W_le_iff p m hm (ompi_rounddown v' (2 ^ i)) e).2 hb.1
        have k2 := (rh_W_le_iff p m hm (ompi_rounddown v' (2 ^ i) + 2 ^ i) e)
        omega
      have hdiv2 : ∀ y : Nat, y / 2 ^ (i + 1) = y / 2 ^ i / 2 := by
        intro y; rw [pow_succ, Nat.div_div_eq_div_mul]
      have hb1 : rh_vblock p m e / 2 ^ (i + 1) = v' / 2 ^ (i + 1) := by
        rw [hdiv2, hdiv2 v', hblk]
      have hb2 : rh_vblock p m e / 2 ^ (i + 1) = (v' ^^^ 2 ^ i) / 2 ^ (i + 1) := by
        rw [hb1, div_xor_low (Nat.lt_succ_self i)]
      have d1 := hdata e he hb1
      have d2 := ((hinv _ q1).2 _ q2).2 e he hb2
      unfold ompi_op_reduce recv_contig
      rw [if_pos hin, if_pos hin, d1]
      have hoff : m * rh_W p (ompi_rounddown v' (2 ^ i)) +
          (e - m * rh_W p (ompi_rounddown v' (2 ^ i))) = e := by omega
      rw [hoff, d2]
      exact rh_window_red_merge op hassoc hcomm x p i v' e hp hi

/-- The virtual block of the own physical block of a participating rank is its virtual rank. -/
theorem rh_vblock_phys (p m v k : Nat) (hm : 0 < m) (hk : k < m) :
    rh_vblock p m (rh_phys p v * m + k) = v ∧
    (v < rh_remN p → rh_vblock p m ((rh_phys p v - 1) * m + k) = v) := by
  have hblk : ∀ b : Nat, (b * m + k) / m = b := fun b => by
    rw [Nat.mul_comm, Nat.mul_add_div hm, Nat.div_eq_of_lt hk, Nat.add_zero]
  unfold rh_vblock
  rw [hblk]
  unfold rh_phys
  constructor
  · split_ifs <;> omega
  · intro hv
    rw [hblk, if_pos hv]
    split_ifs <;> omega

/-- With a window of one virtual block the partial result is the canonical result. -/
theorem rh_window_red_zero (op : α → α → α) (hassoc : ∀ a b c, op (op a b) c = op a (op b c))
    (x : Nat → Nat → α) (p v e : Nat) (hp : 1 ≤ p) :
    rh_window_red op x p 0 v e = rangeRed op (fun j => x j e) 0 (p - 1) := by
  obtain ⟨hP, h1, h2⟩ := rh_pof2_facts p hp
  have hpos : 0 < rh_nprocs_pof2 p := by rw [hP]; exact Nat.pow_pos (by norm_num)
  have hR : rh_remN p = p - rh_nprocs_pof2 p := rfl
  unfold rh_window_red strideRed
  simp only [pow_zero, Nat.mod_one, Nat.div_one, Nat.mul_one, Nat.zero_add]
  unfold rh_folded
  rw [rangeRed_folded op hassoc (fun j => x j e) (rh_remN p) (rh_nprocs_pof2 p - 1),
    if_neg (by omega)]
  congr 1
  omega

theorem FirstError_checked {tr : List (Ev α)} {err : Int} (h : FirstError tr err)
    (h0 : err = 0) (c : Call α) (st : Int) : FirstError (tr ++ [⟨c, st⟩]) st := by
  rcases h with ⟨-, hall⟩ | ⟨pre, ev, post, -, -, hne, he, -⟩
  · by_cases hst : st = 0
    · left
      refine ⟨hst, ?_⟩
      intro e he
      rcases List.mem_append.1 he with h1 | h1
      · exact hall e h1
      · rw [List.mem_singleton] at h1; rw [h1]; exact hst
    · right
      exact ⟨tr, ⟨c, st⟩, [], rfl, hall, hst, rfl, by simp⟩
  · exact absurd (he ▸ h0) hne

theorem FirstError_quiet {tr : List (Ev α)} {err : Int} (h : FirstError tr err)
    (c : Call α) (hq : c.is_quiet = true) (st : Int) (hst : err = 0 → st = 0) :
    FirstError (tr ++ [⟨c, st⟩]) err := by
  rcases h with ⟨h0, hall⟩ | ⟨pre, ev, post, htr, hpre, hne, he, hpost⟩
  · left
    refine ⟨h0, ?_⟩
    intro e he
    rcases List.mem_append.1 he with h1 | h1
    · exact hall e h1
    · rw [List.mem_singleton] at h1; rw [h1]; exact hst h0
  · right
    refine ⟨pre, ev, post ++ [⟨c, st⟩], by rw [htr]; simp, hpre, hne, he, ?_⟩
    intro e he
    rcases List.mem_append.1 he with h1 | h1
    · exact hpost e h1
    · rw [List.mem_singleton] at h1; rw [h1]; exact hq

theorem FirstError_void {tr : List (Ev α)} {err : Int} (h : FirstError tr err)
    (h0 : err = 0) (c : Call α) : FirstError (tr ++ [⟨c, 0⟩]) err := by
  have := FirstError_checked h h0 c 0
  rw [h0]; exact this

theorem counts_neutral (c : Call α) (hc : c.is_neutral = true) (st : Int) (n : Nat)
    (tr : List (Ev α)) :
    allocated n (tr ++ [⟨c, st⟩]) = allocated n tr ∧ freed n (tr ++ [⟨c, st⟩]) = freed n tr ∧
    created n (tr ++ [⟨c, st⟩]) = created n tr ∧
    destroyed n (tr ++ [⟨c, st⟩]) = destroyed n tr := by
  unfold allocated freed created destroyed
  simp only [List.countP_append, List.countP_cons, List.countP_nil]
  cases c <;>
    simp_all [Ev.is_alloc, Ev.is_free, Ev.is_create, Ev.is_destroy, Call.is_neutral]

theorem RInv_checked {ds dr : Bool} {k : Ctl α} (env : Env α) (c : Call α)
    (hc : c.is_neutral = true) (h : RInv ds dr k) (h0 : k.err = 0) :
    RInv ds dr (k.checked env c) := by
  obtain ⟨h1, h2, h3⟩ := h
  have hn := fun n => counts_neutral c hc (env.status k.trace.length) n k.trace
  refine ⟨FirstError_checked h1 h0 c _, ?_, fun _ => h3 h0⟩
  unfold Ctl.balanced Ctl.checked
  simp only [(hn 0).1, (hn 0).2.1, (hn 0).2.2.1, (hn 0).2.2.2, (hn 1).1, (hn 1).2.1,
    (hn 1).2.2.1, (hn 1).2.2.2]
  exact h2

theorem RInv_void {ds dr : Bool} {k : Ctl α} (c : Call α)
    (hc : c.is_neutral = true) (h : RInv ds dr k) (h0 : k.err = 0) :
    RInv ds dr (k.unchecked c 0) := by
  obtain ⟨h1, h2, h3⟩ := h
  have hn := fun n => counts_neutral c hc 0 n k.trace
  refine ⟨FirstError_void h1 h0 c, ?_, fun _ => h3 h0⟩
  unfold Ctl.balanced Ctl.unchecked
  simp only [(hn 0).1, (hn 0).2.1, (hn 0).2.2.1, (hn 0).2.2.2, (hn 1).1, (hn 1).2.1,
    (hn 1).2.2.1, (hn 1).2.2.2]
  exact h2

theorem RInv_stage {ds dr ds' dr' : Bool} {k : Ctl α} (h : RInv ds dr k) (h0 : k.err ≠ 0) :
    RInv ds' dr' k :=
  ⟨h.1, h.2.1, fun h1 => absurd h1 h0⟩

theorem RInv_andThen (ds dr : Bool) {ds' dr' : Bool} (s : Local α) (f : Local α → Local α)
    (h : RInv ds dr s.ctl)
    (hf : ∀ s : Local α, RInv ds dr s.ctl → s.ctl.err = 0 → RInv ds' dr' (f s).ctl) :
    RInv ds' dr' (s.andThen f).ctl := by
  unfold Local.andThen
  by_cases h0 : s.ctl.err = 0
  · rw [if_pos h0]; exact hf s h h0
  · rw [if_neg h0]; exact RInv_stage h h0

theorem counts_create (h : Nat) (t : Indexed) (st : Int) (n : Nat) (tr : List (Ev α)) :
    allocated n (tr ++ [⟨.create_indexed h t, st⟩]) = allocated n tr ∧
    freed n (tr ++ [⟨.create_indexed h t, st⟩]) = freed n tr ∧
    created n (tr ++ [⟨.create_indexed h t, st⟩]) =
      created n tr + (if h = n ∧ st = 0 then 1 else 0) ∧
    destroyed n (tr ++ [⟨.create_indexed h t, st⟩]) = destroyed n tr := by
  unfold allocated freed created destroyed
  simp only [List.countP_append, List.countP_cons, List.countP_nil]
  simp [Ev.is_alloc, Ev.is_free, Ev.is_create, Ev.is_destroy]

theorem counts_destroy (h : Nat) (b : Bool) (st : Int) (n : Nat) (tr : List (Ev α)) :
    allocated n (tr ++ [⟨.destroy h b, st⟩]) = allocated n tr ∧
    freed n (tr ++ [⟨.destroy h b, st⟩]) = freed n tr ∧
    created n (tr ++ [⟨.destroy h b, st⟩]) = created n tr ∧
    destroyed n (tr ++ [⟨.destroy h b, st⟩]) =
      destroyed n tr + (if h = n ∧ st = 0 then 1 else 0) := by
  unfold allocated freed created destroyed
  simp only [List.countP_append, List.countP_cons, List.countP_nil]
  simp [Ev.is_alloc, Ev.is_free, Ev.is_create, Ev.is_destroy]

theorem counts_free (h : Nat) (st : Int) (n : Nat) (tr : List (Ev α)) :
    allocated n (tr ++ [⟨.free h, st⟩]) = allocated n tr ∧
    freed n (tr ++ [⟨.free h, st⟩]) = freed n tr + (if h = n then 1 else 0) ∧
    created n (tr ++ [⟨.free h, st⟩]) = created n tr ∧
    destroyed n (tr ++ [⟨.free h, st⟩]) = destroyed n tr := by
  unfold allocated freed created destroyed
  simp only [List.countP_append, List.countP_cons, List.countP_nil]
  simp [Ev.is_alloc, Ev.is_free, Ev.is_create, Ev.is_destroy]

theorem alloc_scratch_inv (env : Env α) (rbuf s0 s1 : Nat → α) :
    RInv false false (alloc_scratch env (Local.init rbuf s0 s1)).ctl := by
  have hne : OMPI_ERR_OUT_OF_RESOURCE ≠ 0 := by decide
  unfold alloc_scratch Local.init
  simp only [List.nil_append, List.length_nil, Nat.zero_add]
  refine ⟨?_, ?_, ?_⟩
  · by_cases h0 : env.status 0 = 0
    · by_cases h1 : env.status 1 = 0
      · left
        simp [h0, h1, MPI_SUCCESS]
      · right
        refine ⟨[⟨.malloc 0, 0⟩], ⟨.malloc 1, OMPI_ERR_OUT_OF_RESOURCE⟩, [], ?_, ?_, hne, ?_, ?_⟩
        · simp [h0, h1]
        · simp
        · simp [h0, h1]
        · simp
    · right
      refine ⟨[], ⟨.malloc 0, OMPI_ERR_OUT_OF_RESOURCE⟩,
        [⟨.malloc 1, if decide (env.status 1 = 0) = true then 0 else OMPI_ERR_OUT_OF_RESOURCE⟩],
        ?_, ?_, hne, ?_, ?_⟩
      · simp [h0]
      · simp
      · simp [h0]
      · simp [Call.is_quiet]
  · unfold Ctl.balanced allocated freed created destroyed
    by_cases h0 : env.status 0 = 0 <;> by_cases h1 : env.status 1 = 0 <;>
      simp [h0, h1, Ev.is_alloc, Ev.is_free, Ev.is_create, Ev.is_destroy, hne]
  · intro _; exact ⟨rfl, rfl⟩

theorem copy_in_inv {ds dr : Bool} (env : Env α) (n : Nat) (sbuf : Option (Nat → α))
    (s : Local α) (h : RInv ds dr s.ctl) (h0 : s.ctl.err = 0) :
    RInv ds dr (copy_in env n sbuf s).ctl := by
  unfold copy_in
  simp only
  split_ifs <;> exact RInv_checked env _ rfl h h0

theorem copy_out_inv {ds dr : Bool} (env : Env α) (n off : Nat)
    (s : Local α) (h : RInv ds dr s.ctl) (h0 : s.ctl.err = 0) :
    RInv ds dr (copy_out env n off s).ctl := by
  unfold copy_out
  simp only
  split_ifs <;> exact RInv_checked env _ rfl h h0

theorem rd_commit_inv {ds dr : Bool} (env : Env α) (hd : Nat)
    (s : Local α) (h : RInv ds dr s.ctl) (h0 : s.ctl.err = 0) :
    RInv ds dr (rd_commit env hd s).ctl :=
  RInv_checked env _ rfl h h0

theorem rd_create_inv0 {dr : Bool} (env : Env α) (t : Indexed)
    (s : Local α) (h : RInv false dr s.ctl) (h0 : s.ctl.err = 0) :
    RInv true dr (rd_create env 0 t s).ctl := by
  obtain ⟨h1, h2, h3⟩ := h
  obtain ⟨p1, p2⟩ := h3 h0
  have hn := fun n => counts_create 0 t (env.status s.ctl.trace.length) n s.ctl.trace
  unfold rd_create
  simp only [if_true]
  unfold RInv Ctl.balanced at *
  by_cases hst : env.status s.ctl.trace.length = 0
  · have hk : (s.ctl.checked env (.create_indexed 0 t)).err = 0 := hst
    rw [if_pos hk]
    refine ⟨FirstError_checked h1 h0 _ _, ?_, fun _ => ⟨rfl, p2⟩⟩
    simp only [Ctl.checked, (hn 0).1, (hn 0).2.1, (hn 0).2.2.1, (hn 0).2.2.2, (hn 1).1,
      (hn 1).2.1, (hn 1).2.2.1, (hn 1).2.2.2]
    simp [hst, p1] at h2 ⊢
    omega
  · have hk : ¬ (s.ctl.checked env (.create_indexed 0 t)).err = 0 := hst
    rw [if_neg hk]
    refine ⟨FirstError_checked h1 h0 _ _, ?_, fun h' => absurd h' hk⟩
    simp only [Ctl.checked, (hn 0).1, (hn 0).2.1, (hn 0).2.2.1, (hn 0).2.2.2, (hn 1).1,
      (hn 1).2.1, (hn 1).2.2.1, (hn 1).2.2.2]
    simp [hst] at h2 ⊢
    omega

theorem rd_create_inv1 {ds : Bool} (env : Env α) (t : Indexed)
    (s : Local α) (h : RInv ds false s.ctl) (h0 : s.ctl.err = 0) :
    RInv ds true (rd_create env 1 t s).ctl := by
  obtain ⟨h1, h2, h3⟩ := h
  obtain ⟨p1, p2⟩ := h3 h0
  have hn := fun n => counts_create 1 t (env.status s.ctl.trace.length) n s.ctl.trace
  unfold rd_create
  simp only [if_false, Nat.one_ne_zero]
  unfold RInv Ctl.balanced at *
  by_cases hst : env.status s.ctl.trace.length = 0
  · have hk : (s.ctl.checked env (.create_indexed 1 t)).err = 0 := hst
    rw [if_pos hk]
    refine ⟨FirstError_checked h1 h0 _ _, ?_, fun _ => ⟨p1, rfl⟩⟩
    simp only [Ctl.checked, (hn 0).1, (hn 0).2.1, (hn 0).2.2.1, (hn 0).2.2.2, (hn 1).1,
      (hn 1).2.1, (hn 1).2.2.1, (hn 1).2.2.2]
    simp [hst, p2] at h2 ⊢
    omega
  · have hk : ¬ (s.ctl.checked env (.create_indexed 1 t)).err = 0 := hst
    rw [if_neg hk]
    refine ⟨FirstError_checked h1 h0 _ _, ?_, fun h' => absurd h' hk⟩
    simp only [Ctl.checked, (hn 0).1, (hn 0).2.1, (hn 0).2.2.1, (hn 0).2.2.2, (hn 1).1,
      (hn 1).2.1, (hn 1).2.2.1, (hn 1).2.2.2]
    simp [hst] at h2 ⊢
    omega

theorem rd_destroy_inv0 {dr : Bool} (env : Env α)
    (s : Local α) (h : RInv true dr s.ctl) (h0 : s.ctl.err = 0) :
    RInv false dr (rd_destroy env 0 s).ctl := by
  obtain ⟨h1, h2, h3⟩ := h
  obtain ⟨p1, p2⟩ := h3 h0
  have hn := fun n => counts_destroy 0 false (env.status s.ctl.trace.length) n s.ctl.trace
  unfold rd_destroy
  simp only [if_true]
  unfold RInv Ctl.balanced at *
  by_cases hst : env.status s.ctl.trace.length = 0
  · have hk : (s.ctl.checked env (.destroy 0 false)).err = 0 := hst
    rw [if_pos hk]
    refine ⟨FirstError_checked h1 h0 _ _, ?_, fun _ => ⟨rfl, p2⟩⟩
    simp only [Ctl.checked, (hn 0).1, (hn 0).2.1, (hn 0).2.2.1, (hn 0).2.2.2, (hn 1).1,
      (hn 1).2.1, (hn 1).2.2.1, (hn 1).2.2.2]
    simp [hst, p1] at h2 ⊢
    omega
  · have hk : ¬ (s.ctl.checked env (.destroy 0 false)).err = 0 := hst
    rw [if_neg hk]
    refine ⟨FirstError_checked h1 h0 _ _, ?_, fun h' => absurd h' hk⟩
    simp only [Ctl.checked, (hn 0).1, (hn 0).2.1, (hn 0).2.2.1, (hn 0).2.2.2, (hn 1).1,
      (hn 1).2.1, (hn 1).2.2.1, (hn 1).2.2.2]
    simp [hst] at h2 ⊢
    omega

theorem rd_destroy_inv1 {ds : Bool} (env : Env α)
    (s : Local α) (h : RInv ds true s.ctl) (h0 : s.ctl.err = 0) :
    RInv ds false (rd_destroy env 1 s).ctl := by
  obtain ⟨h1, h2, h3⟩ := h
  obtain ⟨p1, p2⟩ := h3 h0
  have hn := fun n => counts_destroy 1 false (env.status s.ctl.trace.length) n s.ctl.trace
  unfold rd_destroy
  simp only [if_false, Nat.one_ne_zero]
  unfold RInv Ctl.balanced at *
  by_cases hst : env.status s.ctl.trace.length = 0
  · have hk : (s.ctl.checked env (.destroy 1 false)).err = 0 := hst
    rw [if_pos hk]
    refine ⟨FirstError_checked h1 h0 _ _, ?_, fun _ => ⟨p1, rfl⟩⟩
    simp only [Ctl.checked, (hn 0).1, (hn 0).2.1, (hn 0).2.2.1, (hn 0).2.2.2, (hn 1).1,
      (hn 1).2.1, (hn 1).2.2.1, (hn 1).2.2.2]
    simp [hst, p2] at h2 ⊢
    omega
  · have hk : ¬ (s.ctl.checked env (.destroy 1 false)).err = 0 := hst
    rw [if_neg hk]
    refine ⟨FirstError_checked h1 h0 _ _, ?_, fun h' => absurd h' hk⟩
    simp only [Ctl.checked, (hn 0).1, (hn 0).2.1, (hn 0).2.2.1, (hn 0).2.2.2, (hn 1).1,
      (hn 1).2.1, (hn 1).2.2.1, (hn 1).2.2.2]
    simp [hst] at h2 ⊢
    omega

theorem rd_sendrecv_ctl {ds dr : Bool} (env : Env α) (p m rank mask : Nat)
    (s : Local α) (h : RInv ds dr s.ctl) (h0 : s.ctl.err = 0) :
    RInv ds dr (rd_sendrecv env p m rank mask s).ctl := by
  unfold rd_sendrecv
  simp only
  split_ifs
  · exact RInv_checked env _ rfl h h0
  · exact RInv_checked env _ rfl h h0
  · exact h

theorem rd_fwd_iter_ctl {ds dr : Bool} (env : Env α) (p m rank mask hm : Nat)
    (s : Local α) (h : RInv ds dr s.ctl) (h0 : s.ctl.err = 0) :
    RInv ds dr (rd_fwd_iter env p m rank mask hm s).ctl := by
  unfold rd_fwd_iter
  simp only
  split_ifs
  · exact RInv_checked env _ rfl h h0
  · exact RInv_checked env _ rfl h h0
  · exact RInv_checked env _ rfl h h0
  · exact h

theorem rd_fwd_loop_ctl {ds dr : Bool} (env : Env α) (p m rank mask : Nat) :
    ∀ (fuel hm : Nat) (s : Local α), RInv ds dr s.ctl → s.ctl.err = 0 →
    RInv ds dr (rd_fwd_loop env p m rank mask fuel hm s).ctl := by
  intro fuel
  induction fuel with
  | zero => intro hm s h _; exact h
  | succ f ih =>
    intro hm s h h0
    unfold rd_fwd_loop
    split_ifs
    · exact RInv_andThen _ _ _ _ (rd_fwd_iter_ctl env p m rank mask hm s h h0)
        (fun s' h' h0' => ih _ s' h' h0')
    · exact h

theorem rd_search_ctl {ds dr : Bool} (env : Env α) (p m rank mask : Nat)
    (s : Local α) (h : RInv ds dr s.ctl) (h0 : s.ctl.err = 0) :
    RInv ds dr (rd_search env p m rank mask s).ctl := by
  unfold rd_search
  split_ifs
  · exact rd_fwd_loop_ctl env p m rank mask _ _ s h h0
  · exact h

theorem rd_reduce_step_ctl {ds dr : Bool} (env : Env α) (op : α → α → α) (c : Bool)
    (p m rank mask : Nat) (s : Local α) (h : RInv ds dr s.ctl) (h0 : s.ctl.err = 0) :
    RInv ds dr (rd_reduce_step env op c p m rank mask s).ctl := by
  have hv := RInv_void (.op_reduce (rd_recvtype p m rank mask).blocklens1) rfl
    (RInv_void (.op_reduce (rd_recvtype p m rank mask).blocklens0) rfl h h0) h0
  unfold rd_reduce_step
  simp only
  split_ifs
  · exact hv
  · exact RInv_checked env _ rfl hv h0
  · exact RInv_checked env _ rfl hv h0
  · exact h

theorem rd_iter_ctl (env : Env α) (op : α → α → α) (c : Bool)
    (p m rank mask : Nat) (s : Local α) (h : RInv false false s.ctl) (h0 : s.ctl.err = 0) :
    RInv false false (rd_iter env op c p m rank mask s).ctl := by
  unfold rd_iter
  refine RInv_andThen false true _ _ ?_ (fun s h h0 => rd_destroy_inv1 env s h h0)
  refine RInv_andThen true true _ _ ?_ (fun s h h0 => rd_destroy_inv0 env s h h0)
  refine RInv_andThen true true _ _ ?_
    (fun s h h0 => rd_reduce_step_ctl env op c p m rank mask s h h0)
  refine RInv_andThen true true _ _ ?_
    (fun s h h0 => rd_search_ctl env p m rank mask s h h0)
  refine RInv_andThen true true _ _ ?_
    (fun s h h0 => rd_sendrecv_ctl env p m rank mask _ h h0)
  refine RInv_andThen true true _ _ ?_
    (fun s h h0 => rd_commit_inv env 1 s h h0)
  refine RInv_andThen true false _ _ ?_
    (fun s h h0 => rd_create_inv1 env _ s h h0)
  refine RInv_andThen true false _ _ ?_
    (fun s h h0 => rd_commit_inv env 0 s h h0)
  exact rd_create_inv0 env _ s h h0

theorem rd_rank_loop_ctl (env : Env α) (op : α → α → α) (c : Bool) (p m rank : Nat) :
    ∀ (fuel mask : Nat) (s : Local α), RInv false false s.ctl → s.ctl.err = 0 →
    RInv false false (rd_rank_loop env op c p m rank fuel mask s).ctl := by
  intro fuel
  induction fuel with
  | zero => intro mask s h _; exact h
  | succ f ih =>
    intro mask s h h0
    unfold rd_rank_loop
    split_ifs
    · exact RInv_andThen _ _ _ _ (rd_iter_ctl env op c p m rank mask s h h0)
        (fun s' h' h0' => ih _ s' h' h0')
    · exact h

theorem rd_body_ctl (env : Env α) (op : α → α → α) (c : Bool) (sbuf : Option (Nat → α))
    (rbuf : Nat → α) (rcount comm_size rank : Nat) (s0 s1 : Nat → α) :
    RInv false false (rd_body env op c sbuf rbuf rcount comm_size rank s0 s1).ctl := by
  unfold rd_body
  refine RInv_andThen false false _ _ ?_
    (fun s h h0 => copy_out_inv env _ _ s h h0)
  refine RInv_andThen false false _ _ ?_
    (fun s h h0 => rd_rank_loop_ctl env op c _ _ _ _ _ s h h0)
  refine RInv_andThen false false _ _ ?_
    (fun s h h0 => copy_in_inv env _ _ s h h0)
  exact alloc_scratch_inv env rbuf s0 s1

theorem cleanup_destroy_inv0 (env : Env α) (k : Ctl α) (h : RInv false false k)
    (hp : k.dtypesend = true) : RInv false false (cleanup_destroy env 0 k) := by
  obtain ⟨h1, h2, h3⟩ := h
  have hne : k.err ≠ 0 := fun h0 => by have := (h3 h0).1; rw [hp] at this; cases this
  have hn := fun n => counts_destroy 0 true (env.status k.trace.length) n k.trace
  unfold cleanup_destroy
  simp only [if_true]
  unfold RInv Ctl.balanced at *
  by_cases hst : env.status k.trace.length = 0
  · rw [if_pos hst]
    refine ⟨FirstError_quiet h1 (.destroy 0 true) rfl _ (fun h0 => absurd h0 hne), ?_, fun h0 => absurd h0 hne⟩
    simp only [Ctl.unchecked, (hn 0).1, (hn 0).2.1, (hn 0).2.2.1, (hn 0).2.2.2, (hn 1).1,
      (hn 1).2.1, (hn 1).2.2.1, (hn 1).2.2.2]
    simp [hst, hp] at h2 ⊢
    omega
  · rw [if_neg hst]
    refine ⟨FirstError_quiet h1 (.destroy 0 true) rfl _ (fun h0 => absurd h0 hne), ?_, fun h0 => absurd h0 hne⟩
    simp only [Ctl.unchecked, (hn 0).1, (hn 0).2.1, (hn 0).2.2.1, (hn 0).2.2.2, (hn 1).1,
      (hn 1).2.1, (hn 1).2.2.1, (hn 1).2.2.2]
    simp [hst] at h2 ⊢
    omega

theorem cleanup_destroy_inv1 (env : Env α) (k : Ctl α) (h : RInv false false k)
    (hp : k.dtyperecv = true) : RInv false false (cleanup_destroy env 1 k) := by
  obtain ⟨h1, h2, h3⟩ := h
  have hne : k.err ≠ 0 := fun h0 => by have := (h3 h0).2; rw [hp] at this; cases this
  have hn := fun n => counts_destroy 1 true (env.status k.trace.length) n k.trace
  unfold cleanup_destroy
  simp only [if_false, Nat.one_ne_zero]
  unfold RInv Ctl.balanced at *
  by_cases hst : env.status k.trace.length = 0
  · rw [if_pos hst]
    refine ⟨FirstError_quiet h1 (.destroy 1 true) rfl _ (fun h0 => absurd h0 hne), ?_, fun h0 => absurd h0 hne⟩
    simp only [Ctl.unchecked, (hn 0).1, (hn 0).2.1, (hn 0).2.2.1, (hn 0).2.2.2, (hn 1).1,
      (hn 1).2.1, (hn 1).2.2.1, (hn 1).2.2.2]
    simp [hst, hp] at h2 ⊢
    omega
  · rw [if_neg hst]
    refine ⟨FirstError_quiet h1 (.destroy 1 true) rfl _ (fun h0 => absurd h0 hne), ?_, fun h0 => absurd h0 hne⟩
    simp only [Ctl.unchecked, (hn 0).1, (hn 0).2.1, (hn 0).2.2.1, (hn 0).2.2.2, (hn 1).1,
      (hn 1).2.1, (hn 1).2.2.1, (hn 1).2.2.2]
    simp [hst] at h2 ⊢
    omega

theorem free_inv0 (k : Ctl α) (h : RInv false false k) (hp : k.tmpbuf_raw = true) :
    RInv false false { (k.unchecked (.free 0) 0) with tmpbuf_raw := false } := by
  obtain ⟨h1, h2, h3⟩ := h
  have hn := fun n => counts_free 0 0 n k.trace
  unfold RInv Ctl.balanced at *
  refine ⟨FirstError_quiet h1 (.free 0) rfl _ (fun _ => rfl), ?_, h3⟩
  simp only [Ctl.unchecked, (hn 0).1, (hn 0).2.1, (hn 0).2.2.1, (hn 0).2.2.2, (hn 1).1,
    (hn 1).2.1, (hn 1).2.2.1, (hn 1).2.2.2]
  simp [hp] at h2 ⊢
  omega

theorem free_inv1 (k : Ctl α) (h : RInv false false k) (hp : k.tmprecv_raw = true) :
    RInv false false { (k.unchecked (.free 1) 0) with tmprecv_raw := false } := by
  obtain ⟨h1, h2, h3⟩ := h
  have hn := fun n => counts_free 1 0 n k.trace
  unfold RInv Ctl.balanced at *
  refine ⟨FirstError_quiet h1 (.free 1) rfl _ (fun _ => rfl), ?_, h3⟩
  simp only [Ctl.unchecked, (hn 0).1, (hn 0).2.1, (hn 0).2.2.1, (hn 0).2.2.2, (hn 1).1,
    (hn 1).2.1, (hn 1).2.2.1, (hn 1).2.2.2]
  simp [hp] at h2 ⊢
  omega

theorem rd_cleanup_inv (env : Env α) (k : Ctl α) (h : RInv false false k) :
    RInv false false (rd_cleanup env k) := by
  unfold rd_cleanup
  simp only
  have a1 : RInv false false (if k.dtypesend = true then cleanup_destroy env 0 k else k) := by
    split_ifs with hp
    · exact cleanup_destroy_inv0 env k h hp
    · exact h
  generalize (if k.dtypesend = true then cleanup_destroy env 0 k else k) = k1 at a1
  have a2 : RInv false false (if k1.dtyperecv = true then cleanup_destroy env 1 k1 else k1) := by
    split_ifs with hp
    · exact cleanup_destroy_inv1 env k1 a1 hp
    · exact a1
  generalize (if k1.dtyperecv = true then cleanup_destroy env 1 k1 else k1) = k2 at a2
  have a3 : RInv false false (if k2.tmpbuf_raw = true then
      { (k2.unchecked (.free 0) 0) with tmpbuf_raw := false } else k2) := by
    split_ifs with hp
    · exact free_inv0 k2 a2 hp
    · exact a2
  generalize (if k2.tmpbuf_raw = true then
      { (k2.unchecked (.free 0) 0) with tmpbuf_raw := false } else k2) = k3 at a3
  split_ifs with hp
  · exact free_inv1 k3 a3 hp
  · exact a3

theorem rh_cleanup_inv (k : Ctl α) (h : RInv false false k) :
    RInv false false (rh_cleanup k) := by
  unfold rh_cleanup
  simp only
  have a3 : RInv false false (if k.tmpbuf_raw = true then
      { (k.unchecked (.free 0) 0) with tmpbuf_raw := false } else k) := by
    split_ifs with hp
    · exact free_inv0 k h hp
    · exact h
  generalize (if k.tmpbuf_raw = true then
      { (k.unchecked (.free 0) 0) with tmpbuf_raw := false } else k) = k3 at a3
  split_ifs with hp
  · exact free_inv1 k3 a3 hp
  · exact a3

/-- A datatype pointer is null, or a destroy call of the cleanup block reported a failure. -/
theorem cleanup_destroy_released (env : Env α) (h : Nat) (k : Ctl α) :
    ((cleanup_destroy env h k).tmpbuf_raw = k.tmpbuf_raw ∧
     (cleanup_destroy env h k).tmprecv_raw = k.tmprecv_raw) ∧
    (∃ l, (cleanup_destroy env h k).trace = k.trace ++ l) ∧
    (h = 0 → (cleanup_destroy env h k).dtypesend = false ∨
      ∃ e ∈ (cleanup_destroy env h k).trace, e.is_failed_cleanup_destroy = true) ∧
    (h ≠ 0 → ((cleanup_destroy env h k).dtypesend = k.dtypesend) ∧
      ((cleanup_destroy env h k).dtyperecv = false ∨
        ∃ e ∈ (cleanup_destroy env h k).trace, e.is_failed_cleanup_destroy = true)) := by
  unfold cleanup_destroy Ctl.unchecked
  simp only
  by_cases hst : env.status k.trace.length = 0
  · rw [if_pos hst]
    by_cases h0 : h = 0
    · simp [h0]
    · simp [h0]
  · rw [if_neg hst]
    refine ⟨⟨rfl, rfl⟩, ⟨_, rfl⟩, ?_, ?_⟩
    · intro _
      right
      exact ⟨⟨.destroy h true, env.status k.trace.length⟩, by simp,
        by simp [Ev.is_failed_cleanup_destroy, hst]⟩
    · intro _
      refine ⟨rfl, Or.inr ?_⟩
      exact ⟨⟨.destroy h true, env.status k.trace.length⟩, by simp,
        by simp [Ev.is_failed_cleanup_destroy, hst]⟩

/-- After the cleanup block both scratch pointers are released, and a datatype pointer is
still set only if a destroy call of the cleanup block reported a failure. -/
theorem rd_cleanup_pointers (env : Env α) (k : Ctl α) :
    (rd_cleanup env k).tmpbuf_raw = false ∧ (rd_cleanup env k).tmprecv_raw = false ∧
    ((∀ e ∈ (rd_cleanup env k).trace, e.is_failed_cleanup_destroy = false) →
      (rd_cleanup env k).dtypesend = false ∧ (rd_cleanup env k).dtyperecv = false) := by
  unfold rd_cleanup
  simp only
  -- the destroy of dtypesend
  have a1 : (if k.dtypesend = true then cleanup_destroy env 0 k else k).dtypesend = false ∨
      ∃ e ∈ (if k.dtypesend = true then cleanup_destroy env 0 k else k).trace,
        e.is_failed_cleanup_destroy = true := by
    split_ifs with hp
    · exact (cleanup_destroy_released env 0 k).2.2.1 rfl
    · left; simpa using hp
  generalize (if k.dtypesend = true then cleanup_destroy env 0 k else k) = k1 at a1
  -- the destroy of dtyperecv
  have a2 : ((if k1.dtyperecv = true then cleanup_destroy env 1 k1 else k1).dtypesend = false ∧
      (if k1.dtyperecv = true then cleanup_destroy env 1 k1 else k1).dtyperecv = false) ∨
      ∃ e ∈ (if k1.dtyperecv = true then cleanup_destroy env 1 k1 else k1).trace,
        e.is_failed_cleanup_destroy = true := by
    split_ifs with hp
    · obtain ⟨-, ⟨l, hl⟩, -, h4⟩ := cleanup_destroy_released env 1 k1
      obtain ⟨h5, h6⟩ := h4 (by decide)
      rcases a1 with a1 | ⟨e, he, hf⟩
      · rcases h6 with h6 | h6
        · left; exact ⟨by rw [h5]; exact a1, h6⟩
        · right; exact h6
      · right; exact ⟨e, by rw [hl]; exact List.mem_append_left _ he, hf⟩
    · rcases a1 with a1 | a1
      · left; exact ⟨a1, by simpa using hp⟩
      · right; exact a1
  generalize (if k1.dtyperecv = true then cleanup_destroy env 1 k1 else k1) = k2 at a2
  -- the two frees
  have a3 : (if k2.tmpbuf_raw = true then
        { (k2.unchecked (.free 0) 0) with tmpbuf_raw := false } else k2).tmpbuf_raw = false ∧
      (((if k2.tmpbuf_raw = true then
        { (k2.unchecked (.free 0) 0) with tmpbuf_raw := false } else k2).dtypesend = false ∧
      (if k2.tmpbuf_raw = true then
        { (k2.unchecked (.free 0) 0) with tmpbuf_raw := false } else k2).dtyperecv = false) ∨
      ∃ e ∈ (if k2.tmpbuf_raw = true then
        { (k2.unchecked (.free 0) 0) with tmpbuf_raw := false } else k2).trace,
        e.is_failed_cleanup_destroy = true) := by
    split_ifs with hp
    · refine ⟨rfl, ?_⟩
      rcases a2 with a2 | ⟨e, he, hf⟩
      · left; exact a2
      · right; exact ⟨e, List.mem_append_left _ he, hf⟩
    · exact ⟨by simpa using hp, a2⟩
  generalize (if k2.tmpbuf_raw = true then
      { (k2.unchecked (.free 0) 0) with tmpbuf_raw := false } else k2) = k3 at a3
  obtain ⟨b1, b2⟩ := a3
  have a4 : (if k3.tmprecv_raw = true then
        { (k3.unchecked (.free 1) 0) with tmprecv_raw := false } else k3).tmpbuf_raw = false ∧
      (if k3.tmprecv_raw = true then
        { (k3.unchecked (.free 1) 0) with tmprecv_raw := false } else k3).tmprecv_raw = false ∧
      (((if k3.tmprecv_raw = true then
        { (k3.unchecked (.free 1) 0) with tmprecv_raw := false } else k3).dtypesend = false ∧
      (if k3.tmprecv_raw = true then
        { (k3.unchecked (.free 1) 0) with tmprecv_raw := false } else k3).dtyperecv = false) ∨
      ∃ e ∈ (if k3.tmprecv_raw = true then
        { (k3.unchecked (.free 1) 0) with tmprecv_raw := false } else k3).trace,
        e.is_failed_cleanup_destroy = true) := by
    split_ifs with hp
    · refine ⟨b1, rfl, ?_⟩
      rcases b2 with b2 | ⟨e, he, hf⟩
      · left; exact b2
      · right; exact ⟨e, List.mem_append_left _ he, hf⟩
    · exact ⟨b1, by simpa using hp, b2⟩
  obtain ⟨c1, c2, c3⟩ := a4
  refine ⟨c1, c2, ?_⟩
  intro hall
  rcases c3 with c3 | ⟨e, he, hf⟩
  · exact c3
  · rw [hall e he] at hf; cases hf

theorem rh_cleanup_pointers (k : Ctl α) :
    (rh_cleanup k).tmpbuf_raw = false ∧ (rh_cleanup k).tmprecv_raw = false ∧
    (rh_cleanup k).dtypesend = k.dtypesend ∧ (rh_cleanup k).dtyperecv = k.dtyperecv := by
  unfold rh_cleanup Ctl.unchecked
  simp only
  refine ⟨?_, ?_, ?_, ?_⟩ <;> split_ifs <;> simp_all

theorem rh_fold_ctl (env : Env α) (op : α → α → α) (p m rank : Nat)
    (s : Local α) (h : RInv false false s.ctl) (h0 : s.ctl.err = 0) :
    RInv false false (rh_fold env op p m rank s).ctl := by
  unfold rh_fold
  simp only
  split_ifs
  · exact RInv_checked env _ rfl h h0
  · have h1 := RInv_checked env (.recv (rank - 1)) rfl h h0
    exact RInv_void _ rfl h1 (by assumption)
  · exact RInv_checked env _ rfl h h0
  · exact h

theorem rh_irecv_ctl (env : Env α) (pl : RHPlan)
    (s : Local α) (h : RInv false false s.ctl) (h0 : s.ctl.err = 0) :
    RInv false false (rh_irecv env pl s).ctl := by
  unfold rh_irecv
  split_ifs
  · exact RInv_checked env _ rfl h h0
  · exact h

theorem rh_send_ctl (env : Env α) (pl : RHPlan)
    (s : Local α) (h : RInv false false s.ctl) (h0 : s.ctl.err = 0) :
    RInv false false (rh_send env pl s).ctl := by
  unfold rh_send
  split_ifs
  · exact RInv_checked env _ rfl h h0
  · exact h

theorem rh_wait_reduce_ctl (env : Env α) (op : α → α → α) (pl : RHPlan)
    (s : Local α) (h : RInv false false s.ctl) (h0 : s.ctl.err = 0) :
    RInv false false (rh_wait_reduce env op pl s).ctl := by
  unfold rh_wait_reduce
  simp only
  split_ifs
  · have h1 := RInv_checked env .wait rfl h h0
    exact RInv_void _ rfl h1 (by assumption)
  · exact RInv_checked env _ rfl h h0
  · exact h

theorem rh_iter_ctl (env : Env α) (op : α → α → α) (p m : Nat) (vrank : Int) (mask : Nat)
    (s : Local α) (h : RInv false false s.ctl) (h0 : s.ctl.err = 0) :
    RInv false false (rh_iter env op p m vrank mask s).ctl := by
  unfold rh_iter
  simp only
  refine RInv_andThen false false _ _ ?_ (fun s h _ => h)
  refine RInv_andThen false false _ _ ?_
    (fun s h h0 => rh_wait_reduce_ctl env op _ s h h0)
  refine RInv_andThen false false _ _ ?_
    (fun s h h0 => rh_send_ctl env _ s h h0)
  exact rh_irecv_ctl env _ s h h0

theorem rh_rank_loop_ctl (env : Env α) (op : α → α → α) (p m : Nat) (vrank : Int) :
    ∀ (fuel mask : Nat) (s : Local α), RInv false false s.ctl → s.ctl.err = 0 →
    RInv false false (rh_rank_loop env op p m vrank fuel mask s).ctl := by
  intro fuel
  induction fuel with
  | zero => intro mask s h _; exact h
  | succ f ih =>
    intro mask s h h0
    unfold rh_rank_loop
    split_ifs
    · exact RInv_andThen _ _ _ _ (rh_iter_ctl env op p m vrank mask s h h0)
        (fun s' h' h0' => ih _ s' h' h0')
    · exact h

theorem rh_halving_ctl (env : Env α) (op : α → α → α) (p m rank : Nat)
    (s : Local α) (h : RInv false false s.ctl) (h0 : s.ctl.err = 0) :
    RInv false false (rh_halving env op p m rank s).ctl := by
  unfold rh_halving
  split_ifs
  · refine RInv_andThen false false _ _ ?_
      (fun s h h0 => copy_out_inv env _ _ s h h0)
    exact rh_rank_loop_ctl env op p m _ _ _ _ h h0
  · exact h

theorem rh_unfold_ctl (env : Env α) (p m rank : Nat)
    (s : Local α) (h : RInv false false s.ctl) (h0 : s.ctl.err = 0) :
    RInv false false (rh_unfold env p m rank s).ctl := by
  unfold rh_unfold
  simp only
  split_ifs
  · exact RInv_checked env _ rfl h h0
  · exact RInv_checked env _ rfl h h0
  · exact RInv_checked env _ rfl h h0
  · exact h

theorem rh_body_ctl (env : Env α) (op : α → α → α) (sbuf : Option (Nat → α))
    (rbuf : Nat → α) (rcount comm_size rank : Nat) (s0 s1 : Nat → α) :
    RInv false false (rh_body env op sbuf rbuf rcount comm_size rank s0 s1).ctl := by
  unfold rh_body
  refine RInv_andThen false false _ _ ?_
    (fun s h h0 => rh_unfold_ctl env _ _ _ s h h0)
  refine RInv_andThen false false _ _ ?_
    (fun s h h0 => rh_halving_ctl env op _ _ _ s h h0)
  refine RInv_andThen false false _ _ ?_
    (fun s h h0 => rh_fold_ctl env op _ _ _ s h h0)
  refine RInv_andThen false false _ _ ?_
    (fun s h h0 => copy_in_inv env _ _ s h h0)
  exact alloc_scratch_inv env rbuf s0 s1

theorem RInv_nil : RInv false false (⟨[], MPI_SUCCESS, false, false, false, false⟩ : Ctl α) := by
  refine ⟨Or.inl ⟨rfl, by simp⟩, ?_, fun _ => ⟨rfl, rfl⟩⟩
  simp [Ctl.balanced, allocated, freed, created, destroyed]

/-- The control state the basic variant returns with keeps the invariant and holds no pointer. -/
theorem basic_ctl (env : Env α) (sbuf : Option (Nat → α)) (rbuf : Nat → α)
    (rcount size rank : Nat) :
    ∃ k : Ctl α, RInv false false k ∧ k.tmpbuf_raw = false ∧ k.tmprecv_raw = false ∧
      k.dtypesend = false ∧ k.dtyperecv = false ∧
      (ompi_coll_base_reduce_scatter_block_basic env sbuf rbuf rcount size rank).status = k.err ∧
      (ompi_coll_base_reduce_scatter_block_basic env sbuf rbuf rcount size rank).trace =
        k.trace := by
  have hne : OMPI_ERR_OUT_OF_RESOURCE ≠ 0 := by decide
  unfold ompi_coll_base_reduce_scatter_block_basic
  simp only
  generalize int32 ((rcount : Int) * (size : Int)) = cnt
  by_cases hc : cnt = 0
  · rw [if_pos hc]
    exact ⟨_, RInv_nil, rfl, rfl, rfl, rfl, rfl, rfl⟩
  · rw [if_neg hc]
    by_cases hr : rank = 0
    · simp only [hr, if_true]
      by_cases hm : env.status 0 = 0
      · -- the allocation succeeded
        simp only [hm, if_true, MPI_SUCCESS]
        have k1 : RInv false false
            (⟨[⟨.malloc 0, 0⟩], 0, true, false, false, false⟩ : Ctl α) := by
          refine ⟨Or.inl ⟨rfl, by simp⟩, ?_, fun _ => ⟨rfl, rfl⟩⟩
          simp [Ctl.balanced, allocated, freed, created, destroyed, Ev.is_alloc, Ev.is_free,
            Ev.is_create, Ev.is_destroy]
        have k2 := RInv_checked env (.coll_reduce (slice (input_of sbuf rbuf) 0 cnt.toNat)
          false) rfl k1 rfl
        generalize hk2 : Ctl.checked env (.coll_reduce (slice (input_of sbuf rbuf) 0
          cnt.toNat) false) (⟨[⟨.malloc 0, 0⟩], 0, true, false, false, false⟩ : Ctl α)
          = K2 at k2
        have hp2 : K2.tmpbuf_raw = true ∧ K2.tmprecv_raw = false ∧ K2.dtypesend = false ∧
            K2.dtyperecv = false := by rw [← hk2]; exact ⟨rfl, rfl, rfl, rfl⟩
        have k3 : RInv false false (if K2.err = 0 then K2.checked env (.coll_scatter false)
            else K2) := by
          split_ifs with h
          · exact RInv_checked env _ rfl k2 h
          · exact k2
        have hp3 : (if K2.err = 0 then K2.checked env (.coll_scatter false) else K2).tmpbuf_raw
              = true ∧
            (if K2.err = 0 then K2.checked env (.coll_scatter false) else K2).tmprecv_raw
              = false ∧
            (if K2.err = 0 then K2.checked env (.coll_scatter false) else K2).dtypesend
              = false ∧
            (if K2.err = 0 then K2.checked env (.coll_scatter false) else K2).dtyperecv
              = false := by
          split_ifs <;> exact hp2
        simp only [Bool.not_true, hk2]
        generalize (if K2.err = 0 then K2.checked env (.coll_scatter false) else K2) = K3
          at k3 hp3
        rw [if_pos hp3.1]
        exact ⟨_, free_inv0 K3 k3 hp3.1, rfl, hp3.2.1, hp3.2.2.1, hp3.2.2.2, rfl, rfl⟩
      · -- the allocation failed
        simp only [hm, if_false, hne]
        refine ⟨⟨[⟨.malloc 0, OMPI_ERR_OUT_OF_RESOURCE⟩], OMPI_ERR_OUT_OF_RESOURCE, false,
          false, false, false⟩,
          ⟨Or.inr ⟨[], ⟨.malloc 0, OMPI_ERR_OUT_OF_RESOURCE⟩, [], rfl, by simp, hne,
          rfl, by simp⟩, ?_, fun h => absurd h hne⟩, rfl, rfl, rfl, rfl, rfl, rfl⟩
        simp [Ctl.balanced, allocated, freed, created, destroyed, Ev.is_alloc, Ev.is_free,
          Ev.is_create, Ev.is_destroy, hne]
    · simp only [hr, if_false, MPI_SUCCESS, if_true]
      have k2 := RInv_checked env (.coll_reduce (slice (input_of sbuf rbuf) 0 cnt.toNat)
        true) rfl (RInv_nil (α := α)) rfl
      simp only [MPI_SUCCESS] at k2
      generalize hk2 : Ctl.checked env (.coll_reduce (slice (input_of sbuf rbuf) 0
        cnt.toNat) true) (⟨[], 0, false, false, false, false⟩ : Ctl α) = K2 at k2
      have hp2 : K2.tmpbuf_raw = false ∧ K2.tmprecv_raw = false ∧ K2.dtypesend = false ∧
          K2.dtyperecv = false := by rw [← hk2]; exact ⟨rfl, rfl, rfl, rfl⟩
      have k3 : RInv false false (if K2.err = 0 then K2.checked env (.coll_scatter true)
          else K2) := by
        split_ifs with h
        · exact RInv_checked env _ rfl k2 h
        · exact k2
      have hp3 : (if K2.err = 0 then K2.checked env (.coll_scatter true) else K2).tmpbuf_raw
            = false ∧
          (if K2.err = 0 then K2.checked env (.coll_scatter true) else K2).tmprecv_raw
            = false ∧
          (if K2.err = 0 then K2.checked env (.coll_scatter true) else K2).dtypesend
            = false ∧
          (if K2.err = 0 then K2.checked env (.coll_scatter true) else K2).dtyperecv
            = false := by
        split_ifs <;> exact hp2
      simp only [Bool.not_false, hk2]
      generalize (if K2.err = 0 then K2.checked env (.coll_scatter true) else K2) = K3
        at k3 hp3
      rw [if_neg (by rw [hp3.1]; simp)]
      exact ⟨_, k3, hp3.1, hp3.2.1, hp3.2.2.1, hp3.2.2.2, rfl, rfl⟩

theorem rd_fwd_loop_fuel (env : Env α) (p m rank mask : Nat) :
    ∀ (fuel h : Nat) (s : Local α), h < 2 ^ fuel → ∀ extra,
    rd_fwd_loop env p m rank mask (fuel + extra) h s = rd_fwd_loop env p m rank mask fuel h s := by
  intro fuel
  induction fuel with
  | zero =>
    intro h s hh extra
    have h0 : h = 0 := by simpa using hh
    subst h0
    cases extra <;> simp [rd_fwd_loop]
  | succ f ih =>
    intro h s hh extra
    rw [show f + 1 + extra = (f + extra) + 1 by omega]
    unfold rd_fwd_loop
    split_ifs
    · have : h >>> 1 < 2 ^ f := by
        rw [Nat.shiftRight_eq_div_pow, pow_one]; rw [pow_succ] at hh; omega
      simp only [Local.andThen, ih _ _ this extra]
    · rfl

theorem rd_rank_loop_fuel (env : Env α) (op : α → α → α) (c : Bool) (p m rank : Nat) :
    ∀ (fuel mask : Nat) (s : Local α), p ≤ mask * 2 ^ fuel → ∀ extra,
    rd_rank_loop env op c p m rank (fuel + extra) mask s =
      rd_rank_loop env op c p m rank fuel mask s := by
  intro fuel
  induction fuel with
  | zero =>
    intro mask s hp extra
    have h0 : ¬ mask < p := by simpa using hp
    cases extra <;> simp [rd_rank_loop, h0]
  | succ f ih =>
    intro mask s hp extra
    rw [show f + 1 + extra = (f + extra) + 1 by omega]
    unfold rd_rank_loop
    split_ifs
    · have : p ≤ mask <<< 1 * 2 ^ f := by
        rw [Nat.shiftLeft_eq, pow_one]; rw [pow_succ] at hp
        calc p ≤ mask * (2 ^ f * 2) := hp
          _ = mask * 2 * 2 ^ f := by ring
      simp only [Local.andThen, ih _ _ this extra]
    · rfl

theorem rh_rank_loop_fuel (env : Env α) (op : α → α → α) (p m : Nat) (vrank : Int) :
    ∀ (fuel mask : Nat) (s : Local α), mask < 2 ^ fuel → ∀ extra,
    rh_rank_loop env op p m vrank (fuel + extra) mask s =
      rh_rank_loop env op p m vrank fuel mask s := by
  intro fuel
  induction fuel with
  | zero =>
    intro h s hh extra
    have h0 : h = 0 := by simpa using hh
    subst h0
    cases extra <;> simp [rh_rank_loop]
  | succ f ih =>
    intro h s hh extra
    rw [show f + 1 + extra = (f + extra) + 1 by omega]
    unfold rh_rank_loop
    split_ifs
    · have : h >>> 1 < 2 ^ f := by
        rw [Nat.shiftRight_eq_div_pow, pow_one]; rw [pow_succ] at hh; omega
      simp only [Local.andThen, ih _ _ this extra]
    · rfl

/-- The fuel the three loops are run with is enough: more fuel changes nothing. -/
theorem loops_fuel_enough (env : Env α) (op : α → α → α) (c : Bool) (p m rank mask : Nat)
    (vrank : Int) (s : Local α) (extra : Nat) :
    rd_rank_loop env op c p m rank (p + extra) 1 s = rd_rank_loop env op c p m rank p 1 s ∧
    rd_fwd_loop env p m rank mask (mask + extra) (mask >>> 1) s =
      rd_fwd_loop env p m rank mask mask (mask >>> 1) s ∧
    rh_rank_loop env op p m vrank (rh_nprocs_pof2 p + extra) (rh_nprocs_pof2 p >>> 1) s =
      rh_rank_loop env op p m vrank (rh_nprocs_pof2 p) (rh_nprocs_pof2 p >>> 1) s := by
  have hsh : ∀ n : Nat, n >>> 1 < 2 ^ n := fun n => by
    have := Nat.lt_two_pow n
    rw [Nat.shiftRight_eq_div_pow, pow_one]; omega
  refine ⟨rd_rank_loop_fuel env op c p m rank p 1 s ?_ extra,
    rd_fwd_loop_fuel env p m rank mask mask _ s (hsh mask) extra,
    rh_rank_loop_fuel env op p m vrank _ _ s (hsh _) extra⟩
  rw [Nat.one_mul]; exact Nat.le_of_lt (Nat.lt_two_pow p)

theorem rd_run_open_sim (p m mask : Nat) (G : Nat → Local α) (r : Nat)
    (hok : (G r).ctl.err = 0) :
    (rd_run_open p m mask G r).ctl.err = 0 ∧
    (rd_run_open p m mask G r).toRD = (G r).toRD ∧
    (rd_run_open p m mask G r).rbuf = (G r).rbuf := by
  simp [rd_run_open, Local.andThen, hok, rd_create, rd_commit, Ctl.checked, env_deliver,
    Local.toRD]

theorem rd_run_sendrecv_sim (p m mask : Nat) (G : Nat → Local α) (r : Nat)
    (hok : (G r).ctl.err = 0) :
    (rd_run_sendrecv p m mask G r).ctl.err = 0 ∧
    (rd_run_sendrecv p m mask G r).toRD = rd_sendrecv_all p m mask (fun r => (G r).toRD) r ∧
    (rd_run_sendrecv p m mask G r).rbuf = (G r).rbuf := by
  unfold rd_run_sendrecv rd_sendrecv_all rd_sendrecv Local.andThen
  by_cases h : r ^^^ mask < p
  · simp [hok, h, Ctl.checked, env_deliver, Local.toRD]
  · simp [hok, h, Ctl.checked, env_deliver, Local.toRD]

theorem rd_fwd_iter_sim (p m rank mask h : Nat) (msg : List α) (s : Local α)
    (hok : s.ctl.err = 0) :
    (rd_fwd_iter (env_deliver msg) p m rank mask h s).ctl.err = 0 ∧
    (rd_fwd_iter (env_deliver msg) p m rank mask h s).toRD =
      (if rd_recv_cond p rank mask h = true then
        ⟨s.tmpbuf, unpack (rd_recvtype p m rank mask) msg s.tmprecv, true⟩
       else s.toRD) ∧
    (rd_fwd_iter (env_deliver msg) p m rank mask h s).rbuf = s.rbuf := by
  unfold rd_fwd_iter
  by_cases hs : rd_send_cond p rank mask h = true
  · have hr : rd_recv_cond p rank mask h = false := by
      unfold rd_recv_cond; simp [hs]
    simp [hs, hr, hok, Ctl.checked, env_deliver, Local.toRD]
  · by_cases hr : rd_recv_cond p rank mask h = true
    · simp [hs, hr, hok, Ctl.checked, env_deliver, Local.toRD]
    · simp [hs, hr, hok, Ctl.checked, env_deliver, Local.toRD]

theorem rd_run_forward_sim (p m mask h : Nat) (G : Nat → Local α)
    (hok : ∀ r, (G r).ctl.err = 0) :
    ∀ G', rd_run_forward p m mask h G = some G' →
      rd_forward_all p m mask h (fun r => (G r).toRD) = some (fun r => (G' r).toRD) ∧
      ∀ r, (G' r).ctl.err = 0 ∧ (G' r).rbuf = (G r).rbuf := by
  intro G' hG'
  unfold rd_run_forward at hG'
  unfold rd_forward_all
  by_cases hm : rd_fwd_matched p m mask h
  · rw [if_pos hm] at hG' ⊢
    have hG := (Option.some.inj hG').symm
    have key : ∀ r, (G' r).ctl.err = 0 ∧
        (G' r).toRD = (if rd_fwd_recvs p r mask h = true then
          ⟨(G r).tmpbuf, unpack (rd_recvtype p m r mask)
            (pack (rd_recvtype p m (r ^^^ h) mask) (G (r ^^^ h)).tmprecv) (G r).tmprecv, true⟩
          else (G r).toRD) ∧ (G' r).rbuf = (G r).rbuf := by
      intro r
      rw [hG]
      simp only [Local.andThen, hok r, if_true]
      by_cases hs : rd_in_search p r mask = true
      · rw [if_pos hs]
        have := rd_fwd_iter_sim p m r mask h
          (pack (rd_recvtype p m (r ^^^ h) mask) (G (r ^^^ h)).tmprecv) (G r) (hok r)
        unfold rd_fwd_recvs
        simpa [hs] using this
      · rw [if_neg hs]
        unfold rd_fwd_recvs
        simp [hs, hok r]
    refine ⟨?_, fun r => ⟨(key r).1, (key r).2.2⟩⟩
    congr 1
    funext r
    rw [(key r).2.1]
    rfl
  · rw [if_neg hm] at hG'; cases hG'

theorem rd_run_forward_none (p m mask h : Nat) (G : Nat → Local α) :
    rd_run_forward p m mask h G = none →
      rd_forward_all p m mask h (fun r => (G r).toRD) = none := by
  unfold rd_run_forward rd_forward_all
  by_cases hm : rd_fwd_matched p m mask h
  · rw [if_pos hm]; intro h; cases h
  · rw [if_neg hm, if_neg hm]; intro _; rfl

theorem rd_run_forward_loop_sim (p m mask : Nat) :
    ∀ (fuel h : Nat) (G : Nat → Local α), (∀ r, (G r).ctl.err = 0) →
    (∀ G', rd_run_forward_loop p m mask fuel h G = some G' →
      rd_forward_loop p m mask fuel h (fun r => (G r).toRD) = some (fun r => (G' r).toRD) ∧
      ∀ r, (G' r).ctl.err = 0 ∧ (G' r).rbuf = (G r).rbuf) ∧
    (rd_run_forward_loop p m mask fuel h G = none →
      rd_forward_loop p m mask fuel h (fun r => (G r).toRD) = none) := by
  intro fuel
  induction fuel with
  | zero =>
    intro h G hok
    unfold rd_run_forward_loop rd_forward_loop
    by_cases hh : h > 0
    · simp [hh]
    · simp only [if_neg hh]
      refine ⟨?_, fun h => by cases h⟩
      intro G' hG'
      have := Option.some.inj hG'
      subst this
      exact ⟨rfl, fun r => ⟨hok r, rfl⟩⟩
  | succ f ih =>
    intro h G hok
    unfold rd_run_forward_loop rd_forward_loop
    by_cases hh : h > 0
    · simp only [if_pos hh]
      cases hrun : rd_run_forward p m mask h G with
      | none =>
        rw [rd_run_forward_none p m mask h G hrun]
        simp
      | some G1 =>
        obtain ⟨e1, ok1⟩ := rd_run_forward_sim p m mask h G hok G1 hrun
        rw [e1]
        simp only [Option.some_bind]
        obtain ⟨i1, i2⟩ := ih (h >>> 1) G1 (fun r => (ok1 r).1)
        refine ⟨?_, i2⟩
        intro G' hG'
        obtain ⟨j1, j2⟩ := i1 G' hG'
        exact ⟨j1, fun r => ⟨(j2 r).1, by rw [(j2 r).2, (ok1 r).2]⟩⟩
    · simp only [if_neg hh]
      refine ⟨?_, fun h => by cases h⟩
      intro G' hG'
      have := Option.some.inj hG'
      subst this
      exact ⟨rfl, fun r => ⟨hok r, rfl⟩⟩

theorem rd_reduce_step_sim (op : α → α → α) (c : Bool) (p m rank mask : Nat) (s : Local α)
    (hok : s.ctl.err = 0) :
    (rd_reduce_step (env_deliver []) op c p m rank mask s).ctl.err = 0 ∧
    (rd_reduce_step (env_deliver []) op c p m rank mask s).toRD =
      rd_reduce op c (ompi_rounddown rank mask) (ompi_rounddown (rank ^^^ mask) mask)
        (rd_recvtype p m rank mask) s.toRD ∧
    (rd_reduce_step (env_deliver []) op c p m rank mask s).rbuf = s.rbuf := by
  unfold rd_reduce_step rd_reduce
  by_cases hr : s.is_block_received = true
  · by_cases hc : (c || decide (ompi_rounddown (rank ^^^ mask) mask < ompi_rounddown rank mask))
        = true
    · simp [hr, hc, hok, Ctl.checked, Ctl.unchecked, env_deliver, Local.toRD]
    · simp [hr, hc, hok, Ctl.checked, Ctl.unchecked, env_deliver, Local.toRD]
  · simp [hr, hok, Local.toRD]

theorem rd_run_close_sim (op : α → α → α) (c : Bool) (p m mask : Nat) (G : Nat → Local α)
    (r : Nat) (hok : (G r).ctl.err = 0) :
    (rd_run_close op c p m mask G r).ctl.err = 0 ∧
    (rd_run_close op c p m mask G r).toRD =
      rd_reduce op c (ompi_rounddown r mask) (ompi_rounddown (r ^^^ mask) mask)
        (rd_recvtype p m r mask) (G r).toRD ∧
    (rd_run_close op c p m mask G r).rbuf = (G r).rbuf := by
  obtain ⟨h1, h2, h3⟩ := rd_reduce_step_sim op c p m r mask (G r) hok
  unfold rd_run_close
  simp only [Local.andThen, hok, if_true, h1]
  generalize rd_reduce_step (env_deliver []) op c p m r mask (G r) = s1 at h1 h2 h3
  rw [← h2, ← h3]
  simp [rd_destroy, Ctl.checked, env_deliver, Local.toRD]

theorem rd_run_step_sim (op : α → α → α) (c : Bool) (p m mask : Nat) (G : Nat → Local α)
    (hok : ∀ r, (G r).ctl.err = 0) :
    (∀ G', rd_run_step op c p m mask G = some G' →
      rd_step_all op c p m mask (fun r => (G r).toRD) = some (fun r => (G' r).toRD) ∧
      ∀ r, (G' r).ctl.err = 0 ∧ (G' r).rbuf = (G r).rbuf) ∧
    (rd_run_step op c p m mask G = none →
      rd_step_all op c p m mask (fun r => (G r).toRD) = none) := by
  have hopen := fun r => rd_run_open_sim p m mask G r (hok r)
  have hsr := fun r => rd_run_sendrecv_sim p m mask (rd_run_open p m mask G) r (hopen r).1
  have e0 : (fun r => (rd_run_open p m mask G r).toRD) = fun r => (G r).toRD :=
    funext fun r => (hopen r).2.1
  have e1 : (fun r => (rd_run_sendrecv p m mask (rd_run_open p m mask G) r).toRD) =
      rd_sendrecv_all p m mask (fun r => (G r).toRD) := by
    funext r
    rw [(hsr r).2.1, e0]
  obtain ⟨l1, l2⟩ := rd_run_forward_loop_sim p m mask mask (mask >>> 1)
    (rd_run_sendrecv p m mask (rd_run_open p m mask G)) (fun r => (hsr r).1)
  rw [e1] at l1 l2
  unfold rd_run_step rd_step_all
  cases hrun : rd_run_forward_loop p m mask mask (mask >>> 1)
      (rd_run_sendrecv p m mask (rd_run_open p m mask G)) with
  | none =>
    rw [l2 hrun]
    simp
  | some G2 =>
    obtain ⟨m1, m2⟩ := l1 G2 hrun
    rw [m1]
    simp only [Option.map_some']
    refine ⟨?_, fun h => by cases h⟩
    intro G' hG'
    have := Option.some.inj hG'
    subst this
    have hcl := fun r => rd_run_close_sim op c p m mask G2 r (m2 r).1
    refine ⟨?_, fun r => ⟨(hcl r).1, by rw [(hcl r).2.2, (m2 r).2, (hsr r).2.2, (hopen r).2.2]⟩⟩
    congr 1
    funext r
    exact ((hcl r).2.1).symm

theorem rd_run_loop_sim (op : α → α → α) (c : Bool) (p m : Nat) :
    ∀ (fuel mask : Nat) (G : Nat → Local α), (∀ r, (G r).ctl.err = 0) →
    (∀ G', rd_run_loop op c p m fuel mask G = some G' →
      rd_loop op c p m fuel mask (fun r => (G r).toRD) = some (fun r => (G' r).toRD) ∧
      ∀ r, (G' r).ctl.err = 0 ∧ (G' r).rbuf = (G r).rbuf) ∧
    (rd_run_loop op c p m fuel mask G = none →
      rd_loop op c p m fuel mask (fun r => (G r).toRD) = none) := by
  intro fuel
  induction fuel with
  | zero =>
    intro mask G hok
    unfold rd_run_loop rd_loop
    by_cases hh : mask < p
    · simp [hh]
    · simp only [if_neg hh]
      refine ⟨?_, fun h => by cases h⟩
      intro G' hG'
      have := Option.some.inj hG'
      subst this
      exact ⟨rfl, fun r => ⟨hok r, rfl⟩⟩
  | succ f ih =>
    intro mask G hok
    unfold rd_run_loop rd_loop
    by_cases hh : mask < p
    · simp only [if_pos hh]
      obtain ⟨s1, s2⟩ := rd_run_step_sim op c p m mask G hok
      cases hrun : rd_run_step op c p m mask G with
      | none =>
        rw [s2 hrun]
        simp
      | some G1 =>
        obtain ⟨e1, ok1⟩ := s1 G1 hrun
        rw [e1]
        simp only [Option.some_bind]
        obtain ⟨i1, i2⟩ := ih (mask <<< 1) G1 (fun r => (ok1 r).1)
        refine ⟨?_, i2⟩
        intro G' hG'
        obtain ⟨j1, j2⟩ := i1 G' hG'
        exact ⟨j1, fun r => ⟨(j2 r).1, by rw [(j2 r).2, (ok1 r).2]⟩⟩
    · simp only [if_neg hh]
      refine ⟨?_, fun h => by cases h⟩
      intro G' hG'
      have := Option.some.inj hG'
      subst this
      exact ⟨rfl, fun r => ⟨hok r, rfl⟩⟩

theorem cleanup_destroy_err (env : Env α) (h : Nat) (k : Ctl α) :
    (cleanup_destroy env h k).err = k.err := by
  unfold cleanup_destroy Ctl.unchecked
  simp only
  split_ifs <;> rfl

theorem rd_cleanup_err (env : Env α) (k : Ctl α) : (rd_cleanup env k).err = k.err := by
  unfold rd_cleanup
  simp only
  have a1 : (if k.dtypesend = true then cleanup_destroy env 0 k else k).err = k.err := by
    split_ifs
    · exact cleanup_destroy_err env 0 k
    · rfl
  generalize (if k.dtypesend = true then cleanup_destroy env 0 k else k) = k1 at a1
  have a2 : (if k1.dtyperecv = true then cleanup_destroy env 1 k1 else k1).err = k.err := by
    split_ifs
    · rw [cleanup_destroy_err env 1 k1, a1]
    · exact a1
  generalize (if k1.dtyperecv = true then cleanup_destroy env 1 k1 else k1) = k2 at a2
  have a3 : (if k2.tmpbuf_raw = true then
      { (k2.unchecked (.free 0) 0) with tmpbuf_raw := false } else k2).err = k.err := by
    split_ifs
    · exact a2
    · exact a2
  generalize (if k2.tmpbuf_raw = true then
      { (k2.unchecked (.free 0) 0) with tmpbuf_raw := false } else k2) = k3 at a3
  split_ifs
  · exact a3
  · exact a3

theorem rh_cleanup_err (k : Ctl α) : (rh_cleanup k).err = k.err := by
  unfold rh_cleanup Ctl.unchecked
  simp only
  split_ifs <;> rfl

/-- The state of a rank after the allocations and the copy of its input, all succeeding. -/
theorem init_state (totalcount : Nat) (sbuf : Option (Nat → α)) (rbuf s0 s1 : Nat → α) :
    ((alloc_scratch (env_deliver []) (Local.init rbuf s0 s1)).andThen
      (copy_in (env_deliver []) totalcount sbuf)).ctl.err = 0 ∧
    ((alloc_scratch (env_deliver []) (Local.init rbuf s0 s1)).andThen
      (copy_in (env_deliver []) totalcount sbuf)).tmpbuf =
        ompi_datatype_copy_content_same_ddt totalcount s0 0 (input_of sbuf rbuf) 0 ∧
    ((alloc_scratch (env_deliver []) (Local.init rbuf s0 s1)).andThen
      (copy_in (env_deliver []) totalcount sbuf)).rbuf = rbuf := by
  simp [alloc_scratch, Local.init, Local.andThen, copy_in, Ctl.checked, env_deliver,
    MPI_SUCCESS]

theorem rd_run_correct (op : α → α → α) (c : Bool)
    (hassoc : ∀ a b c, op (op a b) c = op a (op b c))
    (hcomm : c = true → ∀ a b, op a b = op b a)
    (p m : Nat) (hp : 2 ≤ p) (hm : 1 ≤ m) (hfit : p * m < 2 ^ 31)
    (sbuf : Nat → Option (Nat → α)) (rbuf scratch0 scratch1 : Nat → Nat → α) :
    ∃ out, rd_run op c p m sbuf rbuf scratch0 scratch1 = some out ∧
      ∀ i, i < p → (out i).status = MPI_SUCCESS ∧
        ∀ k, k < m → (out i).rbuf k =
          canonical op (fun j => input_of (sbuf j) (rbuf j)) p m i k := by
  have htc : totalcount p m = p * m := totalcount_eq hfit
  have hst := fun r => init_state (p * m) (sbuf r) (rbuf r) (scratch0 r) (scratch1 r)
  generalize hG0 : (fun r => (alloc_scratch (env_deliver [])
    (Local.init (rbuf r) (scratch0 r) (scratch1 r))).andThen
      (copy_in (env_deliver []) (p * m) (sbuf r))) = G0
  have hst' : ∀ r, (G0 r).ctl.err = 0 ∧ (G0 r).tmpbuf =
      ompi_datatype_copy_content_same_ddt (p * m) (scratch0 r) 0
        (input_of (sbuf r) (rbuf r)) 0 ∧ (G0 r).rbuf = rbuf r := by
    intro r; rw [← hG0]; exact hst r
  have hinit : RDInv op (fun j => input_of (sbuf j) (rbuf j)) p m (2 ^ 0)
      (fun r => (G0 r).toRD) :=
    rd_init_inv op _ p m hm _ scratch0 (fun r => (hst' r).2.1)
  obtain ⟨GP, s, e1, hps, inv⟩ := rd_loop_inv op c hassoc hcomm _ p m hm hfit p 0 _
    (by rw [Nat.zero_add]; exact Nat.le_of_lt (Nat.lt_two_pow p)) hinit
  rw [pow_zero] at e1
  obtain ⟨l1, l2⟩ := rd_run_loop_sim op c p m p 1 G0 (fun r => (hst' r).1)
  unfold rd_run
  rw [if_neg (by omega), if_neg (by omega), htc]
  simp only [hG0]
  cases hrun : rd_run_loop op c p m p 1 G0 with
  | none => rw [l2 hrun] at e1; cases e1
  | some Gl =>
    obtain ⟨m1, m2⟩ := l1 Gl hrun
    rw [e1] at m1
    have hGP := Option.some.inj m1
    refine ⟨_, rfl, ?_⟩
    intro i hi
    have herr : ((Gl i).andThen (copy_out (env_deliver []) m (i * m))).ctl.err = 0 := by
      simp [Local.andThen, (m2 i).1, copy_out, Ctl.checked, env_deliver]
    refine ⟨by simp only [rd_cleanup_err]; exact herr, ?_⟩
    intro k hk
    have hfin := rd_final_block op _ p m s hm GP hps inv i k hi hk
    rw [hGP] at hfin
    simp only [Local.toRD] at hfin
    rw [← hfin]
    simp [Local.andThen, (m2 i).1, copy_out, Ctl.checked, env_deliver,
      ompi_datatype_copy_content_same_ddt, hk]

theorem write_slice (dst src : Nat → α) (off n n' soff : Nat) (h : n' = n) :
    write_msg dst off n (slice src soff n') = recv_contig dst off n src soff := by
  subst h
  funext e
  unfold write_msg recv_contig slice
  by_cases hc : off ≤ e ∧ e < off + n'
  · rw [if_pos hc, if_pos hc]
    have : e - off < n' := by omega
    simp [List.getD_eq_getElem?_getD, this]
  · rw [if_neg hc, if_neg hc]

theorem RHInv_congr (op : α → α → α) (x : Nat → Nat → α) (p m k : Nat)
    (G1 G2 : Nat → RHState α) (h : ∀ r, r < p → G2 r = G1 r)
    (inv : RHInv op x p m k G1) : RHInv op x p m k G2 := by
  intro r hr
  rw [h r hr]
  exact inv r hr

theorem rh_iter_sim (op : α → α → α) (p m : Nat) (vrank : Int) (mask : Nat) (msg : List α)
    (s : Local α) (hok : s.ctl.err = 0) :
    (rh_iter (env_deliver msg) op p m vrank mask s).ctl.err = 0 ∧
    (rh_iter (env_deliver msg) op p m vrank mask s).rbuf = s.rbuf ∧
    (rh_iter (env_deliver msg) op p m vrank mask s).window =
      rh_next_window mask (rh_plan p m vrank mask s.window) ∧
    (rh_iter (env_deliver msg) op p m vrank mask s).tmprecv =
      (if 0 < (rh_plan p m vrank mask s.window).recv_count then
        write_msg s.tmprecv (rh_plan p m vrank mask s.window).rdispl.toNat
          (rh_plan p m vrank mask s.window).recv_count.toNat msg
       else s.tmprecv) ∧
    (rh_iter (env_deliver msg) op p m vrank mask s).tmpbuf =
      (if 0 < (rh_plan p m vrank mask s.window).recv_count then
        ompi_op_reduce op (write_msg s.tmprecv (rh_plan p m vrank mask s.window).rdispl.toNat
          (rh_plan p m vrank mask s.window).recv_count.toNat msg) s.tmpbuf
          (rh_plan p m vrank mask s.window).rdispl.toNat
          (rh_plan p m vrank mask s.window).recv_count.toNat
       else s.tmpbuf) := by
  unfold rh_iter
  simp only
  generalize rh_plan p m vrank mask s.window = pl
  by_cases h1 : 0 < pl.recv_count <;> by_cases h2 : 0 < pl.send_count <;>
    simp [rh_irecv, rh_send, rh_wait_reduce, Local.andThen, Ctl.checked, Ctl.unchecked,
      env_deliver, hok, h1, h2]

theorem rh_run_step_sim (op : α → α → α) (p m mask : Nat) (G : Nat → Local α)
    (hok : ∀ r, (G r).ctl.err = 0)
    (hmt : rh_matched p m mask (fun r => (G r).toRH p r)) :
    ∃ G' GP, rh_run_step op p m mask G = some G' ∧
      rh_step_all op p m mask (fun r => (G r).toRH p r) = some GP ∧
      (∀ r, r < p → (G' r).toRH p r = GP r) ∧
      ∀ r, (G' r).ctl.err = 0 ∧ (G' r).rbuf = (G r).rbuf := by
  unfold rh_run_step rh_step_all
  rw [if_pos hmt, if_pos hmt]
  refine ⟨_, _, rfl, rfl, ?_, ?_⟩
  · intro r hr
    simp only [Local.andThen, hok r, if_true]
    by_cases hpart : rh_vrank p r ≠ -1
    · have hpart' : (Local.toRH p r (G r)).vrank ≠ -1 := hpart
      rw [if_pos hpart, if_pos hpart']
      obtain ⟨-, a2, a3, a4, a5⟩ := rh_iter_sim op p m (rh_vrank p r) mask
        (rh_run_msg p m mask G r) (G r) (hok r)
      have hw : 0 < (rh_plan p m (rh_vrank p r) mask (G r).window).recv_count →
          write_msg (G r).tmprecv (rh_plan p m (rh_vrank p r) mask (G r).window).rdispl.toNat
            (rh_plan p m (rh_vrank p r) mask (G r).window).recv_count.toNat
            (rh_run_msg p m mask G r) =
          recv_contig (G r).tmprecv (rh_plan p m (rh_vrank p r) mask (G r).window).rdispl.toNat
            (rh_plan p m (rh_vrank p r) mask (G r).window).recv_count.toNat
            (G (rh_plan p m (rh_vrank p r) mask (G r).window).peer.toNat).tmpbuf
            (rh_plan p m (rh_vrank p
              (rh_plan p m (rh_vrank p r) mask (G r).window).peer.toNat) mask
              (G (rh_plan p m (rh_vrank p r) mask (G r).window).peer.toNat).window).sdispl.toNat
              := by
        intro hpos
        have hq := (hmt r hr hpart' (Or.inl hpos)).2.2.2.2.1
        unfold rh_run_msg
        simp only
        apply write_slice
        exact congrArg Int.toNat hq
      unfold Local.toRH
      simp only [rh_plan_of, a2, a3, a4, a5]
      by_cases hpos : 0 < (rh_plan p m (rh_vrank p r) mask (G r).window).recv_count
      · simp only [if_pos hpos, hw hpos]
      · simp only [if_neg hpos]
    · have hpart' : ¬ (Local.toRH p r (G r)).vrank ≠ -1 := hpart
      rw [if_neg hpart, if_neg hpart']
  · intro r
    simp only [Local.andThen, hok r, if_true]
    by_cases hpart : rh_vrank p r ≠ -1
    · rw [if_pos hpart]
      obtain ⟨a1, a2, -⟩ := rh_iter_sim op p m (rh_vrank p r) mask
        (rh_run_msg p m mask G r) (G r) (hok r)
      exact ⟨a1, a2⟩
    · rw [if_neg hpart]
      exact ⟨hok r, rfl⟩

/-- The halving loop of all ranks runs to its end within its fuel and leaves every
participating rank with a window of one virtual block. -/
theorem rh_run_loop_inv (op : α → α → α) (hassoc : ∀ a b c, op (op a b) c = op a (op b c))
    (hcomm : ∀ a b, op a b = op b a) (x : Nat → Nat → α) (p m : Nat) (hp : 1 ≤ p)
    (hm : 0 < m) (hfit : p * m < 2 ^ 31) : ∀ (k fuel : Nat) (G : Nat → Local α), k ≤ Nat.log2 p → k ≤ fuel →
    (∀ r, (G r).ctl.err = 0) →
    RHInv op x p m k (fun r => (G r).toRH p r) →
    ∃ G', rh_run_loop op p m fuel (2 ^ k >>> 1) G = some G' ∧
      RHInv op x p m 0 (fun r => (G' r).toRH p r) ∧
      ∀ r, (G' r).ctl.err = 0 ∧ (G' r).rbuf = (G r).rbuf := by
  intro k
  induction k with
  | zero =>
    intro fuel G _ _ hok hinv
    have h0 : (2 : Nat) ^ 0 >>> 1 = 0 := by decide
    rw [h0]
    refine ⟨G, ?_, hinv, fun r => ⟨hok r, rfl⟩⟩
    cases fuel <;> simp [rh_run_loop]
  | succ i ih =>
    intro fuel G hk hfuel hok hinv
    obtain ⟨f, rfl⟩ : ∃ f, fuel = f + 1 := ⟨fuel - 1, by omega⟩
    have ht : 0 < 2 ^ i := Nat.pow_pos (by norm_num)
    obtain ⟨GP, e1, inv1⟩ := rh_step_all_inv op hassoc hcomm x p m i hp hm hfit (by omega) _ hinv
    obtain ⟨G1, GP1, s1, s2, s3, s4⟩ := rh_run_step_sim op p m (2 ^ i) G hok
      (rh_matched_holds op x p m i hp hm hfit (by omega) _ hinv)
    rw [e1] at s2
    have hGP := Option.some.inj s2
    have inv1' : RHInv op x p m i (fun r => (G1 r).toRH p r) :=
      RHInv_congr op x p m i GP _ (fun r hr => by rw [s3 r hr, hGP]) inv1
    obtain ⟨G2, e2, inv2, ok2⟩ := ih f G1 (by omega) (by omega) (fun r => (s4 r).1) inv1'
    refine ⟨G2, ?_, inv2, fun r => ⟨(ok2 r).1, by rw [(ok2 r).2, (s4 r).2]⟩⟩
    rw [shr_two_pow]
    unfold rh_run_loop
    rw [if_pos ht, s1]
    exact e2

theorem rh_run_fold_sim (op : α → α → α) (p m : Nat) (G : Nat → Local α) (r : Nat)
    (hok : (G r).ctl.err = 0) :
    (rh_run_fold op p m G r).ctl.err = 0 ∧
    (rh_run_fold op p m G r).rbuf = (G r).rbuf ∧
    (rh_run_fold op p m G r).tmpbuf =
      (if (r : Int) < 2 * rh_nprocs_rem p ∧ ¬ r % 2 = 0 then
        ompi_op_reduce op (recv_contig (G r).tmprecv 0 (totalcount p m) (G (r - 1)).tmpbuf 0)
          (G r).tmpbuf 0 (totalcount p m)
       else (G r).tmpbuf) := by
  unfold rh_run_fold rh_fold
  simp only [Local.andThen, hok, if_true]
  by_cases h1 : (r : Int) < 2 * rh_nprocs_rem p
  · by_cases h2 : r % 2 = 0
    · simp [h1, h2, Ctl.checked, env_deliver]
    · simp [h1, h2, Ctl.checked, Ctl.unchecked, env_deliver, write_slice]
  · simp [h1, hok]

theorem rh_run_enter_sim (p : Nat) (G : Nat → Local α) (r : Nat) (hok : (G r).ctl.err = 0) :
    (rh_run_enter p G r).ctl.err = 0 ∧
    (rh_run_enter p G r).rbuf = (G r).rbuf ∧
    (rh_run_enter p G r).tmpbuf = (G r).tmpbuf ∧
    (rh_vrank p r ≠ -1 → (rh_run_enter p G r).window = ⟨0, 0, rh_nprocs_pof2 p⟩) := by
  unfold rh_run_enter
  simp only [Local.andThen, hok, if_true]
  by_cases h : rh_vrank p r ≠ -1
  · simp [h, hok]
  · rw [if_neg h]
    exact ⟨hok, rfl, rfl, fun h' => absurd h' h⟩

/-- After step 1 the loop invariant holds with the window of all virtual blocks. -/
theorem rh_enter_inv (op : α → α → α) (x : Nat → Nat → α) (p m : Nat) (hp : 1 ≤ p)
    (hfit : p * m < 2 ^ 31)
    (G : Nat → Local α) (junk : Nat → Nat → α) (hok : ∀ r, (G r).ctl.err = 0)
    (hG : ∀ r, (G r).tmpbuf = ompi_datatype_copy_content_same_ddt (p * m) (junk r) 0 (x r) 0) :
    RHInv op x p m (Nat.log2 p)
      (fun r => (rh_run_enter p (rh_run_fold op p m G) r).toRH p r) := by
  obtain ⟨hP, h1, h2⟩ := rh_pof2_facts p hp
  have hrem := rh_rem_eq p hp
  have hR : rh_remN p = p - rh_nprocs_pof2 p := rfl
  intro r hr
  refine ⟨rfl, ?_⟩
  intro v hv
  obtain ⟨f1, -, f3⟩ := rh_run_fold_sim op p m G r (hok r)
  rw [totalcount_eq hfit] at f3
  obtain ⟨-, -, g3, g4⟩ := rh_run_enter_sim p (rh_run_fold op p m G) r f1
  have hvP : v < 2 ^ Nat.log2 p := by
    rcases rh_vrank_cases p r hp hr with ⟨hneg, -, -⟩ | ⟨v', hv', hvP, -⟩
    · rw [hneg] at hv; omega
    · rw [hv'] at hv; rw [← hP]; omega
  have hrd : ompi_rounddown v (2 ^ Nat.log2 p) = 0 := by
    unfold ompi_rounddown
    rw [Nat.div_eq_of_lt hvP, Nat.zero_mul]
  have hpart : rh_window_red op x p (Nat.log2 p) v = fun e => rh_folded op x p v e := by
    funext e
    unfold rh_window_red
    rw [hP, Nat.div_self (Nat.pow_pos (by norm_num)), Nat.mod_eq_of_lt hvP]
    exact strideRed_zero _ _ _ _
  rw [hrd, hpart, Nat.zero_add, ← hP]
  rw [← hP] at hvP
  have hne : rh_vrank p r ≠ -1 := by rw [hv]; omega
  refine ⟨by simp only [Local.toRH]; rw [g4 hne]; rfl, ?_⟩
  intro e he _
  simp only [Local.toRH]
  rw [g3, f3]
  unfold rh_vrank at hv
  rw [hrem] at hv ⊢
  unfold rh_folded
  by_cases hlt : (r : Int) < 2 * (rh_remN p : Int)
  · rw [if_pos hlt] at hv
    by_cases hev : r % 2 = 0
    · rw [if_pos hev] at hv; omega
    · rw [if_neg hev] at hv
      rw [if_pos ⟨hlt, hev⟩]
      have hvv : v = r / 2 := by omega
      rw [if_pos (by omega)]
      have e1 : 2 * v = r - 1 := by omega
      have e2 : 2 * v + 1 = r := by omega
      rw [e2, e1, hG r, hG (r - 1)]
      simp [ompi_op_reduce, recv_contig, ompi_datatype_copy_content_same_ddt, he]
  · rw [if_neg hlt] at hv
    rw [if_neg (fun h => hlt h.1)]
    rw [if_neg (by omega)]
    have e1 : v + rh_remN p = r := by omega
    rw [e1, hG r]
    simp [ompi_datatype_copy_content_same_ddt, he]

theorem rh_run_leave_sim (p m : Nat) (G : Nat → Local α) (r : Nat)
    (hok : ∀ r, (G r).ctl.err = 0) :
    (rh_run_leave p m G r).ctl.err = 0 ∧
    (rh_run_leave p m G r).rbuf =
      (if (r : Int) < 2 * rh_nprocs_rem p ∧ r % 2 = 0 then
        recv_contig
          (if rh_vrank p r ≠ -1 then
            ompi_datatype_copy_content_same_ddt m (G r).rbuf 0 (G r).tmpbuf (r * m)
           else (G r).rbuf) 0 m (G (r + 1)).tmpbuf ((r + 1 - 1) * m)
       else
        (if rh_vrank p r ≠ -1 then
          ompi_datatype_copy_content_same_ddt m (G r).rbuf 0 (G r).tmpbuf (r * m)
         else (G r).rbuf)) := by
  unfold rh_run_leave rh_unfold
  simp only [Local.andThen, hok, if_true]
  have ht : (if rh_vrank p (r + 1) ≠ -1 then copy_out (env_deliver []) m ((r + 1) * m)
      (G (r + 1)) else G (r + 1)).tmpbuf = (G (r + 1)).tmpbuf := by
    split_ifs <;> simp [copy_out, Ctl.checked, env_deliver]
  rw [ht]
  by_cases hv : rh_vrank p r ≠ -1
  · by_cases h1 : (r : Int) < 2 * rh_nprocs_rem p
    · by_cases h2 : r % 2 = 0
      · simp [hv, h1, h2, hok r, copy_out, Ctl.checked, env_deliver, write_slice]
      · simp [hv, h1, h2, hok r, copy_out, Ctl.checked, env_deliver]
    · simp [hv, h1, hok r, copy_out, Ctl.checked, env_deliver]
  · by_cases h1 : (r : Int) < 2 * rh_nprocs_rem p
    · by_cases h2 : r % 2 = 0
      · simp [hv, h1, h2, hok r, Ctl.checked, env_deliver, write_slice]
      · simp [hv, h1, h2, hok r, Ctl.checked, env_deliver]
    · simp [hv, h1, hok r]

theorem block_lt (p m i k : Nat) (hi : i < p) (hk : k < m) : i * m + k < p * m :=
  calc i * m + k < i * m + m := by omega
    _ = (i + 1) * m := by rw [Nat.succ_mul]
    _ ≤ p * m := Nat.mul_le_mul_right _ hi

theorem rh_run_correct (op : α → α → α)
    (hassoc : ∀ a b c, op (op a b) c = op a (op b c))
    (hcomm : ∀ a b, op a b = op b a)
    (p m : Nat) (hp : 2 ≤ p) (hm : 1 ≤ m) (hfit : p * m < 2 ^ 31)
    (sbuf : Nat → Option (Nat → α)) (rbuf scratch0 scratch1 : Nat → Nat → α) :
    ∃ out, rh_run op true p m sbuf rbuf scratch0 scratch1 = some out ∧
      ∀ i, i < p → (out i).status = MPI_SUCCESS ∧
        ∀ k, k < m → (out i).rbuf k =
          canonical op (fun j => input_of (sbuf j) (rbuf j)) p m i k := by
  have hp1 : 1 ≤ p := by omega
  obtain ⟨hP, h1, h2⟩ := rh_pof2_facts p hp1
  have hrem := rh_rem_eq p hp1
  have hR : rh_remN p = p - rh_nprocs_pof2 p := rfl
  have htc : totalcount p m = p * m := totalcount_eq hfit
  have hst := fun r => init_state (p * m) (sbuf r) (rbuf r) (scratch0 r) (scratch1 r)
  generalize hG0 : (fun r => (alloc_scratch (env_deliver [])
    (Local.init (rbuf r) (scratch0 r) (scratch1 r))).andThen
      (copy_in (env_deliver []) (p * m) (sbuf r))) = G0
  have hst' : ∀ r, (G0 r).ctl.err = 0 ∧ (G0 r).tmpbuf =
      ompi_datatype_copy_content_same_ddt (p * m) (scratch0 r) 0
        (input_of (sbuf r) (rbuf r)) 0 ∧ (G0 r).rbuf = rbuf r := by
    intro r; rw [← hG0]; exact hst r
  have hinit := rh_enter_inv op (fun j => input_of (sbuf j) (rbuf j)) p m hp1 hfit G0 scratch0
    (fun r => (hst' r).1) (fun r => (hst' r).2.1)
  have hf := fun r => rh_run_fold_sim op p m G0 r (hst' r).1
  have he := fun r => rh_run_enter_sim p (rh_run_fold op p m G0) r (hf r).1
  obtain ⟨G, e1, inv, ok⟩ := rh_run_loop_inv op hassoc hcomm _ p m hp1 hm hfit (Nat.log2 p)
    (rh_nprocs_pof2 p) _ (Nat.le_refl _)
    (by rw [hP]; exact Nat.le_of_lt (Nat.lt_two_pow _)) (fun r => (he r).1) hinit
  unfold rh_run
  rw [if_neg (by omega), htc]
  simp only [Bool.not_true, Bool.false_eq_true, if_false, hG0]
  rw [hP] at e1 ⊢
  rw [e1]
  refine ⟨_, rfl, ?_⟩
  intro i hi
  obtain ⟨l1, l2⟩ := rh_run_leave_sim p m G i (fun r => (ok r).1)
  refine ⟨by simp only [rh_cleanup_err]; exact l1, ?_⟩
  intro k hk
  simp only [Option.map]
  rw [l2]
  have hval : ∀ r v : Nat, r < p → rh_vrank p r = (v : Int) → ∀ e, e < p * m →
      rh_vblock p m e = v →
      (G r).tmpbuf e = rangeRed op (fun j => input_of (sbuf j) (rbuf j) e) 0 (p - 1) := by
    intro r v hr hv e he hb
    have := ((inv r hr).2 v hv).2 e he (by rw [hb])
    simp only [Local.toRH] at this
    rw [this, rh_window_red_zero op hassoc _ p v e hp1]
  have hlt : ∀ b : Nat, b < p → b * m + k < p * m := fun b hb => block_lt p m b k hb hk
  unfold canonical
  rcases rh_vrank_cases p i hp1 hi with ⟨hneg, hev, hi2⟩ | ⟨v, hv, hvP, hphys⟩
  · -- a folded even rank gets its block from the next rank
    have hi1 : i + 1 < p := by omega
    rcases rh_vrank_cases p (i + 1) hp1 hi1 with ⟨-, hev', -⟩ | ⟨v, hv, hvP, hphys⟩
    · omega
    · have hvlt : v < rh_remN p := by
        unfold rh_phys at hphys
        split_ifs at hphys <;> omega
      have hb := (rh_vblock_phys p m v k hm hk).2 hvlt
      rw [hphys] at hb
      have := hval (i + 1) v hi1 hv ((i + 1 - 1) * m + k) (by simpa using hlt i hi) hb
      rw [hrem, if_pos ⟨by omega, hev⟩]
      simp only [recv_contig, Nat.zero_le, true_and, Nat.zero_add, hk, if_true,
        Nat.sub_zero]
      rw [this]; simp
  · have hb := (rh_vblock_phys p m v k hm hk).1
    rw [hphys] at hb
    have := hval i v hi hv (i * m + k) (hlt i hi) hb
    have hpart : rh_vrank p i ≠ -1 := by rw [hv]; omega
    have hodd : ¬ ((i : Int) < 2 * (rh_remN p : Int) ∧ i % 2 = 0) := by
      intro h
      unfold rh_phys at hphys
      split_ifs at hphys <;> omega
    rw [hrem, if_neg hodd, if_pos hpart]
    simp only [ompi_datatype_copy_content_same_ddt, Nat.zero_le, true_and, Nat.zero_add, hk,
      if_true, Nat.sub_zero]
    exact this

theorem basic_run_correct (op : α → α → α) (p m : Nat) (hp : 1 ≤ p) (hm : 1 ≤ m)
    (hfit : p * m < 2 ^ 31)
    (sbuf : Nat → Option (Nat → α)) (rbuf scratch0 : Nat → Nat → α) (i : Nat) (hi : i < p) :
    (basic_run op p m sbuf rbuf scratch0 i).status = MPI_SUCCESS ∧
      ∀ k, k < m → (basic_run op p m sbuf rbuf scratch0 i).rbuf k =
        canonical op (fun j => input_of (sbuf j) (rbuf j)) p m i k := by
  have hcnt : int32 ((m : Int) * (p : Int)) = ((m * p : Nat) : Int) := by
    rw [← Int.natCast_mul]; exact int32_natCast (by rw [Nat.mul_comm]; exact hfit)
  have hne : ((m * p : Nat) : Int) ≠ 0 := by
    have h0 := Nat.mul_ne_zero (show m ≠ 0 by omega) (show p ≠ 0 by omega)
    exact_mod_cast h0
  unfold basic_run ompi_coll_base_reduce_scatter_block_basic
  simp only [hcnt, if_neg hne, Int.toNat_ofNat]
  constructor
  · by_cases h0 : i = 0 <;>
      simp [h0, env_deliver, Ctl.checked, Ctl.unchecked, MPI_SUCCESS]
  · intro k hk
    have hlt := block_lt p m i k hi hk
    have hlt' : i * m + k < m * p := by rw [Nat.mul_comm m p]; exact hlt
    by_cases h0 : i = 0 <;>
      simp [h0, env_deliver, Ctl.checked, Ctl.unchecked, MPI_SUCCESS, write_msg, slice,
        coll_scatter_from_root,
        List.getD_eq_getElem?_getD, hk, coll_reduce_root, canonical, hlt']
    · intro hcontra
      subst h0
      simp at hlt'
      omega

/-- For two ranks or more, a commutative and associative operator and a positive block size,
the three variants leave the same `rbuf[0..m)` on every rank. -/
theorem variants_agree (op : α → α → α)
    (hassoc : ∀ a b c, op (op a b) c = op a (op b c))
    (hcomm : ∀ a b, op a b = op b a)
    (p m : Nat) (hp : 2 ≤ p) (hm : 1 ≤ m) (hfit : p * m < 2 ^ 31)
    (sbuf : Nat → Option (Nat → α)) (rbuf scratch0 scratch1 : Nat → Nat → α) :
    ∃ od oh, rd_run op true p m sbuf rbuf scratch0 scratch1 = some od ∧
      rh_run op true p m sbuf rbuf scratch0 scratch1 = some oh ∧
      ∀ i, i < p → ∀ k, k < m →
        (od i).rbuf k = (basic_run op p m sbuf rbuf scratch0 i).rbuf k ∧
        (oh i).rbuf k = (basic_run op p m sbuf rbuf scratch0 i).rbuf k := by
  obtain ⟨od, e1, h1⟩ := rd_run_correct op true hassoc (fun _ => hcomm) p m hp hm hfit sbuf rbuf
    scratch0 scratch1
  obtain ⟨oh, e2, h2⟩ := rh_run_correct op hassoc hcomm p m hp hm hfit sbuf rbuf scratch0 scratch1
  refine ⟨od, oh, e1, e2, ?_⟩
  intro i hi k hk
  have h3 := (basic_run_correct op p m (by omega) hm hfit sbuf rbuf scratch0 i hi).2 k hk
  rw [(h1 i hi).2 k hk, (h2 i hi).2 k hk, h3]
  exact ⟨rfl, rfl⟩
/-- Steps that read the environment locally compose. -/
theorem StepLocal_comp {F G : Env α → Local α → Local α} (hF : StepLocal F) (hG : StepLocal G) :
    StepLocal (fun env s => G env (F env s)) := by
  intro env s
  obtain ⟨f1, f2⟩ := hF env s
  obtain ⟨g1, g2⟩ := hG env (F env s)
  refine ⟨Nat.le_trans f1 g1, ?_⟩
  intro env' hag
  have e1 : F env' s = F env s :=
    f2 env' (fun i h1 h2 => hag i h1 (Nat.lt_of_lt_of_le h2 g1))
  show G env' (F env' s) = G env (F env s)
  rw [e1]
  exact g2 env' (fun i h1 h2 => hag i (Nat.le_trans f1 h1) h2)

theorem StepLocal_guarded {F : Env α → Local α → Local α} (hF : StepLocal F) :
    StepLocal (guarded F) := by
  intro env s
  unfold guarded Local.andThen
  by_cases h : s.ctl.err = 0
  · simp only [h, if_true]
    exact hF env s
  · simp only [h, if_false]
    exact ⟨Nat.le_refl _, fun _ _ => trivial⟩

theorem StepLocal_ite (c : Prop) [Decidable c] {F : Env α → Local α → Local α}
    (hF : StepLocal F) : StepLocal (fun env s => if c then F env s else s) := by
  intro env s
  by_cases h : c
  · simp only [h, if_true]
    exact hF env s
  · simp only [h, if_false]
    exact ⟨Nat.le_refl _, fun _ _ => trivial⟩

/-- A step that makes no call and does not look at the environment. -/
theorem StepLocal_pure (f : Local α → Local α) (hf : ∀ s, (f s).ctl = s.ctl) :
    StepLocal (fun _ s => f s) := by
  intro env s
  exact ⟨by rw [hf], fun _ _ => rfl⟩

theorem StepLocal_id : StepLocal (fun (_ : Env α) (s : Local α) => s) :=
  StepLocal_pure (fun s => s) (fun _ => rfl)

theorem guarded_seq (F G : Env α → Local α → Local α) (env : Env α) (s : Local α) :
    guarded G env (guarded F env s) = guarded (fun env s => (F env s).andThen (G env)) env s := by
  unfold guarded Local.andThen
  by_cases h : s.ctl.err = 0
  · simp only [h, if_true]
  · simp only [h, if_false]

theorem StepLocal_congr {F G : Env α → Local α → Local α} (h : ∀ env s, F env s = G env s)
    (hF : StepLocal F) : StepLocal G := by
  have e : F = G := funext (fun env => funext (fun s => h env s))
  rw [← e]
  exact hF

theorem env_agree_at {lo hi : Nat} {a b : Env α} (h : env_agree lo hi a b) (hlt : lo < hi) :
    b.status lo = a.status lo ∧ b.payload lo = a.payload lo :=
  ⟨((h lo (Nat.le_refl _) hlt).1).symm, ((h lo (Nat.le_refl _) hlt).2).symm⟩

theorem StepLocal_rd_sendrecv (p m rank mask : Nat) :
    StepLocal (fun (env : Env α) s => rd_sendrecv env p m rank mask s) := by
  intro env s
  by_cases h : rank ^^^ mask < p
  · have hlen : s.ctl.trace.length < (rd_sendrecv env p m rank mask s).ctl.trace.length := by
      unfold rd_sendrecv Ctl.checked
      simp only [h, if_true]
      split_ifs <;> simp
    refine ⟨Nat.le_of_lt hlen, ?_⟩
    intro env' hag
    obtain ⟨e1, e2⟩ := env_agree_at hag hlen
    unfold rd_sendrecv Ctl.checked
    simp only [h, if_true, e1, e2]
  · unfold rd_sendrecv
    simp only [h, if_false]
    exact ⟨Nat.le_refl _, fun _ _ => trivial⟩

theorem StepLocal_rd_create (h : Nat) (t : Indexed) :
    StepLocal (fun (env : Env α) s => rd_create env h t s) := by
  intro env s
  have hlen : s.ctl.trace.length < (rd_create env h t s).ctl.trace.length := by
    unfold rd_create Ctl.checked
    simp only
    split_ifs <;> simp
  refine ⟨Nat.le_of_lt hlen, ?_⟩
  intro env' hag
  obtain ⟨e1, -⟩ := env_agree_at hag hlen
  unfold rd_create Ctl.checked
  simp only [e1]

theorem StepLocal_rd_commit (h : Nat) :
    StepLocal (fun (env : Env α) s => rd_commit env h s) := by
  intro env s
  have hlen : s.ctl.trace.length < (rd_commit env h s).ctl.trace.length := by
    unfold rd_commit Ctl.checked
    simp
  refine ⟨Nat.le_of_lt hlen, ?_⟩
  intro env' hag
  obtain ⟨e1, -⟩ := env_agree_at hag hlen
  unfold rd_commit Ctl.checked
  simp only [e1]

theorem StepLocal_rd_destroy (h : Nat) :
    StepLocal (fun (env : Env α) s => rd_destroy env h s) := by
  intro env s
  have hlen : s.ctl.trace.length < (rd_destroy env h s).ctl.trace.length := by
    unfold rd_destroy Ctl.checked
    simp only
    split_ifs <;> simp
  refine ⟨Nat.le_of_lt hlen, ?_⟩
  intro env' hag
  obtain ⟨e1, -⟩ := env_agree_at hag hlen
  unfold rd_destroy Ctl.checked
  simp only [e1]

theorem StepLocal_rd_fwd_iter (p m rank mask h : Nat) :
    StepLocal (fun (env : Env α) s => rd_fwd_iter env p m rank mask h s) := by
  intro env s
  by_cases h1 : rd_send_cond p rank mask h = true
  · have hlen : s.ctl.trace.length < (rd_fwd_iter env p m rank mask h s).ctl.trace.length := by
      unfold rd_fwd_iter Ctl.checked
      simp [h1]
    refine ⟨Nat.le_of_lt hlen, ?_⟩
    intro env' hag
    obtain ⟨e1, -⟩ := env_agree_at hag hlen
    unfold rd_fwd_iter Ctl.checked
    simp only [h1, if_true, e1]
  · have h1 : rd_send_cond p rank mask h = false := by simpa using h1
    by_cases h2 : rd_recv_cond p rank mask h = true
    · have hlen : s.ctl.trace.length <
          (rd_fwd_iter env p m rank mask h s).ctl.trace.length := by
        unfold rd_fwd_iter Ctl.checked
        simp only [h1, h2, if_true, if_false, Bool.false_eq_true]
        split_ifs <;> simp
      refine ⟨Nat.le_of_lt hlen, ?_⟩
      intro env' hag
      obtain ⟨e1, e2⟩ := env_agree_at hag hlen
      unfold rd_fwd_iter Ctl.checked
      simp only [h1, h2, if_true, if_false, Bool.false_eq_true, e1, e2]
    · have h2 : rd_recv_cond p rank mask h = false := by simpa using h2
      unfold rd_fwd_iter
      simp only [h1, h2, if_false, Bool.false_eq_true]
      exact ⟨Nat.le_refl _, fun _ _ => trivial⟩

theorem StepLocal_rd_reduce_step (op : α → α → α) (c : Bool) (p m rank mask : Nat) :
    StepLocal (fun (env : Env α) s => rd_reduce_step env op c p m rank mask s) := by
  intro env s
  show s.ctl.trace.length ≤ (rd_reduce_step env op c p m rank mask s).ctl.trace.length ∧
    ∀ env', env_agree s.ctl.trace.length
      (rd_reduce_step env op c p m rank mask s).ctl.trace.length env env' →
      rd_reduce_step env' op c p m rank mask s = rd_reduce_step env op c p m rank mask s
  by_cases h1 : s.is_block_received = true
  · by_cases h2 : (c || decide (ompi_rounddown (rank ^^^ mask) mask <
        ompi_rounddown rank mask)) = true
    · unfold rd_reduce_step Ctl.checked Ctl.unchecked
      simp only [h1, h2, if_true]
      exact ⟨by simp, fun _ _ => trivial⟩
    · have h2 : (c || decide (ompi_rounddown (rank ^^^ mask) mask <
          ompi_rounddown rank mask)) = false := by simpa using h2
      have hlen : s.ctl.trace.length + 2 <
          (rd_reduce_step env op c p m rank mask s).ctl.trace.length := by
        unfold rd_reduce_step Ctl.checked Ctl.unchecked
        simp only [h1, h2, if_true, if_false, Bool.false_eq_true]
        split_ifs <;> simp
      refine ⟨by omega, ?_⟩
      intro env' hag
      have e1 := ((hag (s.ctl.trace.length + 2) (by omega) hlen).1).symm
      unfold rd_reduce_step Ctl.checked Ctl.unchecked
      simp only [h1, h2, if_true, if_false, Bool.false_eq_true, List.length_append,
        List.length_singleton, e1]
  · have h1 : s.is_block_received = false := by simpa using h1
    unfold rd_reduce_step
    simp only [h1, if_false, Bool.false_eq_true]
    exact ⟨Nat.le_refl _, fun _ _ => trivial⟩

theorem StepLocal_rh_irecv (pl : RHPlan) :
    StepLocal (fun (env : Env α) s => rh_irecv env pl s) := by
  intro env s
  by_cases h1 : 0 < pl.recv_count
  · have hlen : s.ctl.trace.length < (rh_irecv env pl s).ctl.trace.length := by
      unfold rh_irecv Ctl.checked
      simp [h1]
    refine ⟨Nat.le_of_lt hlen, ?_⟩
    intro env' hag
    obtain ⟨e1, -⟩ := env_agree_at hag hlen
    unfold rh_irecv Ctl.checked
    simp only [h1, if_true, e1]
  · unfold rh_irecv
    simp only [h1, if_false]
    exact ⟨Nat.le_refl _, fun _ _ => trivial⟩

theorem StepLocal_rh_send (pl : RHPlan) :
    StepLocal (fun (env : Env α) s => rh_send env pl s) := by
  intro env s
  by_cases h1 : 0 < pl.send_count
  · have hlen : s.ctl.trace.length < (rh_send env pl s).ctl.trace.length := by
      unfold rh_send Ctl.checked
      simp [h1]
    refine ⟨Nat.le_of_lt hlen, ?_⟩
    intro env' hag
    obtain ⟨e1, -⟩ := env_agree_at hag hlen
    unfold rh_send Ctl.checked
    simp only [h1, if_true, e1]
  · unfold rh_send
    simp only [h1, if_false]
    exact ⟨Nat.le_refl _, fun _ _ => trivial⟩

theorem StepLocal_rh_wait_reduce (op : α → α → α) (pl : RHPlan) :
    StepLocal (fun (env : Env α) s => rh_wait_reduce env op pl s) := by
  intro env s
  by_cases h1 : 0 < pl.recv_count
  · have hlen : s.ctl.trace.length < (rh_wait_reduce env op pl s).ctl.trace.length := by
      unfold rh_wait_reduce Ctl.checked Ctl.unchecked
      simp only [h1, if_true]
      split_ifs <;> simp
    refine ⟨Nat.le_of_lt hlen, ?_⟩
    intro env' hag
    obtain ⟨e1, e2⟩ := env_agree_at hag hlen
    unfold rh_wait_reduce Ctl.checked Ctl.unchecked
    simp only [h1, if_true, e1, e2]
  · unfold rh_wait_reduce
    simp only [h1, if_false]
    exact ⟨Nat.le_refl _, fun _ _ => trivial⟩

theorem Tracks_eq {F : Env α → Local α → Local α} {s s1 s2 : Local α} (h : Tracks F s s1)
    (e : s1 = s2) : Tracks F s s2 := by
  rw [← e]; exact h

/-- The pairwise exchange with the flag reset before it. -/
theorem StepLocal_rd_sendrecv_reset (p m rank mask : Nat) :
    StepLocal (fun (env : Env α) s =>
      rd_sendrecv env p m rank mask { s with is_block_received := false }) :=
  StepLocal_comp (StepLocal_pure (fun s => { s with is_block_received := false })
    (fun _ => rfl)) (StepLocal_rd_sendrecv p m rank mask)

theorem StepLocal_rd_fwd_loop (p m rank mask : Nat) : ∀ (fuel h : Nat),
    StepLocal (fun (env : Env α) s => rd_fwd_loop env p m rank mask fuel h s) := by
  intro fuel
  induction fuel with
  | zero =>
    intro h
    exact StepLocal_congr (fun _ _ => rfl) StepLocal_id
  | succ f ih =>
    intro h
    exact StepLocal_congr (fun _ _ => rfl)
      (StepLocal_ite (h > 0) (StepLocal_comp (StepLocal_rd_fwd_iter p m rank mask h)
        (StepLocal_guarded (ih (h >>> 1)))))

theorem StepLocal_rd_search (p m rank mask : Nat) :
    StepLocal (fun (env : Env α) s => rd_search env p m rank mask s) :=
  StepLocal_congr (fun _ _ => rfl)
    (StepLocal_ite (rd_in_search p rank mask = true)
      (StepLocal_rd_fwd_loop p m rank mask mask (mask >>> 1)))

theorem StepLocal_rd_iter (op : α → α → α) (c : Bool) (p m rank mask : Nat) :
    StepLocal (fun (env : Env α) s => rd_iter env op c p m rank mask s) := by
  have h1 := StepLocal_comp (StepLocal_rd_create (α := α) 0 (rd_sendtype p m rank mask))
    (StepLocal_guarded (StepLocal_rd_commit 0))
  have h2 := StepLocal_comp h1
    (StepLocal_guarded (StepLocal_rd_create 1 (rd_recvtype p m rank mask)))
  have h3 := StepLocal_comp h2 (StepLocal_guarded (StepLocal_rd_commit 1))
  have h4 := StepLocal_comp h3 (StepLocal_guarded (StepLocal_rd_sendrecv_reset p m rank mask))
  have h5 := StepLocal_comp h4 (StepLocal_guarded (StepLocal_rd_search p m rank mask))
  have h6 := StepLocal_comp h5
    (StepLocal_guarded (StepLocal_rd_reduce_step op c p m rank mask))
  have h7 := StepLocal_comp h6 (StepLocal_guarded (StepLocal_rd_destroy 0))
  have h8 := StepLocal_comp h7 (StepLocal_guarded (StepLocal_rd_destroy 1))
  exact StepLocal_congr (fun _ _ => rfl) h8

theorem StepLocal_rd_rank_loop (op : α → α → α) (c : Bool) (p m rank : Nat) :
    ∀ (fuel mask : Nat),
    StepLocal (fun (env : Env α) s => rd_rank_loop env op c p m rank fuel mask s) := by
  intro fuel
  induction fuel with
  | zero =>
    intro mask
    exact StepLocal_congr (fun _ _ => rfl) StepLocal_id
  | succ f ih =>
    intro mask
    exact StepLocal_congr (fun _ _ => rfl)
      (StepLocal_ite (mask < p) (StepLocal_comp (StepLocal_rd_iter op c p m rank mask)
        (StepLocal_guarded (ih (mask <<< 1)))))

theorem StepLocal_rh_iter (op : α → α → α) (p m : Nat) (vrank : Int) (mask : Nat) :
    StepLocal (fun (env : Env α) s => rh_iter env op p m vrank mask s) := by
  intro env s
  have h := StepLocal_comp (StepLocal_comp (StepLocal_comp
    (StepLocal_rh_irecv (α := α) (rh_plan p m vrank mask s.window))
    (StepLocal_guarded (StepLocal_rh_send (rh_plan p m vrank mask s.window))))
    (StepLocal_guarded (StepLocal_rh_wait_reduce op (rh_plan p m vrank mask s.window))))
    (StepLocal_guarded (StepLocal_pure
      (fun s' => { s' with window := rh_next_window mask (rh_plan p m vrank mask s.window) })
      (fun _ => rfl)))
  exact h env s

theorem StepLocal_rh_rank_loop (op : α → α → α) (p m : Nat) (vrank : Int) :
    ∀ (fuel mask : Nat),
    StepLocal (fun (env : Env α) s => rh_rank_loop env op p m vrank fuel mask s) := by
  intro fuel
  induction fuel with
  | zero =>
    intro mask
    exact StepLocal_congr (fun _ _ => rfl) StepLocal_id
  | succ f ih =>
    intro mask
    exact StepLocal_congr (fun _ _ => rfl)
      (StepLocal_ite (mask > 0) (StepLocal_comp (StepLocal_rh_iter op p m vrank mask)
        (StepLocal_guarded (ih (mask >>> 1)))))
/-- C3 (the code fails the claim). With one rank and a real send buffer the recursive
doubling and recursive halving variants return `MPI_SUCCESS` at their first test and never
copy: at `p = 1`, `m = 5`, input `[1, 2, 3, 4, 5]` and a zeroed receive buffer they leave
`[0, 0, 0, 0, 0]` and make no call, while the basic variant (reduce then scatter) leaves
`[1, 2, 3, 4, 5]`. -/
theorem single_rank_not_copied :
    (ompi_coll_base_reduce_scatter_block_intra_recursivedoubling env_ok (fun a b => a + b) true
      (some scenario_single_sbuf) zero_buf 5 1 0 zero_buf zero_buf).status = MPI_SUCCESS ∧
    (List.range 5).map (ompi_coll_base_reduce_scatter_block_intra_recursivedoubling env_ok
      (fun a b => a + b) true (some scenario_single_sbuf) zero_buf 5 1 0 zero_buf
      zero_buf).rbuf = [0, 0, 0, 0, 0] ∧
    (ompi_coll_base_reduce_scatter_block_intra_recursivehalving env_ok (fun a b => a + b) true
      (some scenario_single_sbuf) zero_buf 5 1 0 zero_buf zero_buf).status = MPI_SUCCESS ∧
    (List.range 5).map (ompi_coll_base_reduce_scatter_block_intra_recursivehalving env_ok
      (fun a b => a + b) true (some scenario_single_sbuf) zero_buf 5 1 0 zero_buf
      zero_buf).rbuf = [0, 0, 0, 0, 0] ∧
    (rd_run (fun a b => a + b) true 1 5 (fun _ => some scenario_single_sbuf)
      (fun _ => zero_buf) (fun _ => zero_buf) (fun _ => zero_buf)).map
        (fun out => (List.range 5).map (out 0).rbuf) = some [0, 0, 0, 0, 0] ∧
    (rh_run (fun a b => a + b) true 1 5 (fun _ => some scenario_single_sbuf)
      (fun _ => zero_buf) (fun _ => zero_buf) (fun _ => zero_buf)).map
        (fun out => (List.range 5).map (out 0).rbuf) = some [0, 0, 0, 0, 0] ∧
    (basic_run (fun a b => a + b) 1 5 (fun _ => some scenario_single_sbuf)
      (fun _ => zero_buf) (fun _ => zero_buf) 0).status = MPI_SUCCESS ∧
    (List.range 5).map (basic_run (fun a b => a + b) 1 5 (fun _ => some scenario_single_sbuf)
      (fun _ => zero_buf) (fun _ => zero_buf) 0).rbuf = [1, 2, 3, 4, 5] := by
  refine ⟨rfl, rfl, rfl, rfl, rfl, rfl, rfl, rfl⟩

/-- C4. Zero count: for every group size, rank, operator and environment, each of the three
variants called with `rcount = 0` returns `MPI_SUCCESS`, makes no call at all (no send,
receive, reduce, scatter, allocation or operator application) and leaves `rbuf` as it was. -/
theorem zero_count_no_effect (env : Env α) (op : α → α → α) (is_commutative : Bool)
    (sbuf : Option (Nat → α)) (rbuf : Nat → α) (p rank : Nat) (scratch0 scratch1 : Nat → α) :
    ompi_coll_base_reduce_scatter_block_basic env sbuf rbuf 0 p rank =
      ⟨MPI_SUCCESS, rbuf, []⟩ ∧
    ompi_coll_base_reduce_scatter_block_intra_recursivedoubling env op is_commutative sbuf
      rbuf 0 p rank scratch0 scratch1 = ⟨MPI_SUCCESS, rbuf, []⟩ ∧
    ompi_coll_base_reduce_scatter_block_intra_recursivehalving env op is_commutative sbuf
      rbuf 0 p rank scratch0 scratch1 = ⟨MPI_SUCCESS, rbuf, []⟩ := by
  refine ⟨?_, ?_, ?_⟩
  · simp [ompi_coll_base_reduce_scatter_block_basic, int32_zero]
  · simp [ompi_coll_base_reduce_scatter_block_intra_recursivedoubling]
  · simp [ompi_coll_base_reduce_scatter_block_intra_recursivehalving]


/-- The basic variant makes none of the calls of the halving variant proper. -/
theorem basic_no_halving_call (env : Env α) (sbuf : Option (Nat → α)) (rbuf : Nat → α)
    (rcount size rank : Nat) :
    ∀ e ∈ (ompi_coll_base_reduce_scatter_block_basic env sbuf rbuf rcount size rank).trace,
      e.call.is_halving_call = false := by
  unfold ompi_coll_base_reduce_scatter_block_basic Ctl.checked Ctl.unchecked
  simp only
  intro e he
  split_ifs at he <;> simp at he <;>
    (try rcases he with he | he | he | he) <;> (try rcases he with he | he | he) <;> rfl

/-- C5 (the code fails the claim). With one rank, `m = 1` and a non-commutative operator
the halving variant returns at its first test (`rcount == 0 || comm_size < 2`, before the
commutativity test), makes no call and leaves `rbuf = [0]`, while the basic variant on the
same arguments makes its calls and leaves what scatter delivers, `[7]`; and when the
allocation fails the basic variant returns an error where halving returns success. The
early return is the one that also leaves a single rank without its block. -/
theorem noncommutative_dispatch_single_rank :
    (ompi_coll_base_reduce_scatter_block_intra_recursivehalving env_ok op_left false
      (some (fun _ => 7)) zero_buf 1 1 0 zero_buf zero_buf).rbuf 0 = 0 ∧
    (ompi_coll_base_reduce_scatter_block_basic env_ok (some (fun _ => 7)) zero_buf 1 1 0).rbuf 0
      = 7 ∧
    (ompi_coll_base_reduce_scatter_block_intra_recursivehalving env_ok op_left false
      (some (fun _ => 7)) zero_buf 1 1 0 zero_buf zero_buf).trace.length = 0 ∧
    (ompi_coll_base_reduce_scatter_block_basic env_ok (some (fun _ => 7)) zero_buf 1 1
      0).trace.length = 4 ∧
    (ompi_coll_base_reduce_scatter_block_intra_recursivehalving (env_fail_at 0) op_left false
      (some (fun _ => 7)) zero_buf 1 1 0 zero_buf zero_buf).status = MPI_SUCCESS ∧
    (ompi_coll_base_reduce_scatter_block_basic (env_fail_at 0) (some (fun _ => 7)) zero_buf 1 1
      0).status = OMPI_ERR_OUT_OF_RESOURCE := by
  refine ⟨rfl, rfl, rfl, rfl, rfl, rfl⟩

/-- Past the first test, with `rcount = 0` or a group of at least two ranks, the
recursive-halving variant called with a non-commutative operator is the call of the basic
variant on the same arguments: same status, same `rbuf`, same calls, none of them a call of
the halving variant proper. -/
theorem noncommutative_dispatch (env : Env α) (op : α → α → α)
    (sbuf : Option (Nat → α)) (rbuf : Nat → α) (rcount comm_size rank : Nat)
    (scratch0 scratch1 : Nat → α) (h : rcount = 0 ∨ 2 ≤ comm_size) :
    ompi_coll_base_reduce_scatter_block_intra_recursivehalving env op false sbuf rbuf rcount
      comm_size rank scratch0 scratch1 =
      ompi_coll_base_reduce_scatter_block_basic env sbuf rbuf rcount comm_size rank ∧
    ∀ e ∈ (ompi_coll_base_reduce_scatter_block_intra_recursivehalving env op false sbuf rbuf
      rcount comm_size rank scratch0 scratch1).trace, e.call.is_halving_call = false := by
  have heq : ompi_coll_base_reduce_scatter_block_intra_recursivehalving env op false sbuf rbuf
      rcount comm_size rank scratch0 scratch1 =
      ompi_coll_base_reduce_scatter_block_basic env sbuf rbuf rcount comm_size rank := by
    unfold ompi_coll_base_reduce_scatter_block_intra_recursivehalving
    rcases h with h | h
    · subst h
      simp [ompi_coll_base_reduce_scatter_block_basic, int32_zero]
    · by_cases h0 : rcount = 0
      · subst h0
        simp [ompi_coll_base_reduce_scatter_block_basic, int32_zero]
      · rw [if_neg (by omega)]
        simp
  refine ⟨heq, ?_⟩
  rw [heq]
  exact basic_no_halving_call env sbuf rbuf rcount comm_size rank

/-- C6 (the code fails the claim). With one rank and `m = 1` the recursive doubling and
recursive halving variants leave `rbuf[0] = 7` when called with `MPI_IN_PLACE` on
`rbuf = [7]`, and leave `rbuf[0] = 0` when called with `sbuf = [7]` and a zeroed `rbuf`. -/
theorem in_place_differs_single_rank :
    (ompi_coll_base_reduce_scatter_block_intra_recursivedoubling env_ok (fun a b => a + b) true
      none (fun _ => 7) 1 1 0 zero_buf zero_buf).rbuf 0 = 7 ∧
    (ompi_coll_base_reduce_scatter_block_intra_recursivedoubling env_ok (fun a b => a + b) true
      (some (fun _ => 7)) zero_buf 1 1 0 zero_buf zero_buf).rbuf 0 = 0 ∧
    (ompi_coll_base_reduce_scatter_block_intra_recursivehalving env_ok (fun a b => a + b) true
      none (fun _ => 7) 1 1 0 zero_buf zero_buf).rbuf 0 = 7 ∧
    (ompi_coll_base_reduce_scatter_block_intra_recursivehalving env_ok (fun a b => a + b) true
      (some (fun _ => 7)) zero_buf 1 1 0 zero_buf zero_buf).rbuf 0 = 0 ∧
    (rd_run (fun a b : Int => a + b) true 1 1 (fun _ => none) (fun _ _ => 7)
      (fun _ => zero_buf) (fun _ => zero_buf)).map (fun out => (out 0).rbuf 0) = some 7 ∧
    (rd_run (fun a b : Int => a + b) true 1 1 (fun _ => some (fun _ => 7)) (fun _ => zero_buf)
      (fun _ => zero_buf) (fun _ => zero_buf)).map (fun out => (out 0).rbuf 0) = some 0 ∧
    (rh_run (fun a b : Int => a + b) true 1 1 (fun _ => none) (fun _ _ => 7)
      (fun _ => zero_buf) (fun _ => zero_buf)).map (fun out => (out 0).rbuf 0) = some 7 ∧
    (rh_run (fun a b : Int => a + b) true 1 1 (fun _ => some (fun _ => 7)) (fun _ => zero_buf)
      (fun _ => zero_buf) (fun _ => zero_buf)).map (fun out => (out 0).rbuf 0) = some 0 := by
  refine ⟨rfl, rfl, rfl, rfl, rfl, rfl, rfl, rfl⟩

/-- C7 (the code fails the claim). With one rank, `m = 1`, the sum, input `[7]` and a zeroed
receive buffer, the basic variant leaves `rbuf[0] = 7` and the recursive doubling and
recursive halving variants leave `rbuf[0] = 0`. -/
theorem variants_differ_single_rank :
    (basic_run (fun a b : Int => a + b) 1 1 (fun _ => some (fun _ => 7)) (fun _ => zero_buf)
      (fun _ => zero_buf) 0).rbuf 0 = 7 ∧
    (rd_run (fun a b : Int => a + b) true 1 1 (fun _ => some (fun _ => 7)) (fun _ => zero_buf)
      (fun _ => zero_buf) (fun _ => zero_buf)).map (fun out => (out 0).rbuf 0) = some 0 ∧
    (rh_run (fun a b : Int => a + b) true 1 1 (fun _ => some (fun _ => 7)) (fun _ => zero_buf)
      (fun _ => zero_buf) (fun _ => zero_buf)).map (fun out => (out 0).rbuf 0) = some 0 := by
  refine ⟨rfl, rfl, rfl⟩
/-- C8 fails as stated: `count = rcount * size` is an `int` product. With
`rcount = size = 65536` the product `2 ^ 32` is not 0 but `count` wraps to 0: on rank 0 with
a failing allocation the basic variant returns `MPI_SUCCESS` at its short cut, without any
call, where the claim has `OUT_OF_RESOURCE`. -/
theorem basic_failure_semantics_counterexample :
    65536 * 65536 ≠ 0 ∧
    (ompi_coll_base_reduce_scatter_block_basic (env_fail_at 0) (some scenario_single_sbuf)
      zero_buf 65536 65536 0).status = MPI_SUCCESS ∧
    (ompi_coll_base_reduce_scatter_block_basic (env_fail_at 0) (some scenario_single_sbuf)
      zero_buf 65536 65536 0).trace.length = 0 := by
  refine ⟨by decide, rfl, rfl⟩

/-- C8 as amended. Failure semantics of the basic variant, for every call whose `count`,
the `int` product `rcount * size`, is not 0: on rank 0 a failed allocation gives
`OMPI_ERR_OUT_OF_RESOURCE` with neither reduce nor scatter called; a failed reduce gives its
status with scatter not called (the scratch is freed on rank 0); after a successful reduce
the status is that of scatter; and a rank other than 0 never allocates and passes a null
scratch to reduce and to scatter. -/
theorem basic_failure_semantics (env : Env α) (sbuf : Option (Nat → α)) (rbuf : Nat → α)
    (rcount size rank : Nat) (hcount : int32 ((rcount : Int) * (size : Int)) ≠ 0) :
    (rank = 0 → env.status 0 ≠ 0 →
      (ompi_coll_base_reduce_scatter_block_basic env sbuf rbuf rcount size rank).status =
        OMPI_ERR_OUT_OF_RESOURCE ∧
      (ompi_coll_base_reduce_scatter_block_basic env sbuf rbuf rcount size rank).trace =
        [⟨.malloc 0, OMPI_ERR_OUT_OF_RESOURCE⟩]) ∧
    (rank = 0 → env.status 0 = 0 → env.status 1 ≠ 0 →
      (ompi_coll_base_reduce_scatter_block_basic env sbuf rbuf rcount size rank).status =
        env.status 1 ∧
      (ompi_coll_base_reduce_scatter_block_basic env sbuf rbuf rcount size rank).trace =
        [⟨.malloc 0, 0⟩,
         ⟨.coll_reduce (slice (input_of sbuf rbuf) 0
           (int32 ((rcount : Int) * (size : Int))).toNat) false, env.status 1⟩,
         ⟨.free 0, 0⟩]) ∧
    (rank = 0 → env.status 0 = 0 → env.status 1 = 0 →
      (ompi_coll_base_reduce_scatter_block_basic env sbuf rbuf rcount size rank).status =
        env.status 2 ∧
      (ompi_coll_base_reduce_scatter_block_basic env sbuf rbuf rcount size rank).trace =
        [⟨.malloc 0, 0⟩,
         ⟨.coll_reduce (slice (input_of sbuf rbuf) 0
           (int32 ((rcount : Int) * (size : Int))).toNat) false, 0⟩,
         ⟨.coll_scatter false, env.status 2⟩, ⟨.free 0, 0⟩]) ∧
    (rank ≠ 0 → env.status 0 ≠ 0 →
      (ompi_coll_base_reduce_scatter_block_basic env sbuf rbuf rcount size rank).status =
        env.status 0 ∧
      (ompi_coll_base_reduce_scatter_block_basic env sbuf rbuf rcount size rank).trace =
        [⟨.coll_reduce (slice (input_of sbuf rbuf) 0
           (int32 ((rcount : Int) * (size : Int))).toNat) true, env.status 0⟩]) ∧
    (rank ≠ 0 → env.status 0 = 0 →
      (ompi_coll_base_reduce_scatter_block_basic env sbuf rbuf rcount size rank).status =
        env.status 1 ∧
      (ompi_coll_base_reduce_scatter_block_basic env sbuf rbuf rcount size rank).trace =
        [⟨.coll_reduce (slice (input_of sbuf rbuf) 0
           (int32 ((rcount : Int) * (size : Int))).toNat) true, 0⟩,
         ⟨.coll_scatter true, env.status 1⟩]) := by
  have hne : OMPI_ERR_OUT_OF_RESOURCE ≠ 0 := by decide
  unfold ompi_coll_base_reduce_scatter_block_basic Ctl.checked Ctl.unchecked
  simp only [if_neg hcount]
  refine ⟨?_, ?_, ?_, ?_, ?_⟩
  · intro hr h0
    simp [hr, h0, hne]
  · intro hr h0 h1
    simp [hr, h0, h1, MPI_SUCCESS]
  · intro hr h0 h1
    simp [hr, h0, h1, MPI_SUCCESS]
  · intro hr h0
    simp [hr, h0, MPI_SUCCESS]
  · intro hr h0
    simp [hr, h0, MPI_SUCCESS]

/-- Witness of the amended C8: two ranks, `m = 3`: on rank 0 a failed allocation, on rank 1 a failed
reduce. -/
theorem basic_failure_semantics_witness :
    int32 (((3 : Nat) : Int) * ((2 : Nat) : Int)) ≠ 0 ∧
    (ompi_coll_base_reduce_scatter_block_basic (env_fail_at 0) (some scenario_single_sbuf)
      zero_buf 3 2 0).status = OMPI_ERR_OUT_OF_RESOURCE ∧
    (ompi_coll_base_reduce_scatter_block_basic (env_fail_at 0) (some scenario_single_sbuf)
      zero_buf 3 2 0).trace = [⟨.malloc 0, OMPI_ERR_OUT_OF_RESOURCE⟩] ∧
    (ompi_coll_base_reduce_scatter_block_basic (env_fail_at 0) (some scenario_single_sbuf)
      zero_buf 3 2 1).status = -1 :=
  ⟨by decide,
    ((basic_failure_semantics (env_fail_at 0) (some scenario_single_sbuf) zero_buf 3 2 0
      (by decide)).1 rfl (by decide)).1,
    ((basic_failure_semantics (env_fail_at 0) (some scenario_single_sbuf) zero_buf 3 2 0
      (by decide)).1 rfl (by decide)).2,
    ((basic_failure_semantics (env_fail_at 0) (some scenario_single_sbuf) zero_buf 3 2 1
      (by decide)).2.2.2.1 (by decide) (by decide)).1⟩

/-- C9. First-error propagation: in the recursive-doubling and recursive-halving variants,
for every group size, block size, rank and environment, either no call reported a failure
and the function returns `MPI_SUCCESS`, or the function returns the status of the first call
that reported one (a failed allocation counting as `OMPI_ERR_OUT_OF_RESOURCE`) and every
call made after that one is an allocation, a free or a datatype destroy: no further send,
receive, copy or operator application. -/
theorem first_error_propagation (env : Env α) (op : α → α → α) (is_commutative : Bool)
    (sbuf : Option (Nat → α)) (rbuf : Nat → α) (rcount comm_size rank : Nat)
    (scratch0 scratch1 : Nat → α) :
    FirstError
      (ompi_coll_base_reduce_scatter_block_intra_recursivedoubling env op is_commutative sbuf
        rbuf rcount comm_size rank scratch0 scratch1).trace
      (ompi_coll_base_reduce_scatter_block_intra_recursivedoubling env op is_commutative sbuf
        rbuf rcount comm_size rank scratch0 scratch1).status ∧
    FirstError
      (ompi_coll_base_reduce_scatter_block_intra_recursivehalving env op is_commutative sbuf
        rbuf rcount comm_size rank scratch0 scratch1).trace
      (ompi_coll_base_reduce_scatter_block_intra_recursivehalving env op is_commutative sbuf
        rbuf rcount comm_size rank scratch0 scratch1).status := by
  have hnil : FirstError ([] : List (Ev α)) MPI_SUCCESS := Or.inl ⟨rfl, by simp⟩
  constructor
  · unfold ompi_coll_base_reduce_scatter_block_intra_recursivedoubling
    split_ifs
    · exact hnil
    · exact hnil
    · exact (rd_cleanup_inv env _
        (rd_body_ctl env op is_commutative sbuf rbuf rcount comm_size rank scratch0 scratch1)).1
  · unfold ompi_coll_base_reduce_scatter_block_intra_recursivehalving
    split_ifs
    · exact hnil
    · obtain ⟨k, hk, -, -, -, -, hs, ht⟩ := basic_ctl env sbuf rbuf rcount comm_size rank
      rw [hs, ht]; exact hk.1
    · exact (rh_cleanup_inv _
        (rh_body_ctl env op sbuf rbuf rcount comm_size rank scratch0 scratch1)).1

/-- C10 fails as stated: the cleanup block ignores the status of its own destroy calls.
With two ranks, `m = 1`, rank 0 and an environment in which the pairwise exchange (call 7)
and the two destroy calls of the cleanup block (calls 8 and 9) fail, both indexed datatypes
have been created once and destroyed never when the function returns. -/
theorem resources_released_counterexample :
    created 0 (ompi_coll_base_reduce_scatter_block_intra_recursivedoubling
      (env_fail_in [7, 8, 9]) (fun a b => a + b) true (some scenario_single_sbuf) zero_buf
      1 2 0 zero_buf zero_buf).trace = 1 ∧
    destroyed 0 (ompi_coll_base_reduce_scatter_block_intra_recursivedoubling
      (env_fail_in [7, 8, 9]) (fun a b => a + b) true (some scenario_single_sbuf) zero_buf
      1 2 0 zero_buf zero_buf).trace = 0 ∧
    created 1 (ompi_coll_base_reduce_scatter_block_intra_recursivedoubling
      (env_fail_in [7, 8, 9]) (fun a b => a + b) true (some scenario_single_sbuf) zero_buf
      1 2 0 zero_buf zero_buf).trace = 1 ∧
    destroyed 1 (ompi_coll_base_reduce_scatter_block_intra_recursivedoubling
      (env_fail_in [7, 8, 9]) (fun a b => a + b) true (some scenario_single_sbuf) zero_buf
      1 2 0 zero_buf zero_buf).trace = 0 ∧
    (ompi_coll_base_reduce_scatter_block_intra_recursivedoubling
      (env_fail_in [7, 8, 9]) (fun a b => a + b) true (some scenario_single_sbuf) zero_buf
      1 2 0 zero_buf zero_buf).status = -1 := by
  refine ⟨by decide, by decide, by decide, by decide, by decide⟩

/-- C10 as amended. Resource cleanup on every exit path: for every environment (every pattern of
failing calls), in the trace of the recursive-doubling variant each scratch buffer is
allocated at most once and freed exactly as often as it was successfully allocated, and,
unless a destroy call of the cleanup block itself reports a failure, each indexed datatype
created is destroyed; in the trace of the recursive-halving variant each scratch buffer is
freed exactly as often as it was successfully allocated. -/
theorem resources_released (env : Env α) (op : α → α → α) (is_commutative : Bool)
    (sbuf : Option (Nat → α)) (rbuf : Nat → α) (rcount comm_size rank : Nat)
    (scratch0 scratch1 : Nat → α) :
    (∀ tr, tr = (ompi_coll_base_reduce_scatter_block_intra_recursivedoubling env op
        is_commutative sbuf rbuf rcount comm_size rank scratch0 scratch1).trace →
      allocated 0 tr = freed 0 tr ∧ allocated 0 tr ≤ 1 ∧
      allocated 1 tr = freed 1 tr ∧ allocated 1 tr ≤ 1 ∧
      ((∀ e ∈ tr, e.is_failed_cleanup_destroy = false) →
        created 0 tr = destroyed 0 tr ∧ created 1 tr = destroyed 1 tr)) ∧
    (∀ tr, tr = (ompi_coll_base_reduce_scatter_block_intra_recursivehalving env op
        is_commutative sbuf rbuf rcount comm_size rank scratch0 scratch1).trace →
      allocated 0 tr = freed 0 tr ∧ allocated 0 tr ≤ 1 ∧
      allocated 1 tr = freed 1 tr ∧ allocated 1 tr ≤ 1) := by
  have hnil : ∀ tr : List (Ev α), tr = [] →
      allocated 0 tr = freed 0 tr ∧ allocated 0 tr ≤ 1 ∧
      allocated 1 tr = freed 1 tr ∧ allocated 1 tr ≤ 1 ∧
      created 0 tr = destroyed 0 tr ∧ created 1 tr = destroyed 1 tr := by
    intro tr h
    subst h
    simp [allocated, freed, created, destroyed]
  have hnil := hnil [] rfl
  constructor
  · intro tr htr
    subst htr
    unfold ompi_coll_base_reduce_scatter_block_intra_recursivedoubling
    split_ifs
    · exact ⟨hnil.1, hnil.2.1, hnil.2.2.1, hnil.2.2.2.1, fun _ => hnil.2.2.2.2⟩
    · exact ⟨hnil.1, hnil.2.1, hnil.2.2.1, hnil.2.2.2.1, fun _ => hnil.2.2.2.2⟩
    · have hb := (rd_cleanup_inv env _
        (rd_body_ctl env op is_commutative sbuf rbuf rcount comm_size rank scratch0
          scratch1)).2.1
      obtain ⟨q1, q2, q3⟩ := rd_cleanup_pointers env
        (rd_body env op is_commutative sbuf rbuf rcount comm_size rank scratch0 scratch1).ctl
      obtain ⟨b1, b2, b3, b4, b5, b6⟩ := hb
      simp only
      rw [q1] at b1
      rw [q2] at b2
      refine ⟨by simpa using b1, b3, by simpa using b2, b4, ?_⟩
      intro hall
      obtain ⟨r1, r2⟩ := q3 hall
      rw [r1] at b5
      rw [r2] at b6
      exact ⟨by simpa using b5, by simpa using b6⟩
  · intro tr htr
    subst htr
    unfold ompi_coll_base_reduce_scatter_block_intra_recursivehalving
    split_ifs
    · exact ⟨hnil.1, hnil.2.1, hnil.2.2.1, hnil.2.2.2.1⟩
    · obtain ⟨k, hk, p1, p2, -, -, -, ht⟩ := basic_ctl env sbuf rbuf rcount comm_size rank
      obtain ⟨b1, b2, b3, b4, -, -⟩ := hk.2.1
      rw [ht]
      rw [p1] at b1
      rw [p2] at b2
      exact ⟨by simpa using b1, b3, by simpa using b2, b4⟩
    · have hb := (rh_cleanup_inv _
        (rh_body_ctl env op sbuf rbuf rcount comm_size rank scratch0 scratch1)).2.1
      obtain ⟨q1, q2, -, -⟩ := rh_cleanup_pointers
        (rh_body env op sbuf rbuf rcount comm_size rank scratch0 scratch1).ctl
      obtain ⟨b1, b2, b3, b4, -, -⟩ := hb
      simp only
      rw [q1] at b1
      rw [q2] at b2
      exact ⟨by simpa using b1, b3, by simpa using b2, b4⟩
/-- The function returns its exact value wrapped to an `int`. -/
theorem ompi_range_sum_wrap (a b r : Int) :
    ompi_range_sum a b r = int32 (range_sum_value a b r) := by
  unfold ompi_range_sum range_sum_value
  split_ifs <;> rfl


theorem range_sum_step (a r : Int) (n : Nat) :
    range_sum_value a (a + ((n + 1 : Nat) : Int)) r =
      range_sum_value a (a + (n : Int)) r +
        (if a + ((n + 1 : Nat) : Int) ≤ r then 2 else 1) := by
  unfold range_sum_value
  push_cast
  split_ifs <;> omega

theorem Icc_succ_right (a : Int) (n : Nat) :
    Finset.Icc a (a + ((n + 1 : Nat) : Int)) =
      insert (a + ((n + 1 : Nat) : Int)) (Finset.Icc a (a + (n : Int))) := by
  ext i
  simp only [Finset.mem_insert, Finset.mem_Icc]
  push_cast
  omega

theorem range_sum_offset (r : Int) : ∀ (n : Nat) (a : Int),
    range_sum_value a (a + (n : Int)) r =
      Finset.sum (Finset.Icc a (a + (n : Int))) (fun i => if i ≤ r then (2 : Int) else 1) := by
  intro n
  induction n with
  | zero =>
    intro a
    simp only [Nat.cast_zero, add_zero, Finset.Icc_self, Finset.sum_singleton]
    unfold range_sum_value
    split_ifs <;> omega
  | succ n ih =>
    intro a
    rw [range_sum_step, Icc_succ_right, Finset.sum_insert, ih a, add_comm]
    simp only [Finset.mem_Icc, not_and, not_le]
    intro _
    push_cast
    omega

/-- C11 fails as stated: the run lengths are `int` products. With `p = 3`, `m = 2 ^ 30`,
rank 0 and `mask = 1` (subtree `[0, 1)`), `blocklens[1] = rcount * (comm_size - 0 - 1)` wraps
to `-2 ^ 31` and `blocklens[0]` is 0: the pattern describes no element, so element `2 ^ 30`,
the first of block 1, is not covered although it is below `p * m` and outside the subtree. -/
theorem scatter_pattern_covers_counterexample :
    (rd_blocklens_displs 3 (2 ^ 30) (ompi_rounddown 0 (2 ^ 0)) (2 ^ 0)).blocklens1 = -2 ^ 31 ∧
    (rd_sendtype 3 (2 ^ 30) 0 (2 ^ 0)).covers (2 ^ 30) = false ∧
    2 ^ 30 < 3 * 2 ^ 30 ∧
    ¬ (ompi_rounddown 0 (2 ^ 0) ≤ 2 ^ 30 / 2 ^ 30 ∧
      2 ^ 30 / 2 ^ 30 < ompi_rounddown 0 (2 ^ 0) + 2 ^ 0) := by
  refine ⟨by decide, by decide, by decide, by decide⟩

/-- C11 as amended. The scatter pattern covers exactly the complement of the subtree when
`p * m` fits in an `int`: for a block size `m ≥ 1` with `p * m < 2 ^ 31`, a rank `r < p` and
a step `mask = 2^s`, with `cur_root = ompi_rounddown r mask`, the two runs of the send
pattern of the doubling variant do not overlap (run 0 ends where run 1 starts, or before),
and an element index lies in one of them exactly when it is below `p * m` and its block is
not in `[cur_root, cur_root + mask)`, that is, when its block is one of `0 .. cur_root - 1`
or `cur_root + mask .. p - 1`. -/
theorem scatter_pattern_covers_complement (p m r s : Nat) (hm : 1 ≤ m) (hr : r < p)
    (hfit : p * m < 2 ^ 31) :
    (rd_sendtype p m r (2 ^ s)).displs0 + (rd_sendtype p m r (2 ^ s)).blocklens0 ≤
      (rd_sendtype p m r (2 ^ s)).displs1 ∧
    ∀ e,
      ((((rd_sendtype p m r (2 ^ s)).displs0 ≤ e ∧
          e < (rd_sendtype p m r (2 ^ s)).displs0 + (rd_sendtype p m r (2 ^ s)).blocklens0) ∨
        ((rd_sendtype p m r (2 ^ s)).displs1 ≤ e ∧
          e < (rd_sendtype p m r (2 ^ s)).displs1 + (rd_sendtype p m r (2 ^ s)).blocklens1)) ↔
        (e < p * m ∧
          ¬ (ompi_rounddown r (2 ^ s) ≤ e / m ∧ e / m < ompi_rounddown r (2 ^ s) + 2 ^ s))) ∧
      ((rd_sendtype p m r (2 ^ s)).covers e = true ↔
        (e / m < ompi_rounddown r (2 ^ s) ∨
          (ompi_rounddown r (2 ^ s) + 2 ^ s ≤ e / m ∧ e / m < p))) := by
  have hroot : ompi_rounddown r (2 ^ s) ≤ p := by
    have := (subtree_facts s r).1
    omega
  have hord := rd_indexed_ordered p m (ompi_rounddown r (2 ^ s)) (2 ^ s) hfit hroot
  refine ⟨?_, ?_⟩
  · unfold rd_sendtype
    rw [hord.1, Nat.zero_add]
    exact hord.2
  · intro e
    have hcov := @covers_rd_indexed p m (ompi_rounddown r (2 ^ s)) (2 ^ s) hfit hm hroot e
    have hdiv : e / m < p ↔ e < p * m := Nat.div_lt_iff_lt_mul hm
    unfold rd_sendtype
    constructor
    · rw [← hdiv]
      unfold Indexed.covers at hcov
      simp only [Bool.or_eq_true, Bool.and_eq_true, decide_eq_true_eq] at hcov
      constructor
      · intro h
        have := hcov.1 (Or.symm h)
        omega
      · intro h
        exact Or.symm (hcov.2 (by omega))
    · rw [hcov]
      omega

/-- Witness of the amended C11: `p = 5`, `m = 2`, rank 3, `mask = 2`. -/
theorem scatter_pattern_covers_complement_witness :
    (1 ≤ 2 ∧ 3 < 5 ∧ 5 * 2 < 2 ^ 31) ∧
    ((rd_sendtype 5 2 3 (2 ^ 1)).displs0 + (rd_sendtype 5 2 3 (2 ^ 1)).blocklens0 ≤
      (rd_sendtype 5 2 3 (2 ^ 1)).displs1) ∧
    ((rd_sendtype 5 2 3 (2 ^ 1)).covers 3 = true ∧ (rd_sendtype 5 2 3 (2 ^ 1)).covers 4 = false ∧
      (rd_sendtype 5 2 3 (2 ^ 1)).covers 7 = false ∧ (rd_sendtype 5 2 3 (2 ^ 1)).covers 8 = true ∧
      (rd_sendtype 5 2 3 (2 ^ 1)).covers 10 = false) :=
  ⟨⟨by decide, by decide, by norm_num⟩,
    (scatter_pattern_covers_complement 5 2 3 1 (by decide) (by decide) (by norm_num)).1,
    by decide⟩

theorem rd_indexed_runs (p m root mask : Nat) (hfit : p * m < 2 ^ 31)
    (h0 : m * root < 2 ^ 31) :
    (rd_indexed p m root mask).displs0 = 0 ∧
    (rd_indexed p m root mask).blocklens0 = m * root ∧
    ((rd_indexed p m root mask).blocklens1 : Int) =
      (m : Int) * max 0 ((p : Int) - (root : Int) - (mask : Int)) ∧
    (rd_indexed p m root mask).displs1 = p * m - (rd_indexed p m root mask).blocklens1 ∧
    (root + mask ≤ p → (rd_indexed p m root mask).displs1 = m * (root + mask)) ∧
    (p < root + mask → (rd_indexed p m root mask).blocklens1 = 0 ∧
      (rd_indexed p m root mask).displs1 = p * m) := by
  rw [rd_indexed_eq_of_fit hfit h0]
  simp only
  by_cases hc : p ≥ root + mask
  · simp only [if_pos hc]
    have h1 : m * (p - root - mask) = m * p - m * (root + mask) := by
      rw [Nat.sub_sub, Nat.mul_sub]
    have h2 : m * (root + mask) ≤ m * p := Nat.mul_le_mul_left _ hc
    have h3 : p * m = m * p := Nat.mul_comm _ _
    refine ⟨by first | rfl | trivial, by first | rfl | trivial, ?_,
      by first | rfl | trivial, ?_, ?_⟩
    · rw [max_eq_right (by omega)]
      push_cast [Nat.sub_sub, Nat.cast_sub hc]
      ring
    · intro _
      omega
    · intro h
      omega
  · simp only [if_neg hc]
    refine ⟨by first | rfl | trivial, by first | rfl | trivial, ?_,
      by first | rfl | trivial, ?_, ?_⟩
    · rw [max_eq_left (by omega)]
      simp
    · intro h
      omega
    · intro _
      exact ⟨by first | rfl | trivial, rfl⟩

/-- C12, counterexample. With `p = 3`, `m = 1` and `mask = 2`, the send pattern of rank 2 and
the receive pattern of rank 0 are built for the subtree root 2: their run 1 is empty and
starts at offset `3 = p * m`, not at `m * (cur_root + mask) = 4`. And the run lengths are
`int` products: with `p = 3`, `m = 2 ^ 30`, rank 0 and `mask = 1` the code computes
`blocklens[1] = -2 ^ 31`, not `m * max(0, p - cur_root - mask) = 2 ^ 31`, and the run the
datatype describes is empty. -/
theorem scatter_pattern_runs_counterexample :
    (2 ≤ 3 ∧ 1 ≤ 1 ∧ 2 < 3 ∧ 2 ^ 1 < 3) ∧
    ompi_rounddown 2 (2 ^ 1) = 2 ∧ ompi_rounddown (0 ^^^ 2 ^ 1) (2 ^ 1) = 2 ∧
    (rd_sendtype 3 1 2 (2 ^ 1)).blocklens1 = 0 ∧ (rd_sendtype 3 1 2 (2 ^ 1)).displs1 = 3 ∧
    (rd_recvtype 3 1 0 (2 ^ 1)).blocklens1 = 0 ∧ (rd_recvtype 3 1 0 (2 ^ 1)).displs1 = 3 ∧
    (rd_sendtype 3 1 2 (2 ^ 1)).displs1 ≠ 1 * (ompi_rounddown 2 (2 ^ 1) + 2 ^ 1) ∧
    (rd_recvtype 3 1 0 (2 ^ 1)).displs1 ≠ 1 * (ompi_rounddown (0 ^^^ 2 ^ 1) (2 ^ 1) + 2 ^ 1) ∧
    (rd_blocklens_displs 3 (2 ^ 30) (ompi_rounddown 0 (2 ^ 0)) (2 ^ 0)).blocklens1 = -2 ^ 31 ∧
    (rd_sendtype 3 (2 ^ 30) 0 (2 ^ 0)).blocklens1 = 0 ∧
    2 ^ 30 * max 0 (3 - ompi_rounddown 0 (2 ^ 0) - 2 ^ 0) = 2 ^ 31 := by
  decide

/-- C12, amended. For every `p`, `m` with `p * m < 2 ^ 31`, rank `r < p` and step
`mask = 2^s`, the send pattern (built for `cur_root = ompi_rounddown r mask`) and, when
`m * remote_root < 2 ^ 31` for the partner's root (as for every root in the group), the
receive pattern (built for the partner's root) have run 0 at offset 0 with length
`m * cur_root`, and run 1 with length `m * max(0, p - cur_root - mask)` at offset `p * m`
minus that length: the offset is `m * (cur_root + mask)` whenever `cur_root + mask ≤ p`, and
`p * m` when run 1 is empty because `cur_root + mask > p`. -/
theorem scatter_pattern_runs (p m r s : Nat) (hr : r < p) (hfit : p * m < 2 ^ 31) :
    ((rd_sendtype p m r (2 ^ s)).displs0 = 0 ∧
      (rd_sendtype p m r (2 ^ s)).blocklens0 = m * ompi_rounddown r (2 ^ s) ∧
      ((rd_sendtype p m r (2 ^ s)).blocklens1 : Int) =
        (m : Int) * max 0 ((p : Int) - (ompi_rounddown r (2 ^ s) : Int) - ((2 ^ s : Nat) : Int)) ∧
      (rd_sendtype p m r (2 ^ s)).displs1 = p * m - (rd_sendtype p m r (2 ^ s)).blocklens1 ∧
      (ompi_rounddown r (2 ^ s) + 2 ^ s ≤ p →
        (rd_sendtype p m r (2 ^ s)).displs1 = m * (ompi_rounddown r (2 ^ s) + 2 ^ s)) ∧
      (p < ompi_rounddown r (2 ^ s) + 2 ^ s →
        (rd_sendtype p m r (2 ^ s)).blocklens1 = 0 ∧
        (rd_sendtype p m r (2 ^ s)).displs1 = p * m)) ∧
    (m * ompi_rounddown (r ^^^ 2 ^ s) (2 ^ s) < 2 ^ 31 →
      (rd_recvtype p m r (2 ^ s)).displs0 = 0 ∧
      (rd_recvtype p m r (2 ^ s)).blocklens0 = m * ompi_rounddown (r ^^^ 2 ^ s) (2 ^ s) ∧
      ((rd_recvtype p m r (2 ^ s)).blocklens1 : Int) =
        (m : Int) * max 0 ((p : Int) - (ompi_rounddown (r ^^^ 2 ^ s) (2 ^ s) : Int) -
          ((2 ^ s : Nat) : Int)) ∧
      (rd_recvtype p m r (2 ^ s)).displs1 = p * m - (rd_recvtype p m r (2 ^ s)).blocklens1 ∧
      (ompi_rounddown (r ^^^ 2 ^ s) (2 ^ s) + 2 ^ s ≤ p →
        (rd_recvtype p m r (2 ^ s)).displs1 =
          m * (ompi_rounddown (r ^^^ 2 ^ s) (2 ^ s) + 2 ^ s)) ∧
      (p < ompi_rounddown (r ^^^ 2 ^ s) (2 ^ s) + 2 ^ s →
        (rd_recvtype p m r (2 ^ s)).blocklens1 = 0 ∧
        (rd_recvtype p m r (2 ^ s)).displs1 = p * m)) := by
  have hroot : ompi_rounddown r (2 ^ s) ≤ p := by
    have := (subtree_facts s r).1
    omega
  have h0 : m * ompi_rounddown r (2 ^ s) ≤ p * m := by
    rw [Nat.mul_comm p m]; exact Nat.mul_le_mul_left m hroot
  exact ⟨rd_indexed_runs p m (ompi_rounddown r (2 ^ s)) (2 ^ s) hfit (by omega),
    fun h1 => rd_indexed_runs p m (ompi_rounddown (r ^^^ 2 ^ s) (2 ^ s)) (2 ^ s) hfit h1⟩

/-- Witness of the amended C12: `p = 5`, `m = 2`, rank 3, `mask = 2`: the send pattern is
built for root 2 (run 0 of 4 elements, run 1 of 2 elements at offset 8) and the receive
pattern for root 0 (run 0 empty, run 1 of 6 elements at offset 4). -/
theorem scatter_pattern_runs_witness :
    (3 < 5 ∧ 5 * 2 < 2 ^ 31) ∧
    (rd_sendtype 5 2 3 (2 ^ 1)).blocklens0 = 2 * ompi_rounddown 3 (2 ^ 1) ∧
    (rd_sendtype 5 2 3 (2 ^ 1)).displs1 = 5 * 2 - (rd_sendtype 5 2 3 (2 ^ 1)).blocklens1 ∧
    (rd_sendtype 5 2 3 (2 ^ 1)).blocklens0 = 4 ∧ (rd_sendtype 5 2 3 (2 ^ 1)).displs1 = 8 ∧
    (rd_recvtype 5 2 3 (2 ^ 1)).blocklens1 = 6 ∧ (rd_recvtype 5 2 3 (2 ^ 1)).displs1 = 4 :=
  ⟨⟨by decide, by norm_num⟩,
    (scatter_pattern_runs 5 2 3 1 (by decide) (by norm_num)).1.2.1,
    (scatter_pattern_runs 5 2 3 1 (by decide) (by norm_num)).1.2.2.2.1,
    by decide, by decide, by decide, by decide⟩

/-- C13. The function `ompi_rounddown` returns `floor(n / f) * f`: for every `n ≥ 0` and
`f ≥ 1` the result is a multiple of `f`, does not exceed `n`, is within `f` of `n`, and is
the largest multiple of `f` that does not exceed `n`. -/
theorem rounddown_largest_multiple (n f : Nat) (hf : 1 ≤ f) :
    ompi_rounddown n f = (n / f) * f ∧
    f ∣ ompi_rounddown n f ∧
    ompi_rounddown n f ≤ n ∧
    n < ompi_rounddown n f + f ∧
    ∀ k, f ∣ k → k ≤ n → k ≤ ompi_rounddown n f := by
  unfold ompi_rounddown
  refine ⟨rfl, Dvd.intro_left _ rfl, Nat.div_mul_le_self n f, ?_, ?_⟩
  · have := Nat.lt_div_mul_add (a := n) hf
    omega
  · rintro k ⟨c, rfl⟩ hk
    have hc : c ≤ n / f := (Nat.le_div_iff_mul_le hf).2 (by rw [Nat.mul_comm]; exact hk)
    calc f * c = c * f := Nat.mul_comm _ _
      _ ≤ n / f * f := Nat.mul_le_mul_right _ hc

/-- Witness of C13: the examples of the source comment, `rounddown(10,4) = 8`,
`rounddown(6,3) = 6`, `rounddown(14,3) = 12`. -/
theorem rounddown_largest_multiple_witness :
    1 ≤ 4 ∧ ompi_rounddown 10 4 = 8 ∧ ompi_rounddown 6 3 = 6 ∧ ompi_rounddown 14 3 = 12 ∧
    4 ∣ ompi_rounddown 10 4 ∧ ompi_rounddown 10 4 ≤ 10 ∧ 10 < ompi_rounddown 10 4 + 4 :=
  ⟨by decide, by decide, by decide, by decide,
    (rounddown_largest_multiple 10 4 (by decide)).2.1,
    (rounddown_largest_multiple 10 4 (by decide)).2.2.1,
    (rounddown_largest_multiple 10 4 (by decide)).2.2.2.1⟩

/-- The exact value of `ompi_range_sum` is the weighted sum. -/
theorem range_value_weighted (a b r : Int) (hab : a ≤ b) :
    range_sum_value a b r =
      Finset.sum (Finset.Icc a b) (fun i => if i ≤ r then (2 : Int) else 1) := by
  obtain ⟨n, hn⟩ : ∃ n : Nat, b = a + (n : Int) := ⟨(b - a).toNat, by omega⟩
  rw [hn]
  exact range_sum_offset r n a

/-- C14 fails as stated: the function computes in `int`. At `a = 0`, `b = 2147483647`,
`r = -1`, inside the stated domain, the weighted sum is `2147483648` and the function
returns `b - a + 1` wrapped, `-2147483648`. -/
theorem range_sum_weighted_counterexample :
    ((0 : Int) ≤ 0 ∧ (0 : Int) ≤ 2147483647 ∧ (-1 : Int) ≥ -1) ∧
    ompi_range_sum 0 2147483647 (-1) = -2147483648 ∧
    Finset.sum (Finset.Icc (0 : Int) 2147483647) (fun i => if i ≤ -1 then (2 : Int) else 1) =
      2147483648 := by
  refine ⟨by decide, by decide, ?_⟩
  rw [← range_value_weighted 0 2147483647 (-1) (by decide)]
  decide

/-- C14 as amended. The function `ompi_range_sum` equals the weighted sum it documents
whenever that sum fits in an `int`: for all integers `a ≤ b` and every `r` (so in particular
for `0 ≤ a` and `r ≥ -1`) such that the sum over `i = a .. b` of `w i` is below `2 ^ 31`,
where `w i = 2` if `i ≤ r` and `w i = 1` if `i > r`, `ompi_range_sum a b r` is that sum. -/
theorem range_sum_weighted (a b r : Int) (hab : a ≤ b)
    (hfit : Finset.sum (Finset.Icc a b) (fun i => if i ≤ r then (2 : Int) else 1) < 2 ^ 31) :
    ompi_range_sum a b r =
      Finset.sum (Finset.Icc a b) (fun i => if i ≤ r then (2 : Int) else 1) := by
  have h0 : 0 ≤ Finset.sum (Finset.Icc a b) (fun i => if i ≤ r then (2 : Int) else 1) := by
    apply Finset.sum_nonneg
    intro i _
    split_ifs <;> omega
  rw [ompi_range_sum_wrap, range_value_weighted a b r hab]
  exact int32_eq_self (by omega) hfit

/-- Witness of the amended C14: `a = 2`, `b = 5`, `r = 3`: the weights are `2, 2, 1, 1`. -/
theorem range_sum_weighted_witness :
    (2 : Int) ≤ 5 ∧ ompi_range_sum 2 5 3 = 6 ∧
    ompi_range_sum 2 5 3 =
      Finset.sum (Finset.Icc (2 : Int) 5) (fun i => if i ≤ 3 then (2 : Int) else 1) :=
  ⟨by decide, by decide, range_sum_weighted 2 5 3 (by decide) (by decide)⟩
/-- A pattern whose guard `comm_size >= root + mask` fails has an empty run 1. -/
theorem rd_indexed_run1_empty (p m root mask : Nat) (h : p < root + mask) :
    (rd_indexed p m root mask).blocklens1 = 0 := by
  unfold rd_indexed ompi_datatype_create_indexed rd_blocklens_displs
  simp only [ge_iff_le, if_neg (Nat.not_le.2 h)]
  rfl

theorem rd_indexed_disjoint (p m root mask : Nat) (hfit : p * m < 2 ^ 31) :
    (rd_indexed p m root mask).displs0 = 0 ∧
    ((rd_indexed p m root mask).blocklens0 ≤ (rd_indexed p m root mask).displs1 ∨
      (rd_indexed p m root mask).blocklens1 = 0) := by
  by_cases hc : root + mask ≤ p
  · have h := rd_indexed_ordered p m root mask hfit (by omega : root ≤ p)
    exact ⟨h.1, Or.inl h.2⟩
  · exact ⟨rfl, Or.inr (rd_indexed_run1_empty p m root mask (by omega))⟩

theorem rd_reduce_runs (op : α → α → α) (c : Bool) (cur rem : Nat) (t : Indexed)
    (s : RDState α) (hrecv : s.is_block_received = true) (h0 : t.displs0 = 0)
    (hd : t.blocklens0 ≤ t.displs1 ∨ t.blocklens1 = 0) :
    ((c = true ∨ rem < cur) →
      (rd_reduce op c cur rem t s).tmpbuf =
        (fun e => if t.covers e = true then op (s.tmprecv e) (s.tmpbuf e) else s.tmpbuf e) ∧
      (rd_reduce op c cur rem t s).tmprecv = s.tmprecv) ∧
    (¬ (c = true ∨ rem < cur) →
      (rd_reduce op c cur rem t s).tmprecv =
        (fun e => if t.covers e = true then op (s.tmpbuf e) (s.tmprecv e) else s.tmprecv e) ∧
      (rd_reduce op c cur rem t s).tmpbuf =
        (fun e => if t.covers e = true then op (s.tmpbuf e) (s.tmprecv e) else s.tmpbuf e)) := by
  have hcov : ∀ e, t.covers e = true ↔
      ((t.displs1 ≤ e ∧ e < t.displs1 + t.blocklens1) ∨ e < t.blocklens0) := by
    intro e
    unfold Indexed.covers
    simp only [Bool.or_eq_true, Bool.and_eq_true, decide_eq_true_eq, h0, Nat.zero_le, true_and,
      Nat.zero_add]
  constructor
  · intro hc
    have hc' : (c || decide (rem < cur)) = true := by
      simpa [Bool.or_eq_true] using hc
    unfold rd_reduce
    simp only [hrecv, if_true, hc']
    refine ⟨?_, trivial⟩
    funext e
    unfold ompi_op_reduce
    by_cases h1 : t.displs1 ≤ e ∧ e < t.displs1 + t.blocklens1
    · have h2 : ¬ (0 ≤ e ∧ e < 0 + t.blocklens0) := by omega
      rw [if_pos h1, if_neg h2, if_pos ((hcov e).2 (Or.inl h1))]
    · rw [if_neg h1]
      by_cases h2 : e < t.blocklens0
      · rw [if_pos (by omega), if_pos ((hcov e).2 (Or.inr h2))]
      · rw [if_neg (by omega), if_neg (fun h => by rcases (hcov e).1 h with h | h <;> omega)]
  · intro hc
    have hc' : (c || decide (rem < cur)) = false := by
      rcases Bool.eq_false_or_eq_true (c || decide (rem < cur)) with h | h
      · exact absurd (by simpa [Bool.or_eq_true] using h) hc
      · exact h
    unfold rd_reduce
    simp only [hrecv, if_true, hc', Bool.false_eq_true, if_false]
    have key : (ompi_op_reduce op s.tmpbuf (ompi_op_reduce op s.tmpbuf s.tmprecv 0 t.blocklens0)
        t.displs1 t.blocklens1) =
        (fun e => if t.covers e = true then op (s.tmpbuf e) (s.tmprecv e) else s.tmprecv e) := by
      funext e
      unfold ompi_op_reduce
      by_cases h1 : t.displs1 ≤ e ∧ e < t.displs1 + t.blocklens1
      · have h2 : ¬ (0 ≤ e ∧ e < 0 + t.blocklens0) := by omega
        rw [if_pos h1, if_neg h2, if_pos ((hcov e).2 (Or.inl h1))]
      · rw [if_neg h1]
        by_cases h2 : e < t.blocklens0
        · rw [if_pos (by omega), if_pos ((hcov e).2 (Or.inr h2))]
        · rw [if_neg (by omega), if_neg (fun h => by rcases (hcov e).1 h with h | h <;> omega)]
    refine ⟨key, ?_⟩
    rw [key]
    funext e
    unfold ompi_datatype_copy_indexed
    by_cases h : t.covers e = true
    · simp only [h, if_true]
    · simp only [h, if_false, Bool.false_eq_true]

/-- C15 fails as stated: the reduction works on the runs `blocklens`, `displs` computed in
`int`. With `p = 9`, `m = 1610612736`, rank 4 and `mask = 2` (partner 6, receive pattern for
root 6) the code computes `blocklens[0] = 2 ^ 30`, `blocklens[1] = 1610612736` and
`displs[1] = 0`: the two runs overlap, and on element 0 the operator is applied twice. With
concatenation, `tmpbuf = [10]` and `tmprecv = [3]`, `tmpbuf[0]` ends as `[10, 10, 3]`, not
as the combined result `[10, 3]`. -/
theorem operand_order_rule_counterexample :
    rd_blocklens_displs 9 1610612736 (ompi_rounddown (4 ^^^ 2 ^ 1) (2 ^ 1)) (2 ^ 1) =
      ⟨2 ^ 30, 1610612736, 0, 0⟩ ∧
    ¬ ompi_rounddown (4 ^^^ 2 ^ 1) (2 ^ 1) < ompi_rounddown 4 (2 ^ 1) ∧
    (rd_recvtype 9 1610612736 4 (2 ^ 1)).covers 0 = true ∧
    (rd_reduce (fun a b : List Nat => a ++ b) false (ompi_rounddown 4 (2 ^ 1))
      (ompi_rounddown (4 ^^^ 2 ^ 1) (2 ^ 1)) (rd_recvtype 9 1610612736 4 (2 ^ 1))
      ⟨fun _ => [10], fun _ => [3], true⟩).tmpbuf 0 = [10, 10, 3] := by
  refine ⟨by decide, by decide, by decide, by decide⟩

/-- C15 as amended. The operand order rule of the doubling variant when `p * m` fits in an
`int`: in a reduction step executed with a non-commutative operator on a rank that has
received a block, the received runs being those of its receive pattern: if
`remote_tree_root < cur_tree_root` then `tmpbuf` becomes `tmprecv op tmpbuf` on the received
runs and `tmprecv` is left alone; otherwise `tmprecv` becomes `tmpbuf op tmprecv` on the
received runs and exactly those runs are copied to `tmpbuf`. In both cases `tmpbuf` ends
with the combined result on the received runs, the buffer of the subtree with the lower root
being the left operand, and is unchanged outside them. -/
theorem operand_order_rule (op : α → α → α) (p m r s : Nat) (st : RDState α)
    (hfit : p * m < 2 ^ 31) (hrecv : st.is_block_received = true) :
    (ompi_rounddown (r ^^^ 2 ^ s) (2 ^ s) < ompi_rounddown r (2 ^ s) →
      (rd_reduce op false (ompi_rounddown r (2 ^ s)) (ompi_rounddown (r ^^^ 2 ^ s) (2 ^ s))
        (rd_recvtype p m r (2 ^ s)) st).tmpbuf =
        (fun e => if (rd_recvtype p m r (2 ^ s)).covers e = true
          then op (st.tmprecv e) (st.tmpbuf e) else st.tmpbuf e) ∧
      (rd_reduce op false (ompi_rounddown r (2 ^ s)) (ompi_rounddown (r ^^^ 2 ^ s) (2 ^ s))
        (rd_recvtype p m r (2 ^ s)) st).tmprecv = st.tmprecv) ∧
    (¬ ompi_rounddown (r ^^^ 2 ^ s) (2 ^ s) < ompi_rounddown r (2 ^ s) →
      (rd_reduce op false (ompi_rounddown r (2 ^ s)) (ompi_rounddown (r ^^^ 2 ^ s) (2 ^ s))
        (rd_recvtype p m r (2 ^ s)) st).tmprecv =
        (fun e => if (rd_recvtype p m r (2 ^ s)).covers e = true
          then op (st.tmpbuf e) (st.tmprecv e) else st.tmprecv e) ∧
      (rd_reduce op false (ompi_rounddown r (2 ^ s)) (ompi_rounddown (r ^^^ 2 ^ s) (2 ^ s))
        (rd_recvtype p m r (2 ^ s)) st).tmpbuf =
        (fun e => if (rd_recvtype p m r (2 ^ s)).covers e = true
          then op (st.tmpbuf e) (st.tmprecv e) else st.tmpbuf e)) := by
  obtain ⟨h0, hd⟩ := rd_indexed_disjoint p m (ompi_rounddown (r ^^^ 2 ^ s) (2 ^ s)) (2 ^ s) hfit
  obtain ⟨a, b⟩ := rd_reduce_runs op false (ompi_rounddown r (2 ^ s))
    (ompi_rounddown (r ^^^ 2 ^ s) (2 ^ s)) (rd_recvtype p m r (2 ^ s)) st hrecv h0 hd
  constructor
  · intro h
    exact a (Or.inr h)
  · intro h
    exact b (fun h' => by rcases h' with h' | h' <;> [cases h'; exact h h'])

/-- Witness of the amended C15: `p = 3`, `m = 1`, `mask = 2`, the left projection as operator, `tmpbuf`
holding 10 and `tmprecv` holding 3 everywhere. On rank 2 (remote root 0 below its root 2)
the received run becomes `3 = tmprecv op tmpbuf`; on rank 0 (remote root 2 above its root 0)
it becomes `10 = tmpbuf op tmprecv` in both buffers. -/
theorem operand_order_rule_witness :
    (ompi_rounddown (2 ^^^ 2 ^ 1) (2 ^ 1) < ompi_rounddown 2 (2 ^ 1) ∧
      (rd_reduce op_left false (ompi_rounddown 2 (2 ^ 1)) (ompi_rounddown (2 ^^^ 2 ^ 1) (2 ^ 1))
        (rd_recvtype 3 1 2 (2 ^ 1)) ⟨fun _ => 10, fun _ => 3, true⟩).tmpbuf =
        (fun e => if (rd_recvtype 3 1 2 (2 ^ 1)).covers e = true then op_left 3 10 else 10)) ∧
    (¬ ompi_rounddown (0 ^^^ 2 ^ 1) (2 ^ 1) < ompi_rounddown 0 (2 ^ 1) ∧
      (rd_reduce op_left false (ompi_rounddown 0 (2 ^ 1)) (ompi_rounddown (0 ^^^ 2 ^ 1) (2 ^ 1))
        (rd_recvtype 3 1 0 (2 ^ 1)) ⟨fun _ => 10, fun _ => 3, true⟩).tmpbuf =
        (fun e => if (rd_recvtype 3 1 0 (2 ^ 1)).covers e = true then op_left 10 3 else 10)) :=
  ⟨⟨by decide,
      ((operand_order_rule op_left 3 1 2 1 ⟨fun _ => 10, fun _ => 3, true⟩ (by norm_num) rfl).1
        (by decide)).1⟩,
    ⟨by decide,
      ((operand_order_rule op_left 3 1 0 1 ⟨fun _ => 10, fun _ => 3, true⟩ (by norm_num) rfl).2
        (by decide)).2⟩⟩

theorem rd_recv_cond_eq_test (p r mask h : Nat) :
    rd_recv_cond p r mask h = rd_recv_test p r mask h := by
  unfold rd_recv_cond rd_recv_test rd_send_cond
  by_cases h1 : r ^^^ h < r
  · have h2 : ¬ r ^^^ h > r := by omega
    simp [h1, h2]
  · simp [h1]

theorem rd_send_recv_exclusive (p r mask h : Nat) :
    ¬ (rd_send_cond p r mask h = true ∧ rd_recv_test p r mask h = true) := by
  unfold rd_recv_test rd_send_cond
  simp only [Bool.and_eq_true, decide_eq_true_eq]
  omega

/-- C17. Forwarding sends and receives are matched: for every group size `p`, every rank
`r < p` in the forwarding branch of step `mask = 2^s` and every `h = 2^t` of the search
(`t < s`), with `r' = r xor h`: rank `r` satisfies the send condition at `h` exactly when
`r'` is a rank below `p` that is in the forwarding branch of the step and satisfies the
receive test at `h`; likewise `r` satisfies the receive test exactly when `r'` is such a
rank and satisfies the send condition; and no rank satisfies both the send condition and the
receive test at the same `h`, so the `else` of the source drops nothing. -/
theorem forwarding_matched (p r s t : Nat) (hts : t < s) (hr : r < p)
    (hsearch : rd_in_search p r (2 ^ s) = true) :
    (rd_send_cond p r (2 ^ s) (2 ^ t) = true ↔
      (r ^^^ 2 ^ t < p ∧ rd_in_search p (r ^^^ 2 ^ t) (2 ^ s) = true ∧
        rd_recv_test p (r ^^^ 2 ^ t) (2 ^ s) (2 ^ t) = true)) ∧
    (rd_recv_test p r (2 ^ s) (2 ^ t) = true ↔
      (r ^^^ 2 ^ t < p ∧ rd_in_search p (r ^^^ 2 ^ t) (2 ^ s) = true ∧
        rd_send_cond p (r ^^^ 2 ^ t) (2 ^ s) (2 ^ t) = true)) ∧
    ¬ (rd_send_cond p r (2 ^ s) (2 ^ t) = true ∧ rd_recv_test p r (2 ^ s) (2 ^ t) = true) ∧
    rd_recv_cond p r (2 ^ s) (2 ^ t) = rd_recv_test p r (2 ^ s) (2 ^ t) := by
  obtain ⟨-, -, -, f4⟩ := fwd_partner_facts hts r
  obtain ⟨-, g2, -⟩ := rd_fwd_partner_eq hts p 1 r
  have hm := rd_fwd_matched_holds hts p 1
  refine ⟨⟨?_, ?_⟩, ⟨?_, ?_⟩, rd_send_recv_exclusive p r _ _, rd_recv_cond_eq_test p r _ _⟩
  · intro hs
    have h1 := (hm r hr).1 (by unfold rd_fwd_sends; rw [hsearch, hs]; rfl)
    have h2 := h1.2.1
    unfold rd_fwd_recvs at h2
    rw [Bool.and_eq_true, rd_recv_cond_eq_test] at h2
    exact ⟨h1.1, h2.1, h2.2⟩
  · rintro ⟨hlt, hs', hrv⟩
    have h1 := (hm (r ^^^ 2 ^ t) hlt).2
      (by unfold rd_fwd_recvs; rw [hs', rd_recv_cond_eq_test, hrv]; rfl)
    have h2 := h1.2
    rw [f4] at h2
    unfold rd_fwd_sends at h2
    rw [Bool.and_eq_true] at h2
    exact h2.2
  · intro hrv
    have h1 := (hm r hr).2
      (by unfold rd_fwd_recvs; rw [hsearch, rd_recv_cond_eq_test, hrv]; rfl)
    have h2 := h1.2
    unfold rd_fwd_sends at h2
    rw [Bool.and_eq_true] at h2
    exact ⟨h1.1, h2.1, h2.2⟩
  · rintro ⟨hlt, hs', hsd⟩
    have h1 := (hm (r ^^^ 2 ^ t) hlt).1 (by unfold rd_fwd_sends; rw [hs', hsd]; rfl)
    have h2 := h1.2.1
    rw [f4] at h2
    unfold rd_fwd_recvs at h2
    rw [Bool.and_eq_true, rd_recv_cond_eq_test] at h2
    exact h2.2

/-- Witness of C17: `p = 7`, `mask = 4`, `h = 2`: rank 1 sends to rank 3, whose partner 7 is
outside the group. -/
theorem forwarding_matched_witness :
    (1 < 2 ∧ 1 < 7 ∧ rd_in_search 7 1 (2 ^ 2) = true) ∧
    rd_send_cond 7 1 (2 ^ 2) (2 ^ 1) = true ∧
    (1 ^^^ 2 ^ 1 < 7 ∧ rd_in_search 7 (1 ^^^ 2 ^ 1) (2 ^ 2) = true ∧
      rd_recv_test 7 (1 ^^^ 2 ^ 1) (2 ^ 2) (2 ^ 1) = true) :=
  ⟨⟨by decide, by decide, by decide⟩, by decide,
    (forwarding_matched 7 1 2 1 (by decide) (by decide) (by decide)).1.1 (by decide)⟩

theorem mod_two_pow_mono (r : Nat) {a b : Nat} (h : a ≤ b) : r % 2 ^ a ≤ r % 2 ^ b := by
  have hd : 2 ^ a ∣ 2 ^ b := pow_dvd_pow 2 h
  rw [← Nat.mod_mod_of_dvd r hd]
  exact Nat.mod_le _ _

theorem mod_two_pow_bit (r t : Nat) :
    ((r / 2 ^ t) % 2 = 0 ∧ r ^^^ 2 ^ t = r + 2 ^ t ∧ r % 2 ^ (t + 1) = r % 2 ^ t) ∨
    ((r / 2 ^ t) % 2 = 1 ∧ (r ^^^ 2 ^ t) + 2 ^ t = r ∧ r % 2 ^ (t + 1) = r % 2 ^ t + 2 ^ t) := by
  have h := Nat.mod_pow_succ (x := r) (b := 2) (k := t)
  rcases xor_two_pow t r with ⟨h0, hx⟩ | ⟨h1, hx⟩
  · left
    rw [h0, Nat.mul_zero, Nat.add_zero] at h
    exact ⟨h0, hx, h⟩
  · right
    rw [h1, Nat.mul_one] at h
    exact ⟨h1, hx, h⟩

/-- The receive test of the search in terms of the offsets of the rank in its aligned groups:
the group of `2^t` ranks has no data at the rank's position, the group of `2^(t+1)` has. -/
theorem rd_recv_test_mod (p r s t : Nat) :
    rd_recv_test p r (2 ^ s) (2 ^ t) = true ↔
      (((r % 2 ^ t : Nat) : Int) < rd_nprocs_alldata p r (2 ^ s) ∧
        rd_nprocs_alldata p r (2 ^ s) ≤ ((r % 2 ^ (t + 1) : Nat) : Int)) := by
  unfold rd_recv_test
  simp only [shl_two_pow, Bool.and_eq_true, decide_eq_true_eq, and_assoc]
  have hrd := mod_add_rounddown r (2 ^ (t + 1))
  generalize rd_nprocs_alldata p r (2 ^ s) = A
  generalize ompi_rounddown r (2 ^ (t + 1)) = R at hrd
  rcases mod_two_pow_bit r t with ⟨-, hx, hq⟩ | ⟨-, hx, hq⟩
  · rw [hq] at hrd ⊢
    generalize r ^^^ 2 ^ t = x at hx ⊢
    generalize r % 2 ^ t = q at hrd ⊢
    have := Nat.pow_pos (n := t) (by norm_num : 0 < 2)
    generalize 2 ^ t = h at hx this hrd ⊢
    omega
  · rw [hq] at hrd ⊢
    generalize r ^^^ 2 ^ t = x at hx ⊢
    generalize r % 2 ^ t = q at hrd ⊢
    have := Nat.pow_pos (n := t) (by norm_num : 0 < 2)
    generalize 2 ^ t = h at hx this hrd ⊢
    omega

/-- Between the empty group and the whole subtree there is a level of the search at which
the count of ranks that hold the data is first reached. -/
theorem exists_crossing (r : Nat) (A : Int) (h0 : 0 < A) :
    ∀ s : Nat, A ≤ ((r % 2 ^ s : Nat) : Int) →
      ∃ t, t < s ∧ ((r % 2 ^ t : Nat) : Int) < A ∧ A ≤ ((r % 2 ^ (t + 1) : Nat) : Int) := by
  intro s
  induction s with
  | zero =>
    intro h
    simp only [pow_zero, Nat.mod_one, Nat.cast_zero] at h
    omega
  | succ s ih =>
    intro h
    by_cases hc : A ≤ ((r % 2 ^ s : Nat) : Int)
    · obtain ⟨t, ht, h1, h2⟩ := ih hc
      exact ⟨t, by omega, h1, h2⟩
    · exact ⟨s, by omega, by omega, h⟩

theorem crossing_unique (r : Nat) (A : Int) (t1 t2 : Nat)
    (h1 : ((r % 2 ^ t1 : Nat) : Int) < A ∧ A ≤ ((r % 2 ^ (t1 + 1) : Nat) : Int))
    (h2 : ((r % 2 ^ t2 : Nat) : Int) < A ∧ A ≤ ((r % 2 ^ (t2 + 1) : Nat) : Int)) :
    t1 = t2 := by
  rcases Nat.lt_trichotomy t1 t2 with h | h | h
  · have := mod_two_pow_mono r (show t1 + 1 ≤ t2 from h)
    omega
  · exact h
  · have := mod_two_pow_mono r (show t2 + 1 ≤ t1 from h)
    omega

theorem rd_fwd_recvs_iff (p r s t : Nat) :
    rd_fwd_recvs p r (2 ^ s) (2 ^ t) = true ↔
      (rd_in_search p r (2 ^ s) = true ∧
        ((r % 2 ^ t : Nat) : Int) < rd_nprocs_alldata p r (2 ^ s) ∧
        rd_nprocs_alldata p r (2 ^ s) ≤ ((r % 2 ^ (t + 1) : Nat) : Int)) := by
  unfold rd_fwd_recvs
  rw [Bool.and_eq_true, rd_recv_cond_eq_test, rd_recv_test_mod]

theorem rd_in_search_iff (p r s : Nat) :
    rd_in_search p r (2 ^ s) = true ↔ ompi_rounddown (r ^^^ 2 ^ s) (2 ^ s) + 2 ^ s > p := by
  unfold rd_in_search
  simp only [decide_eq_true_eq]

/-- No message of the search is sent or received by a rank whose subtree reaches the end of
the group. -/
theorem rd_fwd_silent (p r s t : Nat) (h : p ≤ ompi_rounddown r (2 ^ s) + 2 ^ s) :
    rd_fwd_sends p r (2 ^ s) (2 ^ t) = false ∧ rd_fwd_recvs p r (2 ^ s) (2 ^ t) = false := by
  have hA : rd_nprocs_alldata p r (2 ^ s) ≤ 0 := by
    unfold rd_nprocs_alldata
    omega
  constructor
  · rw [Bool.eq_false_iff]
    intro hc
    unfold rd_fwd_sends at hc
    rw [Bool.and_eq_true, rd_send_cond_iff] at hc
    have := (subtree_facts (t + 1) r).1
    omega
  · rw [Bool.eq_false_iff]
    intro hc
    rw [rd_fwd_recvs_iff] at hc
    omega

/-- The sender of a forwarded message holds the data of the sibling subtree: its own partner
is in the group, or it has received a forwarded message earlier in the search. -/
theorem rd_fwd_sender_has_data (p r s t : Nat) (hts : t < s) (hr : r < p)
    (hrecv : rd_fwd_recvs p r (2 ^ s) (2 ^ t) = true) :
    r ^^^ 2 ^ t < p ∧ rd_fwd_sends p (r ^^^ 2 ^ t) (2 ^ s) (2 ^ t) = true ∧
    ((r ^^^ 2 ^ t) ^^^ 2 ^ s < p ∨
      ∃ t', t < t' ∧ t' < s ∧ rd_fwd_recvs p (r ^^^ 2 ^ t) (2 ^ s) (2 ^ t') = true) := by
  obtain ⟨hlt, hsend⟩ := (rd_fwd_matched_holds hts p 1 r hr).2 hrecv
  refine ⟨hlt, hsend, ?_⟩
  obtain ⟨f1, -, -, f4⟩ := fwd_partner_facts hts r
  obtain ⟨-, g2, g3⟩ := rd_fwd_partner_eq hts p 1 r
  obtain ⟨hsearch, hq1, hq2⟩ := (rd_fwd_recvs_iff p r s t).1 hrecv
  have hA : rd_nprocs_alldata p r (2 ^ s) =
      (p : Int) - (ompi_rounddown r (2 ^ s) : Int) - ((2 ^ s : Nat) : Int) := rfl
  have hmq := mod_add_rounddown (r ^^^ 2 ^ t) (2 ^ s)
  rw [f1] at hmq
  by_cases hc : ((r ^^^ 2 ^ t) % 2 ^ s : Nat) < rd_nprocs_alldata p r (2 ^ s)
  · left
    rcases (subtree_facts s (r ^^^ 2 ^ t)).2.2 with ⟨hx, -, -⟩ | ⟨hx, -, -⟩
    · rw [hx]
      omega
    · omega
  · right
    obtain ⟨t', ht', c1, c2⟩ := exists_crossing (r ^^^ 2 ^ t) (rd_nprocs_alldata p r (2 ^ s))
      (by omega) s (by omega)
    refine ⟨t', ?_, ht', ?_⟩
    · by_contra hle
      have hmono := mod_two_pow_mono (r ^^^ 2 ^ t) (show t' + 1 ≤ t + 1 by omega)
      -- the sender has bit `t` clear and the same low bits as the receiver
      rcases mod_two_pow_bit r t with ⟨-, -, e1⟩ | ⟨-, hx, -⟩
      · omega
      · rcases mod_two_pow_bit (r ^^^ 2 ^ t) t with ⟨-, -, e2⟩ | ⟨-, hy, -⟩
        · have e3 : (r ^^^ 2 ^ t) % 2 ^ t = r % 2 ^ t := by
            conv_rhs => rw [← hx]
            rw [Nat.add_mod_right]
          omega
        · rw [f4] at hy
          have := Nat.pow_pos (n := t) (by norm_num : 0 < 2)
          omega
    · rw [rd_fwd_recvs_iff, g2, g3]
      exact ⟨hsearch, c1, c2⟩

/-- C16. The forwarding search delivers exactly once. For every group size `p`, rank `r < p`
and step `mask = 2^s`, with `cur_root = ompi_rounddown r mask`: when the sibling subtree is
truncated (`cur_root + mask < p < cur_root + 2 * mask`), a rank whose partner `r xor mask`
is outside the group receives a forwarded message at exactly one `h = 2^t` of the search
`h = mask/2, .., 1`, the sender `r xor h` is a rank of the group that sends at that `h` and
already holds the sibling's data (its own partner is in the group, or it has received a
forwarded message at an earlier, larger `h`), and a rank whose partner is in the group
receives no forwarded message; when `p ≤ cur_root + mask` the rank neither sends nor receives
a forwarded message. -/
theorem forwarding_exactly_once (p r s : Nat) (hr : r < p) :
    (ompi_rounddown r (2 ^ s) + 2 ^ s < p → p < ompi_rounddown r (2 ^ s) + 2 * 2 ^ s →
      (p ≤ r ^^^ 2 ^ s →
        (∃! t, t < s ∧ rd_fwd_recvs p r (2 ^ s) (2 ^ t) = true) ∧
        ∀ t, t < s → rd_fwd_recvs p r (2 ^ s) (2 ^ t) = true →
          r ^^^ 2 ^ t < p ∧ rd_fwd_sends p (r ^^^ 2 ^ t) (2 ^ s) (2 ^ t) = true ∧
          ((r ^^^ 2 ^ t) ^^^ 2 ^ s < p ∨
            ∃ t', t < t' ∧ t' < s ∧
              rd_fwd_recvs p (r ^^^ 2 ^ t) (2 ^ s) (2 ^ t') = true)) ∧
      (r ^^^ 2 ^ s < p → ∀ t, t < s → rd_fwd_recvs p r (2 ^ s) (2 ^ t) = false)) ∧
    (p ≤ ompi_rounddown r (2 ^ s) + 2 ^ s → ∀ t, t < s →
      rd_fwd_sends p r (2 ^ s) (2 ^ t) = false ∧ rd_fwd_recvs p r (2 ^ s) (2 ^ t) = false) := by
  have hA : rd_nprocs_alldata p r (2 ^ s) =
      (p : Int) - (ompi_rounddown r (2 ^ s) : Int) - ((2 ^ s : Nat) : Int) := rfl
  have hmod := mod_add_rounddown r (2 ^ s)
  obtain ⟨a1, a2, a3⟩ := subtree_facts s r
  refine ⟨fun h1 h2 => ⟨fun hout => ⟨?_, ?_⟩, fun hin t ht => ?_⟩,
    fun h t _ => rd_fwd_silent p r s t h⟩
  · -- exactly one receive
    have hbit : r ^^^ 2 ^ s = r + 2 ^ s ∧
        ompi_rounddown (r ^^^ 2 ^ s) (2 ^ s) = ompi_rounddown r (2 ^ s) + 2 ^ s := by
      rcases a3 with ⟨hx, hy, -⟩ | ⟨hx, -, -⟩
      · exact ⟨hx, hy⟩
      · omega
    have hsearch : rd_in_search p r (2 ^ s) = true := by
      rw [rd_in_search_iff, hbit.2]
      omega
    obtain ⟨t, ht, c1, c2⟩ := exists_crossing r (rd_nprocs_alldata p r (2 ^ s)) (by omega) s
      (by omega)
    refine ⟨t, ⟨ht, (rd_fwd_recvs_iff p r s t).2 ⟨hsearch, c1, c2⟩⟩, ?_⟩
    rintro t' ⟨-, h'⟩
    have h'' := (rd_fwd_recvs_iff p r s t').1 h'
    exact crossing_unique r _ t' t h''.2 ⟨c1, c2⟩
  · intro t ht hrecv
    exact rd_fwd_sender_has_data p r s t ht hr hrecv
  · -- the partner is in the group: nothing is received
    rw [Bool.eq_false_iff]
    intro hc
    obtain ⟨hsearch, c1, c2⟩ := (rd_fwd_recvs_iff p r s t).1 hc
    rw [rd_in_search_iff] at hsearch
    have hmono := mod_two_pow_mono r (show t + 1 ≤ s from ht)
    rcases a3 with ⟨hx, -, -⟩ | ⟨-, hy, -⟩
    · rw [hx] at hin
      omega
    · omega

/-- Witness of C16: `p = 7`, `mask = 4`: rank 3, whose partner 7 is outside the group,
receives once, at `h = 2`, from rank 1, whose partner 5 is in the group. -/
theorem forwarding_exactly_once_witness :
    (3 < 7 ∧ ompi_rounddown 3 (2 ^ 2) + 2 ^ 2 < 7 ∧ 7 < ompi_rounddown 3 (2 ^ 2) + 2 * 2 ^ 2 ∧
      7 ≤ 3 ^^^ 2 ^ 2) ∧
    (∃! t, t < 2 ∧ rd_fwd_recvs 7 3 (2 ^ 2) (2 ^ t) = true) ∧
    rd_fwd_recvs 7 3 (2 ^ 2) (2 ^ 1) = true ∧ rd_fwd_recvs 7 3 (2 ^ 2) (2 ^ 0) = false ∧
    3 ^^^ 2 ^ 1 = 1 ∧ rd_fwd_sends 7 1 (2 ^ 2) (2 ^ 1) = true ∧ 1 ^^^ 2 ^ 2 < 7 :=
  ⟨⟨by decide, by decide, by decide, by decide⟩,
    (((forwarding_exactly_once 7 3 2 (by decide)).1 (by decide) (by decide)).1 (by decide)).1,
    by decide, by decide, by decide, by decide, by decide⟩

/-- The peer computed in an iteration of step 2 is the physical rank of `vrank xor mask`,
whatever the window. -/
theorem rh_plan_peer (p m v mask : Nat) (hp : 1 ≤ p) (w : RHWindow) :
    (rh_plan p m (v : Int) mask w).peer = ((rh_phys p (v ^^^ mask) : Nat) : Int) := by
  have h := rh_phys_cast p (v ^^^ mask) hp
  unfold rh_plan
  simp only [Int.toNat_ofNat]
  by_cases hc : (v : Int) < ((v ^^^ mask : Nat) : Int)
  · rw [if_pos hc]
    exact h
  · rw [if_neg hc]
    exact h

theorem rh_phys_participates (p v : Nat) :
    (rh_phys p v % 2 = 1 ∧ rh_phys p v < 2 * rh_remN p) ∨ 2 * rh_remN p ≤ rh_phys p v := by
  unfold rh_phys
  split_ifs <;> omega

/-- C18. The virtual/physical rank mapping of the halving variant is exact. For every
`p ≥ 2`, with `p' = nprocs_pof2` and `r_rem = nprocs_rem = p - p'`: `p'` is the largest
power of two `≤ p`, `0 ≤ r_rem < p'` and `2 * r_rem < p`; the map
`phys v = (v < r_rem ? 2 * v + 1 : v + r_rem)` is a bijection from `[0, p')` onto the
participating ranks (the odd ranks below `2 * r_rem` and the ranks from `2 * r_rem` to
`p - 1`); it inverts the assignment of `vrank` (`vrank (phys v) = v`, and `phys (vrank r) = r`
on a participating rank, the even ranks below `2 * r_rem` getting `-1`); and at every step
`mask = 2^i < p'` the peer of a virtual rank `v` is `phys (v xor mask)`, a participating rank
whose own peer is `phys v`. -/
theorem halving_rank_mapping (p : Nat) (hp : 2 ≤ p) :
    ((∃ k, rh_nprocs_pof2 p = 2 ^ k) ∧ rh_nprocs_pof2 p ≤ p ∧ p < 2 * rh_nprocs_pof2 p) ∧
    (rh_nprocs_rem p = ((rh_remN p : Nat) : Int) ∧ rh_remN p = p - rh_nprocs_pof2 p ∧
      rh_remN p < rh_nprocs_pof2 p ∧ 2 * rh_remN p < p) ∧
    Set.BijOn (rh_phys p) (Set.Iio (rh_nprocs_pof2 p))
      {r | r < p ∧ ((r % 2 = 1 ∧ r < 2 * rh_remN p) ∨ 2 * rh_remN p ≤ r)} ∧
    (∀ v, v < rh_nprocs_pof2 p → rh_vrank p (rh_phys p v) = (v : Int)) ∧
    (∀ r, r < p → ((r % 2 = 1 ∧ r < 2 * rh_remN p) ∨ 2 * rh_remN p ≤ r) →
      ∃ v, v < rh_nprocs_pof2 p ∧ rh_vrank p r = (v : Int) ∧ rh_phys p v = r) ∧
    (∀ r, r < p → r % 2 = 0 → r < 2 * rh_remN p → rh_vrank p r = -1) ∧
    (∀ v i m w w', v < rh_nprocs_pof2 p → 2 ^ i < rh_nprocs_pof2 p →
      v ^^^ 2 ^ i < rh_nprocs_pof2 p ∧
      (rh_plan p m (v : Int) (2 ^ i) w).peer = ((rh_phys p (v ^^^ 2 ^ i) : Nat) : Int) ∧
      rh_vrank p (rh_plan p m (v : Int) (2 ^ i) w).peer.toNat = ((v ^^^ 2 ^ i : Nat) : Int) ∧
      (rh_plan p m (rh_vrank p (rh_plan p m (v : Int) (2 ^ i) w).peer.toNat) (2 ^ i) w').peer =
        ((rh_phys p v : Nat) : Int)) := by
  have hp1 : 1 ≤ p := by omega
  obtain ⟨hP, h1, h2⟩ := rh_pof2_facts p hp1
  have hR : rh_remN p = p - rh_nprocs_pof2 p := rfl
  have hpart : ∀ r, r < p → ((r % 2 = 1 ∧ r < 2 * rh_remN p) ∨ 2 * rh_remN p ≤ r) →
      ∃ v, v < rh_nprocs_pof2 p ∧ rh_vrank p r = (v : Int) ∧ rh_phys p v = r := by
    intro r hr hpr
    rcases rh_vrank_cases p r hp1 hr with ⟨-, hev, hlt⟩ | ⟨v, hv, hvP, hphys⟩
    · omega
    · exact ⟨v, hvP, hv, hphys⟩
  refine ⟨⟨⟨_, hP⟩, h1, h2⟩, ⟨rh_rem_eq p hp1, hR, by omega, by omega⟩, ⟨?_, ?_, ?_⟩,
    fun v hv => (rh_vrank_phys p v hp1 hv).2, hpart, ?_, ?_⟩
  · intro v hv
    exact ⟨(rh_vrank_phys p v hp1 hv).1, rh_phys_participates p v⟩
  · intro v hv v' hv' heq
    have e1 := (rh_vrank_phys p v hp1 hv).2
    have e2 := (rh_vrank_phys p v' hp1 hv').2
    rw [heq, e2] at e1
    exact (Int.ofNat_inj.1 e1).symm
  · rintro r ⟨hr, hpr⟩
    obtain ⟨v, hv, -, hphys⟩ := hpart r hr hpr
    exact ⟨v, hv, hphys⟩
  · intro r hr hev hlt
    rcases rh_vrank_cases p r hp1 hr with ⟨hneg, -, -⟩ | ⟨v, -, -, hphys⟩
    · exact hneg
    · have := rh_phys_participates p v
      rw [hphys] at this
      omega
  · intro v i m w w' hv hi
    have hiL : i < Nat.log2 p := by
      rw [hP] at hi
      exact (Nat.pow_lt_pow_iff_right (by norm_num : 1 < 2)).1 hi
    have hx := xor_lt_pof2 p v i hp1 hv hiL
    have e1 := rh_plan_peer p m v (2 ^ i) hp1 w
    have e2 := (rh_vrank_phys p (v ^^^ 2 ^ i) hp1 hx).2
    have e3 : (rh_plan p m (v : Int) (2 ^ i) w).peer.toNat = rh_phys p (v ^^^ 2 ^ i) := by
      rw [e1, Int.toNat_ofNat]
    have e4 : (v ^^^ 2 ^ i) ^^^ 2 ^ i = v := by
      rw [Nat.xor_assoc, Nat.xor_self, Nat.xor_zero]
    refine ⟨hx, e1, by rw [e3, e2], ?_⟩
    rw [e3, e2, rh_plan_peer p m (v ^^^ 2 ^ i) (2 ^ i) hp1 w', e4]

/-- Witness of C18: `p = 7`: `p' = 4`, `r_rem = 3`; virtual rank 1 is physical rank 3,
rank 2 is folded away, and at `mask = 2` the peer of virtual rank 1 is physical rank 6
(virtual rank 3). -/
theorem halving_rank_mapping_witness :
    2 ≤ 7 ∧ rh_nprocs_pof2 7 = 4 ∧ rh_remN 7 = 3 ∧
    rh_phys 7 1 = 3 ∧ rh_vrank 7 3 = 1 ∧ rh_vrank 7 2 = -1 ∧ rh_phys 7 3 = 6 ∧
    (rh_plan 7 1 1 (2 ^ 1) ⟨0, 0, 4⟩).peer = 6 ∧
    Set.BijOn (rh_phys 7) (Set.Iio (rh_nprocs_pof2 7))
      {r | r < 7 ∧ ((r % 2 = 1 ∧ r < 2 * rh_remN 7) ∨ 2 * rh_remN 7 ≤ r)} :=
  ⟨by decide,
    by simp [rh_nprocs_pof2, opal_next_poweroftwo, Nat.log2],
    by simp [rh_remN, rh_nprocs_pof2, opal_next_poweroftwo, Nat.log2],
    by simp [rh_phys, rh_remN, rh_nprocs_pof2, opal_next_poweroftwo, Nat.log2],
    by simp [rh_vrank, rh_nprocs_rem, rh_nprocs_pof2, opal_next_poweroftwo, Nat.log2],
    by simp [rh_vrank, rh_nprocs_rem, rh_nprocs_pof2, opal_next_poweroftwo, Nat.log2],
    by simp [rh_phys, rh_remN, rh_nprocs_pof2, opal_next_poweroftwo, Nat.log2],
    by simp [rh_plan, rh_nprocs_rem, rh_nprocs_pof2, opal_next_poweroftwo, Nat.log2],
    (halving_rank_mapping 7 (by decide)).2.2.1⟩

/-- C20. The peers of the halving variant agree on the shape of their messages. For every
group size `p ≥ 2`, block size `m`, virtual rank `v`, and step `mask = 2^i`, each of `v` and
`vpeer = v xor mask` being at the window of that step (`send_index = recv_index` = its
virtual rank with the bits below `2 * mask` cleared, `last_index = recv_index + 2 * mask`):
the `send_count` of `v` is the `recv_count` of `vpeer`, the `recv_count` of `v` is the
`send_count` of `vpeer`, the send displacement of `v` is the receive displacement of `vpeer`
and the receive displacement of `v` is the send displacement of `vpeer`. -/
theorem halving_peers_agree (p m v i : Nat) (hp : 2 ≤ p) :
    (rh_plan p m (v : Int) (2 ^ i)
      ⟨(ompi_rounddown v (2 ^ (i + 1)) : Nat), (ompi_rounddown v (2 ^ (i + 1)) : Nat),
        ((ompi_rounddown v (2 ^ (i + 1)) + 2 ^ (i + 1) : Nat) : Int)⟩).send_count =
      (rh_plan p m ((v ^^^ 2 ^ i : Nat) : Int) (2 ^ i)
        ⟨(ompi_rounddown (v ^^^ 2 ^ i) (2 ^ (i + 1)) : Nat),
          (ompi_rounddown (v ^^^ 2 ^ i) (2 ^ (i + 1)) : Nat),
          ((ompi_rounddown (v ^^^ 2 ^ i) (2 ^ (i + 1)) + 2 ^ (i + 1) : Nat) : Int)⟩).recv_count ∧
    (rh_plan p m (v : Int) (2 ^ i)
      ⟨(ompi_rounddown v (2 ^ (i + 1)) : Nat), (ompi_rounddown v (2 ^ (i + 1)) : Nat),
        ((ompi_rounddown v (2 ^ (i + 1)) + 2 ^ (i + 1) : Nat) : Int)⟩).recv_count =
      (rh_plan p m ((v ^^^ 2 ^ i : Nat) : Int) (2 ^ i)
        ⟨(ompi_rounddown (v ^^^ 2 ^ i) (2 ^ (i + 1)) : Nat),
          (ompi_rounddown (v ^^^ 2 ^ i) (2 ^ (i + 1)) : Nat),
          ((ompi_rounddown (v ^^^ 2 ^ i) (2 ^ (i + 1)) + 2 ^ (i + 1) : Nat) : Int)⟩).send_count ∧
    (rh_plan p m (v : Int) (2 ^ i)
      ⟨(ompi_rounddown v (2 ^ (i + 1)) : Nat), (ompi_rounddown v (2 ^ (i + 1)) : Nat),
        ((ompi_rounddown v (2 ^ (i + 1)) + 2 ^ (i + 1) : Nat) : Int)⟩).sdispl =
      (rh_plan p m ((v ^^^ 2 ^ i : Nat) : Int) (2 ^ i)
        ⟨(ompi_rounddown (v ^^^ 2 ^ i) (2 ^ (i + 1)) : Nat),
          (ompi_rounddown (v ^^^ 2 ^ i) (2 ^ (i + 1)) : Nat),
          ((ompi_rounddown (v ^^^ 2 ^ i) (2 ^ (i + 1)) + 2 ^ (i + 1) : Nat) : Int)⟩).rdispl ∧
    (rh_plan p m (v : Int) (2 ^ i)
      ⟨(ompi_rounddown v (2 ^ (i + 1)) : Nat), (ompi_rounddown v (2 ^ (i + 1)) : Nat),
        ((ompi_rounddown v (2 ^ (i + 1)) + 2 ^ (i + 1) : Nat) : Int)⟩).rdispl =
      (rh_plan p m ((v ^^^ 2 ^ i : Nat) : Int) (2 ^ i)
        ⟨(ompi_rounddown (v ^^^ 2 ^ i) (2 ^ (i + 1)) : Nat),
          (ompi_rounddown (v ^^^ 2 ^ i) (2 ^ (i + 1)) : Nat),
          ((ompi_rounddown (v ^^^ 2 ^ i) (2 ^ (i + 1)) + 2 ^ (i + 1) : Nat) : Int)⟩).sdispl ∧
    ompi_rounddown (v ^^^ 2 ^ i) (2 ^ (i + 1)) = ompi_rounddown v (2 ^ (i + 1)) := by
  have hp1 : 1 ≤ p := by omega
  have e4 : (v ^^^ 2 ^ i) ^^^ 2 ^ i = v := by
    rw [Nat.xor_assoc, Nat.xor_self, Nat.xor_zero]
  rw [rh_plan_fields_wrap p m i v hp1, rh_plan_fields_wrap p m i (v ^^^ 2 ^ i) hp1, e4]
  exact ⟨rfl, rfl, rfl, rfl, (fwd_partner_facts (Nat.lt_succ_self i) v).1⟩

/-- Witness of C20: `p = 7`, `m = 3`, virtual rank 1, `mask = 2`: rank 1 (window `[0, 4)`)
sends the virtual blocks 2 and 3 (9 elements from displacement 12) and receives the virtual
blocks 0 and 1; its peer, virtual rank 3, does the converse. -/
theorem halving_peers_agree_witness :
    2 ≤ 7 ∧
    (rh_plan 7 3 ((1 : Nat) : Int) (2 ^ 1)
      ⟨(ompi_rounddown 1 (2 ^ (1 + 1)) : Nat), (ompi_rounddown 1 (2 ^ (1 + 1)) : Nat),
        ((ompi_rounddown 1 (2 ^ (1 + 1)) + 2 ^ (1 + 1) : Nat) : Int)⟩).send_count = 9 ∧
    (rh_plan 7 3 ((1 : Nat) : Int) (2 ^ 1)
      ⟨(ompi_rounddown 1 (2 ^ (1 + 1)) : Nat), (ompi_rounddown 1 (2 ^ (1 + 1)) : Nat),
        ((ompi_rounddown 1 (2 ^ (1 + 1)) + 2 ^ (1 + 1) : Nat) : Int)⟩).sdispl = 12 ∧
    (rh_plan 7 3 ((1 : Nat) : Int) (2 ^ 1)
      ⟨(ompi_rounddown 1 (2 ^ (1 + 1)) : Nat), (ompi_rounddown 1 (2 ^ (1 + 1)) : Nat),
        ((ompi_rounddown 1 (2 ^ (1 + 1)) + 2 ^ (1 + 1) : Nat) : Int)⟩).send_count =
      (rh_plan 7 3 ((1 ^^^ 2 ^ 1 : Nat) : Int) (2 ^ 1)
        ⟨(ompi_rounddown (1 ^^^ 2 ^ 1) (2 ^ (1 + 1)) : Nat),
          (ompi_rounddown (1 ^^^ 2 ^ 1) (2 ^ (1 + 1)) : Nat),
          ((ompi_rounddown (1 ^^^ 2 ^ 1) (2 ^ (1 + 1)) + 2 ^ (1 + 1) : Nat) : Int)⟩).recv_count ∧
    (rh_plan 7 3 ((1 : Nat) : Int) (2 ^ 1)
      ⟨(ompi_rounddown 1 (2 ^ (1 + 1)) : Nat), (ompi_rounddown 1 (2 ^ (1 + 1)) : Nat),
        ((ompi_rounddown 1 (2 ^ (1 + 1)) + 2 ^ (1 + 1) : Nat) : Int)⟩).sdispl =
      (rh_plan 7 3 ((1 ^^^ 2 ^ 1 : Nat) : Int) (2 ^ 1)
        ⟨(ompi_rounddown (1 ^^^ 2 ^ 1) (2 ^ (1 + 1)) : Nat),
          (ompi_rounddown (1 ^^^ 2 ^ 1) (2 ^ (1 + 1)) : Nat),
          ((ompi_rounddown (1 ^^^ 2 ^ 1) (2 ^ (1 + 1)) + 2 ^ (1 + 1) : Nat) : Int)⟩).rdispl :=
  ⟨by decide,
    by simp [rh_plan, ompi_range_sum, rh_nprocs_rem, rh_nprocs_pof2, opal_next_poweroftwo,
      Nat.log2, ompi_rounddown] ; decide,
    by simp [rh_plan, ompi_range_sum, rh_nprocs_rem, rh_nprocs_pof2, opal_next_poweroftwo,
      Nat.log2, ompi_rounddown] ; decide,
    (halving_peers_agree 7 3 1 1 (by decide)).1,
    (halving_peers_agree 7 3 1 1 (by decide)).2.2.1⟩

/-- An iteration of the halving loop in which every call succeeds moves the window on. -/
theorem rh_iter_ok (env : Env α) (hst : ∀ n, env.status n = 0) (op : α → α → α) (p m : Nat)
    (vrank : Int) (mask : Nat) (s : Local α) (hok : s.ctl.err = 0) :
    (rh_iter env op p m vrank mask s).ctl.err = 0 ∧
    (rh_iter env op p m vrank mask s).window =
      rh_next_window mask (rh_plan p m vrank mask s.window) := by
  unfold rh_iter
  simp only
  generalize rh_plan p m vrank mask s.window = pl
  by_cases h1 : 0 < pl.recv_count <;> by_cases h2 : 0 < pl.send_count <;>
    simp [rh_irecv, rh_send, rh_wait_reduce, Local.andThen, Ctl.checked, Ctl.unchecked,
      hst, hok, h1, h2]

theorem rounddown_one (v : Nat) : ompi_rounddown v 1 = v := by
  unfold ompi_rounddown
  simp

/-- One iteration takes the window of the step `2^i` to the window of the next step. -/
theorem rh_window_step (p m i v : Nat) (hp : 1 ≤ p) :
    rh_next_window (2 ^ i) (rh_plan p m (v : Int) (2 ^ i)
      ⟨(ompi_rounddown v (2 ^ (i + 1)) : Nat), (ompi_rounddown v (2 ^ (i + 1)) : Nat),
        ((ompi_rounddown v (2 ^ (i + 1)) + 2 ^ (i + 1) : Nat) : Int)⟩) =
    ⟨(ompi_rounddown v (2 ^ i) : Nat), (ompi_rounddown v (2 ^ i) : Nat),
      ((ompi_rounddown v (2 ^ i) + 2 ^ i : Nat) : Int)⟩ := by
  rw [rh_plan_fields_wrap p m i v hp]
  unfold rh_next_window
  simp only [Nat.cast_add]

/-- The halving loop of one rank, every call succeeding, ends with the window of one
virtual block. -/
theorem rh_rank_loop_window (env : Env α) (hst : ∀ n, env.status n = 0) (op : α → α → α)
    (p m v : Nat) (hp : 1 ≤ p) : ∀ (k fuel : Nat) (s : Local α), k ≤ fuel → s.ctl.err = 0 →
    s.window = ⟨(ompi_rounddown v (2 ^ k) : Nat), (ompi_rounddown v (2 ^ k) : Nat),
      ((ompi_rounddown v (2 ^ k) + 2 ^ k : Nat) : Int)⟩ →
    (rh_rank_loop env op p m (v : Int) fuel (2 ^ k >>> 1) s).ctl.err = 0 ∧
    (rh_rank_loop env op p m (v : Int) fuel (2 ^ k >>> 1) s).window =
      ⟨(v : Int), (v : Int), (v : Int) + 1⟩ := by
  intro k
  induction k with
  | zero =>
    intro fuel s _ hok hw
    have h0 : (2 : Nat) ^ 0 >>> 1 = 0 := by decide
    rw [h0]
    have hs : rh_rank_loop env op p m (v : Int) fuel 0 s = s := by
      cases fuel <;> simp [rh_rank_loop]
    rw [hs, hw, pow_zero, rounddown_one]
    exact ⟨hok, by simp⟩
  | succ i ih =>
    intro fuel s hfuel hok hw
    obtain ⟨f, rfl⟩ : ∃ f, fuel = f + 1 := ⟨fuel - 1, by omega⟩
    have ht : 0 < 2 ^ i := Nat.pow_pos (by norm_num)
    obtain ⟨a1, a2⟩ := rh_iter_ok env hst op p m (v : Int) (2 ^ i) s hok
    rw [hw, rh_window_step p m i v hp] at a2
    rw [shr_two_pow]
    unfold rh_rank_loop
    rw [if_pos ht]
    unfold Local.andThen
    rw [if_pos a1]
    exact ih f _ (by omega) a1 a2

/-- The elements of the virtual block of a virtual rank are those of the block of its
physical rank and, for one of the first `nprocs_rem` virtual ranks, of the block before. -/
theorem rh_vblock_owner (p m v e : Nat) :
    rh_vblock p m e = v ↔
      (e / m = rh_phys p v ∨ (rh_phys p v < 2 * rh_remN p ∧ e / m + 1 = rh_phys p v)) := by
  unfold rh_vblock rh_phys
  split_ifs <;> omega

theorem rh_window_region (p m v e : Nat) (hm : 0 < m) :
    (m * rh_W p v ≤ e ∧ e < m * rh_W p (v + 1)) ↔ rh_vblock p m e = v := by
  have h1 := rh_W_le_iff p m hm v e
  have h2 := rh_W_le_iff p m hm (v + 1) e
  constructor
  · rintro ⟨a, b⟩
    have := h1.1 a
    have : ¬ v + 1 ≤ rh_vblock p m e := fun h => by have := h2.2 h; omega
    omega
  · intro h
    refine ⟨h1.2 (by omega), ?_⟩
    by_contra hc
    have := h2.1 (by omega)
    omega

/-- The halving loop of one rank keeps `err = MPI_SUCCESS` when every call succeeds. -/
theorem rh_rank_loop_ok (env : Env α) (hst : ∀ n, env.status n = 0) (op : α → α → α)
    (p m : Nat) (vrank : Int) : ∀ (fuel mask : Nat) (s : Local α), s.ctl.err = 0 →
    (rh_rank_loop env op p m vrank fuel mask s).ctl.err = 0 := by
  intro fuel
  induction fuel with
  | zero =>
    intro mask s h
    simpa [rh_rank_loop] using h
  | succ f ih =>
    intro mask s h
    unfold rh_rank_loop
    split_ifs with hmask
    · have a := (rh_iter_ok env hst op p m vrank mask s h).1
      unfold Local.andThen
      rw [if_pos a]
      exact ih _ _ a
    · exact h

/-- The block a participating rank copies to `rbuf` at the end of step 2 is the block
`rank` of its `tmpbuf` after the loop. -/
theorem rh_halving_copies_own_block (env : Env α) (hst : ∀ n, env.status n = 0)
    (op : α → α → α) (p m r : Nat) (s : Local α) (hok : s.ctl.err = 0)
    (hpart : rh_vrank p r ≠ -1) (k : Nat) (hk : k < m) :
    (rh_halving env op p m r s).rbuf k =
      (rh_rank_loop env op p m (rh_vrank p r) (rh_nprocs_pof2 p) (rh_nprocs_pof2 p >>> 1)
        { s with window := ⟨0, 0, rh_nprocs_pof2 p⟩ }).tmpbuf (r * m + k) := by
  have a := rh_rank_loop_ok env hst op p m (rh_vrank p r) (rh_nprocs_pof2 p)
    (rh_nprocs_pof2 p >>> 1) { s with window := ⟨0, 0, rh_nprocs_pof2 p⟩ } hok
  unfold rh_halving
  rw [if_pos hpart]
  unfold Local.andThen
  rw [if_pos a]
  simp [copy_out, Ctl.checked, hst, ompi_datatype_copy_content_same_ddt, hk]

/-- In step 3 an odd rank among the first `2 * nprocs_rem` sends the block `rank - 1` of its
`tmpbuf` to the rank before it. -/
theorem rh_unfold_sends_left_block (env : Env α) (p m r : Nat) (s : Local α)
    (h1 : (r : Int) < 2 * rh_nprocs_rem p) (h2 : r % 2 ≠ 0) :
    (rh_unfold env p m r s).ctl.trace = s.ctl.trace ++
      [⟨.send (r - 1) (slice s.tmpbuf ((r - 1) * m) m), env.status s.ctl.trace.length⟩] := by
  unfold rh_unfold
  rw [if_pos h1, if_neg h2]
  rfl

/-- The plan of virtual rank 0 at `mask = 2` in a group of 4 ranks with `rcount = 2 ^ 30`:
the products `rcount * 2` wrap to `-2 ^ 31`. -/
theorem rh_plan_wraps :
    rh_plan 4 (2 ^ 30) ((0 : Nat) : Int) (2 ^ 1) ⟨0, 0, 4⟩ =
      ⟨2, 2, 0, -2 ^ 31, -2 ^ 31, 0, -2 ^ 31⟩ := by
  have hp : rh_nprocs_rem 4 = 0 := by
    simp [rh_nprocs_rem, rh_nprocs_pof2, opal_next_poweroftwo, Nat.log2]
  unfold rh_plan
  rw [hp]
  decide
/-- C19 fails as stated: the counts of the halving loop are `int` products. With `p = 4`,
`m = 2 ^ 30` and virtual rank 0 at the window `(0, 0, 4)`, the step `mask = 2` computes
`send_count = recv_count = -2 ^ 31`, so neither `recv_count > 0` nor `send_count > 0` holds:
the iteration makes no call and leaves `tmpbuf` as it was, and the window it moves to,
`(0, 0, 2)`, has not been reduced with the peer's half. -/
theorem halving_window_counterexample :
    (rh_plan 4 (2 ^ 30) ((0 : Nat) : Int) (2 ^ 1)
      ⟨(ompi_rounddown 0 (2 ^ (1 + 1)) : Nat), (ompi_rounddown 0 (2 ^ (1 + 1)) : Nat),
        ((ompi_rounddown 0 (2 ^ (1 + 1)) + 2 ^ (1 + 1) : Nat) : Int)⟩).send_count = -2 ^ 31 ∧
    (rh_plan 4 (2 ^ 30) ((0 : Nat) : Int) (2 ^ 1)
      ⟨(ompi_rounddown 0 (2 ^ (1 + 1)) : Nat), (ompi_rounddown 0 (2 ^ (1 + 1)) : Nat),
        ((ompi_rounddown 0 (2 ^ (1 + 1)) + 2 ^ (1 + 1) : Nat) : Int)⟩).recv_count = -2 ^ 31 ∧
    (rh_iter env_ok (fun a b : Int => a + b) 4 (2 ^ 30) ((0 : Nat) : Int) (2 ^ 1)
      { (Local.init zero_buf (fun _ => 5) zero_buf) with
          window := ⟨0, 0, 4⟩ }).ctl.trace.length = 0 ∧
    (rh_iter env_ok (fun a b : Int => a + b) 4 (2 ^ 30) ((0 : Nat) : Int) (2 ^ 1)
      { (Local.init zero_buf (fun _ => 5) zero_buf) with
          window := ⟨0, 0, 4⟩ }).tmpbuf 0 = 5 ∧
    (rh_iter env_ok (fun a b : Int => a + b) 4 (2 ^ 30) ((0 : Nat) : Int) (2 ^ 1)
      { (Local.init zero_buf (fun _ => 5) zero_buf) with
          window := ⟨0, 0, 4⟩ }).window = ⟨0, 0, 2⟩ := by
  have e1 := rh_plan_wraps
  refine ⟨?_, ?_, ?_, ?_, ?_⟩
  · exact congrArg RHPlan.send_count e1
  · exact congrArg RHPlan.recv_count e1
  · unfold rh_iter
    simp only [Local.init]
    rw [e1]
    rfl
  · unfold rh_iter
    simp only [Local.init]
    rw [e1]
    rfl
  · unfold rh_iter
    simp only [Local.init]
    rw [e1]
    rfl

/-- C19 as amended. The window invariant of the halving variant and the final ownership.
For every `p ≥ 2`, `m ≥ 1` and virtual rank `v < p' = nprocs_pof2`, every call succeeding:
the initial window `(0, 0, p')` is `v` with the bits below `p'` cleared; an iteration with
`mask = 2^i` started with `send_index = recv_index = v` with the bits below `2 * mask`
cleared and `last_index = recv_index + 2 * mask` ends with `send_index = recv_index = v`
with the bits below `mask` cleared and `last_index = recv_index + mask`; the whole loop ends
with `recv_index = v` and `last_index = v + 1`; the elements of that window (from the
displacement of index `v` to that of index `v + 1`) are exactly those of block `rank`, plus
those of block `rank - 1` when `rank < 2 * nprocs_rem`, where `rank` is the physical rank of
`v`. The function copies to `rbuf`, on a participating rank, the block of `tmpbuf` at offset
`rank * m` as the loop left it, and an odd rank below `2 * nprocs_rem` sends back the block
at offset `(rank - 1) * m`. When `p * m` fits in an `int`, in the run of all ranks with an
associative and commutative operator, after the loop every participating rank holds the
window `(v, v, v + 1)` and, on those elements of `tmpbuf`, the reduction over all ranks. -/
theorem halving_window_invariant (op : α → α → α)
    (hassoc : ∀ a b c, op (op a b) c = op a (op b c))
    (hcomm : ∀ a b, op a b = op b a)
    (p m : Nat) (hp : 2 ≤ p) (hm : 1 ≤ m) :
    (∀ v, v < rh_nprocs_pof2 p →
      ompi_rounddown v (rh_nprocs_pof2 p) = 0 ∧
      (∀ (i : Nat) (env : Env α) (s : Local α), (∀ n, env.status n = 0) → s.ctl.err = 0 →
        s.window = ⟨(ompi_rounddown v (2 ^ (i + 1)) : Nat), (ompi_rounddown v (2 ^ (i + 1)) : Nat),
          ((ompi_rounddown v (2 ^ (i + 1)) + 2 ^ (i + 1) : Nat) : Int)⟩ →
        (rh_iter env op p m (v : Int) (2 ^ i) s).window =
          ⟨(ompi_rounddown v (2 ^ i) : Nat), (ompi_rounddown v (2 ^ i) : Nat),
            ((ompi_rounddown v (2 ^ i) + 2 ^ i : Nat) : Int)⟩) ∧
      (∀ (env : Env α) (s : Local α), (∀ n, env.status n = 0) → s.ctl.err = 0 →
        (rh_rank_loop env op p m (v : Int) (rh_nprocs_pof2 p) (rh_nprocs_pof2 p >>> 1)
          { s with window := ⟨0, 0, rh_nprocs_pof2 p⟩ }).window =
            ⟨(v : Int), (v : Int), (v : Int) + 1⟩) ∧
      (∀ e, (m * rh_W p v ≤ e ∧ e < m * rh_W p (v + 1)) ↔
        (e / m = rh_phys p v ∨ (rh_phys p v < 2 * rh_remN p ∧ e / m + 1 = rh_phys p v))) ∧
      (∀ k, k < m → m * rh_W p v ≤ rh_phys p v * m + k ∧
        rh_phys p v * m + k < m * rh_W p (v + 1) ∧
        (rh_phys p v < 2 * rh_remN p → m * rh_W p v ≤ (rh_phys p v - 1) * m + k ∧
          (rh_phys p v - 1) * m + k < m * rh_W p (v + 1)))) ∧
    (∀ (r : Nat) (env : Env α) (s : Local α), (∀ n, env.status n = 0) → s.ctl.err = 0 →
      (rh_vrank p r ≠ -1 → ∀ k, k < m →
        (rh_halving env op p m r s).rbuf k =
          (rh_rank_loop env op p m (rh_vrank p r) (rh_nprocs_pof2 p) (rh_nprocs_pof2 p >>> 1)
            { s with window := ⟨0, 0, rh_nprocs_pof2 p⟩ }).tmpbuf (r * m + k)) ∧
      ((r : Int) < 2 * rh_nprocs_rem p → r % 2 ≠ 0 →
        (rh_unfold env p m r s).ctl.trace = s.ctl.trace ++
          [⟨.send (r - 1) (slice s.tmpbuf ((r - 1) * m) m), 0⟩])) ∧
    (p * m < 2 ^ 31 →
      ∀ (sbuf : Nat → Option (Nat → α)) (rbuf scratch0 scratch1 : Nat → Nat → α),
      ∃ G, rh_run_loop op p m (rh_nprocs_pof2 p) (rh_nprocs_pof2 p >>> 1)
          (rh_run_enter p (rh_run_fold op p m (fun r =>
            (alloc_scratch (env_deliver []) (Local.init (rbuf r) (scratch0 r)
              (scratch1 r))).andThen
                (copy_in (env_deliver []) (totalcount p m) (sbuf r))))) = some G ∧
        ∀ r v : Nat, r < p → rh_vrank p r = (v : Int) →
          (G r).window = ⟨(v : Int), (v : Int), (v : Int) + 1⟩ ∧
          ∀ e, e < p * m → (e / m = r ∨ (r < 2 * rh_remN p ∧ e / m + 1 = r)) →
            (G r).tmpbuf e =
              rangeRed op (fun j => input_of (sbuf j) (rbuf j) e) 0 (p - 1)) := by
  have hp1 : 1 ≤ p := by omega
  obtain ⟨hP, h1, h2⟩ := rh_pof2_facts p hp1
  refine ⟨?_, ?_, ?_⟩
  · intro v hv
    have hrd : ompi_rounddown v (rh_nprocs_pof2 p) = 0 := by
      unfold ompi_rounddown
      rw [Nat.div_eq_of_lt hv, Nat.zero_mul]
    refine ⟨hrd, ?_, ?_, ?_, ?_⟩
    · intro i env s hst hok hw
      rw [(rh_iter_ok env hst op p m (v : Int) (2 ^ i) s hok).2, hw, rh_window_step p m i v hp1]
    · intro env s hst hok
      have := rh_rank_loop_window env hst op p m v hp1 (Nat.log2 p) (rh_nprocs_pof2 p)
        { s with window := ⟨0, 0, rh_nprocs_pof2 p⟩ }
        (by rw [hP]; exact Nat.le_of_lt (Nat.lt_two_pow _)) hok
        (by rw [← hP, hrd]; simp)
      rw [← hP] at this
      exact this.2
    · intro e
      rw [rh_window_region p m v e hm, rh_vblock_owner]
    · intro k hk
      obtain ⟨b1, b2⟩ := rh_vblock_phys p m v k hm hk
      have r1 := (rh_window_region p m v (rh_phys p v * m + k) hm).2 b1
      refine ⟨r1.1, r1.2, ?_⟩
      intro hlt
      have hv' : v < rh_remN p := by
        unfold rh_phys at hlt
        split_ifs at hlt <;> omega
      exact (rh_window_region p m v ((rh_phys p v - 1) * m + k) hm).2 (b2 hv')
  · intro r env s hst hok
    refine ⟨fun hpart k hk => rh_halving_copies_own_block env hst op p m r s hok hpart k hk,
      fun h1 h2 => ?_⟩
    rw [rh_unfold_sends_left_block env p m r s h1 h2, hst]
  · intro hfit sbuf rbuf scratch0 scratch1
    rw [totalcount_eq hfit]
    have hst := fun r => init_state (p * m) (sbuf r) (rbuf r) (scratch0 r) (scratch1 r)
    generalize hG0 : (fun r => (alloc_scratch (env_deliver [])
      (Local.init (rbuf r) (scratch0 r) (scratch1 r))).andThen
        (copy_in (env_deliver []) (p * m) (sbuf r))) = G0
    have hst' : ∀ r, (G0 r).ctl.err = 0 ∧ (G0 r).tmpbuf =
        ompi_datatype_copy_content_same_ddt (p * m) (scratch0 r) 0
          (input_of (sbuf r) (rbuf r)) 0 ∧ (G0 r).rbuf = rbuf r := by
      intro r; rw [← hG0]; exact hst r
    have hinit := rh_enter_inv op (fun j => input_of (sbuf j) (rbuf j)) p m hp1 hfit G0 scratch0
      (fun r => (hst' r).1) (fun r => (hst' r).2.1)
    have hf := fun r => rh_run_fold_sim op p m G0 r (hst' r).1
    have he := fun r => rh_run_enter_sim p (rh_run_fold op p m G0) r (hf r).1
    obtain ⟨G, e1, inv, -⟩ := rh_run_loop_inv op hassoc hcomm _ p m hp1 hm hfit (Nat.log2 p)
      (rh_nprocs_pof2 p) _ (Nat.le_refl _)
      (by rw [hP]; exact Nat.le_of_lt (Nat.lt_two_pow _)) (fun r => (he r).1) hinit
    rw [← hP] at e1
    refine ⟨G, e1, ?_⟩
    intro r v hr hv
    obtain ⟨w1, w2⟩ := (inv r hr).2 v hv
    simp only [Local.toRH, pow_zero, rounddown_one, Nat.cast_add, Nat.cast_one] at w1 w2
    refine ⟨w1, ?_⟩
    intro e he hown
    have hphys : rh_phys p v = r := by
      rcases rh_vrank_cases p r hp1 hr with ⟨hneg, -, -⟩ | ⟨v', hv', -, hphys⟩
      · rw [hneg] at hv; omega
      · rw [hv'] at hv
        rw [← Int.ofNat_inj.1 hv]
        exact hphys
    have hb : rh_vblock p m e = v := (rh_vblock_owner p m v e).2 (by rw [hphys]; exact hown)
    rw [w2 e he (by rw [hb]), rh_window_red_zero op hassoc _ p v e hp1]

/-- Witness of the amended C19: `p = 6` (`p' = 4`, `nprocs_rem = 2`), `m = 2`, the sum, virtual rank 1
(physical rank 3): the loop ends with the window `(1, 1, 2)`, whose elements are those of
the blocks 2 and 3. -/
theorem halving_window_invariant_witness :
    (2 ≤ 6 ∧ 1 ≤ 2 ∧ 1 < rh_nprocs_pof2 6) ∧
    (rh_rank_loop env_ok (fun a b : Int => a + b) 6 2 ((1 : Nat) : Int) (rh_nprocs_pof2 6)
      (rh_nprocs_pof2 6 >>> 1)
      { (Local.init zero_buf zero_buf zero_buf) with
          window := ⟨0, 0, rh_nprocs_pof2 6⟩ }).window = ⟨((1 : Nat) : Int), ((1 : Nat) : Int),
        ((1 : Nat) : Int) + 1⟩ ∧
    (∀ e, (2 * rh_W 6 1 ≤ e ∧ e < 2 * rh_W 6 (1 + 1)) ↔
      (e / 2 = rh_phys 6 1 ∨ (rh_phys 6 1 < 2 * rh_remN 6 ∧ e / 2 + 1 = rh_phys 6 1))) ∧
    rh_phys 6 1 = 3 ∧ rh_W 6 1 = 2 ∧ rh_W 6 2 = 4 :=
  ⟨⟨by decide, by decide, by simp [rh_nprocs_pof2, opal_next_poweroftwo, Nat.log2]⟩,
    ((halving_window_invariant (fun a b : Int => a + b) (fun a b c => Int.add_assoc a b c)
      (fun a b => Int.add_comm a b) 6 2 (by decide) (by decide)).1 1
      (by simp [rh_nprocs_pof2, opal_next_poweroftwo, Nat.log2])).2.2.1 env_ok
      (Local.init zero_buf zero_buf zero_buf) (fun _ => rfl) rfl,
    ((halving_window_invariant (fun a b : Int => a + b) (fun a b c => Int.add_assoc a b c)
      (fun a b => Int.add_comm a b) 6 2 (by decide) (by decide)).1 1
      (by simp [rh_nprocs_pof2, opal_next_poweroftwo, Nat.log2])).2.2.2.1,
    by simp [rh_phys, rh_remN, rh_nprocs_pof2, opal_next_poweroftwo, Nat.log2],
    by simp [rh_W, rh_remN, rh_nprocs_pof2, opal_next_poweroftwo, Nat.log2],
    by simp [rh_W, rh_remN, rh_nprocs_pof2, opal_next_poweroftwo, Nat.log2]⟩

/-- C21. In the doubling variant sender and receiver agree on the shape of a message: for
every group size, block size, rank `r` and step `mask = 2^s`, the send pattern built by `r`
(`blocklens`, `displs`) is the receive pattern built by its partner `r xor mask`, and the
send pattern of the partner is the receive pattern of `r`; and for every `h = 2^t` of the
forwarding search (`t < s`), the receive pattern with which `r` transmits a forwarded
message is the receive pattern with which `r xor h` receives it. -/
theorem doubling_patterns_agree (p m r s : Nat) :
    rd_sendtype p m r (2 ^ s) = rd_recvtype p m (r ^^^ 2 ^ s) (2 ^ s) ∧
    rd_sendtype p m (r ^^^ 2 ^ s) (2 ^ s) = rd_recvtype p m r (2 ^ s) ∧
    ∀ t, t < s → rd_recvtype p m r (2 ^ s) = rd_recvtype p m (r ^^^ 2 ^ t) (2 ^ s) := by
  have e4 : (r ^^^ 2 ^ s) ^^^ 2 ^ s = r := by
    rw [Nat.xor_assoc, Nat.xor_self, Nat.xor_zero]
  refine ⟨?_, rfl, fun t ht => (rd_fwd_partner_eq ht p m r).1.symm⟩
  unfold rd_sendtype rd_recvtype
  rw [e4]

theorem pack_length (t : Indexed) (buf : Nat → α) :
    (pack t buf).length = t.blocklens0 + t.blocklens1 := by
  unfold pack
  simp

theorem rd_indexed_size (p m root mask : Nat) (hfit : p * m < 2 ^ 31)
    (h0 : m * root < 2 ^ 31) :
    (root + mask ≤ p →
      (rd_indexed p m root mask).blocklens0 + (rd_indexed p m root mask).blocklens1 =
        p * m - mask * m) ∧
    (p < root + mask →
      (rd_indexed p m root mask).blocklens0 + (rd_indexed p m root mask).blocklens1 =
        m * root) := by
  rw [rd_indexed_eq_of_fit hfit h0]
  simp only
  constructor
  · intro h
    simp only [ge_iff_le, if_pos h]
    have e1 : p - root - mask = p - (root + mask) := Nat.sub_sub _ _ _
    have e2 : m * (p - (root + mask)) = m * p - m * (root + mask) := Nat.mul_sub _ _ _
    have e3 : m * (root + mask) = m * root + m * mask := Nat.mul_add _ _ _
    have e4 : m * (root + mask) ≤ m * p := Nat.mul_le_mul_left _ h
    rw [e1, e2, Nat.mul_comm p m, Nat.mul_comm mask m]
    omega
  · intro h
    simp only [ge_iff_le, if_neg (Nat.not_le.2 h), Nat.add_zero]

/-- C25, counterexample. With `p = 3`, `m = 1` and `mask = 2` (step 2), rank 2 exchanges with
rank 0 and sends 2 elements (the blocks 0 and 1), not `p * m - mask * m = 1`; rank 0 receives
those 2 elements. And the run lengths are `int` products: with `p = 3`, `m = 2 ^ 30` and
`mask = 1`, rank 0 exchanges with rank 1 and its send pattern has `blocklens[1] = -2 ^ 31`:
it describes no element, not `p * m - mask * m = 2 ^ 31`. -/
theorem doubling_volume_counterexample :
    (2 ≤ 3 ∧ 1 ≤ 1 ∧ 2 ^^^ 2 ^ 1 < 3 ∧ 0 ^^^ 2 ^ 1 < 3) ∧
    (rd_sendtype 3 1 2 (2 ^ 1)).blocklens0 + (rd_sendtype 3 1 2 (2 ^ 1)).blocklens1 = 2 ∧
    (rd_recvtype 3 1 0 (2 ^ 1)).blocklens0 + (rd_recvtype 3 1 0 (2 ^ 1)).blocklens1 = 2 ∧
    (rd_sendtype 3 1 2 (2 ^ 1)).blocklens0 + (rd_sendtype 3 1 2 (2 ^ 1)).blocklens1 ≠
      1 * (3 - 2 ^ 1) ∧
    (rd_recvtype 3 1 0 (2 ^ 1)).blocklens0 + (rd_recvtype 3 1 0 (2 ^ 1)).blocklens1 ≠
      1 * (3 - 2 ^ 1) ∧
    0 ^^^ 2 ^ 0 < 3 ∧
    (rd_blocklens_displs 3 (2 ^ 30) (ompi_rounddown 0 (2 ^ 0)) (2 ^ 0)).blocklens1 = -2 ^ 31 ∧
    (rd_sendtype 3 (2 ^ 30) 0 (2 ^ 0)).blocklens0 +
      (rd_sendtype 3 (2 ^ 30) 0 (2 ^ 0)).blocklens1 = 0 ∧
    2 ^ 30 * (3 - 2 ^ 0) = 2 ^ 31 := by
  decide

/-- C25, amended. The data volume of a step of the doubling variant when `p * m` fits in an
`int`: for every group size `p`, block size `m` with `p * m < 2 ^ 31`, rank `r < p` with a
partner in the group (`r xor mask < p`) and step `mask = 2^s`, the send pattern of `r`
describes, and a send with it transmits, `p * m - mask * m` elements when the subtree of `r`
is whole (`cur_root + mask ≤ p`) and `m * cur_root` elements when it is cut by the end of the
group; the receive pattern describes `p * m - mask * m` elements when the subtree of the
partner is whole (`remote_root + mask ≤ p`) and `m * remote_root` elements when it is
cut. -/
theorem doubling_volume (p m r s : Nat) (hr : r < p) (hpartner : r ^^^ 2 ^ s < p)
    (hfit : p * m < 2 ^ 31) :
    (∀ buf : Nat → α, (pack (rd_sendtype p m r (2 ^ s)) buf).length =
      (rd_sendtype p m r (2 ^ s)).blocklens0 + (rd_sendtype p m r (2 ^ s)).blocklens1) ∧
    (ompi_rounddown r (2 ^ s) + 2 ^ s ≤ p →
      (rd_sendtype p m r (2 ^ s)).blocklens0 + (rd_sendtype p m r (2 ^ s)).blocklens1 =
        p * m - 2 ^ s * m) ∧
    (p < ompi_rounddown r (2 ^ s) + 2 ^ s →
      (rd_sendtype p m r (2 ^ s)).blocklens0 + (rd_sendtype p m r (2 ^ s)).blocklens1 =
        m * ompi_rounddown r (2 ^ s)) ∧
    (ompi_rounddown (r ^^^ 2 ^ s) (2 ^ s) + 2 ^ s ≤ p →
      (rd_recvtype p m r (2 ^ s)).blocklens0 + (rd_recvtype p m r (2 ^ s)).blocklens1 =
        p * m - 2 ^ s * m) ∧
    (p < ompi_rounddown (r ^^^ 2 ^ s) (2 ^ s) + 2 ^ s →
      (rd_recvtype p m r (2 ^ s)).blocklens0 + (rd_recvtype p m r (2 ^ s)).blocklens1 =
        m * ompi_rounddown (r ^^^ 2 ^ s) (2 ^ s)) := by
  have hroot : ompi_rounddown r (2 ^ s) ≤ p := by
    have := (subtree_facts s r).1
    omega
  have hroot' : ompi_rounddown (r ^^^ 2 ^ s) (2 ^ s) ≤ p := by
    have := (subtree_facts s (r ^^^ 2 ^ s)).1
    omega
  have h0 : m * ompi_rounddown r (2 ^ s) ≤ p * m := by
    rw [Nat.mul_comm p m]; exact Nat.mul_le_mul_left m hroot
  have h0' : m * ompi_rounddown (r ^^^ 2 ^ s) (2 ^ s) ≤ p * m := by
    rw [Nat.mul_comm p m]; exact Nat.mul_le_mul_left m hroot'
  exact ⟨fun buf => pack_length _ buf,
    (rd_indexed_size p m (ompi_rounddown r (2 ^ s)) (2 ^ s) hfit (by omega)).1,
    (rd_indexed_size p m (ompi_rounddown r (2 ^ s)) (2 ^ s) hfit (by omega)).2,
    (rd_indexed_size p m (ompi_rounddown (r ^^^ 2 ^ s) (2 ^ s)) (2 ^ s) hfit (by omega)).1,
    (rd_indexed_size p m (ompi_rounddown (r ^^^ 2 ^ s) (2 ^ s)) (2 ^ s) hfit (by omega)).2⟩

/-- Witness of the amended C25: `p = 5`, `m = 2`, rank 3, `mask = 2` (partner 1): both
subtrees are whole and a message has `p * m - mask * m = 6` elements. -/
theorem doubling_volume_witness :
    (3 < 5 ∧ 3 ^^^ 2 ^ 1 < 5 ∧ 5 * 2 < 2 ^ 31 ∧ ompi_rounddown 3 (2 ^ 1) + 2 ^ 1 ≤ 5) ∧
    (rd_sendtype 5 2 3 (2 ^ 1)).blocklens0 + (rd_sendtype 5 2 3 (2 ^ 1)).blocklens1 =
      5 * 2 - 2 ^ 1 * 2 ∧
    (rd_recvtype 5 2 3 (2 ^ 1)).blocklens0 + (rd_recvtype 5 2 3 (2 ^ 1)).blocklens1 =
      5 * 2 - 2 ^ 1 * 2 :=
  ⟨⟨by decide, by decide, by norm_num, by decide⟩,
    (doubling_volume (α := Int) 5 2 3 1 (by decide) (by decide) (by norm_num)).2.1 (by decide),
    (doubling_volume (α := Int) 5 2 3 1 (by decide) (by decide) (by norm_num)).2.2.2.1
      (by decide)⟩

/-- When `p * m` fits in an `int`, a pattern of the doubling variant built for a root inside
the group stays inside the buffer; run 1 always ends at the end of the buffer. -/
theorem rd_indexed_bounds (p m root mask : Nat) (hfit : p * m < 2 ^ 31) :
    (rd_indexed p m root mask).displs1 + (rd_indexed p m root mask).blocklens1 = p * m ∧
    (root ≤ p → (rd_indexed p m root mask).blocklens0 ≤ (rd_indexed p m root mask).displs1) ∧
    (p ≤ root → m * root < 2 ^ 31 → p * m ≤ (rd_indexed p m root mask).blocklens0) := by
  refine ⟨?_, fun h => (rd_indexed_ordered p m root mask hfit h).2, ?_⟩
  · by_cases hc : root + mask ≤ p
    · rw [rd_indexed_eq hfit (by omega : root ≤ p)]
      simp only [ge_iff_le, if_pos hc]
      apply Nat.sub_add_cancel
      rw [Nat.mul_comm p m]
      exact Nat.mul_le_mul_left _ (by omega)
    · have et : int32 ((p : Int) * (m : Int)) = ((p * m : Nat) : Int) := by
        rw [← Int.natCast_mul]; exact int32_natCast hfit
      unfold rd_indexed ompi_datatype_create_indexed rd_blocklens_displs
      simp only [ge_iff_le, if_neg hc, et, Int.sub_zero, int32_natCast hfit, Int.toNat_ofNat]
      rfl
  · intro h h0
    rw [rd_indexed_eq_of_fit hfit h0, Nat.mul_comm p m]
    exact Nat.mul_le_mul_left _ h

/-- A rank that sends or receives a forwarded message has the root of its partner inside
the group. -/
theorem rd_fwd_root_in_group (p r s t : Nat) (hr : r < p)
    (h : rd_fwd_sends p r (2 ^ s) (2 ^ t) = true ∨ rd_fwd_recvs p r (2 ^ s) (2 ^ t) = true) :
    ompi_rounddown (r ^^^ 2 ^ s) (2 ^ s) ≤ p := by
  have hlt : ompi_rounddown r (2 ^ s) + 2 ^ s < p := by
    by_contra hc
    obtain ⟨a, b⟩ := rd_fwd_silent p r s t (by omega)
    rcases h with h | h
    · rw [a] at h; cases h
    · rw [b] at h; cases h
  obtain ⟨a1, -, a3⟩ := subtree_facts s r
  have hpos := Nat.pow_pos (n := s) (by norm_num : 0 < 2)
  rcases a3 with ⟨-, hy, -⟩ | ⟨-, hy, -⟩ <;> omega

theorem rd_fwd_iter_flag (env : Env α) (p m rank mask h : Nat) (s : Local α)
    (hf : (rd_fwd_iter env p m rank mask h s).is_block_received = true) :
    s.is_block_received = true ∨ rd_recv_cond p rank mask h = true := by
  unfold rd_fwd_iter at hf
  by_cases h1 : rd_send_cond p rank mask h = true
  · rw [if_pos h1] at hf
    exact Or.inl hf
  · rw [if_neg h1] at hf
    by_cases h2 : rd_recv_cond p rank mask h = true
    · exact Or.inr h2
    · rw [if_neg h2] at hf
      exact Or.inl hf

/-- The forwarding search sets `is_block_received` only by a receive at one of its masks. -/
theorem rd_fwd_loop_flag (env : Env α) (p m rank mask : Nat) :
    ∀ (fuel t : Nat) (s : Local α),
      (rd_fwd_loop env p m rank mask fuel (2 ^ t) s).is_block_received = true →
      s.is_block_received = true ∨ ∃ t', t' ≤ t ∧ rd_recv_cond p rank mask (2 ^ t') = true := by
  intro fuel
  induction fuel with
  | zero => intro t s hf; exact Or.inl hf
  | succ f ih =>
    intro t s hf
    have ht : 0 < 2 ^ t := Nat.pow_pos (by norm_num)
    unfold rd_fwd_loop at hf
    rw [if_pos ht] at hf
    unfold Local.andThen at hf
    have hstep : (rd_fwd_iter env p m rank mask (2 ^ t) s).is_block_received = true →
        s.is_block_received = true ∨
          ∃ t', t' ≤ t ∧ rd_recv_cond p rank mask (2 ^ t') = true := by
      intro h
      rcases rd_fwd_iter_flag env p m rank mask (2 ^ t) s h with h | h
      · exact Or.inl h
      · exact Or.inr ⟨t, Nat.le_refl _, h⟩
    by_cases herr : (rd_fwd_iter env p m rank mask (2 ^ t) s).ctl.err = 0
    · rw [if_pos herr] at hf
      cases t with
      | zero =>
        have h0 : (2 : Nat) ^ 0 >>> 1 = 0 := by decide
        rw [h0] at hf
        have hs : ∀ x : Local α, rd_fwd_loop env p m rank mask f 0 x = x := by
          intro x
          cases f <;> simp [rd_fwd_loop]
        rw [hs] at hf
        exact hstep hf
      | succ t1 =>
        rw [shr_two_pow] at hf
        rcases ih t1 _ hf with h | ⟨t', ht', h⟩
        · exact hstep h
        · exact Or.inr ⟨t', by omega, h⟩
    · rw [if_neg herr] at hf
      exact hstep hf

/-- When the reduction of a step finds `is_block_received` set, the partner is in the group or
a forwarded message has been received. -/
theorem rd_flag_origin (env : Env α) (p m r s : Nat) (st : Local α)
    (hf : ((rd_sendrecv env p m r (2 ^ s) { st with is_block_received := false }).andThen
      (rd_search env p m r (2 ^ s))).is_block_received = true) :
    r ^^^ 2 ^ s < p ∨ ∃ t, t < s ∧ rd_fwd_recvs p r (2 ^ s) (2 ^ t) = true := by
  have hsr : ∀ x : Local α, x.is_block_received = false →
      (rd_sendrecv env p m r (2 ^ s) x).is_block_received = true → r ^^^ 2 ^ s < p := by
    intro x hx h
    unfold rd_sendrecv at h
    by_cases hc : r ^^^ 2 ^ s < p
    · exact hc
    · simp only [if_neg hc] at h
      rw [hx] at h
      cases h
  unfold Local.andThen at hf
  by_cases herr : (rd_sendrecv env p m r (2 ^ s) { st with is_block_received := false }).ctl.err = 0
  · rw [if_pos herr] at hf
    unfold rd_search at hf
    by_cases hin : rd_in_search p r (2 ^ s) = true
    · rw [if_pos hin] at hf
      cases s with
      | zero =>
        have h0 : (2 : Nat) ^ 0 >>> 1 = 0 := by decide
        rw [h0] at hf
        have hs : ∀ (f : Nat) (x : Local α), rd_fwd_loop env p m r (2 ^ 0) f 0 x = x := by
          intro f x
          cases f <;> simp [rd_fwd_loop]
        rw [hs] at hf
        exact Or.inl (hsr _ rfl hf)
      | succ s1 =>
        rw [shr_two_pow] at hf
        rcases rd_fwd_loop_flag env p m r (2 ^ (s1 + 1)) _ s1 _ hf with h | ⟨t', ht', h⟩
        · exact Or.inl (hsr _ rfl h)
        · refine Or.inr ⟨t', by omega, ?_⟩
          unfold rd_fwd_recvs
          rw [hin, h]
          rfl
    · rw [if_neg hin] at hf
      exact Or.inl (hsr _ rfl hf)
  · rw [if_neg herr] at hf
    exact Or.inl (hsr _ rfl hf)
/-- C22 fails as stated: the runs are `int` products. With `p = 3`, `m = 2 ^ 30`, rank 0
and `mask = 1` the send pattern has `displs[1] = 2 ^ 30` and `blocklens[1] = -2 ^ 31`: their
sum is `-2 ^ 30`, not `p * m = 3 * 2 ^ 30`, and the run the datatype describes is empty. -/
theorem patterns_inside_buffer_counterexample :
    (0 < 3 ∧ 2 ≤ 3 ∧ 1 ≤ 2 ^ 30) ∧
    (rd_blocklens_displs 3 (2 ^ 30) (ompi_rounddown 0 (2 ^ 0)) (2 ^ 0)).displs1 +
      (rd_blocklens_displs 3 (2 ^ 30) (ompi_rounddown 0 (2 ^ 0)) (2 ^ 0)).blocklens1 =
      -2 ^ 30 ∧
    (rd_sendtype 3 (2 ^ 30) 0 (2 ^ 0)).displs1 + (rd_sendtype 3 (2 ^ 30) 0 (2 ^ 0)).blocklens1 ≠
      3 * 2 ^ 30 := by
  decide

/-- C22 as amended. Every pattern the doubling variant uses stays inside the buffer when
`p * m` fits in an `int`. For every group size `p`, block size `m` with `p * m < 2 ^ 31`,
rank `r < p` and step `mask = 2^s`: the send pattern satisfies `blocklens[0] ≤ displs[1]`
and `displs[1] + blocklens[1] = p * m`; the receive pattern satisfies the same two bounds
whenever it is used: in the pairwise exchange (`r xor mask < p`), in a forwarded send or
receive of the search, and in the reduction and copy that follow (which run only when
`is_block_received` is set after the exchange and the search); whereas the receive pattern
built for a partner root outside the group (`remote_tree_root ≥ p`) has, when
`m * remote_tree_root` fits in an `int`, a run 0 of length `m * remote_tree_root ≥ p * m`. -/
theorem patterns_inside_buffer (p m r s : Nat) (hr : r < p) (hfit : p * m < 2 ^ 31) :
    ((rd_sendtype p m r (2 ^ s)).blocklens0 ≤ (rd_sendtype p m r (2 ^ s)).displs1 ∧
      (rd_sendtype p m r (2 ^ s)).displs1 + (rd_sendtype p m r (2 ^ s)).blocklens1 = p * m) ∧
    (r ^^^ 2 ^ s < p →
      (rd_recvtype p m r (2 ^ s)).blocklens0 ≤ (rd_recvtype p m r (2 ^ s)).displs1 ∧
      (rd_recvtype p m r (2 ^ s)).displs1 + (rd_recvtype p m r (2 ^ s)).blocklens1 = p * m) ∧
    (∀ t, t < s →
      (rd_fwd_sends p r (2 ^ s) (2 ^ t) = true ∨ rd_fwd_recvs p r (2 ^ s) (2 ^ t) = true) →
      (rd_recvtype p m r (2 ^ s)).blocklens0 ≤ (rd_recvtype p m r (2 ^ s)).displs1 ∧
      (rd_recvtype p m r (2 ^ s)).displs1 + (rd_recvtype p m r (2 ^ s)).blocklens1 = p * m) ∧
    (∀ (env : Env α) (st : Local α),
      ((rd_sendrecv env p m r (2 ^ s) { st with is_block_received := false }).andThen
        (rd_search env p m r (2 ^ s))).is_block_received = true →
      (rd_recvtype p m r (2 ^ s)).blocklens0 ≤ (rd_recvtype p m r (2 ^ s)).displs1 ∧
      (rd_recvtype p m r (2 ^ s)).displs1 + (rd_recvtype p m r (2 ^ s)).blocklens1 = p * m) ∧
    (p ≤ ompi_rounddown (r ^^^ 2 ^ s) (2 ^ s) →
      m * ompi_rounddown (r ^^^ 2 ^ s) (2 ^ s) < 2 ^ 31 →
      p * m ≤ (rd_recvtype p m r (2 ^ s)).blocklens0 ∧
      (rd_recvtype p m r (2 ^ s)).blocklens0 = m * ompi_rounddown (r ^^^ 2 ^ s) (2 ^ s)) := by
  obtain ⟨b1, b2, -⟩ := rd_indexed_bounds p m (ompi_rounddown r (2 ^ s)) (2 ^ s) hfit
  obtain ⟨c1, c2, c3⟩ :=
    rd_indexed_bounds p m (ompi_rounddown (r ^^^ 2 ^ s) (2 ^ s)) (2 ^ s) hfit
  have hroot : ompi_rounddown r (2 ^ s) ≤ p := by
    have := (subtree_facts s r).1
    omega
  have hx : r ^^^ 2 ^ s < p → ompi_rounddown (r ^^^ 2 ^ s) (2 ^ s) ≤ p := by
    intro h
    have := (subtree_facts s (r ^^^ 2 ^ s)).1
    omega
  refine ⟨⟨b2 hroot, b1⟩, fun h => ⟨c2 (hx h), c1⟩,
    fun t _ h => ⟨c2 (rd_fwd_root_in_group p r s t hr h), c1⟩, ?_,
    fun h h0 => ⟨c3 h h0, (rd_indexed_runs p m _ _ hfit h0).2.1⟩⟩
  intro env st hf
  rcases rd_flag_origin env p m r s st hf with h | ⟨t, -, h⟩
  · exact ⟨c2 (hx h), c1⟩
  · exact ⟨c2 (rd_fwd_root_in_group p r s t hr (Or.inr h)), c1⟩

/-- Witness of the amended C22: `p = 5`, `m = 1`, rank 4, `mask = 2`: the partner 6 and its root 6 are
outside the group; the send pattern is `[0, 4)` and an empty run at 5, the receive pattern
has a run 0 of length 6, longer than the buffer, and is never used. -/
theorem patterns_inside_buffer_witness :
    (4 < 5 ∧ 5 * 1 < 2 ^ 31) ∧
    ((rd_sendtype 5 1 4 (2 ^ 1)).blocklens0 ≤ (rd_sendtype 5 1 4 (2 ^ 1)).displs1 ∧
      (rd_sendtype 5 1 4 (2 ^ 1)).displs1 + (rd_sendtype 5 1 4 (2 ^ 1)).blocklens1 = 5 * 1) ∧
    rd_sendtype 5 1 4 (2 ^ 1) = ⟨4, 0, 0, 5⟩ ∧
    rd_recvtype 5 1 4 (2 ^ 1) = ⟨6, 0, 0, 5⟩ ∧
    ¬ (4 ^^^ 2 ^ 1 < 5) ∧
    rd_fwd_sends 5 4 (2 ^ 1) (2 ^ 0) = false ∧ rd_fwd_recvs 5 4 (2 ^ 1) (2 ^ 0) = false :=
  ⟨⟨by decide, by norm_num⟩,
    (@patterns_inside_buffer Int 5 1 4 1 (by decide) (by norm_num)).1,
    by decide, by decide, by decide, by decide, by decide⟩
theorem rh_displ_W (p m j : Nat) (hp : 1 ≤ p) (hfit : p * m < 2 ^ 31)
    (hj : j ≤ rh_nprocs_pof2 p) :
    rh_displ p m (j : Int) = ((m * rh_W p j : Nat) : Int) := by
  unfold rh_displ
  rw [rh_displ_eq p hp m j]
  exact int32_displ p m _ hfit (rh_W_le p hp hj)

theorem rh_displ_range_sum (p m j : Nat) (hp : 1 ≤ p) (hm : 0 < m) (hfit : p * m < 2 ^ 31)
    (hj : j ≤ rh_nprocs_pof2 p) :
    rh_displ p m (j : Int) =
      (m : Int) * ompi_range_sum 0 ((j : Int) - 1) (rh_nprocs_rem p - 1) := by
  have hp31 : p < 2 ^ 31 := by
    have := Nat.le_mul_of_pos_right p hm
    omega
  have h := ompi_range_sum_exact p hp hp31 0 j (Nat.zero_le _) hj
  have h0 : rh_W p 0 = 0 := by
    unfold rh_W
    split_ifs <;> omega
  rw [h0] at h
  simp only [Nat.cast_zero, sub_zero] at h
  rw [h, rh_displ_W p m j hp hfit hj]
  push_cast
  rfl

/-- The two regions of an iteration of step 2, by their ends, in terms of the first physical
block `rh_W` of a virtual index. -/
theorem rh_plan_ends (p m i v : Nat) (hp : 1 ≤ p) (hm : 0 < m) (hfit : p * m < 2 ^ 31)
    (hv : v < rh_nprocs_pof2 p) (hi : i < Nat.log2 p) (P : RHPlan)
    (hP : P = rh_plan p m (v : Int) (2 ^ i)
      ⟨(ompi_rounddown v (2 ^ (i + 1)) : Nat), (ompi_rounddown v (2 ^ (i + 1)) : Nat),
        ((ompi_rounddown v (2 ^ (i + 1)) + 2 ^ (i + 1) : Nat) : Int)⟩) :
    P.send_index = ((ompi_rounddown (v ^^^ 2 ^ i) (2 ^ i) : Nat) : Int) ∧
    P.recv_index = ((ompi_rounddown v (2 ^ i) : Nat) : Int) ∧
    P.sdispl = ((m * rh_W p (ompi_rounddown (v ^^^ 2 ^ i) (2 ^ i)) : Nat) : Int) ∧
    P.rdispl = ((m * rh_W p (ompi_rounddown v (2 ^ i)) : Nat) : Int) ∧
    P.sdispl + P.send_count =
      ((m * rh_W p (ompi_rounddown (v ^^^ 2 ^ i) (2 ^ i) + 2 ^ i) : Nat) : Int) ∧
    P.rdispl + P.recv_count = ((m * rh_W p (ompi_rounddown v (2 ^ i) + 2 ^ i) : Nat) : Int) ∧
    0 ≤ P.send_count ∧ 0 ≤ P.recv_count := by
  rw [rh_plan_fields p m i v hp hm hfit hv hi] at hP
  subst hP
  have hM : 0 < 2 ^ i := Nat.pow_pos (by norm_num)
  obtain ⟨a1, a2, -⟩ := rh_count_cast p m (ompi_rounddown v (2 ^ i)) (2 ^ i) hM
  obtain ⟨b1, b2, -⟩ := rh_count_cast p m (ompi_rounddown (v ^^^ 2 ^ i) (2 ^ i)) (2 ^ i) hM
  refine ⟨rfl, rfl, rfl, rfl, ?_, ?_, ?_, ?_⟩
  · show ((m * rh_W p (ompi_rounddown (v ^^^ 2 ^ i) (2 ^ i)) : Nat) : Int) +
      (m : Int) * ((rh_W p (ompi_rounddown (v ^^^ 2 ^ i) (2 ^ i) + 2 ^ i) : Int) -
        (rh_W p (ompi_rounddown (v ^^^ 2 ^ i) (2 ^ i)) : Int)) = _
    push_cast
    ring
  · show ((m * rh_W p (ompi_rounddown v (2 ^ i)) : Nat) : Int) +
      (m : Int) * ((rh_W p (ompi_rounddown v (2 ^ i) + 2 ^ i) : Int) -
        (rh_W p (ompi_rounddown v (2 ^ i)) : Int)) = _
    push_cast
    ring
  · show 0 ≤ (m : Int) * ((rh_W p (ompi_rounddown (v ^^^ 2 ^ i) (2 ^ i) + 2 ^ i) : Int) -
        (rh_W p (ompi_rounddown (v ^^^ 2 ^ i) (2 ^ i)) : Int))
    rw [b1]
    exact Int.ofNat_nonneg _
  · show 0 ≤ (m : Int) * ((rh_W p (ompi_rounddown v (2 ^ i) + 2 ^ i) : Int) -
        (rh_W p (ompi_rounddown v (2 ^ i)) : Int))
    rw [a1]
    exact Int.ofNat_nonneg _
/-- C23 fails as stated: the counts and displacements are `int` products. With `p = 4`,
`m = 2 ^ 30`, virtual rank 0 and `mask = 2` (window `[0, 4)`), the code computes
`send_count = recv_count = -2 ^ 31` and `sdispl = -2 ^ 31`: a count is negative and the send
region does not lie within `[0, p * m)`. -/
theorem halving_regions_tile_counterexample :
    (2 ≤ 4 ∧ 1 ≤ 2 ^ 30) ∧
    (rh_plan 4 (2 ^ 30) ((0 : Nat) : Int) (2 ^ 1)
      ⟨(ompi_rounddown 0 (2 ^ (1 + 1)) : Nat), (ompi_rounddown 0 (2 ^ (1 + 1)) : Nat),
        ((ompi_rounddown 0 (2 ^ (1 + 1)) + 2 ^ (1 + 1) : Nat) : Int)⟩).send_count = -2 ^ 31 ∧
    (rh_plan 4 (2 ^ 30) ((0 : Nat) : Int) (2 ^ 1)
      ⟨(ompi_rounddown 0 (2 ^ (1 + 1)) : Nat), (ompi_rounddown 0 (2 ^ (1 + 1)) : Nat),
        ((ompi_rounddown 0 (2 ^ (1 + 1)) + 2 ^ (1 + 1) : Nat) : Int)⟩).recv_count = -2 ^ 31 ∧
    (rh_plan 4 (2 ^ 30) ((0 : Nat) : Int) (2 ^ 1)
      ⟨(ompi_rounddown 0 (2 ^ (1 + 1)) : Nat), (ompi_rounddown 0 (2 ^ (1 + 1)) : Nat),
        ((ompi_rounddown 0 (2 ^ (1 + 1)) + 2 ^ (1 + 1) : Nat) : Int)⟩).sdispl = -2 ^ 31 :=
  ⟨by decide, congrArg RHPlan.send_count rh_plan_wraps,
    congrArg RHPlan.recv_count rh_plan_wraps, congrArg RHPlan.sdispl rh_plan_wraps⟩

/-- C23 as amended. The send and receive regions of the halving variant tile the current
window when `p * m` fits in an `int`. For every `p ≥ 2`, block size `m ≥ 1` with
`p * m < 2 ^ 31`, virtual rank `v < p'` and step `mask = 2^i < p'`, the window being that of
the step (`lo = v` with the bits below `2 * mask` cleared, `hi = lo + 2 * mask`) and
`displ i = m * (i ≤ r_rem - 1 ? 2 * i : r_rem + i)`: the send and receive displacements are
`displ` of the send and receive indices, the counts are not negative, the regions
`[sdispl, sdispl + send_count)` and `[rdispl, rdispl + recv_count)` are adjacent (the
receive region first when `v < vpeer`, the send region first otherwise), disjoint, and
their union is `[displ lo, displ hi)`, which lies within `[0, p * m)`; and
`displ i = m * ompi_range_sum(0, i - 1, r_rem - 1)` for every `0 ≤ i ≤ p'`. -/
theorem halving_regions_tile (p m v i : Nat) (hp : 2 ≤ p) (hm : 1 ≤ m)
    (hfit : p * m < 2 ^ 31) (hv : v < rh_nprocs_pof2 p)
    (hi : 2 ^ i < rh_nprocs_pof2 p) (P : RHPlan)
    (hP : P = rh_plan p m (v : Int) (2 ^ i)
      ⟨(ompi_rounddown v (2 ^ (i + 1)) : Nat), (ompi_rounddown v (2 ^ (i + 1)) : Nat),
        ((ompi_rounddown v (2 ^ (i + 1)) + 2 ^ (i + 1) : Nat) : Int)⟩) :
    (P.sdispl = rh_displ p m P.send_index ∧ P.rdispl = rh_displ p m P.recv_index) ∧
    (0 ≤ P.send_count ∧ 0 ≤ P.recv_count) ∧
    (v < v ^^^ 2 ^ i →
      P.rdispl = rh_displ p m ((ompi_rounddown v (2 ^ (i + 1)) : Nat) : Int) ∧
      P.rdispl + P.recv_count = P.sdispl ∧
      P.sdispl + P.send_count =
        rh_displ p m ((ompi_rounddown v (2 ^ (i + 1)) + 2 ^ (i + 1) : Nat) : Int)) ∧
    (v ^^^ 2 ^ i < v →
      P.sdispl = rh_displ p m ((ompi_rounddown v (2 ^ (i + 1)) : Nat) : Int) ∧
      P.sdispl + P.send_count = P.rdispl ∧
      P.rdispl + P.recv_count =
        rh_displ p m ((ompi_rounddown v (2 ^ (i + 1)) + 2 ^ (i + 1) : Nat) : Int)) ∧
    (∀ e : Int,
      ¬ ((P.sdispl ≤ e ∧ e < P.sdispl + P.send_count) ∧
          (P.rdispl ≤ e ∧ e < P.rdispl + P.recv_count)) ∧
      (((P.sdispl ≤ e ∧ e < P.sdispl + P.send_count) ∨
          (P.rdispl ≤ e ∧ e < P.rdispl + P.recv_count)) ↔
        (rh_displ p m ((ompi_rounddown v (2 ^ (i + 1)) : Nat) : Int) ≤ e ∧
          e < rh_displ p m ((ompi_rounddown v (2 ^ (i + 1)) + 2 ^ (i + 1) : Nat) : Int)))) ∧
    (0 ≤ rh_displ p m ((ompi_rounddown v (2 ^ (i + 1)) : Nat) : Int) ∧
      rh_displ p m ((ompi_rounddown v (2 ^ (i + 1)) + 2 ^ (i + 1) : Nat) : Int) ≤
        ((p * m : Nat) : Int)) ∧
    (∀ j : Nat, j ≤ rh_nprocs_pof2 p → rh_displ p m (j : Int) =
      (m : Int) * ompi_range_sum 0 ((j : Int) - 1) (rh_nprocs_rem p - 1)) := by
  have hp1 : 1 ≤ p := by omega
  obtain ⟨hP2, -, -⟩ := rh_pof2_facts p hp1
  have hM : 0 < 2 ^ i := Nat.pow_pos (by norm_num)
  have h2M : 2 ^ (i + 1) = 2 ^ i + 2 ^ i := by rw [pow_succ]; omega
  -- the window lies within the virtual indices
  have hiL : i < Nat.log2 p := by
    rw [hP2] at hi
    exact (Nat.pow_lt_pow_iff_right (by norm_num : 1 < 2)).1 hi
  obtain ⟨e1, e2, e3, e4, e5, e6, e7, e8⟩ := rh_plan_ends p m i v hp1 hm hfit hv hiL P hP
  have hwin : ompi_rounddown v (2 ^ (i + 1)) + 2 ^ (i + 1) ≤ rh_nprocs_pof2 p := by
    rw [hP2] at hv ⊢
    exact window_le_pof2 v i _ hv hiL
  have hx := xor_lt_pof2 p v i hp1 hv hiL
  have hw1 : ompi_rounddown v (2 ^ i) ≤ rh_nprocs_pof2 p := by
    have := (subtree_facts i v).1
    omega
  have hw2 : ompi_rounddown (v ^^^ 2 ^ i) (2 ^ i) ≤ rh_nprocs_pof2 p := by
    have := (subtree_facts i (v ^^^ 2 ^ i)).1
    omega
  have dlo := rh_displ_W p m (ompi_rounddown v (2 ^ (i + 1))) hp1 hfit (by omega)
  have dhi := rh_displ_W p m (ompi_rounddown v (2 ^ (i + 1)) + 2 ^ (i + 1)) hp1 hfit hwin
  have hbound : m * rh_W p (ompi_rounddown v (2 ^ (i + 1)) + 2 ^ (i + 1)) ≤ p * m := by
    have := rh_W_mono p hwin
    rw [rh_W_pof2 p hp1] at this
    rw [Nat.mul_comm p m]
    exact Nat.mul_le_mul_left _ this
  -- the two cases of the bit of `v` at `mask`
  have hcase : (v < v ^^^ 2 ^ i ∧
        P.rdispl = rh_displ p m ((ompi_rounddown v (2 ^ (i + 1)) : Nat) : Int) ∧
        P.rdispl + P.recv_count = P.sdispl ∧
        P.sdispl + P.send_count =
          rh_displ p m ((ompi_rounddown v (2 ^ (i + 1)) + 2 ^ (i + 1) : Nat) : Int)) ∨
      (v ^^^ 2 ^ i < v ∧
        P.sdispl = rh_displ p m ((ompi_rounddown v (2 ^ (i + 1)) : Nat) : Int) ∧
        P.sdispl + P.send_count = P.rdispl ∧
        P.rdispl + P.recv_count =
          rh_displ p m ((ompi_rounddown v (2 ^ (i + 1)) + 2 ^ (i + 1) : Nat) : Int)) := by
    rcases (subtree_facts i v).2.2 with ⟨hx, hb, hl⟩ | ⟨hx, hb, hl⟩
    · left
      refine ⟨by omega, ?_, ?_, ?_⟩
      · rw [dlo, e4, hl]
      · rw [e6, e3, hb]
      · rw [e5, dhi, hb, hl, h2M, Nat.add_assoc]
    · right
      have hlo : ompi_rounddown v (2 ^ (i + 1)) = ompi_rounddown (v ^^^ 2 ^ i) (2 ^ i) := by
        omega
      refine ⟨by omega, ?_, ?_, ?_⟩
      · rw [dlo, e3, hlo]
      · rw [e5, e4, hb]
      · rw [e6, dhi, hlo, ← hb, h2M, Nat.add_assoc]
  refine ⟨⟨?_, ?_⟩, ⟨e7, e8⟩, ?_, ?_, ?_, ⟨?_, ?_⟩, fun j hj => rh_displ_range_sum p m j hp1 hm hfit hj⟩
  · rw [e1, e3, rh_displ_W p m _ hp1 hfit hw2]
  · rw [e2, e4, rh_displ_W p m _ hp1 hfit hw1]
  · intro h
    rcases hcase with ⟨-, c⟩ | ⟨h', -⟩
    · exact c
    · omega
  · intro h
    rcases hcase with ⟨h', -⟩ | ⟨-, c⟩
    · omega
    · exact c
  · intro e
    rcases hcase with ⟨-, c1, c2, c3⟩ | ⟨-, c1, c2, c3⟩ <;> constructor <;> omega
  · rw [dlo]
    exact Int.ofNat_nonneg _
  · rw [dhi]
    exact Int.ofNat_le.2 hbound

/-- Witness of the amended C23: `p = 7` (`p' = 4`, `r_rem = 3`), `m = 3`, virtual rank 1, `mask = 2`,
window `[0, 4)`: the receive region is `[0, 12)`, the send region `[12, 21)`, and
`21 = p * m`. -/
theorem halving_regions_tile_witness :
    (2 ≤ 7 ∧ 1 ≤ 3 ∧ 7 * 3 < 2 ^ 31 ∧ 1 < rh_nprocs_pof2 7 ∧ 2 ^ 1 < rh_nprocs_pof2 7 ∧
      1 < 1 ^^^ 2 ^ 1) ∧
    ((rh_plan 7 3 ((1 : Nat) : Int) (2 ^ 1)
        ⟨(ompi_rounddown 1 (2 ^ (1 + 1)) : Nat), (ompi_rounddown 1 (2 ^ (1 + 1)) : Nat),
          ((ompi_rounddown 1 (2 ^ (1 + 1)) + 2 ^ (1 + 1) : Nat) : Int)⟩).rdispl =
        rh_displ 7 3 ((ompi_rounddown 1 (2 ^ (1 + 1)) : Nat) : Int) ∧
      (rh_plan 7 3 ((1 : Nat) : Int) (2 ^ 1)
        ⟨(ompi_rounddown 1 (2 ^ (1 + 1)) : Nat), (ompi_rounddown 1 (2 ^ (1 + 1)) : Nat),
          ((ompi_rounddown 1 (2 ^ (1 + 1)) + 2 ^ (1 + 1) : Nat) : Int)⟩).rdispl +
        (rh_plan 7 3 ((1 : Nat) : Int) (2 ^ 1)
        ⟨(ompi_rounddown 1 (2 ^ (1 + 1)) : Nat), (ompi_rounddown 1 (2 ^ (1 + 1)) : Nat),
          ((ompi_rounddown 1 (2 ^ (1 + 1)) + 2 ^ (1 + 1) : Nat) : Int)⟩).recv_count =
        (rh_plan 7 3 ((1 : Nat) : Int) (2 ^ 1)
        ⟨(ompi_rounddown 1 (2 ^ (1 + 1)) : Nat), (ompi_rounddown 1 (2 ^ (1 + 1)) : Nat),
          ((ompi_rounddown 1 (2 ^ (1 + 1)) + 2 ^ (1 + 1) : Nat) : Int)⟩).sdispl ∧
      (rh_plan 7 3 ((1 : Nat) : Int) (2 ^ 1)
        ⟨(ompi_rounddown 1 (2 ^ (1 + 1)) : Nat), (ompi_rounddown 1 (2 ^ (1 + 1)) : Nat),
          ((ompi_rounddown 1 (2 ^ (1 + 1)) + 2 ^ (1 + 1) : Nat) : Int)⟩).sdispl +
        (rh_plan 7 3 ((1 : Nat) : Int) (2 ^ 1)
        ⟨(ompi_rounddown 1 (2 ^ (1 + 1)) : Nat), (ompi_rounddown 1 (2 ^ (1 + 1)) : Nat),
          ((ompi_rounddown 1 (2 ^ (1 + 1)) + 2 ^ (1 + 1) : Nat) : Int)⟩).send_count =
        rh_displ 7 3 ((ompi_rounddown 1 (2 ^ (1 + 1)) + 2 ^ (1 + 1) : Nat) : Int)) ∧
    (rh_plan 7 3 ((1 : Nat) : Int) (2 ^ 1)
        ⟨(ompi_rounddown 1 (2 ^ (1 + 1)) : Nat), (ompi_rounddown 1 (2 ^ (1 + 1)) : Nat),
          ((ompi_rounddown 1 (2 ^ (1 + 1)) + 2 ^ (1 + 1) : Nat) : Int)⟩).rdispl = 0 ∧
    (rh_plan 7 3 ((1 : Nat) : Int) (2 ^ 1)
        ⟨(ompi_rounddown 1 (2 ^ (1 + 1)) : Nat), (ompi_rounddown 1 (2 ^ (1 + 1)) : Nat),
          ((ompi_rounddown 1 (2 ^ (1 + 1)) + 2 ^ (1 + 1) : Nat) : Int)⟩).recv_count = 12 ∧
    (rh_plan 7 3 ((1 : Nat) : Int) (2 ^ 1)
        ⟨(ompi_rounddown 1 (2 ^ (1 + 1)) : Nat), (ompi_rounddown 1 (2 ^ (1 + 1)) : Nat),
          ((ompi_rounddown 1 (2 ^ (1 + 1)) + 2 ^ (1 + 1) : Nat) : Int)⟩).sdispl = 12 ∧
    (rh_plan 7 3 ((1 : Nat) : Int) (2 ^ 1)
        ⟨(ompi_rounddown 1 (2 ^ (1 + 1)) : Nat), (ompi_rounddown 1 (2 ^ (1 + 1)) : Nat),
          ((ompi_rounddown 1 (2 ^ (1 + 1)) + 2 ^ (1 + 1) : Nat) : Int)⟩).send_count = 9 :=
  ⟨⟨by decide, by decide, by norm_num,
      by simp [rh_nprocs_pof2, opal_next_poweroftwo, Nat.log2],
      by simp [rh_nprocs_pof2, opal_next_poweroftwo, Nat.log2], by decide⟩,
    (halving_regions_tile 7 3 1 1 (by decide) (by decide) (by norm_num)
      (by simp [rh_nprocs_pof2, opal_next_poweroftwo, Nat.log2])
      (by simp [rh_nprocs_pof2, opal_next_poweroftwo, Nat.log2]) _ rfl).2.2.1 (by decide),
    by simp [rh_plan, ompi_range_sum, rh_nprocs_rem, rh_nprocs_pof2, opal_next_poweroftwo,
      Nat.log2, ompi_rounddown]; decide,
    by simp [rh_plan, ompi_range_sum, rh_nprocs_rem, rh_nprocs_pof2, opal_next_poweroftwo,
      Nat.log2, ompi_rounddown]; decide,
    by simp [rh_plan, ompi_range_sum, rh_nprocs_rem, rh_nprocs_pof2, opal_next_poweroftwo,
      Nat.log2, ompi_rounddown]; decide,
    by simp [rh_plan, ompi_range_sum, rh_nprocs_rem, rh_nprocs_pof2, opal_next_poweroftwo,
      Nat.log2, ompi_rounddown]; decide⟩

theorem rd_fwd_iter_ok (env : Env α) (hst : ∀ n, env.status n = 0) (p m rank mask h : Nat)
    (s : Local α) (hok : s.ctl.err = 0) : (rd_fwd_iter env p m rank mask h s).ctl.err = 0 := by
  unfold rd_fwd_iter
  by_cases h1 : rd_send_cond p rank mask h = true
  · simp [h1, Ctl.checked, hst]
  · by_cases h2 : rd_recv_cond p rank mask h = true
    · simp [h1, h2, Ctl.checked, hst]
    · simp [h1, h2, hok]

theorem rd_fwd_loop_ok (env : Env α) (hst : ∀ n, env.status n = 0) (p m rank mask : Nat) :
    ∀ (fuel h : Nat) (s : Local α), s.ctl.err = 0 →
      (rd_fwd_loop env p m rank mask fuel h s).ctl.err = 0 := by
  intro fuel
  induction fuel with
  | zero => intro h s hok; exact hok
  | succ f ih =>
    intro h s hok
    unfold rd_fwd_loop
    by_cases hh : h > 0
    · rw [if_pos hh]
      unfold Local.andThen
      have := rd_fwd_iter_ok env hst p m rank mask h s hok
      rw [if_pos this]
      exact ih _ _ this
    · rw [if_neg hh]
      exact hok

/-- An iteration of the doubling loop in which every call succeeds ends without error. -/
theorem rd_iter_ok (env : Env α) (hst : ∀ n, env.status n = 0) (op : α → α → α) (c : Bool)
    (p m rank mask : Nat) (s : Local α) :
    (rd_iter env op c p m rank mask s).ctl.err = 0 := by
  unfold rd_iter
  have h1 : (rd_create env 0 (rd_sendtype p m rank mask) s).ctl.err = 0 := by
    simp [rd_create, Ctl.checked, hst]
  generalize rd_create env 0 (rd_sendtype p m rank mask) s = s1 at h1
  have h2 : (s1.andThen (rd_commit env 0)).ctl.err = 0 := by
    simp [Local.andThen, h1, rd_commit, Ctl.checked, hst]
  generalize s1.andThen (rd_commit env 0) = s2 at h2
  have h3 : (s2.andThen (rd_create env 1 (rd_recvtype p m rank mask))).ctl.err = 0 := by
    simp [Local.andThen, h2, rd_create, Ctl.checked, hst]
  generalize s2.andThen (rd_create env 1 (rd_recvtype p m rank mask)) = s3 at h3
  have h4 : (s3.andThen (rd_commit env 1)).ctl.err = 0 := by
    simp [Local.andThen, h3, rd_commit, Ctl.checked, hst]
  generalize s3.andThen (rd_commit env 1) = s4 at h4
  have h5 : (s4.andThen
      (fun s => rd_sendrecv env p m rank mask { s with is_block_received := false })).ctl.err
        = 0 := by
    simp only [Local.andThen, h4, if_true]
    unfold rd_sendrecv
    by_cases hc : rank ^^^ mask < p
    · simp [hc, Ctl.checked, hst]
    · simp [hc, h4]
  generalize s4.andThen
    (fun s => rd_sendrecv env p m rank mask { s with is_block_received := false }) = s5 at h5
  have h6 : (s5.andThen (rd_search env p m rank mask)).ctl.err = 0 := by
    simp only [Local.andThen, h5, if_true]
    unfold rd_search
    split_ifs
    · exact rd_fwd_loop_ok env hst p m rank mask _ _ s5 h5
    · exact h5
  generalize s5.andThen (rd_search env p m rank mask) = s6 at h6
  have h7 : (s6.andThen (rd_reduce_step env op c p m rank mask)).ctl.err = 0 := by
    simp only [Local.andThen, h6, if_true]
    unfold rd_reduce_step
    simp only
    split_ifs <;> simp_all [Ctl.checked, Ctl.unchecked]
  generalize s6.andThen (rd_reduce_step env op c p m rank mask) = s7 at h7
  have h8 : (s7.andThen (rd_destroy env 0)).ctl.err = 0 := by
    simp [Local.andThen, h7, rd_destroy, Ctl.checked, hst]
  generalize s7.andThen (rd_destroy env 0) = s8 at h8
  simp [Local.andThen, h8, rd_destroy, Ctl.checked, hst]

/-- Once an error is latched, the remaining iterations are skipped. -/
theorem foldl_andThen_err (g : Nat → Local α → Local α) :
    ∀ (l : List Nat) (s : Local α), s.ctl.err ≠ 0 →
      l.foldl (fun acc x => acc.andThen (g x)) s = s := by
  intro l
  induction l with
  | nil => intro s _; rfl
  | cons x l ih =>
    intro s hs
    have : s.andThen (g x) = s := by unfold Local.andThen; rw [if_neg hs]
    rw [List.foldl_cons, this]
    exact ih s hs

/-- With every step ending without error, no iteration of a sequence is skipped. -/
theorem foldl_andThen_ok (g : Nat → Local α → Local α)
    (hg : ∀ x s, s.ctl.err = 0 → (g x s).ctl.err = 0) :
    ∀ (l : List Nat) (s : Local α), s.ctl.err = 0 →
      (l.foldl (fun acc x => acc.andThen (g x)) s).ctl.err = 0 := by
  intro l
  induction l with
  | nil => intro s hs; exact hs
  | cons x l ih =>
    intro s hs
    rw [List.foldl_cons]
    apply ih
    unfold Local.andThen
    rw [if_pos hs]
    exact hg x s hs

theorem range_map_shift (j n : Nat) :
    (List.range (n + 1)).map (fun k => 2 ^ (j + k)) =
      2 ^ j :: (List.range n).map (fun k => 2 ^ (j + 1 + k)) := by
  rw [List.range_succ_eq_map, List.map_cons, List.map_map]
  congr 1
  apply List.map_congr_left
  intro k _
  show 2 ^ (j + (k + 1)) = 2 ^ (j + 1 + k)
  congr 1
  omega

/-- The doubling loop started at `mask = 2^j` runs its body for `2^j, 2^(j+1), ..` up to the
last power below `p`, an error ending it early. -/
theorem rd_rank_loop_fold (env : Env α) (op : α → α → α) (c : Bool) (p m rank : Nat) :
    ∀ (n fuel j : Nat) (s : Local α), s.ctl.err = 0 → n ≤ fuel →
      (∀ k, k < n → 2 ^ (j + k) < p) → p ≤ 2 ^ (j + n) →
      rd_rank_loop env op c p m rank fuel (2 ^ j) s =
        ((List.range n).map (fun k => 2 ^ (j + k))).foldl
          (fun acc mask => acc.andThen (rd_iter env op c p m rank mask)) s := by
  intro n
  induction n with
  | zero =>
    intro fuel j s _ _ _ hp
    have hnot : ¬ 2 ^ j < p := by
      rw [Nat.add_zero] at hp
      omega
    cases fuel with
    | zero => rfl
    | succ f =>
      unfold rd_rank_loop
      rw [if_neg hnot]
      rfl
  | succ n ih =>
    intro fuel j s hok hfuel hlt hp
    obtain ⟨f, rfl⟩ : ∃ f, fuel = f + 1 := ⟨fuel - 1, by omega⟩
    have h0 : 2 ^ j < p := by
      have := hlt 0 (by omega)
      rwa [Nat.add_zero] at this
    rw [range_map_shift, List.foldl_cons]
    have hs : s.andThen (rd_iter env op c p m rank (2 ^ j)) =
        rd_iter env op c p m rank (2 ^ j) s := by
      unfold Local.andThen
      rw [if_pos hok]
    rw [hs]
    unfold rd_rank_loop
    rw [if_pos h0, shl_two_pow]
    by_cases herr : (rd_iter env op c p m rank (2 ^ j) s).ctl.err = 0
    · have : (rd_iter env op c p m rank (2 ^ j) s).andThen
          (rd_rank_loop env op c p m rank f (2 ^ (j + 1))) =
          rd_rank_loop env op c p m rank f (2 ^ (j + 1))
            (rd_iter env op c p m rank (2 ^ j) s) := by
        unfold Local.andThen
        rw [if_pos herr]
      rw [this]
      apply ih f (j + 1) _ herr (by omega)
      · intro k hk
        have := hlt (k + 1) (by omega)
        have e : j + (k + 1) = j + 1 + k := by omega
        rwa [e] at this
      · have e : j + (n + 1) = j + 1 + n := by omega
        rwa [e] at hp
    · have : (rd_iter env op c p m rank (2 ^ j) s).andThen
          (rd_rank_loop env op c p m rank f (2 ^ (j + 1))) =
          rd_iter env op c p m rank (2 ^ j) s := by
        unfold Local.andThen
        rw [if_neg herr]
      rw [this, foldl_andThen_err _ _ _ herr]

/-- A loop that halves its mask down to 1, started at `2^t`, runs its body for
`2^t, 2^(t-1), .., 1`, an error ending it early. -/
theorem halving_loop_fold (g : Nat → Local α → Local α)
    (loop : Nat → Nat → Local α → Local α)
    (hzero : ∀ h s, loop 0 h s = s)
    (hsucc : ∀ f h s, loop (f + 1) h s =
      if h > 0 then (g h s).andThen (loop f (h >>> 1)) else s) :
    ∀ (t fuel : Nat) (s : Local α), s.ctl.err = 0 → t + 1 ≤ fuel →
      loop fuel (2 ^ t) s =
        ((List.range (t + 1)).reverse.map (fun k => 2 ^ k)).foldl
          (fun acc h => acc.andThen (g h)) s := by
  have hstop : ∀ f s, loop f 0 s = s := by
    intro f s
    cases f with
    | zero => exact hzero 0 s
    | succ f => rw [hsucc, if_neg (by omega)]
  intro t
  induction t with
  | zero =>
    intro fuel s hok hfuel
    obtain ⟨f, rfl⟩ : ∃ f, fuel = f + 1 := ⟨fuel - 1, by omega⟩
    have h0 : (2 : Nat) ^ 0 >>> 1 = 0 := by decide
    rw [hsucc, if_pos (by norm_num), h0]
    have e : ∀ x : Local α, x.andThen (loop f 0) = x := by
      intro x
      unfold Local.andThen
      split_ifs
      · exact hstop f x
      · rfl
    rw [e, List.range_succ, List.range_zero, List.nil_append, List.reverse_singleton,
      List.map_cons, List.map_nil, List.foldl_cons, List.foldl_nil]
    unfold Local.andThen
    rw [if_pos hok]
  | succ t ih =>
    intro fuel s hok hfuel
    obtain ⟨f, rfl⟩ : ∃ f, fuel = f + 1 := ⟨fuel - 1, by omega⟩
    have ht : 0 < 2 ^ (t + 1) := Nat.pow_pos (by norm_num)
    rw [hsucc, if_pos ht, shr_two_pow, List.range_succ, List.reverse_append,
      List.reverse_singleton, List.singleton_append, List.map_cons, List.foldl_cons]
    have hs : s.andThen (g (2 ^ (t + 1))) = g (2 ^ (t + 1)) s := by
      unfold Local.andThen
      rw [if_pos hok]
    rw [hs]
    by_cases herr : (g (2 ^ (t + 1)) s).ctl.err = 0
    · have : (g (2 ^ (t + 1)) s).andThen (loop f (2 ^ t)) = loop f (2 ^ t) (g (2 ^ (t + 1)) s) := by
        unfold Local.andThen
        rw [if_pos herr]
      rw [this]
      exact ih f _ herr (by omega)
    · have : (g (2 ^ (t + 1)) s).andThen (loop f (2 ^ t)) = g (2 ^ (t + 1)) s := by
        unfold Local.andThen
        rw [if_neg herr]
      rw [this, foldl_andThen_err _ _ _ herr]

/-- A halving loop entered with `mask = 2^T >> 1` runs its body for the powers of two below
`2^T`, in descending order. -/
theorem halving_loop_fold_from (g : Nat → Local α → Local α)
    (loop : Nat → Nat → Local α → Local α)
    (hzero : ∀ h s, loop 0 h s = s)
    (hsucc : ∀ f h s, loop (f + 1) h s =
      if h > 0 then (g h s).andThen (loop f (h >>> 1)) else s)
    (T fuel : Nat) (s : Local α) (hok : s.ctl.err = 0) (hfuel : T ≤ fuel) :
    loop fuel (2 ^ T >>> 1) s =
      ((List.range T).reverse.map (fun k => 2 ^ k)).foldl (fun acc h => acc.andThen (g h)) s := by
  cases T with
  | zero =>
    have h0 : (2 : Nat) ^ 0 >>> 1 = 0 := by decide
    rw [h0]
    cases fuel with
    | zero => exact hzero 0 s
    | succ f => rw [hsucc, if_neg (by omega)]; rfl
  | succ t =>
    rw [shr_two_pow]
    exact halving_loop_fold g loop hzero hsucc t fuel s hok hfuel

theorem clog_le_self (p : Nat) : Nat.clog 2 p ≤ p := by
  by_contra h
  have h1 : 2 ^ p < p := (Nat.pow_lt_iff_lt_clog (by norm_num : 1 < 2)).2 (by omega)
  have h2 := Nat.lt_two_pow p
  omega

/-- C24. Step counts and termination, for every group size `p ≥ 2`. Entered without error,
the doubling loop (with the fuel the function gives it) is its body run for
`mask = 1, 2, 4, .., 2^(ceil(log2 p) - 1)` in that order, `ceil(log2 p)` iterations; the
halving loop is its body run for `mask = p'/2, p'/4, .., 1`, `log2 p'` iterations, where
`p' = 2^(log2 p)` is the largest power of two `≤ p`; the forwarding search of the step
`mask = 2^t` is its body run for `h = mask/2, .., 1`, `log2 mask = t` iterations. An
iteration that ends with an error ends the loop (the `goto cleanup_and_return`); when every
call succeeds no iteration ends with an error, so none is skipped. -/
theorem loop_step_counts (p : Nat) (hp : 2 ≤ p) :
    (∀ (env : Env α) (op : α → α → α) (c : Bool) (m rank : Nat) (s : Local α),
      s.ctl.err = 0 →
      rd_rank_loop env op c p m rank p 1 s =
        ((List.range (Nat.clog 2 p)).map (fun k => 2 ^ k)).foldl
          (fun acc mask => acc.andThen (rd_iter env op c p m rank mask)) s ∧
      ((∀ n, env.status n = 0) → ∀ l : List Nat,
        (l.foldl (fun acc mask => acc.andThen (rd_iter env op c p m rank mask)) s).ctl.err
          = 0)) ∧
    (((List.range (Nat.clog 2 p)).map (fun k => 2 ^ k)).length = Nat.clog 2 p ∧
      2 ^ (Nat.clog 2 p - 1) < p ∧ p ≤ 2 ^ Nat.clog 2 p) ∧
    (∀ (env : Env α) (op : α → α → α) (m : Nat) (v : Int) (s : Local α), s.ctl.err = 0 →
      rh_rank_loop env op p m v (rh_nprocs_pof2 p) (rh_nprocs_pof2 p >>> 1) s =
        ((List.range (Nat.log2 p)).reverse.map (fun k => 2 ^ k)).foldl
          (fun acc mask => acc.andThen (rh_iter env op p m v mask)) s ∧
      ((∀ n, env.status n = 0) → ∀ l : List Nat,
        (l.foldl (fun acc mask => acc.andThen (rh_iter env op p m v mask)) s).ctl.err = 0)) ∧
    (((List.range (Nat.log2 p)).reverse.map (fun k => 2 ^ k)).length = Nat.log2 p ∧
      rh_nprocs_pof2 p = 2 ^ Nat.log2 p ∧ rh_nprocs_pof2 p ≤ p ∧ p < 2 * rh_nprocs_pof2 p) ∧
    (∀ (env : Env α) (m rank t : Nat) (s : Local α), s.ctl.err = 0 →
      rd_fwd_loop env p m rank (2 ^ t) (2 ^ t) (2 ^ t >>> 1) s =
        ((List.range t).reverse.map (fun k => 2 ^ k)).foldl
          (fun acc h => acc.andThen (rd_fwd_iter env p m rank (2 ^ t) h)) s ∧
      ((List.range t).reverse.map (fun k => 2 ^ k)).length = t ∧
      ((∀ n, env.status n = 0) → ∀ l : List Nat,
        (l.foldl (fun acc h => acc.andThen (rd_fwd_iter env p m rank (2 ^ t) h)) s).ctl.err
          = 0)) := by
  obtain ⟨hP, h1, h2⟩ := rh_pof2_facts p (by omega)
  refine ⟨?_, ⟨by simp, Nat.pow_pred_clog_lt_self (by norm_num) (by omega),
    Nat.le_pow_clog (by norm_num) p⟩, ?_, ⟨by simp, hP, h1, h2⟩, ?_⟩
  · intro env op c m rank s hok
    refine ⟨?_, fun hst l => foldl_andThen_ok _
      (fun x s _ => rd_iter_ok env hst op c p m rank x s) l s hok⟩
    have h := rd_rank_loop_fold env op c p m rank (Nat.clog 2 p) p 0 s hok (clog_le_self p)
      (fun k hk => by
        rw [Nat.zero_add]
        exact (Nat.pow_lt_iff_lt_clog (by norm_num : 1 < 2)).2 hk)
      (by rw [Nat.zero_add]; exact Nat.le_pow_clog (by norm_num) p)
    simp only [pow_zero, Nat.zero_add] at h
    exact h
  · intro env op m v s hok
    refine ⟨?_, fun hst l => foldl_andThen_ok _
      (fun x s hs => (rh_iter_ok env hst op p m v x s hs).1) l s hok⟩
    rw [hP]
    exact halving_loop_fold_from (fun h s => rh_iter env op p m v h s)
      (rh_rank_loop env op p m v) (fun _ _ => rfl) (fun _ _ _ => rfl) (Nat.log2 p) _ s hok
      (Nat.le_of_lt (Nat.lt_two_pow _))
  · intro env m rank t s hok
    refine ⟨?_, by simp, fun hst l => foldl_andThen_ok _
      (fun x s hs => rd_fwd_iter_ok env hst p m rank (2 ^ t) x s hs) l s hok⟩
    exact halving_loop_fold_from (fun h s => rd_fwd_iter env p m rank (2 ^ t) h s)
      (rd_fwd_loop env p m rank (2 ^ t)) (fun _ _ => rfl) (fun _ _ _ => rfl) t _ s hok
      (Nat.le_of_lt (Nat.lt_two_pow _))

/-- Witness of C24: `p = 7`: the doubling loop runs for the masks `1, 2, 4`
(`ceil(log2 7) = 3`), the halving loop for `2, 1` (`p' = 4`). -/
theorem loop_step_counts_witness :
    2 ≤ 7 ∧
    (List.range (Nat.clog 2 7)).map (fun k => 2 ^ k) = [1, 2, 4] ∧
    (List.range (Nat.log2 7)).reverse.map (fun k => 2 ^ k) = [2, 1] ∧
    (2 ^ (Nat.clog 2 7 - 1) < 7 ∧ 7 ≤ 2 ^ Nat.clog 2 7) ∧
    rh_nprocs_pof2 7 = 2 ^ Nat.log2 7 ∧
    rd_rank_loop env_ok (fun a b : Int => a + b) true 7 1 0 7 1
        (Local.init zero_buf zero_buf zero_buf) =
      ((List.range (Nat.clog 2 7)).map (fun k => 2 ^ k)).foldl
        (fun acc mask => acc.andThen (rd_iter env_ok (fun a b : Int => a + b) true 7 1 0 mask))
        (Local.init zero_buf zero_buf zero_buf) :=
  ⟨by decide, by simp [Nat.clog, List.range, List.range.loop],
    by simp [Nat.log2, List.range, List.range.loop],
    (@loop_step_counts Int 7 (by decide)).2.1.2,
    (@loop_step_counts Int 7 (by decide)).2.2.2.1.2.1,
    ((@loop_step_counts Int 7 (by decide)).1 env_ok (fun a b : Int => a + b) true 1 0
      (Local.init zero_buf zero_buf zero_buf) rfl).1⟩

end OmpiColl
